import Mathlib

/-!
Bitmap index: value decomposition, encodings and queries

A shallow embedding of the per-column bitmap index of `src/bitmap_index`
(`value_decomposer.cc`, `batch_bitmap_index_builder.{h,cc}`, `bitmap_index.hpp`,
`lmdb_values.h`, `lmdb_dictionary.hpp`, `bitmap_storage.cc`).

Conventions of the embedding:

* `uint32_t` / `uint64_t` quantities are natural numbers; where the source computes a
  difference, sum or narrowing conversion in an unsigned type the wrap-around is written
  out with `% 2 ^ 32` / `% 2 ^ 64`.  `int64_t` quantities are integers of
  `[-2 ^ 63, 2 ^ 63)`: every conversion to `int64_t` and every `int64_t` sum or difference
  is reduced by `to_int64`.  The `double` square root of `get_basis` is computed as IEEE 754
  prescribes.
* A compressed bitmap (`BitMap`, a wrapper of a Roaring bitmap) is the finite set of the
  document ids it holds.
* Futures are run to completion: `collect(...).then(f)` is `f` applied to the results.
* C++ exceptions and out-of-bounds vector accesses are values of `IndexError` carried by
  `Except`.
-/

namespace BitmapIndexModel

/-! ## ValueDecomposer (`value_decomposer.cc`) -/

/-- The class `ValueDecomposer`: the basis and the flag `is_base_2`. -/
structure ValueDecomposer where
  basis : List Nat
  is_base_2 : Bool
  deriving Repr

/-- Constructor `ValueDecomposer::ValueDecomposer(basis)`: `is_base_2` is cleared by the
first base different from 2. -/
def ValueDecomposer.new (basis : List Nat) : ValueDecomposer :=
  { basis := basis, is_base_2 := basis.all (fun base => decide (base = 2)) }

/-- The loop of `decompose` over the indices `basis.size() - 1` down to `0`, all bases
being 2: `result[i] = value & 1; value >>= 1`.  Returns the digits and what is left of
`value`. -/
def decompose_loop_base_2 : List Nat → Nat → List Nat × Nat
  | [], value => ([], value)
  | _ :: rest, value =>
    let r := decompose_loop_base_2 rest value
    ((r.2 &&& 1) :: r.1, r.2 >>> 1)

/-- The loop of `decompose` over the indices `basis.size() - 1` down to `0` in the general
case: `result[i] = value % basis[i]; value /= basis[i]`. -/
def decompose_loop : List Nat → Nat → List Nat × Nat
  | [], value => ([], value)
  | base :: rest, value =>
    let r := decompose_loop rest value
    ((r.2 % base) :: r.1, r.2 / base)

/-- The method `ValueDecomposer::decompose(result, value)`: the digit vector written to
`result`, and the returned flag (`false` when `value` was not reduced to 0). -/
def ValueDecomposer.decompose (vd : ValueDecomposer) (value : Nat) : List Nat × Bool :=
  let r := if vd.is_base_2 then decompose_loop_base_2 vd.basis value
           else decompose_loop vd.basis value
  (r.1, decide (r.2 = 0))

/-- The method `ValueDecomposer::get_base(index)`; `none` stands for the out-of-bounds
read of `basis[index]`. -/
def ValueDecomposer.get_base (vd : ValueDecomposer) (index : Nat) : Option Nat :=
  vd.basis[index]?

/-- Recomposition as the specification words it: the sum over `i` of
`digit_i * product of base_j for j > i` (most significant digit first). -/
def recompose : List Nat → List Nat → Nat
  | _ :: bases, digit :: digits => digit * bases.prod + recompose bases digits
  | _, _ => 0

/-! ## Basic types (`types.h`, `index_utils.h`, `bitmap_index_base.h`, `bitmap.h`) -/

/-- The type `DocumentID` (a `uint32_t`). -/
abbrev DocumentID := Nat

/-- The class `BitMap`: the set of the document ids held by the compressed bitmap. -/
abbrev BitMap := Finset Nat

/-- The enum `BitmapIndexEncodingType`. -/
inductive BitmapIndexEncodingType
  | EQUALITY
  | INTERVAL
  | RANGE
  deriving DecidableEq, Repr

/-- The enum `BitmapIndexType`. -/
inductive BitmapIndexType
  | BITMAP
  | BITSLICED
  deriving DecidableEq, Repr

/-- The enum `BitmapIndexBase::IntervalFlags`. -/
inductive IntervalFlags
  | OPEN
  | INCLUDE_LEFT
  | INCLUDE_RIGHT
  | CLOSED
  deriving DecidableEq, Repr

/-- What a call can end with instead of a result: the exception classes thrown by the
source (`throw "..."` and the `std::string` thrown by `throw_if_error` are `thrown_text`),
and the kinds of undefined behaviour the source can run into: an access past the end of a
vector, the use of a null cursor, and an `int` loop counter that is incremented past
`INT_MAX`. -/
inductive IndexError
  | invalid_argument
  | runtime_error
  | thrown_text
  | out_of_bounds
  | null_cursor
  | int_overflow
  deriving DecidableEq, Repr

/-- An integral attribute type `T`: `sizeof(T)` and its signedness.  A value of `T` is the
integer it denotes; an `int64_t` quantity is the integer it denotes, and every conversion
to `int64_t` and every `int64_t` operation goes through `to_int64`. -/
structure IntegralType where
  size : Nat
  is_signed : Bool
  deriving DecidableEq, Repr

/-- The conversion of an integer to `int64_t` (two's complement): the integer of
`[-2 ^ 63, 2 ^ 63)` that differs from it by a multiple of `2 ^ 64`.  It is also what the
64-bit hardware yields for an `int64_t` sum or difference that does not fit. -/
def to_int64 (v : Int) : Int :=
  (v + 2 ^ 63) % 2 ^ 64 - 2 ^ 63

/-- The conversion of an integer to `uint64_t`. -/
def to_uint64 (v : Int) : Int :=
  v % 2 ^ 64

/-- The comparison `a < b` between a value of `T` and an `int64_t`, after the usual
arithmetic conversions: both operands become `uint64_t` when `T` is an unsigned type of 64
bits, and `int64_t` otherwise. -/
def converted_lt (T : IntegralType) (a b : Int) : Bool :=
  if T.is_signed ∨ T.size < 8 then decide (to_int64 a < to_int64 b)
  else decide (to_uint64 a < to_uint64 b)

/-- The constant `std::numeric_limits<T>::max()`. -/
def numeric_limits_max (T : IntegralType) : Int :=
  if T.is_signed then 2 ^ (8 * T.size - 1) - 1 else 2 ^ (8 * T.size) - 1

/-- The constant `std::numeric_limits<T>::min()`. -/
def numeric_limits_min (T : IntegralType) : Int :=
  if T.is_signed then -(2 ^ (8 * T.size - 1)) else 0

/-- A value is representable in `T`. -/
def IntegralType.holds (T : IntegralType) (v : Int) : Prop :=
  numeric_limits_min T ≤ v ∧ v ≤ numeric_limits_max T

instance (T : IntegralType) (v : Int) : Decidable (T.holds v) := by
  unfold IntegralType.holds; infer_instance

/-- A range of values in which the `int64_t` arithmetic of the source cannot overflow and
the bases that `get_basis` derives from the span of the values stay below `INT_MAX`. -/
def exact_range (v : Int) : Prop := -(2 ^ 60) ≤ v ∧ v < 2 ^ 60

instance (v : Int) : Decidable (exact_range v) := by
  unfold exact_range; infer_instance

/-- A range of bounds of a query on values of `exact_range`: the `int64_t` differences of
`lookup_min_value` and `lookup_max_value` cannot overflow. -/
def query_range (v : Int) : Prop := -(2 ^ 62) ≤ v ∧ v < 2 ^ 62

instance (v : Int) : Decidable (query_range v) := by
  unfold query_range; infer_instance

/-! ## LMDB keys and the attribute-value dictionary (`lmdb_values.h`, `lmdb_dictionary.hpp`) -/

/-- The first `count` bytes of the little-endian representation of `n`. -/
def le_bytes : Nat → Nat → List Nat
  | 0, _ => []
  | count + 1, n => n % 256 :: le_bytes count (n / 256)

/-- The class `AttributeValue<T>`: the key of the attribute-value mapping. -/
structure AttributeValue where
  rg_id : Nat
  column_dotted_path : List Nat
  value : Int
  deriving DecidableEq, Repr

/-- The method `AttributeValue<T>::to_byte_array`: the bytes of `rg_id`, the bytes of the
path, a terminating 0, and the `sizeof(T)` bytes of the value in memory (two's complement,
little-endian). -/
def AttributeValue.to_byte_array (T : IntegralType) (k : AttributeValue) : List Nat :=
  le_bytes 4 k.rg_id ++ k.column_dotted_path ++ [0]
    ++ le_bytes T.size (Int.toNat (k.value % 2 ^ (8 * T.size)))

/-- The default key comparison of LMDB: bytewise, a proper initial segment being less. -/
def bytes_lt : List Nat → List Nat → Bool
  | [], [] => false
  | [], _ :: _ => true
  | _ :: _, [] => false
  | a :: as, b :: bs => if a < b then true else if b < a then false else bytes_lt as bs

/-- The class `LMDBDictionary<AttributeValue<T>, LMDBValue<uint32_t>>`: the entries in the
order in which an LMDB cursor visits them, that of their serialized keys.  An entry is
kept as the key and value its bytes deserialize to. -/
abbrev LMDBDictionary := List (AttributeValue × Nat)

/-- The call `mdb_put(..., MDB_NOOVERWRITE)` at its place in key order; `none` when the
key is present already (`MDB_KEYEXIST`). -/
def mdb_put (T : IntegralType) : LMDBDictionary → AttributeValue → Nat → Option LMDBDictionary
  | [], key, value => some [(key, value)]
  | e :: rest, key, value =>
    if bytes_lt (key.to_byte_array T) (e.1.to_byte_array T) then some ((key, value) :: e :: rest)
    else if bytes_lt (e.1.to_byte_array T) (key.to_byte_array T) then
      (mdb_put T rest key value).map (fun r => e :: r)
    else none

/-- The bulk `LMDBDictionary::insert(values, txn)`: one `mdb_put` per pair, an LMDB error
being thrown by `throw_if_error`. -/
def LMDBDictionary.insert (T : IntegralType) :
    LMDBDictionary → List (AttributeValue × Nat) → Except IndexError LMDBDictionary
  | dict, [] => .ok dict
  | dict, p :: rest =>
    match mdb_put T dict p.1 p.2 with
    | none => .error .thrown_text
    | some dict1 => LMDBDictionary.insert T dict1 rest

/-- The class `LMDBDictionary::const_iterator`: the position of the LMDB cursor (`none`
for a null `cursor_`) and the pair `value_`. -/
structure const_iterator where
  cursor : Option Nat
  value : AttributeValue × Nat
  deriving DecidableEq, Repr

/-- The iterator `LMDBDictionary::end(txn)`: a value-initialised `const_iterator`. -/
def LMDBDictionary.end_iterator : const_iterator :=
  { cursor := none, value := ({ rg_id := 0, column_dotted_path := [], value := 0 }, 0) }

/-- The operator `const_iterator::operator==`. -/
def const_iterator.eq (a b : const_iterator) : Bool :=
  if a.cursor.isSome && !b.cursor.isSome then false
  else if !a.cursor.isSome && b.cursor.isSome then false
  else decide (a.value.1 = b.value.1)

/-- The position of the first entry whose key bytes are not less than those of `key`
(`MDB_SET_RANGE`), counted from `pos`. -/
def mdb_set_range (T : IntegralType) : LMDBDictionary → AttributeValue → Nat → Option Nat
  | [], _, _ => none
  | e :: rest, key, pos =>
    if bytes_lt (e.1.to_byte_array T) (key.to_byte_array T) then
      mdb_set_range T rest key (pos + 1)
    else some pos

/-- The position and value of the entry whose key bytes are those of `key` (`MDB_SET`),
counted from `pos`. -/
def mdb_set (T : IntegralType) : LMDBDictionary → AttributeValue → Nat → Option (Nat × Nat)
  | [], _, _ => none
  | e :: rest, key, pos =>
    if e.1.to_byte_array T = key.to_byte_array T then some (pos, e.2)
    else mdb_set T rest key (pos + 1)

/-- The method `LMDBDictionary::find(key, txn)` (`MDB_SET`): the iterator carries the key
it was asked for. -/
def LMDBDictionary.find (T : IntegralType) (dict : LMDBDictionary) (key : AttributeValue) :
    const_iterator :=
  match mdb_set T dict key 0 with
  | none => LMDBDictionary.end_iterator
  | some r => { cursor := some r.1, value := (key, r.2) }

/-- The method `LMDBDictionary::lower_bound(key, txn)` (`MDB_SET_RANGE`). -/
def LMDBDictionary.lower_bound (T : IntegralType) (dict : LMDBDictionary)
    (key : AttributeValue) : const_iterator :=
  match mdb_set_range T dict key 0 with
  | none => LMDBDictionary.end_iterator
  | some pos =>
    match dict[pos]? with
    | none => LMDBDictionary.end_iterator
    | some e => { cursor := some pos, value := e }

/-- The method `LMDBDictionary::begin(txn)` (`MDB_FIRST`). -/
def LMDBDictionary.begin_iterator (dict : LMDBDictionary) : const_iterator :=
  match dict with
  | [] => LMDBDictionary.end_iterator
  | e :: _ => { cursor := some 0, value := e }

/-- The operator `const_iterator::operator++` (`MDB_NEXT`): at the last entry the cursor
is reset and `value_` stays; on a null cursor the call dereferences it. -/
def const_iterator.increment (dict : LMDBDictionary) (it : const_iterator) :
    Except IndexError const_iterator :=
  match it.cursor with
  | none => .error .null_cursor
  | some pos =>
    match dict[pos + 1]? with
    | none => .ok { cursor := none, value := it.value }
    | some e => .ok { cursor := some (pos + 1), value := e }

/-- The operator `const_iterator::operator--` (`MDB_PREV`): `MDB_NOTFOUND` at the first
entry is thrown by `throw_if_error_dict`. -/
def const_iterator.decrement (dict : LMDBDictionary) (it : const_iterator) :
    Except IndexError const_iterator :=
  match it.cursor with
  | none => .error .null_cursor
  | some 0 => .error .thrown_text
  | some (pos + 1) =>
    match dict[pos]? with
    | none => .error .thrown_text
    | some e => .ok { cursor := some pos, value := e }

/-- The loop `while (iter->first == key) ++iter` of `upper_bound`; `fuel` bounds the
number of iterations. -/
def upper_bound_loop (dict : LMDBDictionary) (key : AttributeValue) :
    Nat → const_iterator → Except IndexError const_iterator
  | 0, _ => .error .runtime_error
  | fuel + 1, it =>
    if it.value.1 = key then
      match it.increment dict with
      | .error e => .error e
      | .ok it1 => upper_bound_loop dict key fuel it1
    else .ok it

/-- The method `LMDBDictionary::upper_bound(key, txn)`.  Every iteration of its loop but
the last moves the cursor forward, so `dict.length + 2` iterations are never exceeded. -/
def LMDBDictionary.upper_bound (T : IntegralType) (dict : LMDBDictionary)
    (key : AttributeValue) : Except IndexError const_iterator :=
  upper_bound_loop dict key (dict.length + 2) (LMDBDictionary.lower_bound T dict key)

/-! ## Auxiliary data and bitmap storage (`lmdb_values.h`, `bitmap_storage.cc`) -/

/-- The class `BitmapIndexAuxData`. -/
structure BitmapIndexAuxData where
  vd : ValueDecomposer
  bitmap_counts : List Nat
  cardinality : Nat
  enc_type : BitmapIndexEncodingType
  use_value_mapping : Bool
  min_mapped_value : Int
  max_mapped_value : Int

/-- The class `BitMapStorage` of an index under construction or just built (every bitmap
in memory): `bitmaps[component][i]` for `i < bitmap_counts[component]`, and the all-values
bitmap. -/
structure BitMapStorage where
  bitmap_counts : List Nat
  bitmaps : Nat → Nat → BitMap
  all_values_bitmap : BitMap

/-- The index pair addresses an element of a vector of vectors with the given sizes. -/
def in_bounds (sizes : List Nat) (component i : Nat) : Prop :=
  component < sizes.length ∧ i < sizes.getD component 0

instance (sizes : List Nat) (component i : Nat) : Decidable (in_bounds sizes component i) := by
  unfold in_bounds; infer_instance

/-- The factory `BitMapStorage::create`: empty bitmaps. -/
def BitMapStorage.create (bitmap_counts : List Nat) : BitMapStorage :=
  { bitmap_counts := bitmap_counts, bitmaps := fun _ _ => ∅, all_values_bitmap := ∅ }

/-- The methods `BitMapStorage::load_bitmap` and `load_const_bitmap`. -/
def BitMapStorage.load_bitmap (st : BitMapStorage) (component i : Nat) :
    Except IndexError BitMap :=
  if in_bounds st.bitmap_counts component i then .ok (st.bitmaps component i)
  else .error .out_of_bounds

/-- The methods `BitMapStorage::load_all_values_bitmap` and its const variant. -/
def BitMapStorage.load_all_values_bitmap (st : BitMapStorage) : BitMap :=
  st.all_values_bitmap

/-- The method `BitMapStorage::add_to_all_values_bitmap(values)`. -/
def BitMapStorage.add_to_all_values_bitmap (st : BitMapStorage) (values : List DocumentID) :
    BitMapStorage :=
  { st with all_values_bitmap := st.all_values_bitmap ∪ values.toFinset }

/-- The method `BitMapStorage::add_to_bitmap(component, i, values)`. -/
def BitMapStorage.add_to_bitmap (st : BitMapStorage) (component i : Nat)
    (values : List DocumentID) : Except IndexError BitMapStorage :=
  if in_bounds st.bitmap_counts component i then
    .ok { st with bitmaps := fun c j =>
            if c = component ∧ j = i then st.bitmaps c j ∪ values.toFinset
            else st.bitmaps c j }
  else .error .out_of_bounds

/-! ## The builder (`batch_bitmap_index_builder.h`, `batch_bitmap_index_builder.cc`) -/

/-- The method `estimate_cardinality`: the size of the set of the values, as `uint32_t`. -/
def estimate_cardinality (values : List (DocumentID × Int)) : Nat :=
  (values.map Prod.snd).dedup.length % 2 ^ 32

/-- The loop `while (cardinality) { basis_out.push_back(2); cardinality /= 2; }`; a
`uint64_t` is exhausted by 64 iterations. -/
def get_basis_bitsliced_loop : Nat → Nat → List Nat
  | 0, _ => []
  | fuel + 1, cardinality =>
    if cardinality = 0 then [] else 2 :: get_basis_bitsliced_loop fuel (cardinality / 2)

/-- The bits of the integer square root of `n` from bit `k - 1` down, `r` holding the bits
found so far. -/
def sqrt_floor_loop : Nat → Nat → Nat → Nat
  | 0, _, r => r
  | k + 1, n, r =>
    if (r + 2 ^ k) * (r + 2 ^ k) ≤ n then sqrt_floor_loop k n (r + 2 ^ k)
    else sqrt_floor_loop k n r

/-- The number of low bits a `uint64_t` loses when it is converted to `double` (53
significant bits), `n` being below `2 ^ (53 + fuel)`. -/
def double_lost_bits : Nat → Nat → Nat
  | 0, _ => 0
  | fuel + 1, n => if n < 2 ^ 53 then 0 else 1 + double_lost_bits fuel (n / 2)

/-- The conversion `(double)n` of a `uint64_t`, as the integer the `double` holds: `n`
rounded to 53 significant bits, to the nearest and to even on a tie. -/
def double_of_uint64 (n : Nat) : Nat :=
  let e := double_lost_bits 11 n
  let q := n / 2 ^ e
  let r := n % 2 ^ e
  if 2 * r > 2 ^ e ∨ (2 * r = 2 ^ e ∧ q % 2 = 1) then (q + 1) * 2 ^ e else q * 2 ^ e

/-- The exponent `p` with `2 ^ p ≤ k < 2 ^ (p + 1)`, for `1 ≤ k < 2 ^ fuel`. -/
def binade : Nat → Nat → Nat
  | 0, _ => 0
  | fuel + 1, k => if k < 2 then 0 else 1 + binade fuel (k / 2)

/-- The integer part of `sqrt(x)` computed in `double` (IEEE 754, correctly rounded to the
nearest), `x` being the integer a `double` holds, at most `2 ^ 64`.  With `k` the integer
part of the exact root, the result is `k` when `x = k * k`; otherwise the exact root lies
strictly between `k` and `k + 1`, the doubles of `[k, k + 1)` are `2 ^ (p - 52)` apart for
`2 ^ p ≤ k < 2 ^ (p + 1)`, and the rounded root is `k + 1` exactly when the root exceeds
`k + 1 - 2 ^ (p - 53)`. -/
def sqrt_double_trunc (x : Nat) : Nat :=
  let k := sqrt_floor_loop 33 x 0
  if k * k = x then k
  else
    let t := 2 ^ (53 - binade 33 k)
    if x * (t * t) > ((k + 1) * t - 1) * ((k + 1) * t - 1) then k + 1 else k

/-- The value `sqrt(cardinality)` of `get_basis` before its cast to `uint32_t`, truncated:
the `uint64_t` is converted to `double`, and the root is computed in `double`. -/
def sqrt_floor (n : Nat) : Nat :=
  sqrt_double_trunc (double_of_uint64 n)

/-- The method `get_basis(cardinality, index_type, basis_out)`, `basis_out` being empty at
the call.  The cast `(uint32_t)` truncates the root, which is below `2 ^ 32` for every
cardinality below `2 ^ 64 - 2 ^ 10`; for the cardinalities from there on, which become
`2 ^ 64` as a `double`, the root is `2 ^ 32` and the cast is outside the range of
`uint32_t`: the low 32 bits are kept, as the conversion through a 64-bit integer on x86-64
does. -/
def get_basis (cardinality : Nat) (index_type : BitmapIndexType) : List Nat :=
  if cardinality < 4 then [cardinality % 2 ^ 32]
  else
    match index_type with
    | .BITMAP =>
      let b0 := sqrt_floor cardinality % 2 ^ 32
      let b1 := (cardinality / b0) % 2 ^ 32
      [b0, if cardinality % b0 ≠ 0 then (b1 + 1) % 2 ^ 32 else b1]
    | .BITSLICED => get_basis_bitsliced_loop 64 cardinality

/-- The method `calculate_bitmap_counts`. -/
def calculate_bitmap_counts (basis : List Nat) (enc_type : BitmapIndexEncodingType) :
    List Nat :=
  basis.map (fun base =>
    match enc_type with
    | .EQUALITY => base
    | .INTERVAL => ((base + 1) % 2 ^ 32) / 2
    | .RANGE => (base + 2 ^ 32 - 1) % 2 ^ 32)

/-- The loop of `configure` over the values, on the pair
`(min_mapped_value, max_mapped_value)`: the comparisons are made after the usual
arithmetic conversions, the assignments convert the value to `int64_t`. -/
def configure_min_max (T : IntegralType) (values : List (DocumentID × Int))
    (init : Int × Int) : Int × Int :=
  values.foldl
    (fun s value => (if converted_lt T value.2 s.1 then to_int64 value.2 else s.1,
                     if converted_lt T s.2 value.2 then to_int64 value.2 else s.2))
    init

/-- The method `configure` for an integral `T`: the auxiliary data (its decomposer and
bitmap counts are set by `build_index`) and the basis. -/
def configure (T : IntegralType) (values : List (DocumentID × Int))
    (enc_type : BitmapIndexEncodingType) (index_type : BitmapIndexType) : BitmapIndexAuxData :=
  let cardinality := estimate_cardinality values
  if cardinality > values.length / 10 then
    let mm := configure_min_max T values
      (to_int64 (numeric_limits_max T), to_int64 (numeric_limits_min T))
    let basis := get_basis (Int.toNat (to_uint64 (mm.2 - mm.1 + 1))) index_type
    { vd := ValueDecomposer.new basis
      bitmap_counts := calculate_bitmap_counts basis enc_type
      cardinality := cardinality
      enc_type := enc_type
      use_value_mapping := false
      min_mapped_value := mm.1
      max_mapped_value := mm.2 }
  else
    let basis := get_basis cardinality index_type
    { vd := ValueDecomposer.new basis
      bitmap_counts := calculate_bitmap_counts basis enc_type
      cardinality := cardinality
      enc_type := enc_type
      use_value_mapping := true
      min_mapped_value := 0
      max_mapped_value := cardinality }

/-! ## The index (`bitmap_index.h`, `bitmap_index.hpp`): construction -/

/-- The class `BitmapIndex<T>`: row group id and column path (from `rg_info_` and
`column_ref_`), the storage, the attribute-value dictionary and the auxiliary data. -/
structure BitmapIndex where
  T : IntegralType
  rg_id : Nat
  column_dotted_path : List Nat
  storage : BitMapStorage
  attr_values_lmdb : LMDBDictionary
  aux_data : BitmapIndexAuxData

/-- The algorithm `std::unique` followed by `erase`: one element of every run of equal
neighbours is kept. -/
def unique : List Int → List Int
  | [] => []
  | [a] => [a]
  | a :: b :: rest => if a = b then unique (b :: rest) else a :: unique (b :: rest)

/-- The sorted vector `attr_values` of `insert_values_mapping_into_lmdb`: `std::sort`,
then `std::unique`. -/
def sorted_attr_values (values : List (DocumentID × Int)) : List Int :=
  unique ((values.map Prod.snd).insertionSort (fun a b => a ≤ b))

/-- The pairs inserted into LMDB by `insert_values_mapping_into_lmdb`: the key of
`attr_values[i]` with the value `i`. -/
def lmdb_values_mapping (rg_id : Nat) (column_dotted_path : List Nat) :
    List Int → Nat → List (AttributeValue × Nat)
  | [], _ => []
  | v :: rest, i =>
    ({ rg_id := rg_id, column_dotted_path := column_dotted_path, value := v }, i % 2 ^ 32)
      :: lmdb_values_mapping rg_id column_dotted_path rest (i + 1)

/-- The in-memory map `values_mapping` filled by `insert_values_mapping_into_lmdb`, as its
`find`: the index of the value in `attr_values`. -/
def values_mapping_find : List Int → Int → Nat → Option Nat
  | [], _, _ => none
  | v :: rest, value, i =>
    if v = value then some (i % 2 ^ 32) else values_mapping_find rest value (i + 1)

/-- The function `get_lmdb_attr_value_with_mapping`. -/
def get_lmdb_attr_value_with_mapping (T : IntegralType) (rg_id : Nat)
    (column_dotted_path : List Nat) (attr_values_lmdb : LMDBDictionary) (value : Int) :
    Except IndexError Int :=
  let iter := attr_values_lmdb.find T
    { rg_id := rg_id, column_dotted_path := column_dotted_path, value := value }
  if iter.eq LMDBDictionary.end_iterator then .error .invalid_argument
  else .ok (iter.value.2 : Int)

/-- The function `get_lmdb_attr_value` for an integral `T`: without value mapping,
`(int64_t)value - aux_data->min_mapped_value`. -/
def get_lmdb_attr_value (T : IntegralType) (rg_id : Nat) (column_dotted_path : List Nat)
    (aux_data : BitmapIndexAuxData) (attr_values_lmdb : LMDBDictionary) (value : Int) :
    Except IndexError Int :=
  if !aux_data.use_value_mapping then
    .ok (to_int64 (to_int64 value - aux_data.min_mapped_value))
  else get_lmdb_attr_value_with_mapping T rg_id column_dotted_path attr_values_lmdb value

/-- The loop of `insert(values)` that maps every value: the mapped values as `uint64_t`. -/
def map_values (T : IntegralType) (rg_id : Nat) (column_dotted_path : List Nat)
    (aux_data : BitmapIndexAuxData) (attr_values_lmdb : LMDBDictionary)
    (attr_values : List Int) :
    List (DocumentID × Int) → Except IndexError (List (DocumentID × Nat))
  | [] => .ok []
  | value :: rest =>
    if !aux_data.use_value_mapping then
      match get_lmdb_attr_value T rg_id column_dotted_path aux_data attr_values_lmdb value.2 with
      | .error e => .error e
      | .ok mapped =>
        match map_values T rg_id column_dotted_path aux_data attr_values_lmdb attr_values rest with
        | .error e => .error e
        | .ok rest1 => .ok ((value.1, Int.toNat (mapped % 2 ^ 64)) :: rest1)
    else
      match values_mapping_find attr_values value.2 0 with
      | none => .error .thrown_text
      | some mapped =>
        match map_values T rg_id column_dotted_path aux_data attr_values_lmdb attr_values rest with
        | .error e => .error e
        | .ok rest1 => .ok ((value.1, mapped) :: rest1)

/-- The local `storage_cache` of `insert_mapped_values`: `storage_cache[i][j]` for
`j < bitmap_counts[i]`. -/
abbrev StorageCache := Nat → Nat → List DocumentID

/-- The statement `storage_cache[i][j].emplace_back(row_id)`. -/
def cache_emplace_back (bitmap_counts : List Nat) (cache : StorageCache) (i j : Nat)
    (row_id : DocumentID) : Except IndexError StorageCache :=
  if in_bounds bitmap_counts i j then
    .ok (fun c k => if c = i ∧ k = j then cache c k ++ [row_id] else cache c k)
  else .error .out_of_bounds

/-- The bitmaps `j` of component `i` that receive a row whose digit is `digit`, in the
order of the inner loop of `insert_mapped_values`. -/
def bitmaps_of_digit (enc_type : BitmapIndexEncodingType) (base count digit : Nat) :
    List Nat :=
  match enc_type with
  | .EQUALITY => [digit]
  | .INTERVAL =>
    let m := (base / 2 + 2 ^ 32 - 1) % 2 ^ 32
    let start_of_range := if digit > m then digit - m else 0
    let end_of_range := min digit ((count + 2 ^ 32 - 1) % 2 ^ 32)
    List.range' start_of_range (end_of_range + 1 - start_of_range)
  | .RANGE => List.range' digit (base - 1 - digit)

/-- The inner loop over `j` of `insert_mapped_values` for component `i`. -/
def insert_row_bitmaps (bitmap_counts : List Nat) (i : Nat) (row_id : DocumentID) :
    List Nat → StorageCache → Except IndexError StorageCache
  | [], cache => .ok cache
  | j :: rest, cache =>
    match cache_emplace_back bitmap_counts cache i j row_id with
    | .error e => .error e
    | .ok cache1 => insert_row_bitmaps bitmap_counts i row_id rest cache1

/-- The loop over the components `i` of `insert_mapped_values` for one row, from
component `i` on: `bases` and `decomposed` are what is left of the basis and the digits. -/
def insert_row_components (aux_data : BitmapIndexAuxData) (row_id : DocumentID) :
    Nat → List Nat → List Nat → StorageCache → Except IndexError StorageCache
  | _, [], _, cache => .ok cache
  | _, _ :: _, [], _ => .error .out_of_bounds
  | i, base :: bases, digit :: decomposed, cache =>
    match insert_row_bitmaps aux_data.bitmap_counts i row_id
        (bitmaps_of_digit aux_data.enc_type base (aux_data.bitmap_counts.getD i 0) digit)
        cache with
    | .error e => .error e
    | .ok cache1 => insert_row_components aux_data row_id (i + 1) bases decomposed cache1

/-- The loop over `k` of `insert_mapped_values`: on the pair of `storage_cache` and
`all_values_bitmap_cache`. -/
def insert_rows (aux_data : BitmapIndexAuxData) :
    List (DocumentID × Nat) → StorageCache × List DocumentID →
      Except IndexError (StorageCache × List DocumentID)
  | [], s => .ok s
  | mapped_value :: rest, s =>
    match insert_row_components aux_data mapped_value.1 0 aux_data.vd.basis
        (aux_data.vd.decompose mapped_value.2).1 s.1 with
    | .error e => .error e
    | .ok cache1 => insert_rows aux_data rest (cache1, s.2 ++ [mapped_value.1])

/-- The inner loop `for j < bitmap_counts[i]` that moves `storage_cache[i][j]` into the
storage, from `j` on, `count` bitmaps being left. -/
def move_component (cache : StorageCache) (i : Nat) :
    Nat → Nat → BitMapStorage → Except IndexError BitMapStorage
  | 0, _, storage => .ok storage
  | count + 1, j, storage =>
    match storage.add_to_bitmap i j (cache i j) with
    | .error e => .error e
    | .ok storage1 => move_component cache i count (j + 1) storage1

/-- The outer loop `for i < bitmap_counts.size()` that moves `storage_cache` into the
storage, from component `i` on. -/
def move_cache (cache : StorageCache) :
    List Nat → Nat → BitMapStorage → Except IndexError BitMapStorage
  | [], _, storage => .ok storage
  | count :: counts, i, storage =>
    match move_component cache i count 0 storage with
    | .error e => .error e
    | .ok storage1 => move_cache cache counts (i + 1) storage1

/-- The method `insert_mapped_values`; the loop over `k` runs up to the `uint32_t`
`mapped_values_size`. -/
def insert_mapped_values (aux_data : BitmapIndexAuxData) (storage : BitMapStorage)
    (mapped_values : List (DocumentID × Nat)) : Except IndexError BitMapStorage :=
  match insert_rows aux_data (mapped_values.take (mapped_values.length % 2 ^ 32))
      (fun _ _ => [], []) with
  | .error e => .error e
  | .ok s =>
    move_cache s.1 aux_data.bitmap_counts 0 (storage.add_to_all_values_bitmap s.2)

/-- The value `INT_MAX`. -/
def INT_MAX : Nat := 2147483647

/-- The `int` counters of `insert_mapped_values` can reach their bounds: the counter `k` of
the rows runs up to the `uint32_t` `mapped_values_size` and the counter `j` of the moving
loop up to `bitmap_counts[i]`, so neither bound exceeds `INT_MAX`. -/
def int_counters_fit (aux_data : BitmapIndexAuxData) (mapped_values : List (DocumentID × Nat)) :
    Bool :=
  decide (mapped_values.length % 2 ^ 32 ≤ INT_MAX)
    && aux_data.bitmap_counts.all (fun count => decide (count ≤ INT_MAX))

/-- The method `insert(values)` together with `insert_values_mapping_into_lmdb`: the new
dictionary and the new storage.  The call of `insert_mapped_values` is an error when one of
its `int` counters would be incremented past `INT_MAX`. -/
def insert (T : IntegralType) (rg_id : Nat) (column_dotted_path : List Nat)
    (aux_data : BitmapIndexAuxData) (storage : BitMapStorage)
    (attr_values_lmdb : LMDBDictionary) (values : List (DocumentID × Int)) :
    Except IndexError (LMDBDictionary × BitMapStorage) :=
  let attr_values := sorted_attr_values values
  let lmdb1 :=
    if aux_data.use_value_mapping then
      attr_values_lmdb.insert T (lmdb_values_mapping rg_id column_dotted_path attr_values 0)
    else .ok attr_values_lmdb
  match lmdb1 with
  | .error e => .error e
  | .ok dict =>
    match map_values T rg_id column_dotted_path aux_data dict attr_values values with
    | .error e => .error e
    | .ok mapped_values =>
      if !int_counters_fit aux_data mapped_values then .error .int_overflow
      else
        match insert_mapped_values aux_data storage mapped_values with
        | .error e => .error e
        | .ok storage1 => .ok (dict, storage1)

/-! ## The dictionaries keyed by a storage (`lmdb_values.cc`, `lmdb_dictionary.hpp`) -/

/-- The class `BitmapStorageLMDBID`: the key of a storage, its row group and column. -/
structure BitmapStorageLMDBID where
  rg_id : Nat
  column_dotted_path : List Nat
  deriving DecidableEq, Repr

/-- The method `BitmapStorageLMDBID::to_byte_array`: the bytes of `rg_id`, the bytes of the
path and a terminating 0. -/
def BitmapStorageLMDBID.to_byte_array (k : BitmapStorageLMDBID) : List Nat :=
  le_bytes 4 k.rg_id ++ k.column_dotted_path ++ [0]

/-- The class `LMDBDictionary<BitmapStorageLMDBID, Value>`: the entries in the order in
which an LMDB cursor visits them, that of their serialized keys.  An entry is kept as the
key and value its bytes deserialize to. -/
abbrev StorageDictionary (V : Type) := List (BitmapStorageLMDBID × V)

/-- The call `mdb_put(..., MDB_NOOVERWRITE)` on a dictionary keyed by a storage, at its
place in key order; `none` when the key is present already. -/
def storage_mdb_put {V : Type} :
    StorageDictionary V → BitmapStorageLMDBID → V → Option (StorageDictionary V)
  | [], key, value => some [(key, value)]
  | e :: rest, key, value =>
    if bytes_lt key.to_byte_array e.1.to_byte_array then some ((key, value) :: e :: rest)
    else if bytes_lt e.1.to_byte_array key.to_byte_array then
      (storage_mdb_put rest key value).map (fun r => e :: r)
    else none

/-- The method `LMDBDictionary::insert(key, value, txn)` on a dictionary keyed by a
storage. -/
def StorageDictionary.insert_one {V : Type} (dict : StorageDictionary V)
    (key : BitmapStorageLMDBID) (value : V) : Except IndexError (StorageDictionary V) :=
  match storage_mdb_put dict key value with
  | none => .error .thrown_text
  | some dict1 => .ok dict1

/-- The bulk `LMDBDictionary::insert(values, txn)` on a dictionary keyed by a storage. -/
def StorageDictionary.insert {V : Type} :
    StorageDictionary V → List (BitmapStorageLMDBID × V) →
      Except IndexError (StorageDictionary V)
  | dict, [] => .ok dict
  | dict, p :: rest =>
    match storage_mdb_put dict p.1 p.2 with
    | none => .error .thrown_text
    | some dict1 => StorageDictionary.insert dict1 rest

/-- The method `BatchBitmapIndexBuilder::build_index` (with `BitmapIndex<T>::create`), on
a builder whose attribute-value dictionary holds `attr_values_lmdb` and whose dictionary
of the auxiliary data holds `aux_data_lmdb`: after `insert(values)` the auxiliary data is
inserted under the key of the row group and column, which fails when the key is there. -/
def build_index (T : IntegralType) (rg_id : Nat) (column_dotted_path : List Nat)
    (attr_values_lmdb : LMDBDictionary) (aux_data_lmdb : StorageDictionary BitmapIndexAuxData)
    (values : List (DocumentID × Int))
    (enc_type : BitmapIndexEncodingType) (index_type : BitmapIndexType) :
    Except IndexError BitmapIndex :=
  let aux_data := configure T values enc_type index_type
  let storage := BitMapStorage.create aux_data.bitmap_counts
  match insert T rg_id column_dotted_path aux_data storage attr_values_lmdb values with
  | .error e => .error e
  | .ok r =>
    match aux_data_lmdb.insert_one
        { rg_id := rg_id, column_dotted_path := column_dotted_path } aux_data with
    | .error e => .error e
    | .ok _ =>
      .ok { T := T, rg_id := rg_id, column_dotted_path := column_dotted_path,
            storage := r.2, attr_values_lmdb := r.1, aux_data := aux_data }

/-! ## The index (`bitmap_index.hpp`): queries -/

/-- The method `get_equality_bitmap_range_encoding`. -/
def get_equality_bitmap_range_encoding (index : BitmapIndex) (i attribute_i : Nat) :
    Except IndexError BitMap :=
  match index.aux_data.vd.get_base i with
  | none => .error .out_of_bounds
  | some base =>
    if base = 1 ∧ attribute_i = 0 then
      .ok index.storage.load_all_values_bitmap
    else if attribute_i = (base + 2 ^ 32 - 1) % 2 ^ 32 then
      match index.storage.load_bitmap i ((base + 2 ^ 32 - 2) % 2 ^ 32) with
      | .error e => .error e
      | .ok bmp0 => .ok (index.storage.load_all_values_bitmap \ bmp0)
    else if attribute_i = 0 then
      index.storage.load_bitmap i 0
    else
      match index.storage.load_bitmap i ((attribute_i + 2 ^ 32 - 1) % 2 ^ 32) with
      | .error e => .error e
      | .ok bmp0 =>
        match index.storage.load_bitmap i attribute_i with
        | .error e => .error e
        | .ok bmp1 => .ok (bmp1 \ bmp0)

/-- The method `get_equality_bitmap_interval_encoding`. -/
def get_equality_bitmap_interval_encoding (index : BitmapIndex) (i attribute_i : Nat) :
    Except IndexError BitMap :=
  match index.aux_data.vd.get_base i with
  | none => .error .out_of_bounds
  | some base =>
    let m := (base / 2 + 2 ^ 32 - 1) % 2 ^ 32
    if base = 1 then
      if attribute_i = 0 then .ok index.storage.load_all_values_bitmap else .ok ∅
    else if attribute_i = 0 ∧ m = 0 then
      index.storage.load_bitmap i 0
    else if base = 2 ∧ attribute_i = 1 then
      match index.storage.load_bitmap i 0 with
      | .error e => .error e
      | .ok bmp0 => .ok (index.storage.load_all_values_bitmap \ bmp0)
    else if base = 3 ∧ attribute_i = 1 then
      index.storage.load_bitmap i 1
    else if attribute_i < m then
      match index.storage.load_bitmap i attribute_i with
      | .error e => .error e
      | .ok bmp0 =>
        match index.storage.load_bitmap i ((attribute_i + 1) % 2 ^ 32) with
        | .error e => .error e
        | .ok bmp1 => .ok (bmp0 \ bmp1)
    else if attribute_i = m ∧ m > 0 then
      match index.storage.load_bitmap i attribute_i with
      | .error e => .error e
      | .ok bmp0 =>
        match index.storage.load_bitmap i 0 with
        | .error e => .error e
        | .ok bmp1 => .ok (bmp0 ∩ bmp1)
    else if attribute_i > m ∧ attribute_i < (base + 2 ^ 32 - 1) % 2 ^ 32 ∧ m > 0 then
      match index.storage.load_bitmap i ((attribute_i + 2 ^ 32 - m) % 2 ^ 32) with
      | .error e => .error e
      | .ok bmp0 =>
        match index.storage.load_bitmap i ((attribute_i + 2 ^ 32 - m + 2 ^ 32 - 1) % 2 ^ 32) with
        | .error e => .error e
        | .ok bmp1 => .ok (bmp0 \ bmp1)
    else if attribute_i = (base + 2 ^ 32 - 1) % 2 ^ 32 then
      match index.storage.load_bitmap i ((base / 2 + base % 2 + 2 ^ 32 - 1) % 2 ^ 32) with
      | .error e => .error e
      | .ok bmp0 =>
        match index.storage.load_bitmap i 0 with
        | .error e => .error e
        | .ok bmp1 => .ok (index.storage.load_all_values_bitmap \ (bmp0 ∪ bmp1))
    else .error .thrown_text

/-- The method `get_equality_bitmap`. -/
def get_equality_bitmap (index : BitmapIndex) (i attribute_i : Nat) : Except IndexError BitMap :=
  match index.aux_data.enc_type with
  | .EQUALITY => index.storage.load_bitmap i attribute_i
  | .INTERVAL => get_equality_bitmap_interval_encoding index i attribute_i
  | .RANGE => get_equality_bitmap_range_encoding index i attribute_i

/-- The method `get_lesser_bitmap`: the bitmap of the rows whose digit `i` is strictly
less than `attribute_i`. -/
def get_lesser_bitmap (index : BitmapIndex) (i attribute_i : Nat) : Except IndexError BitMap :=
  if attribute_i = 0 then .ok ∅
  else
    let attribute_i := attribute_i - 1
    match index.aux_data.enc_type with
    | .RANGE => index.storage.load_bitmap i attribute_i
    | .INTERVAL =>
      match index.aux_data.vd.get_base i with
      | none => .error .out_of_bounds
      | some base =>
        let m := (base / 2 + 2 ^ 32 - 1) % 2 ^ 32
        if attribute_i = 0 then get_equality_bitmap index i attribute_i
        else if attribute_i < m then
          match index.storage.load_bitmap i 0 with
          | .error e => .error e
          | .ok bmp0 =>
            match index.storage.load_bitmap i ((attribute_i + 1) % 2 ^ 32) with
            | .error e => .error e
            | .ok bmp1 => .ok (bmp0 \ bmp1)
        else if attribute_i = m then index.storage.load_bitmap i 0
        else if attribute_i > m ∧ attribute_i < (base + 2 ^ 32 - 1) % 2 ^ 32 then
          match index.storage.load_bitmap i 0 with
          | .error e => .error e
          | .ok bmp0 =>
            match index.storage.load_bitmap i ((attribute_i + 2 ^ 32 - m) % 2 ^ 32) with
            | .error e => .error e
            | .ok bmp1 => .ok (bmp0 ∪ bmp1)
        else if attribute_i ≥ (base + 2 ^ 32 - 1) % 2 ^ 32 then
          .ok index.storage.load_all_values_bitmap
        else .error .thrown_text
    | .EQUALITY => .error .thrown_text

/-- The loop of `lookup_mapped_value` that collects `get_equality_bitmap(i, decomposed[i])`
from component `i` on. -/
def equality_bitmaps (index : BitmapIndex) : Nat → List Nat → Except IndexError (List BitMap)
  | _, [] => .ok []
  | i, digit :: decomposed =>
    match get_equality_bitmap index i digit with
    | .error e => .error e
    | .ok bmp =>
      match equality_bitmaps index (i + 1) decomposed with
      | .error e => .error e
      | .ok rest => .ok (bmp :: rest)

/-- The method `lookup_mapped_value`; the difference of the two `int64_t` bounds is an
`int64_t`. -/
def lookup_mapped_value (index : BitmapIndex) (value : Int) : Except IndexError BitMap :=
  if value < 0 ∨ value
      > to_int64 (index.aux_data.max_mapped_value - index.aux_data.min_mapped_value) then
    .ok ∅
  else
    match equality_bitmaps index 0 (index.aux_data.vd.decompose value.toNat).1 with
    | .error e => .error e
    | .ok [] => .error .out_of_bounds
    | .ok (bmp :: rest) => .ok (rest.foldl (fun result b => result ∩ b) bmp)

/-- The method `lookup`: an `std::invalid_argument` ends in an empty bitmap. -/
def lookup (index : BitmapIndex) (value : Int) : Except IndexError BitMap :=
  match get_lmdb_attr_value index.T index.rg_id index.column_dotted_path index.aux_data
      index.attr_values_lmdb value with
  | .error .invalid_argument => .ok ∅
  | .error e => .error e
  | .ok mapped_value =>
    match lookup_mapped_value index mapped_value with
    | .error .invalid_argument => .ok ∅
    | r => r

/-- The method `get_not_null`. -/
def get_not_null (index : BitmapIndex) : BitMap :=
  index.storage.load_all_values_bitmap

/-- The loop of `less_or_equal_query` that collects the pairs
`get_lesser_bitmap(i, decomposed[i])`, `get_equality_bitmap(i, decomposed[i])`. -/
def lesser_equality_bitmaps (index : BitmapIndex) :
    Nat → List Nat → Except IndexError (List (BitMap × BitMap))
  | _, [] => .ok []
  | i, digit :: decomposed =>
    match get_lesser_bitmap index i digit with
    | .error e => .error e
    | .ok less =>
      match get_equality_bitmap index i digit with
      | .error e => .error e
      | .ok eq =>
        match lesser_equality_bitmaps index (i + 1) decomposed with
        | .error e => .error e
        | .ok rest => .ok ((less, eq) :: rest)

/-- The method `less_or_equal_query`. -/
def less_or_equal_query (index : BitmapIndex) (upper_bound : Int) : Except IndexError BitMap :=
  if upper_bound < 0 then .ok ∅
  else if upper_bound
      ≥ to_int64 (index.aux_data.max_mapped_value - index.aux_data.min_mapped_value) then
    .ok index.storage.load_all_values_bitmap
  else
    match lesser_equality_bitmaps index 0 (index.aux_data.vd.decompose upper_bound.toNat).1 with
    | .error e => .error e
    | .ok [] => .error .out_of_bounds
    | .ok (first :: rest) =>
      let s := rest.foldl (fun (s : BitMap × BitMap) (b : BitMap × BitMap) =>
                 (s.1 ∪ (b.1 ∩ s.2), s.2 ∩ b.2)) first
      .ok (s.1 ∪ s.2)

/-- The method `range_search_internal`. -/
def range_search_internal (index : BitmapIndex) (v1 v2 : Int) : Except IndexError BitMap :=
  match less_or_equal_query index v2 with
  | .error e => .error e
  | .ok less_v2 =>
    if v1 = 0 then .ok less_v2
    else
      match less_or_equal_query index (to_int64 (v1 - 1)) with
      | .error e => .error e
      | .ok less_v1 => .ok (less_v2 \ less_v1)

/-- The function `lookup_min_value_with_mapping`. -/
def lookup_min_value_with_mapping (index : BitmapIndex) (min : Int) (interval_flags : IntervalFlags) :
    Except IndexError Int :=
  let key : AttributeValue :=
    { rg_id := index.rg_id, column_dotted_path := index.column_dotted_path, value := min }
  let found :=
    if interval_flags = .INCLUDE_LEFT ∨ interval_flags = .CLOSED then
      .ok (index.attr_values_lmdb.lower_bound index.T key)
    else index.attr_values_lmdb.upper_bound index.T key
  match found with
  | .error e => .error e
  | .ok min_iter =>
    if min_iter.eq LMDBDictionary.end_iterator ∨ min_iter.value.1.rg_id ≠ index.rg_id
        ∨ min_iter.value.1.column_dotted_path ≠ index.column_dotted_path then
      .ok index.aux_data.max_mapped_value
    else .ok (min_iter.value.2 : Int)

/-- The function `lookup_min_value` for an integral `T`: `int64_t min_value = min`, then
`min_value++` and the difference in `int64_t`. -/
def lookup_min_value (index : BitmapIndex) (min : Int) (interval_flags : IntervalFlags) :
    Except IndexError Int :=
  if index.aux_data.use_value_mapping then
    lookup_min_value_with_mapping index min interval_flags
  else
    let min_value :=
      if interval_flags = .INCLUDE_RIGHT ∨ interval_flags = .OPEN then
        to_int64 (to_int64 min + 1)
      else to_int64 min
    if min_value < index.aux_data.min_mapped_value then .ok 0
    else .ok (to_int64 (min_value - index.aux_data.min_mapped_value))

/-- The function `lookup_max_value_with_mapping`; `aux_data->cardinality - 1` is computed
in `uint32_t`. -/
def lookup_max_value_with_mapping (index : BitmapIndex) (max : Int) (interval_flags : IntervalFlags) :
    Except IndexError Int :=
  let max_value : AttributeValue :=
    { rg_id := index.rg_id, column_dotted_path := index.column_dotted_path, value := max }
  let max_iter := index.attr_values_lmdb.lower_bound index.T max_value
  if max_iter.eq LMDBDictionary.end_iterator ∨ max_iter.value.1.rg_id ≠ max_value.rg_id
      ∨ max_iter.value.1.column_dotted_path ≠ max_value.column_dotted_path then
    .ok (((index.aux_data.cardinality + 2 ^ 32 - 1) % 2 ^ 32 : Nat) : Int)
  else if max_iter.value.1 ≠ max_value ∨ interval_flags = .INCLUDE_LEFT
      ∨ interval_flags = .OPEN then
    if max_iter.eq index.attr_values_lmdb.begin_iterator then .ok (-1)
    else
      match max_iter.decrement index.attr_values_lmdb with
      | .error e => .error e
      | .ok prev =>
        if prev.value.1.rg_id ≠ index.rg_id
            ∨ prev.value.1.column_dotted_path ≠ index.column_dotted_path then .ok (-1)
        else .ok (prev.value.2 : Int)
  else .ok (max_iter.value.2 : Int)

/-- The function `lookup_max_value` for an integral `T`: `int64_t max_value = max`, then
`--max_value`, the clamp and the difference in `int64_t`. -/
def lookup_max_value (index : BitmapIndex) (max : Int) (interval_flags : IntervalFlags) :
    Except IndexError Int :=
  if index.aux_data.use_value_mapping then
    lookup_max_value_with_mapping index max interval_flags
  else
    let max_value :=
      if interval_flags = .INCLUDE_LEFT ∨ interval_flags = .OPEN then
        to_int64 (to_int64 max - 1)
      else to_int64 max
    let max_value :=
      if max_value > index.aux_data.max_mapped_value then index.aux_data.max_mapped_value
      else max_value
    .ok (to_int64 (max_value - index.aux_data.min_mapped_value))

/-- The method `range_search`. -/
def range_search (index : BitmapIndex) (min max : Int) (interval_flags : IntervalFlags) :
    Except IndexError BitMap :=
  if min > max then .error .invalid_argument
  else
    match lookup_min_value index min interval_flags with
    | .error e => .error e
    | .ok v1 =>
      if index.aux_data.use_value_mapping ∧ v1 = index.aux_data.cardinality then .ok ∅
      else
        match lookup_max_value index max interval_flags with
        | .error e => .error e
        | .ok v2 =>
          if index.aux_data.use_value_mapping ∧ v2 = -1 then .ok ∅
          else if v1 > v2 then .ok ∅
          else if v1 = v2 then lookup_mapped_value index v1
          else if index.aux_data.enc_type = .EQUALITY then .error .invalid_argument
          else range_search_internal index v1 v2

/-- The method `lesser`. -/
def lesser (index : BitmapIndex) (max_value : Int) (interval_flags : IntervalFlags) :
    Except IndexError BitMap :=
  match lookup_max_value index max_value interval_flags with
  | .error e => .error e
  | .ok v2 =>
    if index.aux_data.use_value_mapping ∧ v2 = -1 then .ok ∅
    else if index.aux_data.enc_type = .EQUALITY then .error .invalid_argument
    else less_or_equal_query index v2

/-- The method `greater`. -/
def greater (index : BitmapIndex) (min : Int) (interval_flags : IntervalFlags) :
    Except IndexError BitMap :=
  if index.aux_data.enc_type = .EQUALITY then .error .invalid_argument
  else
    match lookup_min_value index min interval_flags with
    | .error e => .error e
    | .ok v1 =>
      if v1 = index.aux_data.cardinality then .ok ∅
      else
        let less_v1 :=
          if v1 ≠ 0 then less_or_equal_query index (to_int64 (v1 - 1)) else .ok ∅
        match less_v1 with
        | .error e => .error e
        | .ok bmp => .ok (index.storage.load_all_values_bitmap \ bmp)

/-! ## Scenario data of the tests -/

/-- The type `uint32_t`. -/
def uint32_t : IntegralType := { size := 4, is_signed := false }

/-- The row group id used by `create_index` of the tests. -/
def test_rg_id : Nat := 2

/-- The column path `some.test.dotted.path` used by `create_index` of the tests. -/
def test_column_path : List Nat :=
  [115, 111, 109, 101, 46, 116, 101, 115, 116, 46, 100, 111, 116, 116, 101, 100, 46, 112, 97,
   116, 104]

/-- The values of `interger_lookup_test` and `integer_value_larger_query_test`. -/
def values_S1 : List (DocumentID × Int) :=
  [(15, 4), (16, 5), (17, 4), (19, 5), (25, 7), (30, 4), (40, 8)]

/-- Ten documents with the value 256: the two-byte value whose little-endian bytes come
before those of 1 and 2. -/
def values_256 : List (DocumentID × Int) :=
  [(0, 256), (1, 256), (2, 256), (3, 256), (4, 256), (5, 256), (6, 256), (7, 256), (8, 256),
   (9, 256)]

/-- Two rows for the same document. -/
def values_twice : List (DocumentID × Int) :=
  [(1, 0), (1, 3)]

deriving instance DecidableEq for Except

/-- A query on the index a build returned; the error of the build otherwise. -/
def run_query (built : Except IndexError BitmapIndex)
    (query : BitmapIndex → Except IndexError BitMap) : Except IndexError BitMap :=
  match built with
  | .ok index => query index
  | .error e => .error e

/-- An index without rows: what `built_index` falls back to. -/
def empty_index : BitmapIndex :=
  { T := { size := 4, is_signed := false }, rg_id := 0, column_dotted_path := [],
    storage := BitMapStorage.create [], attr_values_lmdb := [],
    aux_data :=
      { vd := ValueDecomposer.new [], bitmap_counts := [], cardinality := 0,
        enc_type := .EQUALITY, use_value_mapping := true, min_mapped_value := 0,
        max_mapped_value := 0 } }

/-- The index a build returned. -/
def built_index (built : Except IndexError BitmapIndex) : BitmapIndex :=
  match built with
  | .ok index => index
  | .error _ => empty_index

/-- The function `create_index` of `bitmap_index_test.h`: a fresh builder, one index. -/
def create_index (T : IntegralType) (values : List (DocumentID × Int))
    (enc_type : BitmapIndexEncodingType) (index_type : BitmapIndexType) :
    Except IndexError BitmapIndex :=
  build_index T test_rg_id test_column_path [] [] values enc_type index_type

/-! ## Notions used to state the properties -/

/-- The digit vector of `value` in a basis: the first component of the decomposition
loop. -/
def digits (basis : List Nat) (value : Nat) : List Nat :=
  (decompose_loop basis value).1

/-- Digit `i` of `value` in a basis. -/
def digit_of (basis : List Nat) (i value : Nat) : Nat :=
  (digits basis value).getD i 0

/-- Lexicographic comparison of two digit vectors, most significant digit first. -/
def lex_le : List Nat → List Nat → Prop
  | x :: xs, u :: us => x < u ∨ (x = u ∧ lex_le xs us)
  | _, _ => True

/-- The documents of a list of rows. -/
def docs_of {α : Type} (rows : List (DocumentID × α)) : Finset Nat :=
  (rows.map Prod.fst).toFinset

/-- The mapped value of a document: that of its first row. -/
def mapped_value_of : List (DocumentID × Nat) → DocumentID → Nat
  | [], _ => 0
  | p :: rest, d => if p.1 = d then p.2 else mapped_value_of rest d

/-- The outcome of the combining loop of `less_or_equal_query` for one document, in terms
of its membership in the collected pairs of bitmaps. -/
def le_pred (d : DocumentID) : List (BitMap × BitMap) → Prop
  | [] => True
  | b :: rest => d ∈ b.1 ∨ (d ∈ b.2 ∧ le_pred d rest)

/-- A call returns a bitmap, and the bitmap holds exactly the documents satisfying `P`. -/
def returns_docs (r : Except IndexError BitMap) (P : DocumentID → Prop) : Prop :=
  ∃ bmp, r = .ok bmp ∧ ∀ d, d ∈ bmp ↔ P d

/-- Every document id occurs in at most one row. -/
def distinct_docs {α : Type} (rows : List (DocumentID × α)) : Prop :=
  (rows.map Prod.fst).Nodup

instance {α : Type} (rows : List (DocumentID × α)) : Decidable (distinct_docs rows) := by
  unfold distinct_docs; infer_instance

/-- The rows handed to `insert_mapped_values` when value mapping is off: every value less
the minimum. -/
def unmapped_rows (min_mapped_value : Int) (values : List (DocumentID × Int)) :
    List (DocumentID × Nat) :=
  values.map (fun p => (p.1, Int.toNat (p.2 - min_mapped_value)))

/-- A value that the conversions of `configure` leave as it is: it lies in the range of
`int64_t`, and it is not negative when `T` is an unsigned type of 64 bits (whose values are
compared as `uint64_t`). -/
def fits_int64 (T : IntegralType) (v : Int) : Prop :=
  -(2 ^ 63) ≤ v ∧ v < 2 ^ 63 ∧ (¬ (T.is_signed ∨ T.size < 8) → 0 ≤ v)

/-- The lists of rows the properties of a whole build are about: not empty, every document
id in at most one row, fewer than `2 ^ 31` rows (the row counter of `insert_mapped_values`
is an `int`), and values of `T` of a magnitude below `2 ^ 60`; `sizeof(T)` is between 1
and 8. -/
structure valid_input (T : IntegralType) (values : List (DocumentID × Int)) : Prop where
  nonempty : values ≠ []
  distinct : distinct_docs values
  holds : ∀ p ∈ values, T.holds p.2
  exact : ∀ p ∈ values, exact_range p.2
  length_lt : values.length < 2 ^ 31
  size_pos : 1 ≤ T.size
  size_le : T.size ≤ 8

instance (T : IntegralType) (values : List (DocumentID × Int)) :
    Decidable (valid_input T values) :=
  decidable_of_iff
    (values ≠ [] ∧ (values.map Prod.fst).Nodup ∧ (∀ p ∈ values, T.holds p.2) ∧
      (∀ p ∈ values, exact_range p.2) ∧ values.length < 2 ^ 31 ∧ 1 ≤ T.size ∧ T.size ≤ 8)
    ⟨fun h => ⟨h.1, h.2.1, h.2.2.1, h.2.2.2.1, h.2.2.2.2.1, h.2.2.2.2.2.1, h.2.2.2.2.2.2⟩,
     fun h => ⟨h.nonempty, h.distinct, h.holds, h.exact, h.length_lt, h.size_pos,
       h.size_le⟩⟩

/-- The rows handed to `insert_mapped_values` when value mapping is on: every value
replaced by its index in the sorted vector of the distinct values. -/
def mapped_rows (values : List (DocumentID × Int)) : List (DocumentID × Nat) :=
  values.map (fun p => (p.1, (values_mapping_find (sorted_attr_values values) p.2 0).getD 0))

/-- The components of an index after `insert_mapped_values` of the rows `mapped` into a
storage made by `create`: what the basis, the bitmap counts and the stored bitmaps are, in
terms of the digits of the mapped value of every document. -/
structure Stored (index : BitmapIndex) (mapped : List (DocumentID × Nat)) : Prop where
  vd_eq : index.aux_data.vd = ValueDecomposer.new index.aux_data.vd.basis
  base_ge : ∀ b ∈ index.aux_data.vd.basis, 1 ≤ b
  base_lt : ∀ b ∈ index.aux_data.vd.basis, b + 1 < 2 ^ 32
  counts_eq : index.aux_data.bitmap_counts
    = calculate_bitmap_counts index.aux_data.vd.basis index.aux_data.enc_type
  storage_counts : index.storage.bitmap_counts = index.aux_data.bitmap_counts
  distinct : distinct_docs mapped
  all_values : index.storage.all_values_bitmap = docs_of mapped
  bitmaps : ∀ i j, in_bounds index.aux_data.bitmap_counts i j → ∀ d,
    d ∈ index.storage.bitmaps i j ↔
      d ∈ docs_of mapped ∧
      j ∈ bitmaps_of_digit index.aux_data.enc_type (index.aux_data.vd.basis.getD i 0)
            (index.aux_data.bitmap_counts.getD i 0)
            (digit_of index.aux_data.vd.basis i (mapped_value_of mapped d))

/-- The state of an index after `insert_mapped_values` of the rows `mapped`: its components,
and the mapped values within the span `max_mapped_value - min_mapped_value` (the `int64_t`
difference the queries compute), itself within the product of the basis. -/
structure Built (index : BitmapIndex) (mapped : List (DocumentID × Nat))
    extends Stored index mapped : Prop where
  basis_ne : index.aux_data.vd.basis ≠ []
  mapped_lt : ∀ p ∈ mapped, p.2 < index.aux_data.vd.basis.prod
  mapped_le : ∀ p ∈ mapped,
    (p.2 : Int)
      ≤ to_int64 (index.aux_data.max_mapped_value - index.aux_data.min_mapped_value)
  span_le : to_int64 (index.aux_data.max_mapped_value - index.aux_data.min_mapped_value)
    ≤ (index.aux_data.vd.basis.prod : Int)

/-! ## Offsets of the saved bitmaps (`lmdb_values.cc`, `bitmap_storage.cc`) -/

/-- The class `OffsetRange`. -/
structure OffsetRange where
  start_offset : Nat
  end_offset : Nat
  deriving DecidableEq, Repr

/-- The class `BitmapLMDBID`: the key of the offsets of one bitmap. -/
structure BitmapLMDBID where
  rg_id : Nat
  column_dotted_path : List Nat
  bitmap_number : Nat
  deriving DecidableEq, Repr

/-- Constructor `BitmapLMDBID(rg_id, column_dotted_path, bitmap_number)`: the number is
narrowed to `uint16_t`. -/
def BitmapLMDBID.new (rg_id : Nat) (column_dotted_path : List Nat) (bitmap_number : Nat) :
    BitmapLMDBID :=
  { rg_id := rg_id, column_dotted_path := column_dotted_path,
    bitmap_number := bitmap_number % 2 ^ 16 }

/-- The method `BitmapLMDBID::to_byte_array`: the bytes of `rg_id`, the bytes of the path,
a terminating 0, and the two bytes of `bitmap_number` in memory (little-endian). -/
def BitmapLMDBID.to_byte_array (k : BitmapLMDBID) : List Nat :=
  le_bytes 4 k.rg_id ++ k.column_dotted_path ++ [0] ++ le_bytes 2 k.bitmap_number

/-- The class `LMDBDictionary<BitmapLMDBID, OffsetRange>`: the entries in the order in
which an LMDB cursor visits them, that of their serialized keys. -/
abbrev BitmapOffsetsDictionary := List (BitmapLMDBID × OffsetRange)

/-- The call `mdb_put(..., MDB_NOOVERWRITE)` on the offsets dictionary, at its place in key
order; `none` when the key is present already. -/
def offsets_mdb_put :
    BitmapOffsetsDictionary → BitmapLMDBID → OffsetRange → Option BitmapOffsetsDictionary
  | [], key, value => some [(key, value)]
  | e :: rest, key, value =>
    if bytes_lt key.to_byte_array e.1.to_byte_array then some ((key, value) :: e :: rest)
    else if bytes_lt e.1.to_byte_array key.to_byte_array then
      (offsets_mdb_put rest key value).map (fun r => e :: r)
    else none

/-- The bulk `LMDBDictionary::insert(values, txn)` on the offsets dictionary. -/
def BitmapOffsetsDictionary.insert :
    BitmapOffsetsDictionary → List (BitmapLMDBID × OffsetRange) →
      Except IndexError BitmapOffsetsDictionary
  | dict, [] => .ok dict
  | dict, p :: rest =>
    match offsets_mdb_put dict p.1 p.2 with
    | none => .error .thrown_text
    | some dict1 => BitmapOffsetsDictionary.insert dict1 rest

/-- The loop of `BitMapStorage::save(offset)` that fills `lmdb_entries`: bitmap `i` of the
collected bitmaps (the all-values bitmap first) gets the key with number `i` and the range
of its `expected_sizes[i]` bytes. -/
def save_lmdb_entries (rg_id : Nat) (column_dotted_path : List Nat) (offset : Nat) :
    List Nat → Nat → Nat → List (BitmapLMDBID × OffsetRange)
  | [], _, _ => []
  | size :: sizes, i, buffer_offset =>
    (BitmapLMDBID.new rg_id column_dotted_path i,
      { start_offset := (offset + buffer_offset) % 2 ^ 32,
        end_offset := (offset + buffer_offset + size) % 2 ^ 32 })
      :: save_lmdb_entries rg_id column_dotted_path offset sizes (i + 1)
          ((buffer_offset + size) % 2 ^ 32)

/-- The `const_iterator` of the offsets dictionary: the position of the LMDB cursor
(`none` for a null `cursor_`) and the pair `value_`. -/
structure offsets_iterator where
  cursor : Option Nat
  value : BitmapLMDBID × OffsetRange
  deriving DecidableEq, Repr

/-- The iterator `end(txn)` of the offsets dictionary: a value-initialised iterator. -/
def BitmapOffsetsDictionary.end_iterator : offsets_iterator :=
  { cursor := none,
    value := ({ rg_id := 0, column_dotted_path := [], bitmap_number := 0 },
              { start_offset := 0, end_offset := 0 }) }

/-- The position and value of the entry whose key bytes are those of `key` (`MDB_SET`),
counted from `pos`. -/
def offsets_mdb_set :
    BitmapOffsetsDictionary → BitmapLMDBID → Nat → Option (Nat × OffsetRange)
  | [], _, _ => none
  | e :: rest, key, pos =>
    if e.1.to_byte_array = key.to_byte_array then some (pos, e.2)
    else offsets_mdb_set rest key (pos + 1)

/-- The method `find(key, txn)` of the offsets dictionary. -/
def BitmapOffsetsDictionary.find (dict : BitmapOffsetsDictionary) (key : BitmapLMDBID) :
    offsets_iterator :=
  match offsets_mdb_set dict key 0 with
  | none => BitmapOffsetsDictionary.end_iterator
  | some r => { cursor := some r.1, value := (key, r.2) }

/-- The operator `++` of the iterator of the offsets dictionary (`MDB_NEXT`): at the last
entry the cursor is reset and `value_` stays; on a null cursor the call dereferences it. -/
def offsets_iterator.increment (dict : BitmapOffsetsDictionary) (it : offsets_iterator) :
    Except IndexError offsets_iterator :=
  match it.cursor with
  | none => .error .null_cursor
  | some pos =>
    match dict[pos + 1]? with
    | none => .ok { cursor := none, value := it.value }
    | some e => .ok { cursor := some (pos + 1), value := e }

/-- The inner loop of `load_offsets` over the `count` bitmaps of one component: the
offsets read, the iterator and `bitmap_number` after the loop. -/
def load_offsets_component (dict : BitmapOffsetsDictionary) (rg_id : Nat)
    (column_dotted_path : List Nat) :
    Nat → offsets_iterator → Nat → Except IndexError (List OffsetRange × offsets_iterator × Nat)
  | 0, it, bitmap_number => .ok ([], it, bitmap_number)
  | count + 1, it, bitmap_number =>
    if it.value.1 ≠ BitmapLMDBID.new rg_id column_dotted_path bitmap_number then
      .error .runtime_error
    else
      match it.increment dict with
      | .error e => .error e
      | .ok it1 =>
        match load_offsets_component dict rg_id column_dotted_path count it1
            ((bitmap_number + 1) % 2 ^ 32) with
        | .error e => .error e
        | .ok r => .ok (it.value.2 :: r.1, r.2)

/-- The outer loop of `load_offsets` over the components. -/
def load_offsets_components (dict : BitmapOffsetsDictionary) (rg_id : Nat)
    (column_dotted_path : List Nat) :
    List Nat → offsets_iterator → Nat → Except IndexError (List (List OffsetRange))
  | [], _, _ => .ok []
  | count :: counts, it, bitmap_number =>
    match load_offsets_component dict rg_id column_dotted_path count it bitmap_number with
    | .error e => .error e
    | .ok r =>
      match load_offsets_components dict rg_id column_dotted_path counts r.2.1 r.2.2 with
      | .error e => .error e
      | .ok rest => .ok (r.1 :: rest)

/-- The method `BitMapStorage::load_offsets`: `all_values_bitmap_offsets` and
`bitmap_offsets`. -/
def load_offsets (dict : BitmapOffsetsDictionary) (rg_id : Nat)
    (column_dotted_path : List Nat) (bitmap_counts : List Nat) :
    Except IndexError (OffsetRange × List (List OffsetRange)) :=
  let it := dict.find (BitmapLMDBID.new rg_id column_dotted_path 0)
  if it.value.1 ≠ BitmapLMDBID.new rg_id column_dotted_path 0 then .error .runtime_error
  else
    match it.increment dict with
    | .error e => .error e
    | .ok it1 =>
      match load_offsets_components dict rg_id column_dotted_path bitmap_counts it1 1 with
      | .error e => .error e
      | .ok offsets => .ok (it.value.2, offsets)

/-! ## Further scenario data -/

/-- Twenty documents over the two values 7 and 256: value mapping is used. -/
def values_two_values : List (DocumentID × Int) :=
  [(0, 256), (1, 7), (2, 256), (3, 7), (4, 256), (5, 7), (6, 256), (7, 7), (8, 256), (9, 7),
   (10, 256), (11, 7), (12, 256), (13, 7), (14, 256), (15, 7), (16, 256), (17, 7), (18, 256),
   (19, 7)]

/-- The offsets dictionary after `save(0)` of a storage with the bitmap counts
`[128, 128]` (an EQUALITY index over 16384 values), every bitmap taking 8 bytes: 257
entries, numbered 0 to 256. -/
def saved_offsets_257 : Except IndexError BitmapOffsetsDictionary :=
  BitmapOffsetsDictionary.insert []
    (save_lmdb_entries test_rg_id test_column_path 0 (List.replicate 257 8) 0 0)

/-- The call of `load_offsets` on what a dictionary build returned. -/
def run_load_offsets (saved : Except IndexError BitmapOffsetsDictionary)
    (bitmap_counts : List Nat) : Except IndexError (OffsetRange × List (List OffsetRange)) :=
  match saved with
  | .ok dict => load_offsets dict test_rg_id test_column_path bitmap_counts
  | .error e => .error e

/-! ## Predicates and the document index interface (`common.h`, `index_interfaces.h`,
`batch_bitmap_index.cc`) -/

/-- The enum `Operator`. -/
inductive Operator
  | OP_OR | OP_AND | OP_NOT | OP_EQUAL_TO | OP_NOT_EQUAL_TO | OP_GT | OP_GTE | OP_LT | OP_LTE
  | OP_STRING_ENDS_WITH | OP_STRING_NOT_ENDS_WITH | OP_STRING_STARTS_WITH
  | OP_STRING_NOT_STARTS_WITH | OP_STRING_CONTAINS | OP_STRING_NOT_CONTAINS | OP_IS_NULL
  | OP_IS_NOT_NULL | OP_IN | OP_NOT_IN | OP_ALL
  deriving DecidableEq, Repr

/-- The enum `Predicate::Kind`. -/
inductive PredicateKind
  | UNARY | BINARY_CONST | BINARY_CONST_STRING | BINARY_CONST_VECTOR | BINARY_COLUMN
  deriving DecidableEq, Repr

/-- The struct `Predicate` as `find_candidate_documents` reads it: its kind, its operator
and, for a `BinaryConstPredicate<T>`, its constant. -/
structure Predicate where
  kind : PredicateKind
  op : Operator
  value : Int
  deriving DecidableEq, Repr

/-- The enum `expreval::IndexAccuracy`. -/
inductive IndexAccuracy
  | IA_NONE | IA_COARSE | IA_EXACT
  deriving DecidableEq, Repr

/-- The class `expreval::IndexResult`; `none` is the null pointer. -/
structure IndexResult where
  accuracy : IndexAccuracy
  values : Option BitMap
  deriving DecidableEq

/-- The method `BitmapIndex<T>::not_equals`. -/
def not_equals (index : BitmapIndex) (value : Int) : Except IndexError BitMap :=
  match lookup index value with
  | .error e => .error e
  | .ok bmp => .ok (index.storage.load_all_values_bitmap \ bmp)

/-- The function object `query_index` chosen by `find_candidate_documents`, run: the bitmap
of the routed call, or `none` for the null pointer. -/
def query_index (index : BitmapIndex) (predicate : Predicate) :
    Except IndexError (Option BitMap) :=
  if predicate.kind = .BINARY_CONST then
    match predicate.op with
    | .OP_EQUAL_TO => (lookup index predicate.value).map some
    | .OP_NOT_EQUAL_TO => (not_equals index predicate.value).map some
    | .OP_GT => (greater index predicate.value .OPEN).map some
    | .OP_GTE => (greater index predicate.value .INCLUDE_LEFT).map some
    | .OP_LT => (lesser index predicate.value .OPEN).map some
    | .OP_LTE => (lesser index predicate.value .INCLUDE_RIGHT).map some
    | _ => .ok none
  else if predicate.kind = .UNARY ∧
      (predicate.op = .OP_IS_NULL ∨ predicate.op = .OP_IS_NOT_NULL) then
    match predicate.op with
    | .OP_IS_NOT_NULL => .ok (some (get_not_null index))
    | .OP_IS_NULL => .ok none
    | _ => .ok none
  else .ok none

/-- The method `BitmapIndexImpl<T>::find_candidate_documents`. -/
def find_candidate_documents (index : BitmapIndex) (predicate : Predicate) :
    Except IndexError IndexResult :=
  match query_index index predicate with
  | .error e => .error e
  | .ok (some values) => .ok { accuracy := .IA_EXACT, values := some values }
  | .ok none => .ok { accuracy := .IA_NONE, values := none }

/-- The call the specification routes a predicate to, `none` when it names none. -/
def routed_call (predicate : Predicate) : Option (BitmapIndex → Except IndexError BitMap) :=
  match predicate.kind, predicate.op with
  | .BINARY_CONST, .OP_EQUAL_TO => some (fun index => lookup index predicate.value)
  | .BINARY_CONST, .OP_NOT_EQUAL_TO => some (fun index => not_equals index predicate.value)
  | .BINARY_CONST, .OP_GT => some (fun index => greater index predicate.value .OPEN)
  | .BINARY_CONST, .OP_GTE => some (fun index => greater index predicate.value .INCLUDE_LEFT)
  | .BINARY_CONST, .OP_LT => some (fun index => lesser index predicate.value .OPEN)
  | .BINARY_CONST, .OP_LTE => some (fun index => lesser index predicate.value .INCLUDE_RIGHT)
  | .UNARY, .OP_IS_NOT_NULL => some (fun index => .ok (get_not_null index))
  | _, _ => none

/-! ## Saving a storage (`bitmap.cc`, `bitmap_storage.cc`) -/

/-- What the embedding takes from the Roaring library, which is no part of the repository:
the serialized size of a bitmap (`Roaring::getSizeInBytes`), its serialization
(`Roaring::write`) and the bitmap read back from the bytes at a pointer
(`Roaring::read`). -/
structure RoaringFormat where
  size_in_bytes : BitMap → Nat
  write : BitMap → List Nat
  read : List Nat → BitMap

/-- The method `BitMap::get_save_byte_size`, a `uint32_t`. -/
def get_save_byte_size (fmt : RoaringFormat) (bmp : BitMap) : Nat :=
  fmt.size_in_bytes bmp % 2 ^ 32

/-- The data file: the byte at every position. -/
abbrev DataFile := Nat → Nat

/-- The write task `submitWriteTask(fd, offset, size, buffer)`, carried out. -/
def write_file (file : DataFile) (offset : Nat) (buffer : List Nat) : DataFile :=
  fun position =>
    if offset ≤ position ∧ position < offset + buffer.length then
      buffer.getD (position - offset) 0
    else file position

/-- The read task `submitReadTask(fd, offset, size)`, carried out: the buffer read. -/
def read_file (file : DataFile) (offset size : Nat) : List Nat :=
  (List.range size).map (fun k => file (offset + k))

/-- The function `round_to_disk_block_size`. -/
def round_to_disk_block_size (byte_count : Nat) : Nat :=
  let block_size := 4096
  let block_count := byte_count / block_size
  let block_count := if byte_count % block_size ≠ 0 then (block_count + 1) % 2 ^ 32
                     else block_count
  (block_count * block_size) % 2 ^ 32

/-- The bitmaps of the components from `component` on, in the order of the loops
`for i < bitmap_counts.size()`, `for j < bitmap_counts[i]`. -/
def component_bitmaps (st : BitMapStorage) : List Nat → Nat → List BitMap
  | [], _ => []
  | count :: counts, component =>
    (List.range count).map (st.bitmaps component) ++ component_bitmaps st counts (component + 1)

/-- The vector `bitmaps` collected by `get_total_byte_size` and `save`: the all-values
bitmap, then the bitmaps of the components. -/
def collected_bitmaps (st : BitMapStorage) : List BitMap :=
  st.load_all_values_bitmap :: component_bitmaps st st.bitmap_counts 0

/-- The method `BitMapStorage::get_total_byte_size`: the sizes are added up in a
`uint32_t`. -/
def get_total_byte_size (fmt : RoaringFormat) (st : BitMapStorage) : Nat :=
  round_to_disk_block_size
    ((collected_bitmaps st).foldl (fun total bmp => (total + get_save_byte_size fmt bmp) % 2 ^ 32)
      0)

/-- The loop of `save` that writes the bitmaps into the buffer of `total_size` bytes: the
bytes written so far are `written`; a write past the end of the buffer is an access out of
bounds, a write of another size than expected throws. -/
def save_write_loop (fmt : RoaringFormat) (total_size : Nat) :
    List BitMap → List Nat → Except IndexError (List Nat)
  | [], written => .ok written
  | bmp :: bitmaps, written =>
    if written.length + (fmt.write bmp).length > total_size then .error .out_of_bounds
    else if (fmt.write bmp).length % 2 ^ 32 ≠ get_save_byte_size fmt bmp then
      .error .runtime_error
    else save_write_loop fmt total_size bitmaps (written ++ fmt.write bmp)

/-- The method `BitMapStorage::save(offset)` of a storage whose bitmaps are all in memory:
the offsets dictionary and the file afterwards, and the size reported by the write task.
The bytes of the buffer that no bitmap is written to are those of `padding`. -/
def BitMapStorage.save (fmt : RoaringFormat) (rg_id : Nat) (column_dotted_path : List Nat)
    (st : BitMapStorage) (bitmap_offsets_lmdb : BitmapOffsetsDictionary) (file : DataFile)
    (padding : List Nat) (offset : Nat) :
    Except IndexError (BitmapOffsetsDictionary × DataFile × Nat) :=
  let bitmaps := collected_bitmaps st
  let expected_sizes := bitmaps.map (get_save_byte_size fmt)
  let total_size := round_to_disk_block_size (expected_sizes.sum % 2 ^ 32)
  match save_write_loop fmt total_size bitmaps [] with
  | .error e => .error e
  | .ok written =>
    let lmdb_entries := save_lmdb_entries rg_id column_dotted_path offset expected_sizes 0 0
    match bitmap_offsets_lmdb.insert lmdb_entries with
    | .error e => .error e
    | .ok dict =>
      let buffer := written ++
        (List.range (total_size - written.length)).map (fun k => padding.getD k 0)
      .ok (dict, write_file file offset buffer, total_size)

/-- A format in which every bitmap takes `size` bytes, all of them 0, and every buffer
reads as the empty bitmap: enough to follow the sizes and offsets. -/
def constant_size_format (size : Nat) : RoaringFormat :=
  { size_in_bytes := fun _ => size, write := fun _ => List.replicate size 0,
    read := fun _ => ∅ }

/-! ## The auxiliary data as an LMDB value (`lmdb_values.cc`) -/

/-- The buffer after `memcpy(buffer + offset, source, source.size())`, for a write inside
the buffer. -/
def memcpy_to (buffer : List Nat) (offset : Nat) (source : List Nat) : List Nat :=
  buffer.take offset ++ source ++ buffer.drop (offset + source.length)

/-- The value of little-endian bytes. -/
def of_le_bytes : List Nat → Nat
  | [] => 0
  | byte :: rest => byte + 256 * of_le_bytes rest

/-- The unsigned value read by `memcpy(&x, buffer + offset, count)`; `none` for a read past
the end of the buffer. -/
def read_le (buffer : List Nat) (offset count : Nat) : Option Nat :=
  if offset + count ≤ buffer.length then some (of_le_bytes ((buffer.drop offset).take count))
  else none

/-- The integer value of the enumerators of `BitmapIndexEncodingType`. -/
def enc_type_code : BitmapIndexEncodingType → Nat
  | .EQUALITY => 0
  | .INTERVAL => 1
  | .RANGE => 2

/-- The enumerator with a given integer value; the embedding has no value for an
`enc_type` that is no enumerator. -/
def enc_type_of_code : Nat → Option BitmapIndexEncodingType
  | 0 => some .EQUALITY
  | 1 => some .INTERVAL
  | 2 => some .RANGE
  | _ => none

/-- The `int64_t` with the given 8 bytes (two's complement). -/
def int64_of_nat (n : Nat) : Int :=
  if n < 2 ^ 63 then (n : Int) else (n : Int) - 2 ^ 64

/-- The method `BitmapIndexAuxData::byte_length`. -/
def BitmapIndexAuxData.byte_length (aux : BitmapIndexAuxData) : Nat :=
  (4 + (aux.vd.basis.length % 2 ^ 32) * 4 + 4 + (aux.bitmap_counts.length % 2 ^ 32) * 4
    + 1 + 4 + 4 + 1 + 8 + 8) % 2 ^ 32

/-- The loops of `to_byte_array` that write a vector of `uint32_t` from `current_offset`
on: the buffer and `current_offset` afterwards. -/
def write_uint32_loop : List Nat → Nat → List Nat → List Nat × Nat
  | buffer, current_offset, [] => (buffer, current_offset)
  | buffer, current_offset, x :: rest =>
    write_uint32_loop (memcpy_to buffer current_offset (le_bytes 4 x))
      ((current_offset + 4) % 2 ^ 32) rest

/-- The method `BitmapIndexAuxData::to_byte_array(buffer)`: the buffer afterwards.  The
size of `bitmap_counts` is copied to the start of the buffer, not to `current_offset`. -/
def BitmapIndexAuxData.to_byte_array (aux : BitmapIndexAuxData) (buffer : List Nat) :
    List Nat :=
  let basis_size := aux.vd.basis.length % 2 ^ 32
  let buffer := memcpy_to buffer 0 (le_bytes 4 basis_size)
  let r := write_uint32_loop buffer 4 (aux.vd.basis.take basis_size)
  let bitmap_counts_size := aux.bitmap_counts.length % 2 ^ 32
  let buffer := memcpy_to r.1 0 (le_bytes 4 bitmap_counts_size)
  let r := write_uint32_loop buffer ((r.2 + 4) % 2 ^ 32)
    (aux.bitmap_counts.take bitmap_counts_size)
  let buffer := memcpy_to r.1 r.2 (le_bytes 1 (enc_type_code aux.enc_type))
  let current_offset := (r.2 + 1) % 2 ^ 32
  let buffer := memcpy_to buffer current_offset (le_bytes 4 aux.cardinality)
  let current_offset := (current_offset + 4) % 2 ^ 32
  let buffer := memcpy_to buffer current_offset (le_bytes 4 (enc_type_code aux.enc_type))
  let current_offset := (current_offset + 4) % 2 ^ 32
  let buffer := memcpy_to buffer current_offset
    (le_bytes 1 (if aux.use_value_mapping then 1 else 0))
  let current_offset := (current_offset + 1) % 2 ^ 32
  let buffer := memcpy_to buffer current_offset
    (le_bytes 8 (Int.toNat (aux.min_mapped_value % 2 ^ 64)))
  let current_offset := (current_offset + 8) % 2 ^ 32
  memcpy_to buffer current_offset (le_bytes 8 (Int.toNat (aux.max_mapped_value % 2 ^ 64)))

/-- The loops of `from_byte_array` that read `count` values of `uint32_t` from
`current_offset` on: the vector and `current_offset` afterwards. -/
def read_uint32_loop (buffer : List Nat) : Nat → Nat → Option (List Nat × Nat)
  | 0, current_offset => some ([], current_offset)
  | count + 1, current_offset =>
    match read_le buffer current_offset 4 with
    | none => none
    | some x =>
      match read_uint32_loop buffer count ((current_offset + 4) % 2 ^ 32) with
      | none => none
      | some r => some (x :: r.1, r.2)

/-- The method `BitmapIndexAuxData::from_byte_array(size, buffer)`; `none` stands for a
read past the end of the buffer and for bytes of `enc_type` that encode no enumerator.
The size of `bitmap_counts` is read from the start of the buffer, as it is written. -/
def BitmapIndexAuxData.from_byte_array (buffer : List Nat) : Option BitmapIndexAuxData :=
  match read_le buffer 0 4 with
  | none => none
  | some basis_size =>
  match read_uint32_loop buffer basis_size 4 with
  | none => none
  | some basis =>
  match read_le buffer 0 4 with
  | none => none
  | some bitmap_counts_size =>
  match read_uint32_loop buffer bitmap_counts_size ((basis.2 + 4) % 2 ^ 32) with
  | none => none
  | some bitmap_counts =>
  match read_le buffer bitmap_counts.2 1 with
  | none => none
  | some _ =>
  match read_le buffer ((bitmap_counts.2 + 1) % 2 ^ 32) 4 with
  | none => none
  | some cardinality =>
  match read_le buffer ((bitmap_counts.2 + 5) % 2 ^ 32) 4 with
  | none => none
  | some code =>
  match enc_type_of_code code with
  | none => none
  | some enc_type =>
  match read_le buffer ((bitmap_counts.2 + 9) % 2 ^ 32) 1 with
  | none => none
  | some use_value_mapping =>
  match read_le buffer ((bitmap_counts.2 + 10) % 2 ^ 32) 8 with
  | none => none
  | some min_mapped_value =>
  match read_le buffer ((bitmap_counts.2 + 18) % 2 ^ 32) 8 with
  | none => none
  | some max_mapped_value =>
    some { vd := ValueDecomposer.new basis.1
           bitmap_counts := bitmap_counts.1
           cardinality := cardinality
           enc_type := enc_type
           use_value_mapping := decide (use_value_mapping ≠ 0)
           min_mapped_value := int64_of_nat min_mapped_value
           max_mapped_value := int64_of_nat max_mapped_value }

/-- The bytes of a vector of `uint32_t`, element after element. -/
def uint32_bytes : List Nat → List Nat
  | [] => []
  | x :: rest => le_bytes 4 x ++ uint32_bytes rest

/-! ## What the specification says of the saved offsets -/

/-- The ordinal the specification gives bitmap `j` of component `c`: the all-values bitmap
has the ordinal 0, the bitmaps of the components follow component after component. -/
def bitmap_ordinal (bitmap_counts : List Nat) (c j : Nat) : Nat :=
  1 + (bitmap_counts.take c).sum + j

/-- The range the specification gives the bitmap with the ordinal `i`: it starts at
`offset` plus the save sizes of the bitmaps before it, and its length is the save size of
the bitmap. -/
def expected_range (fmt : RoaringFormat) (bitmaps : List BitMap) (offset i : Nat) :
    OffsetRange :=
  { start_offset := offset + ((bitmaps.take i).map (get_save_byte_size fmt)).sum
    end_offset := offset + ((bitmaps.take i).map (get_save_byte_size fmt)).sum
      + get_save_byte_size fmt (bitmaps.getD i ∅) }

/-! ## Scenario data of the storage test -/

/-- The storage of `bitmap_storage_save_load_test` before it is saved: the bitmap counts
`{2, 2, 2}`, the values 28 and 158 in the bitmap `(0, 0)` and 15, 27, 37 in the all-values
bitmap. -/
def test_created_storage : BitMapStorage :=
  { bitmap_counts := [2, 2, 2]
    bitmaps := fun c j => if c = 0 ∧ j = 0 then {28, 158} else ∅
    all_values_bitmap := {15, 27, 37} }

/-- An empty data file. -/
def empty_file : DataFile := fun _ => 0

/-! ## Iterators of the dictionaries keyed by a storage (`lmdb_dictionary.hpp`) -/

/-- The `const_iterator` of a dictionary keyed by a storage: the position of the LMDB
cursor (`none` for a null `cursor_`) and the pair `value_`. -/
structure storage_iterator (V : Type) where
  cursor : Option Nat
  value : BitmapStorageLMDBID × V

/-- The value-initialised `OffsetRange`. -/
instance : Inhabited OffsetRange := ⟨{ start_offset := 0, end_offset := 0 }⟩

/-- The value-initialised `BitmapIndexAuxData`: no basis, no bitmap counts. -/
instance : Inhabited BitmapIndexAuxData :=
  ⟨{ vd := ValueDecomposer.new [], bitmap_counts := [], cardinality := 0,
     enc_type := .EQUALITY, use_value_mapping := false, min_mapped_value := 0,
     max_mapped_value := 0 }⟩

/-- The iterator `end(txn)`: a value-initialised iterator with a null cursor. -/
def StorageDictionary.end_iterator {V : Type} [Inhabited V] : storage_iterator V :=
  { cursor := none, value := ({ rg_id := 0, column_dotted_path := [] }, default) }

/-- The position and value of the entry whose key bytes are those of `key` (`MDB_SET`),
counted from `pos`. -/
def storage_mdb_set {V : Type} :
    StorageDictionary V → BitmapStorageLMDBID → Nat → Option (Nat × V)
  | [], _, _ => none
  | e :: rest, key, pos =>
    if e.1.to_byte_array = key.to_byte_array then some (pos, e.2)
    else storage_mdb_set rest key (pos + 1)

/-- The method `find(key, txn)` of a dictionary keyed by a storage. -/
def StorageDictionary.find {V : Type} [Inhabited V] (dict : StorageDictionary V)
    (key : BitmapStorageLMDBID) : storage_iterator V :=
  match storage_mdb_set dict key 0 with
  | none => StorageDictionary.end_iterator
  | some r => { cursor := some r.1, value := (key, r.2) }

/-- The operator `==` of the iterators: one null cursor and one that is not null make the
iterators different, otherwise their keys are compared. -/
def storage_iterator.equals {V : Type} (it other : storage_iterator V) : Bool :=
  if it.cursor.isSome ∧ ¬ other.cursor.isSome then false
  else if ¬ it.cursor.isSome ∧ other.cursor.isSome then false
  else decide (it.value.1 = other.value.1)

/-! ## Saving the indexes of a batch (`batch_bitmap_index_builder.cc`) -/

/-- The state of `BatchBitmapIndexBuilder` that `save_all` works on: the finished indexes
of `bmp_futures_`, the dictionaries of the bitmap offsets, of the storage offsets and of
the auxiliary data, the data file behind `fd_`, and `current_offset_`. -/
structure BatchBitmapIndexBuilder where
  bmp_futures : List BitmapIndex
  bitmap_offsets_lmdb : BitmapOffsetsDictionary
  storage_offsets_lmdb : StorageDictionary OffsetRange
  aux_data_lmdb : StorageDictionary BitmapIndexAuxData
  file : DataFile
  current_offset : Nat

/-- What the loop of `save_all` over the indexes leaves behind: `lmdb_entries`,
`expected_sizes`, the sizes reported by the write tasks, and the dictionary of the
bitmap offsets and the file after the saves. -/
structure save_all_state where
  lmdb_entries : List (BitmapStorageLMDBID × OffsetRange)
  expected_sizes : List Nat
  io_sizes : List Nat
  bitmap_offsets_lmdb : BitmapOffsetsDictionary
  file : DataFile

/-- The loop `for (auto index : indexes)` of `save_all`, from the cursor `offset` on: every
storage is saved at `offset` and gets the range `(offset, offset + expected_size)`, and
`offset` advances by `expected_size`, all in `uint32_t`. -/
def save_all_loop (fmt : RoaringFormat) (padding : List Nat) :
    List BitmapIndex → Nat → BitmapOffsetsDictionary → DataFile →
      Except IndexError save_all_state
  | [], _, dict, file =>
    .ok { lmdb_entries := [], expected_sizes := [], io_sizes := [],
          bitmap_offsets_lmdb := dict, file := file }
  | index :: indexes, offset, dict, file =>
    match index.storage.save fmt index.rg_id index.column_dotted_path dict file padding
        offset with
    | .error e => .error e
    | .ok saved =>
      let expected_size := get_total_byte_size fmt index.storage
      match save_all_loop fmt padding indexes ((offset + expected_size) % 2 ^ 32) saved.1
          saved.2.1 with
      | .error e => .error e
      | .ok r =>
        .ok { lmdb_entries :=
                ({ rg_id := index.rg_id, column_dotted_path := index.column_dotted_path },
                  { start_offset := offset,
                    end_offset := (offset + expected_size) % 2 ^ 32 }) :: r.lmdb_entries
              expected_sizes := expected_size :: r.expected_sizes
              io_sizes := saved.2.2 :: r.io_sizes
              bitmap_offsets_lmdb := r.bitmap_offsets_lmdb
              file := r.file }

/-- The loop of `save_all` that compares the expected sizes with the sizes written and
adds them up in `total_bytes_written`. -/
def check_written_sizes : List Nat → List Nat → Nat → Except IndexError Nat
  | [], _, total_bytes_written => .ok total_bytes_written
  | _ :: _, [], _ => .error .out_of_bounds
  | expected_size :: expected_sizes, io_size :: io_sizes, total_bytes_written =>
    if expected_size ≠ io_size then .error .runtime_error
    else check_written_sizes expected_sizes io_sizes
      ((total_bytes_written + expected_size) % 2 ^ 32)

/-- The method `BatchBitmapIndexBuilder::save_all`. -/
def BatchBitmapIndexBuilder.save_all (fmt : RoaringFormat) (padding : List Nat)
    (builder : BatchBitmapIndexBuilder) : Except IndexError BatchBitmapIndexBuilder :=
  match save_all_loop fmt padding builder.bmp_futures builder.current_offset
      builder.bitmap_offsets_lmdb builder.file with
  | .error e => .error e
  | .ok r =>
    match check_written_sizes r.expected_sizes r.io_sizes 0 with
    | .error e => .error e
    | .ok total_bytes_written =>
      match builder.storage_offsets_lmdb.insert r.lmdb_entries with
      | .error e => .error e
      | .ok storage_offsets =>
        .ok { bmp_futures := []
              bitmap_offsets_lmdb := r.bitmap_offsets_lmdb
              storage_offsets_lmdb := storage_offsets
              aux_data_lmdb := builder.aux_data_lmdb
              file := r.file
              current_offset := (builder.current_offset + total_bytes_written) % 2 ^ 32 }

/-! ## The storage loaded from the file (`bitmap_storage.cc`) -/

/-- The class `BitMapStorage` made with `create == false`: a bitmap that is not in memory
is a null pointer (`none`), `bitmap_offsets` is filled by `load_offsets` only. -/
structure LoadedBitMapStorage where
  rg_id : Nat
  column_dotted_path : List Nat
  bitmap_counts : List Nat
  bitmap_cache_size : Nat
  bitmaps : List (List (Option BitMap))
  frequencies : List (List Nat)
  frequency_threshold : Nat
  all_values_bitmap : Option BitMap
  bitmap_offsets : List (List OffsetRange)
  all_values_bitmap_offsets : OffsetRange
  file_offsets : OffsetRange

/-- The value `UINT32_MAX`. -/
def UINT32_MAX : Nat := 4294967295


/-- The vector `freqs` of `recompute_frequency_threshold`: `frequencies[i][j]` for
`i < bitmap_counts.size()`, `j < bitmap_counts[i]`. -/
def collect_frequencies (frequencies : List (List Nat)) : List Nat → Nat → List Nat
  | [], _ => []
  | count :: counts, i =>
    (List.range count).map (fun j => (frequencies.getD i []).getD j 0)
      ++ collect_frequencies frequencies counts (i + 1)

/-- The method `BitMapStorage::recompute_frequency_threshold`: `UINT32_MAX` when the
cache holds all bitmaps, else the element `std::nth_element` puts at `bitmap_cache_size`,
which is the one at that place in sorted order. -/
def LoadedBitMapStorage.recompute_frequency_threshold (st : LoadedBitMapStorage) :
    LoadedBitMapStorage :=
  let freqs := collect_frequencies st.frequencies st.bitmap_counts 0
  if st.bitmap_cache_size ≥ freqs.length then { st with frequency_threshold := UINT32_MAX }
  else
    { st with frequency_threshold :=
        (freqs.insertionSort (fun a b => a ≤ b)).getD st.bitmap_cache_size 0 }

/-- The constructor `BitMapStorage::BitMapStorage(..., create = false, bitmap_cache_size)`:
null bitmaps, frequencies 0, an empty `bitmap_offsets`; `all_values_bitmap_offsets` and
`file_offsets` are not set and keep the value `indeterminate`. -/
def LoadedBitMapStorage.new (rg_id : Nat) (column_dotted_path : List Nat)
    (bitmap_counts : List Nat) (bitmap_cache_size : Nat) (indeterminate : OffsetRange) :
    LoadedBitMapStorage :=
  LoadedBitMapStorage.recompute_frequency_threshold
    { rg_id := rg_id
      column_dotted_path := column_dotted_path
      bitmap_counts := bitmap_counts
      bitmap_cache_size := bitmap_cache_size
      bitmaps := bitmap_counts.map (fun count => List.replicate count none)
      frequencies := bitmap_counts.map (fun count => List.replicate count 0)
      frequency_threshold := 0
      all_values_bitmap := none
      bitmap_offsets := []
      all_values_bitmap_offsets := indeterminate
      file_offsets := indeterminate }

/-- The element `v[component][i]` of a vector of vectors; `none` outside of it. -/
def at2 {α : Type} (v : List (List α)) (component i : Nat) : Option α :=
  match v[component]? with
  | none => none
  | some row => row[i]?

/-- The vector of vectors after `v[component][i] = x`. -/
def set2 {α : Type} (v : List (List α)) (component i : Nat) (x : α) : List (List α) :=
  v.set component ((v.getD component []).set i x)

/-- The method `BitMapStorage::increase_frequency`: the threshold is recomputed when the
frequency is at the threshold, then the frequency is incremented. -/
def LoadedBitMapStorage.increase_frequency (st : LoadedBitMapStorage) (component i : Nat) :
    Except IndexError LoadedBitMapStorage :=
  match at2 st.frequencies component i with
  | none => .error .out_of_bounds
  | some frequency =>
    let st1 := if frequency = st.frequency_threshold then st.recompute_frequency_threshold
               else st
    .ok { st1 with frequencies := set2 st1.frequencies component i ((frequency + 1) % 2 ^ 32) }

/-- The method `BitMapStorage::check_unload`: the bitmap is dropped when its frequency is
at or above the threshold. -/
def LoadedBitMapStorage.check_unload (st : LoadedBitMapStorage) (component i : Nat) :
    Except IndexError LoadedBitMapStorage :=
  match at2 st.frequencies component i with
  | none => .error .out_of_bounds
  | some frequency =>
    if frequency ≥ st.frequency_threshold then
      .ok { st with bitmaps := set2 st.bitmaps component i none }
    else .ok st

/-- The function `BitMap::load_bitmap_async(fd, start_offset, end_offset)`, carried out on
a file that has the bytes asked for: the bitmap read from the
`end_offset - start_offset` bytes at `start_offset`. -/
def load_bitmap_async (fmt : RoaringFormat) (file : DataFile) (start_offset end_offset : Nat) :
    BitMap :=
  fmt.read (read_file file start_offset ((end_offset + 2 ^ 32 - start_offset) % 2 ^ 32))

/-- The method `BitMapStorage::load_bitmap(component, i, always_store)`: the bitmap
returned and the storage afterwards.  A bitmap that is not in memory is read from the
file at `bitmap_offsets[component][i]`. -/
def LoadedBitMapStorage.load_bitmap (fmt : RoaringFormat) (file : DataFile)
    (st : LoadedBitMapStorage) (component i : Nat) (always_store : Bool) :
    Except IndexError (BitMap × LoadedBitMapStorage) :=
  match st.increase_frequency component i with
  | .error e => .error e
  | .ok st1 =>
    match at2 st1.bitmaps component i with
    | none => .error .out_of_bounds
    | some (some bmp) =>
      if always_store then .ok (bmp, st1)
      else
        match st1.check_unload component i with
        | .error e => .error e
        | .ok st2 => .ok (bmp, st2)
    | some none =>
      match at2 st1.bitmap_offsets component i with
      | none => .error .out_of_bounds
      | some range =>
        let bmp := load_bitmap_async fmt file range.start_offset range.end_offset
        let st2 := { st1 with bitmaps := set2 st1.bitmaps component i (some bmp) }
        if always_store then .ok (bmp, st2)
        else
          match st2.check_unload component i with
          | .error e => .error e
          | .ok st3 => .ok (bmp, st3)

/-- The method `BitMapStorage::load_const_bitmap(component, i, always_store)`: the steps
of `load_bitmap`, the bitmap being handed out without a copy. -/
def LoadedBitMapStorage.load_const_bitmap (fmt : RoaringFormat) (file : DataFile)
    (st : LoadedBitMapStorage) (component i : Nat) (always_store : Bool) :
    Except IndexError (BitMap × LoadedBitMapStorage) :=
  match st.increase_frequency component i with
  | .error e => .error e
  | .ok st1 =>
    match at2 st1.bitmaps component i with
    | none => .error .out_of_bounds
    | some (some bmp) =>
      if always_store then .ok (bmp, st1)
      else
        match st1.check_unload component i with
        | .error e => .error e
        | .ok st2 => .ok (bmp, st2)
    | some none =>
      match at2 st1.bitmap_offsets component i with
      | none => .error .out_of_bounds
      | some range =>
        let bmp := load_bitmap_async fmt file range.start_offset range.end_offset
        let st2 := { st1 with bitmaps := set2 st1.bitmaps component i (some bmp) }
        if always_store then .ok (bmp, st2)
        else
          match st2.check_unload component i with
          | .error e => .error e
          | .ok st3 => .ok (bmp, st3)

/-- The method `BitMapStorage::load_all_values_bitmap`: the all-values bitmap is kept once
it is read. -/
def LoadedBitMapStorage.load_all_values_bitmap (fmt : RoaringFormat) (file : DataFile)
    (st : LoadedBitMapStorage) : BitMap × LoadedBitMapStorage :=
  match st.all_values_bitmap with
  | some bmp => (bmp, st)
  | none =>
    let bmp := load_bitmap_async fmt file st.all_values_bitmap_offsets.start_offset
      st.all_values_bitmap_offsets.end_offset
    (bmp, { st with all_values_bitmap := some bmp })

/-- The default of the parameter `bitmap_cache_size` of `BitMapStorage::load`. -/
def default_bitmap_cache_size : Nat := 1

/-- The default of the parameter `load_all_bitmaps` of `BitMapStorage::load`. -/
def default_load_all_bitmaps : Bool := false

/-- The bitmaps `load` reads out of the buffer for one component:
`BitMap::load(buffer + bitmap_offsets[i][j].start_offset - offsets.start_offset)`. -/
def load_component_bitmaps (fmt : RoaringFormat) (buffer : List Nat) (start_offset : Nat)
    (ranges : List OffsetRange) (count : Nat) : List (Option BitMap) :=
  (List.range count).map (fun j =>
    some (fmt.read (buffer.drop
      (((ranges.getD j default).start_offset + 2 ^ 32 - start_offset) % 2 ^ 32))))

/-- The factory `BitMapStorage::load` on a file that has the bytes asked for.  Without
`load_all_bitmaps` the storage is returned as the constructor made it; with it the range
of the storage is read, `load_offsets` fills the offsets, and every bitmap is read out of
the buffer. -/
def LoadedBitMapStorage.load (fmt : RoaringFormat) (rg_id : Nat)
    (column_dotted_path : List Nat) (file : DataFile) (offsets : OffsetRange)
    (bitmap_counts : List Nat) (bitmap_offsets_lmdb : BitmapOffsetsDictionary)
    (indeterminate : OffsetRange) (bitmap_cache_size : Nat) (load_all_bitmaps : Bool) :
    Except IndexError LoadedBitMapStorage :=
  let storage := LoadedBitMapStorage.new rg_id column_dotted_path bitmap_counts
    bitmap_cache_size indeterminate
  if !load_all_bitmaps then .ok storage
  else
    let expected_size := (offsets.end_offset + 2 ^ 32 - offsets.start_offset) % 2 ^ 32
    let buffer := read_file file offsets.start_offset expected_size
    match load_offsets bitmap_offsets_lmdb rg_id column_dotted_path bitmap_counts with
    | .error e => .error e
    | .ok loaded =>
      .ok { storage with
            all_values_bitmap_offsets := loaded.1
            bitmap_offsets := loaded.2
            file_offsets := offsets
            bitmaps := (List.range bitmap_counts.length).map (fun i =>
              load_component_bitmaps fmt buffer offsets.start_offset (loaded.2.getD i [])
                (bitmap_counts.getD i 0))
            all_values_bitmap := some (fmt.read (buffer.drop
              (loaded.1.start_offset - offsets.start_offset))) }

/-! ## Opening an index of a batch (`batch_bitmap_index.cc`, `bitmap_index.hpp`) -/

/-- The struct `RowGroupInfo`. -/
structure RowGroupInfo where
  id : Nat
  num_docs : Int
  deriving DecidableEq, Repr

/-- The struct `BatchInfo`, of which the index reads `rg_info`. -/
structure BatchInfo where
  rg_info : List RowGroupInfo
  deriving DecidableEq, Repr

/-- The enum `ValueType`. -/
inductive ValueType
  | BOOL | INT8 | UINT8 | INT16 | UINT16 | INT32 | UINT32 | INT64 | UINT64 | FLOAT | DOUBLE
  | STRING
  deriving DecidableEq, Repr

/-- The struct `ColumnReference`. -/
structure ColumnReference where
  dotted_path : List Nat
  type : ValueType
  deriving DecidableEq, Repr

/-- The state of `BatchBitmapIndex`: the batch, the three dictionaries opened read-only,
the dictionary of the attribute values, and the data file behind `fd_`. -/
structure BatchBitmapIndex where
  batch_info : BatchInfo
  bitmap_offsets_lmdb : BitmapOffsetsDictionary
  storage_offsets_lmdb : StorageDictionary OffsetRange
  aux_data_lmdb : StorageDictionary BitmapIndexAuxData
  attr_values_lmdb : LMDBDictionary
  file : DataFile

/-- The method `BatchBitmapIndex::load_storage_offset_range`: the range found, `none` for
the result `false`. -/
def BatchBitmapIndex.load_storage_offset_range (batch : BatchBitmapIndex) (rg_id : Nat)
    (column_ref : ColumnReference) : Option OffsetRange :=
  let storage_id : BitmapStorageLMDBID :=
    { rg_id := rg_id, column_dotted_path := column_ref.dotted_path }
  let iter := batch.storage_offsets_lmdb.find storage_id
  if iter.equals StorageDictionary.end_iterator ∨ iter.value.1 ≠ storage_id then none
  else some iter.value.2

/-- The function `get_aux_data` of `batch_bitmap_index.cc`: `none` for the null pointer
returned when the dictionary has no entry. -/
def get_aux_data (rg_info : RowGroupInfo) (column_ref : ColumnReference)
    (aux_data_lmdb : StorageDictionary BitmapIndexAuxData) : Option BitmapIndexAuxData :=
  let storage_id : BitmapStorageLMDBID :=
    { rg_id := rg_info.id, column_dotted_path := column_ref.dotted_path }
  let iter := aux_data_lmdb.find storage_id
  if iter.equals StorageDictionary.end_iterator then none else some iter.value.2

/-- The method `BitmapIndex<T>::get_aux_data`, which throws when the dictionary has no
entry. -/
def BitmapIndex.get_aux_data (rg_info : RowGroupInfo) (column_ref : ColumnReference)
    (aux_data_lmdb : StorageDictionary BitmapIndexAuxData) :
    Except IndexError BitmapIndexAuxData :=
  let iter := aux_data_lmdb.find
    { rg_id := rg_info.id, column_dotted_path := column_ref.dotted_path }
  if iter.equals StorageDictionary.end_iterator then .error .runtime_error
  else .ok iter.value.2

/-- The index `get_bitmap_index` hands out: a `BitmapIndex<T>` for the type `T` of the
column, over a storage loaded from the file. -/
structure LoadedBitmapIndex where
  value_type : ValueType
  rg_info : RowGroupInfo
  column_ref : ColumnReference
  storage : LoadedBitMapStorage
  attr_values_lmdb : LMDBDictionary
  aux_data : BitmapIndexAuxData

/-- The method `BitmapIndex<T>::load` on a loaded storage. -/
def LoadedBitmapIndex.load (rg_info : RowGroupInfo) (column_ref : ColumnReference)
    (storage : LoadedBitMapStorage) (attr_values_lmdb : LMDBDictionary)
    (aux_data_lmdb : StorageDictionary BitmapIndexAuxData) :
    Except IndexError LoadedBitmapIndex :=
  match BitmapIndex.get_aux_data rg_info column_ref aux_data_lmdb with
  | .error e => .error e
  | .ok aux_data =>
    .ok { value_type := column_ref.type, rg_info := rg_info, column_ref := column_ref,
          storage := storage, attr_values_lmdb := attr_values_lmdb, aux_data := aux_data }

/-- The method `BatchBitmapIndex::get_bitmap_index(rg_id, column_ref)`: `none` is the null
pointer.  The row group is `batch_info_->rg_info[rg_id]`; the range of the storage is
looked up under `rg_id`, the auxiliary data under the id of that row group. -/
def BatchBitmapIndex.get_bitmap_index (fmt : RoaringFormat) (batch : BatchBitmapIndex)
    (indeterminate : OffsetRange) (rg_id : Nat) (column_ref : ColumnReference) :
    Except IndexError (Option LoadedBitmapIndex) :=
  match batch.batch_info.rg_info[rg_id]? with
  | none => .error .out_of_bounds
  | some rg_info =>
    match batch.load_storage_offset_range rg_id column_ref with
    | none => .ok none
    | some offsets =>
      match get_aux_data rg_info column_ref batch.aux_data_lmdb with
      | none => .ok none
      | some aux_data =>
        match LoadedBitMapStorage.load fmt rg_info.id column_ref.dotted_path batch.file
            offsets aux_data.bitmap_counts batch.bitmap_offsets_lmdb indeterminate INT_MAX
            true with
        | .error e => .error e
        | .ok storage =>
          match LoadedBitmapIndex.load rg_info column_ref storage batch.attr_values_lmdb
              batch.aux_data_lmdb with
          | .error e => .error e
          | .ok index => .ok (some index)

/-! ## Scenario data of the batch -/

/-- An index over the storage of `bitmap_storage_save_load_test`, waiting to be saved. -/
def test_finished_index : BitmapIndex :=
  { T := uint32_t
    rg_id := test_rg_id
    column_dotted_path := test_column_path
    storage := test_created_storage
    attr_values_lmdb := []
    aux_data := configure uint32_t values_S1 .INTERVAL .BITMAP }

/-- A storage with the bitmap counts `[128, 128]`, an EQUALITY index over 16384 values: 257
bitmaps with the all-values bitmap. -/
def storage_257 : BitMapStorage := BitMapStorage.create [128, 128]

/-- A builder that has one finished index and nothing saved yet. -/
def test_builder : BatchBitmapIndexBuilder :=
  { bmp_futures := [test_finished_index], bitmap_offsets_lmdb := [],
    storage_offsets_lmdb := [], aux_data_lmdb := [], file := empty_file,
    current_offset := 0 }

/-- A builder that has one finished index and has written `2 ^ 32 - 4096` bytes for other
row groups or columns before. -/
def test_builder_at_4gb : BatchBitmapIndexBuilder :=
  { bmp_futures := [test_finished_index], bitmap_offsets_lmdb := [],
    storage_offsets_lmdb := [], aux_data_lmdb := [], file := empty_file,
    current_offset := 4294963200 }

/-! ## What the specification says of the ranges of the storages -/

/-- The sizes `get_total_byte_size` gives the storages of the indexes. -/
def storage_sizes (fmt : RoaringFormat) (indexes : List BitmapIndex) : List Nat :=
  indexes.map (fun index => get_total_byte_size fmt index.storage)

/-- The key of the storage of an index. -/
def storage_key (index : BitmapIndex) : BitmapStorageLMDBID :=
  { rg_id := index.rg_id, column_dotted_path := index.column_dotted_path }

/-- The range the specification gives the storage of the index number `k`: it starts at the
cursor, `offset` advanced by the sizes of the storages before it, and has the size of the
storage. -/
def expected_storage_range (fmt : RoaringFormat) (indexes : List BitmapIndex)
    (offset k : Nat) : OffsetRange :=
  { start_offset := offset + ((storage_sizes fmt indexes).take k).sum
    end_offset := offset + ((storage_sizes fmt indexes).take k).sum
      + (storage_sizes fmt indexes).getD k 0 }

/-- The index read at a place past the end of a vector of indexes: never read where the
place is in range. -/
def default_index : BitmapIndex :=
  { T := uint32_t, rg_id := 0, column_dotted_path := [], storage := BitMapStorage.create [],
    attr_values_lmdb := [], aux_data := default }

/-- A batch after a build that was aborted before `save_all` recorded the range of the
storage: the auxiliary data and the offsets of a bitmap are in their tables, the table of
the storage offsets is empty. -/
def test_aborted_batch : BatchBitmapIndex :=
  { batch_info := { rg_info := [{ id := 0, num_docs := 7 }] }
    bitmap_offsets_lmdb :=
      [(BitmapLMDBID.new 0 test_column_path 0, { start_offset := 0, end_offset := 8 })]
    storage_offsets_lmdb := []
    aux_data_lmdb :=
      [({ rg_id := 0, column_dotted_path := test_column_path },
        configure uint32_t values_S1 .INTERVAL .BITMAP)]
    attr_values_lmdb := []
    file := empty_file }

/-- A batch whose only row group, at place 0, has the id 2, as the batch of `create_index`
of the tests: the range of a storage is recorded under the key of `(0, column)`, the
auxiliary data and the offsets of the four bitmaps under the keys of the row group id 2,
whose storage range was not recorded. -/
def test_mixed_batch : BatchBitmapIndex :=
  { batch_info := { rg_info := [{ id := 2, num_docs := 7 }] }
    bitmap_offsets_lmdb :=
      [(BitmapLMDBID.new 2 test_column_path 0, { start_offset := 0, end_offset := 8 }),
       (BitmapLMDBID.new 2 test_column_path 1, { start_offset := 8, end_offset := 16 }),
       (BitmapLMDBID.new 2 test_column_path 2, { start_offset := 16, end_offset := 24 }),
       (BitmapLMDBID.new 2 test_column_path 3, { start_offset := 24, end_offset := 32 })]
    storage_offsets_lmdb :=
      [({ rg_id := 0, column_dotted_path := test_column_path },
        { start_offset := 0, end_offset := 4096 })]
    aux_data_lmdb :=
      [({ rg_id := 2, column_dotted_path := test_column_path },
        configure uint32_t values_S1 .INTERVAL .BITMAP)]
    attr_values_lmdb := []
    file := empty_file }

/-- The column of the tests, of the type `uint32_t`. -/
def test_column_ref : ColumnReference :=
  { dotted_path := test_column_path, type := .UINT32 }

/-! ## Calls on a loaded storage and what the specification says of them -/

/-- A call of one of the three loading methods of a storage. -/
inductive StorageCall
  | load_bitmap (component i : Nat) (always_store : Bool)
  | load_const_bitmap (component i : Nat) (always_store : Bool)
  | load_all_values_bitmap
  deriving DecidableEq, Repr

/-- One call: the bitmap returned and the storage afterwards. -/
def LoadedBitMapStorage.call (fmt : RoaringFormat) (file : DataFile)
    (st : LoadedBitMapStorage) : StorageCall → Except IndexError (BitMap × LoadedBitMapStorage)
  | .load_bitmap component i always_store => st.load_bitmap fmt file component i always_store
  | .load_const_bitmap component i always_store =>
    st.load_const_bitmap fmt file component i always_store
  | .load_all_values_bitmap => .ok (st.load_all_values_bitmap fmt file)

/-- A sequence of calls, one after the other on the same storage: the bitmaps returned. -/
def LoadedBitMapStorage.calls (fmt : RoaringFormat) (file : DataFile) :
    LoadedBitMapStorage → List StorageCall → Except IndexError (List BitMap)
  | _, [] => .ok []
  | st, call :: rest =>
    match st.call fmt file call with
    | .error e => .error e
    | .ok r =>
      match LoadedBitMapStorage.calls fmt file r.2 rest with
      | .error e => .error e
      | .ok results => .ok (r.1 :: results)

/-- The persisted contents of the bitmap a call asks for: what the file holds at the
offsets recorded for the bitmap. -/
def persisted_contents (fmt : RoaringFormat) (file : DataFile) (st : LoadedBitMapStorage) :
    StorageCall → Option BitMap
  | .load_bitmap component i _ =>
    (at2 st.bitmap_offsets component i).map
      (fun range => load_bitmap_async fmt file range.start_offset range.end_offset)
  | .load_const_bitmap component i _ =>
    (at2 st.bitmap_offsets component i).map
      (fun range => load_bitmap_async fmt file range.start_offset range.end_offset)
  | .load_all_values_bitmap =>
    some (load_bitmap_async fmt file st.all_values_bitmap_offsets.start_offset
      st.all_values_bitmap_offsets.end_offset)

/-- The call asks for a bitmap the storage has. -/
def StorageCall.in_range (bitmap_counts : List Nat) : StorageCall → Prop
  | .load_bitmap component i _ => in_bounds bitmap_counts component i
  | .load_const_bitmap component i _ => in_bounds bitmap_counts component i
  | .load_all_values_bitmap => True

/-- The state of a storage whose offsets are loaded: the vectors of the frequencies, of the
bitmaps and of the offsets have an element for every bitmap, and every bitmap in memory
holds the persisted contents. -/
structure offsets_loaded (fmt : RoaringFormat) (file : DataFile)
    (st : LoadedBitMapStorage) : Prop where
  frequencies : ∀ component i, in_bounds st.bitmap_counts component i →
    (at2 st.frequencies component i).isSome
  bitmaps : ∀ component i, in_bounds st.bitmap_counts component i →
    (at2 st.bitmaps component i).isSome
  bitmap_offsets : ∀ component i, in_bounds st.bitmap_counts component i →
    (at2 st.bitmap_offsets component i).isSome
  consistent : ∀ component i bmp range, at2 st.bitmaps component i = some (some bmp) →
    at2 st.bitmap_offsets component i = some range →
    bmp = load_bitmap_async fmt file range.start_offset range.end_offset
  all_values : ∀ bmp, st.all_values_bitmap = some bmp →
    bmp = load_bitmap_async fmt file st.all_values_bitmap_offsets.start_offset
      st.all_values_bitmap_offsets.end_offset

/-- A storage of one component bitmap, loaded with the cache size 0: the bitmap is not in
memory, its offsets are. -/
def test_loaded_storage : LoadedBitMapStorage :=
  { rg_id := test_rg_id
    column_dotted_path := test_column_path
    bitmap_counts := [1]
    bitmap_cache_size := 0
    bitmaps := [[none]]
    frequencies := [[0]]
    frequency_threshold := 0
    all_values_bitmap := none
    bitmap_offsets := [[{ start_offset := 8, end_offset := 16 }]]
    all_values_bitmap_offsets := { start_offset := 0, end_offset := 8 }
    file_offsets := { start_offset := 0, end_offset := 4096 } }

/-- The same storage with a cache for all bitmaps and the bitmap in memory. -/
def test_loaded_storage_unbounded : LoadedBitMapStorage :=
  { test_loaded_storage with
    bitmap_cache_size := INT_MAX
    bitmaps := [[some ∅]]
    frequency_threshold := UINT32_MAX }

/-- Calls on the storage of one bitmap: the bitmap twice, pinned once, and the all-values
bitmap. -/
def test_calls : List StorageCall :=
  [.load_bitmap 0 0 false, .load_const_bitmap 0 0 true, .load_all_values_bitmap,
   .load_bitmap 0 0 false]

/-! ## The single-row insert (`bitmap_index.hpp`, `bitmap_storage.cc`) -/

/-- The method `BitMapStorage::add_to_all_values_bitmap(value)` for one value. -/
def BitMapStorage.add_value_to_all_values_bitmap (st : BitMapStorage) (value : DocumentID) :
    BitMapStorage :=
  { st with all_values_bitmap := st.all_values_bitmap ∪ {value} }

/-- The method `BitMapStorage::add_to_bitmap(component, i, value)` for one value. -/
def BitMapStorage.add_value_to_bitmap (st : BitMapStorage) (component i : Nat)
    (value : DocumentID) : Except IndexError BitMapStorage :=
  if in_bounds st.bitmap_counts component i then
    .ok { st with bitmaps := fun c j =>
            if c = component ∧ j = i then st.bitmaps c j ∪ {value}
            else st.bitmaps c j }
  else .error .out_of_bounds

/-- The bitmaps `j` of component `i` that `insert_mapped_value` writes for the digit
`decomposed[i]`, in the order of its inner loop.  For INTERVAL the bounds are
`start_of_range = max(decomposed[i] - m, 0)` and `end_of_range = min(decomposed[i],
base - m - 1)`, computed in `uint32_t`. -/
def single_insert_bitmaps (aux_data : BitmapIndexAuxData) (i digit : Nat) :
    Except IndexError (List Nat) :=
  match aux_data.enc_type with
  | .EQUALITY => .ok [digit]
  | .INTERVAL =>
    match aux_data.vd.get_base i with
    | none => .error .out_of_bounds
    | some base =>
      let m := (base / 2 + 2 ^ 32 - 1) % 2 ^ 32
      let start_of_range := max ((digit + 2 ^ 32 - m) % 2 ^ 32) 0
      let end_of_range := min digit (((base + 2 ^ 32 - m) % 2 ^ 32 + 2 ^ 32 - 1) % 2 ^ 32)
      .ok (List.range' start_of_range (end_of_range + 1 - start_of_range))
  | .RANGE =>
    match aux_data.vd.get_base i with
    | none => .error .out_of_bounds
    | some base => .ok (List.range' digit (base - 1 - digit))

/-- The inner loop over `j` of `insert_mapped_value`: `storage_->add_to_bitmap(i, j,
row_id)` for every `j` of the list. -/
def insert_value_bitmaps (i : Nat) (row_id : DocumentID) :
    List Nat → BitMapStorage → Except IndexError BitMapStorage
  | [], storage => .ok storage
  | j :: rest, storage =>
    match storage.add_value_to_bitmap i j row_id with
    | .error e => .error e
    | .ok storage1 => insert_value_bitmaps i row_id rest storage1

/-- The loop over the components `i < decomposed.size()` of `insert_mapped_value`, from
component `i` on. -/
def insert_value_components (aux_data : BitmapIndexAuxData) (row_id : DocumentID) :
    Nat → List Nat → BitMapStorage → Except IndexError BitMapStorage
  | _, [], storage => .ok storage
  | i, digit :: decomposed, storage =>
    match single_insert_bitmaps aux_data i digit with
    | .error e => .error e
    | .ok bitmaps =>
      match insert_value_bitmaps i row_id bitmaps storage with
      | .error e => .error e
      | .ok storage1 => insert_value_components aux_data row_id (i + 1) decomposed storage1

/-- The method `insert_mapped_value(row_id, mapped_value)`. -/
def insert_mapped_value (aux_data : BitmapIndexAuxData) (storage : BitMapStorage)
    (row_id : DocumentID) (mapped_value : Nat) : Except IndexError BitMapStorage :=
  insert_value_components aux_data row_id 0 (aux_data.vd.decompose mapped_value).1
    (storage.add_value_to_all_values_bitmap row_id)

/-- The method `insert(row_id, value)` of an index: the storage afterwards. -/
def insert_value (index : BitmapIndex) (row_id : DocumentID) (value : Int) :
    Except IndexError BitMapStorage :=
  match get_lmdb_attr_value index.T index.rg_id index.column_dotted_path index.aux_data
      index.attr_values_lmdb value with
  | .error e => .error e
  | .ok mapped => insert_mapped_value index.aux_data index.storage row_id
      (Int.toNat (mapped % 2 ^ 64))

/-- A sequence of calls of `insert_mapped_values` on the same storage, one batch after the
other. -/
def insert_batches (aux_data : BitmapIndexAuxData) :
    BitMapStorage → List (List (DocumentID × Nat)) → Except IndexError BitMapStorage
  | storage, [] => .ok storage
  | storage, batch :: rest =>
    match insert_mapped_values aux_data storage batch with
    | .error e => .error e
    | .ok storage1 => insert_batches aux_data storage1 rest

/-! ## Reading keys back (`lmdb_values.cc`) -/

/-- The constructor `std::string(const char*)`: the bytes before the first 0. -/
def c_string : List Nat → List Nat
  | [] => []
  | byte :: rest => if byte = 0 then [] else byte :: c_string rest

/-- The method `BitmapLMDBID::from_byte_array(size, buffer)`: `rg_id` from the first four
bytes, the path up to the first 0, `bitmap_number` from the two bytes after that 0. -/
def BitmapLMDBID.from_byte_array (buffer : List Nat) : BitmapLMDBID :=
  let column_dotted_path := c_string (buffer.drop 4)
  { rg_id := of_le_bytes (buffer.take 4)
    column_dotted_path := column_dotted_path
    bitmap_number :=
      of_le_bytes ((buffer.drop (4 + column_dotted_path.length + 1)).take 2) }

/-- The bytes every key of one row group and column begins with: `rg_id`, the path, and
the terminating 0. -/
def column_key_bytes (rg_id : Nat) (column_dotted_path : List Nat) : List Nat :=
  le_bytes 4 rg_id ++ column_dotted_path ++ [0]

/-! ## Snapshot ranges (`common.h`, `common.cc`) -/

/-- The struct `SnapshotRange`; a `SnapshotID` is an `int64_t`. -/
structure SnapshotRange where
  min_snapshot_id : Int
  max_snapshot_id : Int
  deriving DecidableEq, Repr

/-- The method `SnapshotRange::intersects(other)`. -/
def SnapshotRange.intersects (self other : SnapshotRange) : Bool :=
  (decide (self.min_snapshot_id ≥ other.min_snapshot_id)
      && decide (self.min_snapshot_id ≤ other.max_snapshot_id))
    || (decide (self.max_snapshot_id ≥ other.min_snapshot_id)
      && decide (self.max_snapshot_id ≤ other.max_snapshot_id))

/-- The closed intervals of two snapshot ranges have a snapshot id in common. -/
def SnapshotRange.shares_id (a b : SnapshotRange) : Prop :=
  ∃ id : Int, a.min_snapshot_id ≤ id ∧ id ≤ a.max_snapshot_id ∧
    b.min_snapshot_id ≤ id ∧ id ≤ b.max_snapshot_id

/-! ## Scenario data: cache, dictionary and single insert -/

/-- The number of component bitmaps whose access frequency is at least the threshold. -/
def cached_candidates (st : LoadedBitMapStorage) : Nat :=
  ((collect_frequencies st.frequencies st.bitmap_counts 0).filter
    (fun frequency => decide (frequency ≥ st.frequency_threshold))).length

/-- The number of component bitmaps whose access frequency is below the threshold. -/
def below_threshold (st : LoadedBitMapStorage) : Nat :=
  ((collect_frequencies st.frequencies st.bitmap_counts 0).filter
    (fun frequency => decide (frequency < st.frequency_threshold))).length

/-- A storage of three component bitmaps with the cache size 1, whose bitmaps were read 3,
2 and 1 times. -/
def test_storage_321 : LoadedBitMapStorage :=
  { rg_id := test_rg_id
    column_dotted_path := test_column_path
    bitmap_counts := [3]
    bitmap_cache_size := 1
    bitmaps := [[none, none, none]]
    frequencies := [[3, 2, 1]]
    frequency_threshold := 0
    all_values_bitmap := none
    bitmap_offsets := [[{ start_offset := 8, end_offset := 16 },
      { start_offset := 16, end_offset := 24 }, { start_offset := 24, end_offset := 32 }]]
    all_values_bitmap_offsets := { start_offset := 0, end_offset := 8 }
    file_offsets := { start_offset := 0, end_offset := 4096 } }

/-- A storage of two component bitmaps as `load` with `bitmap_cache_size = 1` and
`load_all_bitmaps = true` returns it: both bitmaps in memory, frequencies 0, threshold 0. -/
def test_storage_two : LoadedBitMapStorage :=
  { rg_id := test_rg_id
    column_dotted_path := test_column_path
    bitmap_counts := [2]
    bitmap_cache_size := 1
    bitmaps := [[some {15}, some {16}]]
    frequencies := [[0, 0]]
    frequency_threshold := 0
    all_values_bitmap := some {15, 16}
    bitmap_offsets := [[{ start_offset := 8, end_offset := 16 },
      { start_offset := 16, end_offset := 24 }]]
    all_values_bitmap_offsets := { start_offset := 0, end_offset := 8 }
    file_offsets := { start_offset := 0, end_offset := 4096 } }

/-- Two rows whose values span 16 values: the basis of their index is `[4, 4]`. -/
def values_span_16 : List (DocumentID × Int) :=
  [(1, 0), (2, 15)]

/-- Four rows `(document, mapped value)` as `insert(values)` hands them to
`insert_mapped_values`. -/
def mapped_rows_four : List (DocumentID × Nat) :=
  [(15, 0), (16, 1), (25, 3), (40, 4)]

/-- What is looked at in a storage after an insert of the row `row_id`: whether the row is
in bitmap `(0, 0)`, in bitmap `(1, 0)` and in the all-values bitmap. -/
def row_in_first_bitmaps (row_id : DocumentID) (storage : BitMapStorage) :
    Bool × Bool × Bool :=
  (decide (row_id ∈ storage.bitmaps 0 0), decide (row_id ∈ storage.bitmaps 1 0),
    decide (row_id ∈ storage.all_values_bitmap))

/-- The key of a value of the test column. -/
def test_key (value : Int) : AttributeValue :=
  { rg_id := test_rg_id, column_dotted_path := test_column_path, value := value }

/-- The attribute-value dictionary of a column with the values 1 and 2. -/
def test_dictionary : LMDBDictionary :=
  [(test_key 1, 0), (test_key 2, 1)]

/-- An index without rows on a given basis: the bitmap counts are the ones
`calculate_bitmap_counts` derives from the basis, the storage is the one `create` makes. -/
def index_of_basis (basis : List Nat) (enc_type : BitmapIndexEncodingType) : BitmapIndex :=
  { T := uint32_t, rg_id := test_rg_id, column_dotted_path := test_column_path,
    storage := BitMapStorage.create (calculate_bitmap_counts basis enc_type),
    attr_values_lmdb := [],
    aux_data :=
      { vd := ValueDecomposer.new basis,
        bitmap_counts := calculate_bitmap_counts basis enc_type,
        cardinality := 0, enc_type := enc_type, use_value_mapping := false,
        min_mapped_value := 0, max_mapped_value := 0 } }

/-! ## Columns of 64-bit unsigned values -/

/-- The type `uint64_t`. -/
def uint64_t : IntegralType := { size := 8, is_signed := false }

/-- Two rows of a `uint64_t` column whose second value lies above the largest `int64_t`. -/
def values_wide : List (DocumentID × Int) :=
  [(1, 5), (2, 2 ^ 63 + 5)]

/-- Three rows of a `uint64_t` column with the values 0, 1 and 2. -/
def values_low : List (DocumentID × Int) :=
  [(1, 0), (2, 1), (3, 2)]

/-- Two rows of a `uint64_t` column with the smallest and the largest value of the type. -/
def values_extremes : List (DocumentID × Int) :=
  [(1, 0), (2, 2 ^ 64 - 1)]

/-- The type `int64_t`. -/
def int64_t : IntegralType := { size := 8, is_signed := true }

/-- Two rows of an `int64_t` column whose values lie more than `2 ^ 63` apart. -/
def values_span : List (DocumentID × Int) :=
  [(1, -(2 ^ 62) - 1), (2, 2 ^ 62)]

/-- Two rows of an `int64_t` column with the smallest and the largest value of the type. -/
def values_full_span : List (DocumentID × Int) :=
  [(1, -(2 ^ 63)), (2, 2 ^ 63 - 1)]

/-- Two rows of an `int64_t` column with the values `-2 ^ 61` and `2 ^ 61 - 1`, `2 ^ 62`
values apart. -/
def values_large : List (DocumentID × Int) :=
  [(1, -(2 ^ 61)), (2, 2 ^ 61 - 1)]

/-- Two rows of an `int64_t` column with the values `-2 ^ 61` and `2 ^ 61 - 2 ^ 20 - 1`,
`2 ^ 62 - 2 ^ 20` values apart. -/
def values_large_range : List (DocumentID × Int) :=
  [(1, -(2 ^ 61)), (2, 2 ^ 61 - 2 ^ 20 - 1)]

/-- The table of the auxiliary data after an earlier build for the row group and the column
of the tests. -/
def test_aux_data_table : StorageDictionary BitmapIndexAuxData :=
  [({ rg_id := test_rg_id, column_dotted_path := test_column_path },
    configure uint32_t values_S1 .EQUALITY .BITMAP)]

/-! ## Facts about the decomposition -/

theorem decompose_loop_base_2_eq (basis : List Nat) (value : Nat)
    (h : ∀ b ∈ basis, b = 2) :
    decompose_loop_base_2 basis value = decompose_loop basis value := by
  induction basis with
  | nil => rfl
  | cons b rest ih =>
    have hb : b = 2 := h b (List.mem_cons_self _ _)
    have hr : ∀ x ∈ rest, x = 2 := fun x hx => h x (List.mem_cons_of_mem _ hx)
    simp only [decompose_loop_base_2, decompose_loop, ih hr, hb, Nat.and_one_is_mod,
      Nat.shiftRight_one]

theorem decompose_eq_loop (basis : List Nat) (value : Nat) :
    ((ValueDecomposer.new basis).decompose value).1 = (decompose_loop basis value).1 ∧
    ((ValueDecomposer.new basis).decompose value).2
      = decide ((decompose_loop basis value).2 = 0) := by
  unfold ValueDecomposer.decompose ValueDecomposer.new
  by_cases h : basis.all (fun base => decide (base = 2)) = true
  · have h2 : ∀ b ∈ basis, b = 2 := by
      intro b hb
      have := List.all_eq_true.mp h b hb
      simpa using this
    simp only [h, if_true, decompose_loop_base_2_eq basis value h2, and_self]
  · simp only [h, Bool.false_eq_true, if_false, and_self]

theorem decompose_loop_length (basis : List Nat) (value : Nat) :
    (decompose_loop basis value).1.length = basis.length := by
  induction basis with
  | nil => rfl
  | cons b rest ih => simp [decompose_loop, ih]

/-- The rest left by the loop is the quotient by the product of the basis, and the digits
recompose to the remainder. -/
theorem decompose_loop_spec (basis : List Nat) (value : Nat) (h : ∀ b ∈ basis, 1 ≤ b) :
    (decompose_loop basis value).2 = value / basis.prod ∧
    recompose basis (decompose_loop basis value).1 = value % basis.prod := by
  induction basis with
  | nil => simp [decompose_loop, recompose, Nat.mod_one]
  | cons b rest ih =>
    have hr : ∀ x ∈ rest, 1 ≤ x := fun x hx => h x (List.mem_cons_of_mem _ hx)
    obtain ⟨ih1, ih2⟩ := ih hr
    constructor
    · simp only [decompose_loop, ih1, List.prod_cons]
      rw [Nat.div_div_eq_div_mul, Nat.mul_comm]
    · simp only [decompose_loop, recompose, ih1, ih2, List.prod_cons]
      rw [Nat.mul_comm b rest.prod, Nat.mod_mul, Nat.mul_comm, Nat.add_comm]

/-- C10: for every basis whose bases are all at least 1 and every value below the product
of the basis, `decompose` reports success and its digits, recomposed most significant
first, give back the value. -/
theorem decompose_recompose (basis : List Nat) (v : Nat)
    (hb : ∀ b ∈ basis, 1 ≤ b) (hv : v < basis.prod) :
    ((ValueDecomposer.new basis).decompose v).2 = true ∧
    recompose basis ((ValueDecomposer.new basis).decompose v).1 = v := by
  obtain ⟨h1, h2⟩ := decompose_eq_loop basis v
  obtain ⟨s1, s2⟩ := decompose_loop_spec basis v hb
  rw [h1, h2, s1, s2, Nat.div_eq_of_lt hv, Nat.mod_eq_of_lt hv]
  simp

theorem decompose_recompose_witness :
    ((ValueDecomposer.new [3, 4, 2]).decompose 17).2 = true ∧
    recompose [3, 4, 2] ((ValueDecomposer.new [3, 4, 2]).decompose 17).1 = 17 :=
  decompose_recompose [3, 4, 2] 17 (by decide) (by decide)

/-! ## Digits -/

theorem vd_decompose_fst (basis : List Nat) (value : Nat) :
    ((ValueDecomposer.new basis).decompose value).1 = digits basis value :=
  (decompose_eq_loop basis value).1

theorem digits_length (basis : List Nat) (value : Nat) :
    (digits basis value).length = basis.length :=
  decompose_loop_length basis value

theorem digits_nil (value : Nat) : digits [] value = [] := rfl

theorem digits_cons (b : Nat) (rest : List Nat) (value : Nat) (h : ∀ x ∈ rest, 1 ≤ x) :
    digits (b :: rest) value = (value / rest.prod % b) :: digits rest value := by
  simp only [digits, decompose_loop, (decompose_loop_spec rest value h).1]

theorem prod_pos_of_ge_one (basis : List Nat) (h : ∀ b ∈ basis, 1 ≤ b) : 0 < basis.prod := by
  induction basis with
  | nil => simp
  | cons b rest ih =>
    have hb : 1 ≤ b := h b (List.mem_cons_self _ _)
    have hr := ih (fun x hx => h x (List.mem_cons_of_mem _ hx))
    simp only [List.prod_cons]
    exact Nat.mul_pos hb hr

theorem digit_of_lt (basis : List Nat) (h : ∀ b ∈ basis, 1 ≤ b) (value i : Nat)
    (hi : i < basis.length) : digit_of basis i value < basis.getD i 0 := by
  induction basis generalizing i with
  | nil => simp at hi
  | cons b rest ih =>
    have hb : 1 ≤ b := h b (List.mem_cons_self _ _)
    have hr : ∀ x ∈ rest, 1 ≤ x := fun x hx => h x (List.mem_cons_of_mem _ hx)
    unfold digit_of
    rw [digits_cons b rest value hr]
    cases i with
    | zero => simpa using Nat.mod_lt _ hb
    | succ k =>
      have hk : k < rest.length := by simpa using hi
      simpa [digit_of] using ih hr k hk

theorem digit_of_cons_zero (b : Nat) (rest : List Nat) (value : Nat) (h : ∀ x ∈ rest, 1 ≤ x) :
    digit_of (b :: rest) 0 value = value / rest.prod % b := by
  unfold digit_of; rw [digits_cons b rest value h]; rfl

theorem digit_of_cons_succ (b : Nat) (rest : List Nat) (value i : Nat)
    (h : ∀ x ∈ rest, 1 ≤ x) :
    digit_of (b :: rest) (i + 1) value = digit_of rest i value := by
  unfold digit_of; rw [digits_cons b rest value h]; rfl

theorem recompose_digits (basis : List Nat) (value : Nat) (h : ∀ b ∈ basis, 1 ≤ b) :
    recompose basis (digits basis value) = value % basis.prod :=
  (decompose_loop_spec basis value h).2

theorem digits_injective (basis : List Nat) (h : ∀ b ∈ basis, 1 ≤ b) (x u : Nat)
    (hx : x < basis.prod) (hu : u < basis.prod) (he : digits basis x = digits basis u) :
    x = u := by
  have h1 := recompose_digits basis x h
  have h2 := recompose_digits basis u h
  rw [he, h2, Nat.mod_eq_of_lt hu, Nat.mod_eq_of_lt hx] at h1
  exact h1.symm

theorem le_iff_div_mod (a b P : Nat) (hP : 0 < P) :
    a ≤ b ↔ a / P < b / P ∨ (a / P = b / P ∧ a % P ≤ b % P) := by
  have h1 := Nat.div_add_mod a P
  have h2 := Nat.div_add_mod b P
  constructor
  · intro h
    by_cases hlt : a / P < b / P
    · left; exact hlt
    · right
      have : a / P = b / P := le_antisymm (Nat.div_le_div_right h) (not_lt.mp hlt)
      refine ⟨this, ?_⟩
      rw [this] at h1
      omega
  · rintro (h | ⟨h, h'⟩)
    · have h3 := Nat.mod_lt a hP
      have : P * (a / P + 1) ≤ P * (b / P) := Nat.mul_le_mul_left _ h
      rw [Nat.mul_add] at this
      omega
    · rw [h] at h1; omega

/-- Comparing digit vectors lexicographically is comparing the values modulo the product
of the basis. -/
theorem lex_le_digits (basis : List Nat) (h : ∀ b ∈ basis, 1 ≤ b) (x u : Nat) :
    lex_le (digits basis x) (digits basis u) ↔ x % basis.prod ≤ u % basis.prod := by
  induction basis with
  | nil => simp [digits_nil, lex_le, Nat.mod_one]
  | cons b rest ih =>
    have hb : 1 ≤ b := h b (List.mem_cons_self _ _)
    have hr : ∀ y ∈ rest, 1 ≤ y := fun y hy => h y (List.mem_cons_of_mem _ hy)
    have hP := prod_pos_of_ge_one rest hr
    rw [digits_cons b rest x hr, digits_cons b rest u hr]
    simp only [lex_le, ih hr, List.prod_cons]
    rw [le_iff_div_mod (x % (b * rest.prod)) (u % (b * rest.prod)) rest.prod hP]
    have e1 : ∀ y : Nat, y % (b * rest.prod) / rest.prod = y / rest.prod % b := by
      intro y
      rw [Nat.mul_comm b rest.prod, Nat.mod_mul_right_div_self]
    have e2 : ∀ y : Nat, y % (b * rest.prod) % rest.prod = y % rest.prod := by
      intro y
      rw [Nat.mul_comm b rest.prod]
      exact Nat.mod_mul_right_mod y rest.prod b
    rw [e1, e1, e2, e2]

theorem lex_le_digits_of_lt (basis : List Nat) (h : ∀ b ∈ basis, 1 ≤ b) (x u : Nat)
    (hx : x < basis.prod) (hu : u < basis.prod) :
    lex_le (digits basis x) (digits basis u) ↔ x ≤ u := by
  rw [lex_le_digits basis h, Nat.mod_eq_of_lt hx, Nat.mod_eq_of_lt hu]

/-! ## Which bitmaps a digit is written to -/

theorem mem_bitmaps_of_digit_equality (base count digit j : Nat) :
    j ∈ bitmaps_of_digit .EQUALITY base count digit ↔ j = digit := by
  simp [bitmaps_of_digit]

theorem mem_bitmaps_of_digit_range (base count digit j : Nat) :
    j ∈ bitmaps_of_digit .RANGE base count digit ↔ digit ≤ j ∧ j + 2 ≤ base := by
  simp only [bitmaps_of_digit, List.mem_range'_1]
  omega

theorem mem_bitmaps_of_digit_interval (base digit j : Nat) (h1 : 1 ≤ base)
    (h2 : base + 1 < 2 ^ 32) (hd : digit < base) :
    j ∈ bitmaps_of_digit .INTERVAL base (((base + 1) % 2 ^ 32) / 2) digit ↔
      j ≤ digit ∧ digit ≤ j + (base / 2 - 1) ∧ j < (base + 1) / 2 := by
  simp only [bitmaps_of_digit, List.mem_range'_1]
  split_ifs with h <;> omega

theorem counts_getD (basis : List Nat) (enc_type : BitmapIndexEncodingType) (i : Nat)
    (hi : i < basis.length) :
    (calculate_bitmap_counts basis enc_type).getD i 0 =
      match enc_type with
      | .EQUALITY => basis.getD i 0
      | .INTERVAL => ((basis.getD i 0 + 1) % 2 ^ 32) / 2
      | .RANGE => (basis.getD i 0 + 2 ^ 32 - 1) % 2 ^ 32 := by
  unfold calculate_bitmap_counts
  rw [List.getD_eq_getElem _ _ (by simpa using hi), List.getD_eq_getElem _ _ hi,
    List.getElem_map]
  cases enc_type <;> rfl

theorem counts_length (basis : List Nat) (enc_type : BitmapIndexEncodingType) :
    (calculate_bitmap_counts basis enc_type).length = basis.length := by
  simp [calculate_bitmap_counts]

/-! ## Components of a built index -/

section built
variable {index : BitmapIndex} {mapped : List (DocumentID × Nat)}

theorem Stored.base_bounds (hB : Stored index mapped) (i : Nat)
    (hi : i < index.aux_data.vd.basis.length) :
    1 ≤ index.aux_data.vd.basis.getD i 0 ∧
      index.aux_data.vd.basis.getD i 0 + 1 < 2 ^ 32 := by
  rw [List.getD_eq_getElem _ _ hi]
  exact ⟨hB.base_ge _ (List.getElem_mem _), hB.base_lt _ (List.getElem_mem _)⟩

theorem Stored.get_base (_hB : Stored index mapped) (i : Nat)
    (hi : i < index.aux_data.vd.basis.length) :
    index.aux_data.vd.get_base i = some (index.aux_data.vd.basis.getD i 0) := by
  unfold ValueDecomposer.get_base
  rw [List.getD_eq_getElem _ _ hi, List.getElem?_eq_getElem hi]

theorem Stored.in_bounds_iff (hB : Stored index mapped) (i j : Nat)
    (hi : i < index.aux_data.vd.basis.length) :
    in_bounds index.aux_data.bitmap_counts i j ↔ j < index.aux_data.bitmap_counts.getD i 0 := by
  unfold in_bounds
  rw [hB.counts_eq, counts_length]
  simp [hi]

theorem Stored.load (hB : Stored index mapped) (i j : Nat)
    (hin : in_bounds index.aux_data.bitmap_counts i j) :
    index.storage.load_bitmap i j = .ok (index.storage.bitmaps i j) := by
  unfold BitMapStorage.load_bitmap
  rw [hB.storage_counts, if_pos hin]

theorem Stored.load_error (hB : Stored index mapped) (i j : Nat)
    (hin : ¬ in_bounds index.aux_data.bitmap_counts i j) :
    index.storage.load_bitmap i j = .error .out_of_bounds := by
  unfold BitMapStorage.load_bitmap
  rw [hB.storage_counts, if_neg hin]

theorem Stored.digit_lt (hB : Stored index mapped) (i : Nat)
    (hi : i < index.aux_data.vd.basis.length) (value : Nat) :
    digit_of index.aux_data.vd.basis i value < index.aux_data.vd.basis.getD i 0 :=
  digit_of_lt _ hB.base_ge value i hi

theorem Stored.count_equality (hB : Stored index mapped) (i : Nat)
    (hi : i < index.aux_data.vd.basis.length)
    (henc : index.aux_data.enc_type = .EQUALITY) :
    index.aux_data.bitmap_counts.getD i 0 = index.aux_data.vd.basis.getD i 0 := by
  rw [hB.counts_eq, counts_getD _ _ i hi, henc]

theorem Stored.count_interval (hB : Stored index mapped) (i : Nat)
    (hi : i < index.aux_data.vd.basis.length)
    (henc : index.aux_data.enc_type = .INTERVAL) :
    index.aux_data.bitmap_counts.getD i 0
      = ((index.aux_data.vd.basis.getD i 0 + 1) % 2 ^ 32) / 2 := by
  rw [hB.counts_eq, counts_getD _ _ i hi, henc]

theorem Stored.count_range (hB : Stored index mapped) (i : Nat)
    (hi : i < index.aux_data.vd.basis.length)
    (henc : index.aux_data.enc_type = .RANGE) :
    index.aux_data.bitmap_counts.getD i 0
      = (index.aux_data.vd.basis.getD i 0 + 2 ^ 32 - 1) % 2 ^ 32 := by
  rw [hB.counts_eq, counts_getD _ _ i hi, henc]

/-- Equality encoding: bitmap `j` of component `i` holds the documents whose digit `i`
is `j`. -/
theorem Stored.mem_bitmap_equality (hB : Stored index mapped) (i j : Nat)
    (hi : i < index.aux_data.vd.basis.length)
    (henc : index.aux_data.enc_type = .EQUALITY)
    (hj : j < index.aux_data.vd.basis.getD i 0) (d : DocumentID) :
    d ∈ index.storage.bitmaps i j ↔
      d ∈ docs_of mapped ∧
        j = digit_of index.aux_data.vd.basis i (mapped_value_of mapped d) := by
  have hin : in_bounds index.aux_data.bitmap_counts i j := by
    rw [hB.in_bounds_iff i j hi, hB.count_equality i hi henc]; exact hj
  rw [hB.bitmaps i j hin d, henc, mem_bitmaps_of_digit_equality]

/-- Range encoding: bitmap `j` of component `i` holds the documents whose digit `i` is at
most `j`. -/
theorem Stored.mem_bitmap_range (hB : Stored index mapped) (i j : Nat)
    (hi : i < index.aux_data.vd.basis.length)
    (henc : index.aux_data.enc_type = .RANGE)
    (hj : j + 1 < index.aux_data.vd.basis.getD i 0) (d : DocumentID) :
    d ∈ index.storage.bitmaps i j ↔
      d ∈ docs_of mapped ∧
        digit_of index.aux_data.vd.basis i (mapped_value_of mapped d) ≤ j := by
  have hb := hB.base_bounds i hi
  have hin : in_bounds index.aux_data.bitmap_counts i j := by
    rw [hB.in_bounds_iff i j hi, hB.count_range i hi henc]; omega
  rw [hB.bitmaps i j hin d, henc, mem_bitmaps_of_digit_range]
  constructor
  · rintro ⟨h1, h2, _⟩; exact ⟨h1, h2⟩
  · rintro ⟨h1, h2⟩; exact ⟨h1, h2, by omega⟩

/-- Interval encoding: bitmap `j` of component `i` holds the documents whose digit `i`
lies in `[j, j + m]`, `m = base / 2 - 1`. -/
theorem Stored.mem_bitmap_interval (hB : Stored index mapped) (i j : Nat)
    (hi : i < index.aux_data.vd.basis.length)
    (henc : index.aux_data.enc_type = .INTERVAL)
    (hj : j < (index.aux_data.vd.basis.getD i 0 + 1) / 2) (d : DocumentID) :
    d ∈ index.storage.bitmaps i j ↔
      d ∈ docs_of mapped ∧
        j ≤ digit_of index.aux_data.vd.basis i (mapped_value_of mapped d) ∧
        digit_of index.aux_data.vd.basis i (mapped_value_of mapped d)
          ≤ j + (index.aux_data.vd.basis.getD i 0 / 2 - 1) := by
  have hb := hB.base_bounds i hi
  have hc := hB.count_interval i hi henc
  have hin : in_bounds index.aux_data.bitmap_counts i j := by
    rw [hB.in_bounds_iff i j hi, hc]; omega
  rw [hB.bitmaps i j hin d, henc, hc,
    mem_bitmaps_of_digit_interval _ _ _ hb.1 hb.2 (hB.digit_lt i hi _)]
  constructor
  · rintro ⟨h1, h2, h3, _⟩; exact ⟨h1, h2, h3⟩
  · rintro ⟨h1, h2, h3⟩; exact ⟨h1, h2, h3, hj⟩

end built

section built
variable {index : BitmapIndex} {mapped : List (DocumentID × Nat)}

theorem returns_docs_ok (bmp : BitMap) (P : DocumentID → Prop) (h : ∀ d, d ∈ bmp ↔ P d) :
    returns_docs (.ok bmp) P :=
  ⟨bmp, rfl, h⟩

theorem Stored.equality_bitmap_equality (hB : Stored index mapped) (i a : Nat)
    (hi : i < index.aux_data.vd.basis.length) (ha : a < index.aux_data.vd.basis.getD i 0)
    (henc : index.aux_data.enc_type = .EQUALITY) :
    returns_docs (get_equality_bitmap index i a)
      (fun d => d ∈ docs_of mapped ∧
        digit_of index.aux_data.vd.basis i (mapped_value_of mapped d) = a) := by
  have hin : in_bounds index.aux_data.bitmap_counts i a := by
    rw [hB.in_bounds_iff i a hi, hB.count_equality i hi henc]; exact ha
  simp only [get_equality_bitmap, henc, hB.load i a hin]
  refine returns_docs_ok _ _ (fun d => ?_)
  rw [hB.mem_bitmap_equality i a hi henc ha d]
  constructor
  · rintro ⟨h1, h2⟩; exact ⟨h1, h2.symm⟩
  · rintro ⟨h1, h2⟩; exact ⟨h1, h2.symm⟩

theorem Stored.equality_bitmap_range (hB : Stored index mapped) (i a : Nat)
    (hi : i < index.aux_data.vd.basis.length) (ha : a < index.aux_data.vd.basis.getD i 0)
    (henc : index.aux_data.enc_type = .RANGE) :
    returns_docs (get_equality_bitmap index i a)
      (fun d => d ∈ docs_of mapped ∧
        digit_of index.aux_data.vd.basis i (mapped_value_of mapped d) = a) := by
  have hb := hB.base_bounds i hi
  have hc := hB.count_range i hi henc
  have hdl := fun d => hB.digit_lt i hi (mapped_value_of mapped d)
  simp only [get_equality_bitmap, henc, get_equality_bitmap_range_encoding, hB.get_base i hi]
  generalize hbase : index.aux_data.vd.basis.getD i 0 = base at *
  by_cases h1 : base = 1 ∧ a = 0
  · rw [if_pos h1]
    refine returns_docs_ok _ _ (fun d => ?_)
    have := hdl d
    simp only [BitMapStorage.load_all_values_bitmap, hB.all_values]
    constructor
    · intro h; exact ⟨h, by omega⟩
    · intro h; exact h.1
  · rw [if_neg h1]
    have hb2 : 2 ≤ base := by omega
    have e1 : (base + 2 ^ 32 - 1) % 2 ^ 32 = base - 1 := by omega
    have e2 : (base + 2 ^ 32 - 2) % 2 ^ 32 = base - 2 := by omega
    rw [e1, e2]
    by_cases h2 : a = base - 1
    · rw [if_pos h2]
      have hin : in_bounds index.aux_data.bitmap_counts i (base - 2) := by
        rw [hB.in_bounds_iff i _ hi, hc]; omega
      rw [hB.load i _ hin]
      refine returns_docs_ok _ _ (fun d => ?_)
      have := hdl d
      simp only [BitMapStorage.load_all_values_bitmap, hB.all_values, Finset.mem_sdiff,
        hB.mem_bitmap_range i (base - 2) hi henc (by omega) d, hbase]
      by_cases hd : d ∈ docs_of mapped
      · simp only [hd, true_and]; omega
      · simp only [hd, false_and]
    · rw [if_neg h2]
      by_cases h3 : a = 0
      · rw [if_pos h3]
        have hin : in_bounds index.aux_data.bitmap_counts i 0 := by
          rw [hB.in_bounds_iff i _ hi, hc]; omega
        rw [hB.load i _ hin]
        refine returns_docs_ok _ _ (fun d => ?_)
        have := hdl d
        simp only [hB.mem_bitmap_range i 0 hi henc (by omega) d, hbase]
        by_cases hd : d ∈ docs_of mapped
        · simp only [hd, true_and]; omega
        · simp only [hd, false_and]
      · rw [if_neg h3]
        have e3 : (a + 2 ^ 32 - 1) % 2 ^ 32 = a - 1 := by omega
        rw [e3]
        have hin0 : in_bounds index.aux_data.bitmap_counts i (a - 1) := by
          rw [hB.in_bounds_iff i _ hi, hc]; omega
        have hin1 : in_bounds index.aux_data.bitmap_counts i a := by
          rw [hB.in_bounds_iff i _ hi, hc]; omega
        rw [hB.load i _ hin0, hB.load i _ hin1]
        refine returns_docs_ok _ _ (fun d => ?_)
        have := hdl d
        simp only [Finset.mem_sdiff, hB.mem_bitmap_range i a hi henc (by omega) d,
          hB.mem_bitmap_range i (a - 1) hi henc (by omega) d, hbase]
        by_cases hd : d ∈ docs_of mapped
        · simp only [hd, true_and]; omega
        · simp only [hd, false_and, not_false_eq_true, and_true]

theorem Stored.equality_bitmap_interval (hB : Stored index mapped) (i a : Nat)
    (hi : i < index.aux_data.vd.basis.length) (ha : a < index.aux_data.vd.basis.getD i 0)
    (henc : index.aux_data.enc_type = .INTERVAL) :
    returns_docs (get_equality_bitmap index i a)
      (fun d => d ∈ docs_of mapped ∧
        digit_of index.aux_data.vd.basis i (mapped_value_of mapped d) = a) := by
  have hb := hB.base_bounds i hi
  have hc := hB.count_interval i hi henc
  have hdl := fun d => hB.digit_lt i hi (mapped_value_of mapped d)
  have hmem := fun j hj d => hB.mem_bitmap_interval i j hi henc hj d
  have hld : ∀ j, j < (index.aux_data.vd.basis.getD i 0 + 1) / 2 →
      index.storage.load_bitmap i j = .ok (index.storage.bitmaps i j) := by
    intro j hj
    apply hB.load
    rw [hB.in_bounds_iff i _ hi, hc]; omega
  simp only [get_equality_bitmap, henc, get_equality_bitmap_interval_encoding,
    hB.get_base i hi]
  generalize hbase : index.aux_data.vd.basis.getD i 0 = base at *
  by_cases h1 : base = 1
  · rw [if_pos h1]
    have ha0 : a = 0 := by omega
    rw [if_pos ha0]
    refine returns_docs_ok _ _ (fun d => ?_)
    have := hdl d
    simp only [BitMapStorage.load_all_values_bitmap, hB.all_values]
    constructor
    · intro h; exact ⟨h, by omega⟩
    · intro h; exact h.1
  · rw [if_neg h1]
    have hb2 : 2 ≤ base := by omega
    have hh1 : 2 * (base / 2) ≤ base := by omega
    have hh2 : base ≤ 2 * (base / 2) + 1 := by omega
    have hn : (base + 1) / 2 = base - base / 2 := by omega
    have hp : base % 2 = base - 2 * (base / 2) := by omega
    simp only [hn] at hmem hld
    simp only [hp]
    clear hn hp hbase hc h1
    generalize base / 2 = h at *
    have em : (h + 2 ^ 32 - 1) % 2 ^ 32 = h - 1 := by omega
    have e1 : (base + 2 ^ 32 - 1) % 2 ^ 32 = base - 1 := by omega
    rw [em, e1]
    clear em e1
    by_cases c1 : a = 0 ∧ h - 1 = 0
    · rw [if_pos c1, hld 0 (by omega)]
      refine returns_docs_ok _ _ (fun d => ?_)
      have := hdl d
      simp only [hmem 0 (by omega) d]
      by_cases hd : d ∈ docs_of mapped
      · simp only [hd, true_and]; omega
      · simp only [hd, false_and]
    rw [if_neg c1]
    by_cases c2 : base = 2 ∧ a = 1
    · rw [if_pos c2, hld 0 (by omega)]
      refine returns_docs_ok _ _ (fun d => ?_)
      have := hdl d
      simp only [BitMapStorage.load_all_values_bitmap, hB.all_values, Finset.mem_sdiff,
        hmem 0 (by omega) d]
      by_cases hd : d ∈ docs_of mapped
      · simp only [hd, true_and]; omega
      · simp only [hd, false_and]
    rw [if_neg c2]
    by_cases c3 : base = 3 ∧ a = 1
    · rw [if_pos c3, hld 1 (by omega)]
      refine returns_docs_ok _ _ (fun d => ?_)
      have := hdl d
      simp only [hmem 1 (by omega) d]
      by_cases hd : d ∈ docs_of mapped
      · simp only [hd, true_and]; omega
      · simp only [hd, false_and]
    rw [if_neg c3]
    by_cases c4 : a < h - 1
    · have e2 : (a + 1) % 2 ^ 32 = a + 1 := by omega
      have b1 : a < base - h := by omega
      have b2 : a + 1 < base - h := by omega
      rw [if_pos c4, e2, hld a b1, hld (a + 1) b2]
      refine returns_docs_ok _ _ (fun d => ?_)
      have := hdl d
      simp only [Finset.mem_sdiff, hmem a b1 d, hmem (a + 1) b2 d]
      by_cases hd : d ∈ docs_of mapped
      · simp only [hd, true_and]; clear c1 c2 c3 e2 b1 b2; omega
      · simp only [hd, false_and, not_false_eq_true, and_true]
    rw [if_neg c4]
    by_cases c5 : a = h - 1 ∧ h - 1 > 0
    · have b1 : a < base - h := by omega
      have b2 : 0 < base - h := by omega
      rw [if_pos c5, hld a b1, hld 0 b2]
      refine returns_docs_ok _ _ (fun d => ?_)
      have := hdl d
      simp only [Finset.mem_inter, hmem a b1 d, hmem 0 b2 d]
      by_cases hd : d ∈ docs_of mapped
      · simp only [hd, true_and]; clear c1 c2 c3 c4 b1 b2; omega
      · simp only [hd, false_and]
    rw [if_neg c5]
    by_cases c6 : a > h - 1 ∧ a < base - 1 ∧ h - 1 > 0
    · have e3 : (a + 2 ^ 32 - (h - 1)) % 2 ^ 32 = a - (h - 1) := by omega
      have e4 : (a + 2 ^ 32 - (h - 1) + 2 ^ 32 - 1) % 2 ^ 32 = a - (h - 1) - 1 := by omega
      have b1 : a - (h - 1) < base - h := by omega
      have b2 : a - (h - 1) - 1 < base - h := by omega
      rw [if_pos c6, e3, e4, hld (a - (h - 1)) b1, hld (a - (h - 1) - 1) b2]
      refine returns_docs_ok _ _ (fun d => ?_)
      have := hdl d
      simp only [Finset.mem_sdiff, hmem (a - (h - 1)) b1 d, hmem (a - (h - 1) - 1) b2 d]
      by_cases hd : d ∈ docs_of mapped
      · simp only [hd, true_and]; clear c1 c2 c3 c4 c5 e3 e4 b1 b2; omega
      · simp only [hd, false_and, not_false_eq_true, and_true]
    rw [if_neg c6]
    have c7 : a = base - 1 := by omega
    clear c1 c2 c3 c4 c5 c6
    have e5 : (h + (base - 2 * h) + 2 ^ 32 - 1) % 2 ^ 32 = h + (base - 2 * h) - 1 := by
      omega
    have b1 : h + (base - 2 * h) - 1 < base - h := by omega
    have b2 : 0 < base - h := by omega
    rw [if_pos c7, e5, hld (h + (base - 2 * h) - 1) b1, hld 0 b2]
    refine returns_docs_ok _ _ (fun d => ?_)
    have := hdl d
    simp only [BitMapStorage.load_all_values_bitmap, hB.all_values, Finset.mem_sdiff,
      Finset.mem_union, hmem (h + (base - 2 * h) - 1) b1 d, hmem 0 b2 d]
    by_cases hd : d ∈ docs_of mapped
    · simp only [hd, true_and]; clear e5 b1 b2; omega
    · simp only [hd, false_and]

/-- The bitmap `get_equality_bitmap(i, a)` of a built index holds the documents whose
digit `i` is `a`, for every component `i` and every digit `a` below the base. -/
theorem Stored.equality_bitmap (hB : Stored index mapped) (i a : Nat)
    (hi : i < index.aux_data.vd.basis.length) (ha : a < index.aux_data.vd.basis.getD i 0) :
    returns_docs (get_equality_bitmap index i a)
      (fun d => d ∈ docs_of mapped ∧
        digit_of index.aux_data.vd.basis i (mapped_value_of mapped d) = a) := by
  cases henc : index.aux_data.enc_type with
  | EQUALITY => exact hB.equality_bitmap_equality i a hi ha henc
  | INTERVAL => exact hB.equality_bitmap_interval i a hi ha henc
  | RANGE => exact hB.equality_bitmap_range i a hi ha henc

end built

section built
variable {index : BitmapIndex} {mapped : List (DocumentID × Nat)}

theorem returns_docs_congr {r : Except IndexError BitMap} {P Q : DocumentID → Prop}
    (h : returns_docs r P) (hPQ : ∀ d, P d ↔ Q d) : returns_docs r Q := by
  obtain ⟨bmp, h1, h2⟩ := h
  exact ⟨bmp, h1, fun d => (h2 d).trans (hPQ d)⟩

theorem Stored.lesser_bitmap_range (hB : Stored index mapped) (i a : Nat)
    (hi : i < index.aux_data.vd.basis.length) (ha : a < index.aux_data.vd.basis.getD i 0)
    (henc : index.aux_data.enc_type = .RANGE) :
    returns_docs (get_lesser_bitmap index i a)
      (fun d => d ∈ docs_of mapped ∧
        digit_of index.aux_data.vd.basis i (mapped_value_of mapped d) < a) := by
  have hb := hB.base_bounds i hi
  have hc := hB.count_range i hi henc
  unfold get_lesser_bitmap
  by_cases h0 : a = 0
  · rw [if_pos h0]
    refine returns_docs_ok _ _ (fun d => ?_)
    simp [h0]
  · rw [if_neg h0]
    simp only [henc]
    have hin : in_bounds index.aux_data.bitmap_counts i (a - 1) := by
      rw [hB.in_bounds_iff i _ hi, hc]; omega
    rw [hB.load i _ hin]
    refine returns_docs_ok _ _ (fun d => ?_)
    rw [hB.mem_bitmap_range i (a - 1) hi henc (by omega) d]
    by_cases hd : d ∈ docs_of mapped
    · simp only [hd, true_and]; omega
    · simp only [hd, false_and]

theorem Stored.lesser_bitmap_interval (hB : Stored index mapped) (i a : Nat)
    (hi : i < index.aux_data.vd.basis.length) (ha : a ≤ index.aux_data.vd.basis.getD i 0)
    (henc : index.aux_data.enc_type = .INTERVAL) :
    returns_docs (get_lesser_bitmap index i a)
      (fun d => d ∈ docs_of mapped ∧
        digit_of index.aux_data.vd.basis i (mapped_value_of mapped d) < a) := by
  have hb := hB.base_bounds i hi
  have hc := hB.count_interval i hi henc
  have hdl := fun d => hB.digit_lt i hi (mapped_value_of mapped d)
  have hmem := fun j hj d => hB.mem_bitmap_interval i j hi henc hj d
  have hld : ∀ j, j < (index.aux_data.vd.basis.getD i 0 + 1) / 2 →
      index.storage.load_bitmap i j = .ok (index.storage.bitmaps i j) := by
    intro j hj
    apply hB.load
    rw [hB.in_bounds_iff i _ hi, hc]; omega
  unfold get_lesser_bitmap
  by_cases h0 : a = 0
  · rw [if_pos h0]
    refine returns_docs_ok _ _ (fun d => ?_)
    simp [h0]
  rw [if_neg h0]
  simp only [henc, hB.get_base i hi]
  by_cases c0 : a - 1 = 0
  · rw [if_pos c0, c0]
    have h1 : 0 < index.aux_data.vd.basis.getD i 0 := by omega
    refine returns_docs_congr (hB.equality_bitmap_interval i 0 hi h1 henc) (fun d => ?_)
    by_cases hd : d ∈ docs_of mapped
    · simp only [hd, true_and]; omega
    · simp only [hd, false_and]
  rw [if_neg c0]
  generalize hbase : index.aux_data.vd.basis.getD i 0 = base at *
  have hb2 : 2 ≤ base := by omega
  have hh1 : 2 * (base / 2) ≤ base := by omega
  have hh2 : base ≤ 2 * (base / 2) + 1 := by omega
  have hn : (base + 1) / 2 = base - base / 2 := by omega
  simp only [hn] at hmem hld
  clear hn hbase hc
  generalize base / 2 = h at *
  have em : (h + 2 ^ 32 - 1) % 2 ^ 32 = h - 1 := by omega
  have e1 : (base + 2 ^ 32 - 1) % 2 ^ 32 = base - 1 := by omega
  rw [em, e1]
  clear em e1
  by_cases c1 : a - 1 < h - 1
  · have e2 : (a - 1 + 1) % 2 ^ 32 = a := by omega
    have b1 : 0 < base - h := by omega
    have b2 : a < base - h := by omega
    rw [if_pos c1, e2, hld 0 b1, hld a b2]
    refine returns_docs_ok _ _ (fun d => ?_)
    have := hdl d
    simp only [Finset.mem_sdiff, hmem 0 b1 d, hmem a b2 d]
    by_cases hd : d ∈ docs_of mapped
    · simp only [hd, true_and]; clear e2 b1 b2; omega
    · simp only [hd, false_and, not_false_eq_true, and_true]
  rw [if_neg c1]
  by_cases c2 : a - 1 = h - 1
  · have b1 : 0 < base - h := by omega
    rw [if_pos c2, hld 0 b1]
    refine returns_docs_ok _ _ (fun d => ?_)
    have := hdl d
    simp only [hmem 0 b1 d]
    by_cases hd : d ∈ docs_of mapped
    · simp only [hd, true_and]; clear b1; omega
    · simp only [hd, false_and]
  rw [if_neg c2]
  by_cases c3 : a - 1 > h - 1 ∧ a - 1 < base - 1
  · have e3 : (a - 1 + 2 ^ 32 - (h - 1)) % 2 ^ 32 = a - 1 - (h - 1) := by omega
    have b1 : 0 < base - h := by omega
    have b2 : a - 1 - (h - 1) < base - h := by omega
    rw [if_pos c3, e3, hld 0 b1, hld (a - 1 - (h - 1)) b2]
    refine returns_docs_ok _ _ (fun d => ?_)
    have := hdl d
    simp only [Finset.mem_union, hmem 0 b1 d, hmem (a - 1 - (h - 1)) b2 d]
    by_cases hd : d ∈ docs_of mapped
    · simp only [hd, true_and]; clear e3 b1 b2 c1 c2; omega
    · simp only [hd, false_and, or_self]
  rw [if_neg c3]
  have c4 : a - 1 ≥ base - 1 := by omega
  rw [if_pos c4]
  refine returns_docs_ok _ _ (fun d => ?_)
  have := hdl d
  simp only [BitMapStorage.load_all_values_bitmap, hB.all_values]
  by_cases hd : d ∈ docs_of mapped
  · simp only [hd, true_and, true_iff]; omega
  · simp only [hd, false_and]

/-- The bitmap `get_lesser_bitmap(i, a)` of a built interval- or range-encoded index holds
the documents whose digit `i` is below `a`, for every digit `a` below the base. -/
theorem Stored.lesser_bitmap (hB : Stored index mapped) (i a : Nat)
    (hi : i < index.aux_data.vd.basis.length) (ha : a < index.aux_data.vd.basis.getD i 0)
    (henc : index.aux_data.enc_type ≠ .EQUALITY) :
    returns_docs (get_lesser_bitmap index i a)
      (fun d => d ∈ docs_of mapped ∧
        digit_of index.aux_data.vd.basis i (mapped_value_of mapped d) < a) := by
  cases h : index.aux_data.enc_type with
  | EQUALITY => exact absurd h henc
  | INTERVAL => exact hB.lesser_bitmap_interval i a hi (le_of_lt ha) h
  | RANGE => exact hB.lesser_bitmap_range i a hi ha h

end built

theorem mem_mapped_value_of (mapped : List (DocumentID × Nat)) (d : DocumentID)
    (hd : d ∈ docs_of mapped) : (d, mapped_value_of mapped d) ∈ mapped := by
  induction mapped with
  | nil => simp [docs_of] at hd
  | cons p rest ih =>
    unfold mapped_value_of
    by_cases h : p.1 = d
    · rw [if_pos h]
      have : p = (d, p.2) := by rw [← h]
      rw [← this]; exact List.mem_cons_self _ _
    · rw [if_neg h]
      have hd1 : d ∈ docs_of rest := by
        simp only [docs_of, List.map_cons, List.toFinset_cons, Finset.mem_insert] at hd
        rcases hd with hd | hd
        · exact absurd hd.symm h
        · exact hd
      exact List.mem_cons_of_mem _ (ih hd1)

theorem mem_docs_of {α : Type} (rows : List (DocumentID × α)) (d : DocumentID) :
    d ∈ docs_of rows ↔ ∃ v, (d, v) ∈ rows := by
  simp [docs_of]

theorem mapped_value_of_eq (mapped : List (DocumentID × Nat)) (hdist : distinct_docs mapped)
    (d : DocumentID) (v : Nat) (h : (d, v) ∈ mapped) : mapped_value_of mapped d = v := by
  induction mapped with
  | nil => simp at h
  | cons p rest ih =>
    unfold distinct_docs at hdist
    simp only [List.map_cons, List.nodup_cons] at hdist
    unfold mapped_value_of
    rcases List.mem_cons.mp h with h1 | h1
    · rw [← h1]; simp
    · have hne : p.1 ≠ d := by
        intro he
        apply hdist.1
        rw [he]
        exact List.mem_map.mpr ⟨(d, v), h1, rfl⟩
      rw [if_neg hne]
      exact ih hdist.2 h1

theorem mem_foldl_inter (rest : List BitMap) (bmp : BitMap) (d : DocumentID) :
    d ∈ rest.foldl (fun result b => result ∩ b) bmp ↔ d ∈ bmp ∧ ∀ b ∈ rest, d ∈ b := by
  induction rest generalizing bmp with
  | nil => simp
  | cons b rest ih =>
    simp only [List.foldl_cons, ih, Finset.mem_inter, List.mem_cons, forall_eq_or_imp]
    tauto

theorem mem_foldl_le (rest : List (BitMap × BitMap)) (s : BitMap × BitMap) (d : DocumentID) :
    d ∈ (rest.foldl (fun (s : BitMap × BitMap) (b : BitMap × BitMap) =>
            (s.1 ∪ (b.1 ∩ s.2), s.2 ∩ b.2)) s).1 ∪
        (rest.foldl (fun (s : BitMap × BitMap) (b : BitMap × BitMap) =>
            (s.1 ∪ (b.1 ∩ s.2), s.2 ∩ b.2)) s).2
      ↔ d ∈ s.1 ∨ (d ∈ s.2 ∧ le_pred d rest) := by
  induction rest generalizing s with
  | nil => simp [le_pred]
  | cons b rest ih =>
    simp only [List.foldl_cons, ih, le_pred, Finset.mem_union, Finset.mem_inter]
    tauto

section built
variable {index : BitmapIndex} {mapped : List (DocumentID × Nat)}

theorem Built.decompose_eq (hB : Built index mapped) (value : Nat) :
    (index.aux_data.vd.decompose value).1 = digits index.aux_data.vd.basis value := by
  rw [hB.vd_eq]; exact vd_decompose_fst _ _

theorem Built.basis_length_pos (hB : Built index mapped) :
    0 < index.aux_data.vd.basis.length :=
  List.length_pos.mpr hB.basis_ne

theorem Built.equality_bitmaps_spec (hB : Built index mapped) (ds : List Nat) (i : Nat)
    (hlen : i + ds.length = index.aux_data.vd.basis.length)
    (hlt : ∀ k, k < ds.length → ds.getD k 0 < index.aux_data.vd.basis.getD (i + k) 0) :
    ∃ bs, equality_bitmaps index i ds = .ok bs ∧ bs.length = ds.length ∧
      ∀ d, (∀ b ∈ bs, d ∈ b) ↔
        ∀ k, k < ds.length → d ∈ docs_of mapped ∧
          digit_of index.aux_data.vd.basis (i + k) (mapped_value_of mapped d) = ds.getD k 0 := by
  induction ds generalizing i with
  | nil => exact ⟨[], rfl, rfl, fun d => by simp⟩
  | cons a rest ih =>
    have hi : i < index.aux_data.vd.basis.length := by
      simp only [List.length_cons] at hlen; omega
    have ha : a < index.aux_data.vd.basis.getD i 0 := by
      have := hlt 0 (by simp)
      simpa using this
    obtain ⟨bmp, hbmp, hmem⟩ := hB.equality_bitmap i a hi ha
    obtain ⟨bs, hbs, hbl, hbm⟩ := ih (i + 1)
      (by simp only [List.length_cons] at hlen; omega)
      (fun k hk => by
        have := hlt (k + 1) (by simp; omega)
        simpa [Nat.add_assoc, Nat.add_comm 1 k] using this)
    refine ⟨bmp :: bs, ?_, by simp [hbl], fun d => ?_⟩
    · simp only [equality_bitmaps, hbmp, hbs]
    · simp only [List.mem_cons, forall_eq_or_imp, hmem d, hbm d, List.length_cons]
      constructor
      · rintro ⟨h1, h2⟩ k hk
        cases k with
        | zero => simpa using h1
        | succ k =>
          have := h2 k (by omega)
          simpa [Nat.add_assoc, Nat.add_comm 1 k] using this
      · intro h
        refine ⟨by simpa using h 0 (by omega), fun k hk => ?_⟩
        have := h (k + 1) (by omega)
        simpa [Nat.add_assoc, Nat.add_comm 1 k] using this

/-- The method `lookup_mapped_value` on a built index returns the documents whose mapped
value is the one looked up. -/
theorem Built.lookup_mapped_value (hB : Built index mapped) (u : Nat)
    (hu : u < index.aux_data.vd.basis.prod)
    (hM : (u : Int)
      ≤ to_int64 (index.aux_data.max_mapped_value - index.aux_data.min_mapped_value)) :
    returns_docs (lookup_mapped_value index (u : Int))
      (fun d => d ∈ docs_of mapped ∧ mapped_value_of mapped d = u) := by
  unfold BitmapIndexModel.lookup_mapped_value
  have hcond : ¬ ((u : Int) < 0 ∨
      (u : Int)
        > to_int64 (index.aux_data.max_mapped_value - index.aux_data.min_mapped_value)) := by
    omega
  rw [if_neg hcond, Int.toNat_ofNat, hB.decompose_eq]
  have hlen := digits_length index.aux_data.vd.basis u
  obtain ⟨bs, hbs, hbl, hbm⟩ := hB.equality_bitmaps_spec (digits index.aux_data.vd.basis u) 0
    (by simp [hlen])
    (fun k hk => by
      rw [hlen] at hk
      simpa [digit_of] using digit_of_lt _ hB.base_ge u k hk)
  rw [hbs]
  have hpos := hB.basis_length_pos
  cases bs with
  | nil => simp only [List.length_nil] at hbl; omega
  | cons bmp rest =>
    refine returns_docs_ok _ _ (fun d => ?_)
    rw [mem_foldl_inter]
    have h1 : (d ∈ bmp ∧ ∀ b ∈ rest, d ∈ b) ↔ ∀ b ∈ bmp :: rest, d ∈ b := by
      simp only [List.mem_cons, forall_eq_or_imp]
    rw [h1, hbm d, hlen]
    constructor
    · intro h
      have hd : d ∈ docs_of mapped := (h 0 hpos).1
      refine ⟨hd, ?_⟩
      have hv := hB.mapped_lt _ (mem_mapped_value_of mapped d hd)
      apply digits_injective _ hB.base_ge _ _ hv hu
      apply List.ext_getElem (by rw [digits_length, digits_length])
      intro k hk1 hk2
      have := (h k (by rw [digits_length] at hk1; exact hk1)).2
      simp only [digit_of, Nat.zero_add] at this
      rw [List.getD_eq_getElem _ _ hk1, List.getD_eq_getElem _ _ hk2] at this
      exact this
    · rintro ⟨hd, hv⟩ k _
      refine ⟨hd, ?_⟩
      rw [hv, Nat.zero_add]
      rfl

theorem Built.lookup_mapped_value_empty (index : BitmapIndex) (u : Int)
    (h : u < 0 ∨
      u > to_int64 (index.aux_data.max_mapped_value - index.aux_data.min_mapped_value)) :
    BitmapIndexModel.lookup_mapped_value index u = .ok ∅ := by
  unfold BitmapIndexModel.lookup_mapped_value
  rw [if_pos h]

end built

section built
variable {index : BitmapIndex} {mapped : List (DocumentID × Nat)}

theorem drop_digits (basis : List Nat) (value i : Nat) (hi : i < basis.length) :
    (digits basis value).drop i
      = digit_of basis i value :: (digits basis value).drop (i + 1) := by
  have h : i < (digits basis value).length := by rw [digits_length]; exact hi
  rw [List.drop_eq_getElem_cons h]
  simp only [digit_of, List.getD_eq_getElem _ _ h]

theorem Built.lesser_equality_bitmaps_spec (hB : Built index mapped)
    (henc : index.aux_data.enc_type ≠ .EQUALITY) (ds : List Nat) (i : Nat)
    (hlen : i + ds.length = index.aux_data.vd.basis.length)
    (hlt : ∀ k, k < ds.length → ds.getD k 0 < index.aux_data.vd.basis.getD (i + k) 0) :
    ∃ ps, lesser_equality_bitmaps index i ds = .ok ps ∧ ps.length = ds.length ∧
      ∀ d, le_pred d ps ↔
        (ds = [] ∨ (d ∈ docs_of mapped ∧
          lex_le ((digits index.aux_data.vd.basis (mapped_value_of mapped d)).drop i) ds)) := by
  induction ds generalizing i with
  | nil => exact ⟨[], rfl, rfl, fun d => by simp [le_pred]⟩
  | cons a rest ih =>
    have hi : i < index.aux_data.vd.basis.length := by
      simp only [List.length_cons] at hlen; omega
    have ha : a < index.aux_data.vd.basis.getD i 0 := by
      have := hlt 0 (by simp)
      simpa using this
    obtain ⟨less, hless, hlmem⟩ := hB.lesser_bitmap i a hi ha henc
    obtain ⟨eq, heq, hemem⟩ := hB.equality_bitmap i a hi ha
    obtain ⟨ps, hps, hpl, hpm⟩ := ih (i + 1)
      (by simp only [List.length_cons] at hlen; omega)
      (fun k hk => by
        have := hlt (k + 1) (by simp; omega)
        simpa [Nat.add_assoc, Nat.add_comm 1 k] using this)
    refine ⟨(less, eq) :: ps, ?_, by simp [hpl], fun d => ?_⟩
    · simp only [lesser_equality_bitmaps, hless, heq, hps]
    · simp only [le_pred, hlmem d, hemem d, hpm d, reduceCtorEq, false_or]
      rw [drop_digits _ _ i hi]
      simp only [lex_le]
      cases rest with
      | nil =>
        simp only [true_or, and_true]
        cases (digits index.aux_data.vd.basis (mapped_value_of mapped d)).drop (i + 1) <;>
          simp only [lex_le] <;> tauto
      | cons b rest1 =>
        simp only [reduceCtorEq, false_or]
        tauto

/-- The method `less_or_equal_query` on a built interval- or range-encoded index returns
the documents whose mapped value is at most the bound. -/
theorem Built.less_or_equal_query (hB : Built index mapped)
    (henc : index.aux_data.enc_type ≠ .EQUALITY) (u : Int) :
    returns_docs (less_or_equal_query index u)
      (fun d => d ∈ docs_of mapped ∧ (mapped_value_of mapped d : Int) ≤ u) := by
  unfold BitmapIndexModel.less_or_equal_query
  by_cases h0 : u < 0
  · rw [if_pos h0]
    refine returns_docs_ok _ _ (fun d => ?_)
    simp only [Finset.not_mem_empty, false_iff, not_and]
    intro _; omega
  rw [if_neg h0]
  by_cases h1 :
      u ≥ to_int64 (index.aux_data.max_mapped_value - index.aux_data.min_mapped_value)
  · rw [if_pos h1]
    refine returns_docs_ok _ _ (fun d => ?_)
    simp only [BitMapStorage.load_all_values_bitmap, hB.all_values]
    constructor
    · intro hd
      have := hB.mapped_le _ (mem_mapped_value_of mapped d hd)
      exact ⟨hd, by simp only at this; omega⟩
    · intro h; exact h.1
  rw [if_neg h1]
  obtain ⟨n, rfl⟩ : ∃ n : Nat, u = (n : Int) := ⟨u.toNat, by omega⟩
  have hu : n < index.aux_data.vd.basis.prod := by
    have := hB.span_le
    omega
  rw [Int.toNat_ofNat, hB.decompose_eq]
  have hlen := digits_length index.aux_data.vd.basis n
  obtain ⟨ps, hps, hpl, hpm⟩ := hB.lesser_equality_bitmaps_spec henc
    (digits index.aux_data.vd.basis n) 0 (by simp [hlen])
    (fun k hk => by
      rw [hlen] at hk
      simpa [digit_of] using digit_of_lt _ hB.base_ge n k hk)
  rw [hps]
  have hpos := hB.basis_length_pos
  cases ps with
  | nil => simp only [List.length_nil] at hpl; omega
  | cons first rest =>
    refine returns_docs_ok _ _ (fun d => ?_)
    have hne : digits index.aux_data.vd.basis n ≠ [] := by
      intro h; rw [h] at hlen; simp at hlen; omega
    have key := hpm d
    simp only [le_pred, hne, false_or, List.drop_zero] at key
    rw [mem_foldl_le rest first d, key]
    constructor
    · rintro ⟨hd, hle⟩
      have hv := hB.mapped_lt _ (mem_mapped_value_of mapped d hd)
      rw [lex_le_digits_of_lt _ hB.base_ge _ _ hv hu] at hle
      exact ⟨hd, by exact_mod_cast hle⟩
    · rintro ⟨hd, hle⟩
      have hv := hB.mapped_lt _ (mem_mapped_value_of mapped d hd)
      rw [lex_le_digits_of_lt _ hB.base_ge _ _ hv hu]
      exact ⟨hd, by exact_mod_cast hle⟩

end built

/-! ## The loops of `insert_mapped_values` -/

theorem insert_row_bitmaps_spec (counts : List Nat) (i : Nat) (row : DocumentID)
    (js : List Nat) (cache : StorageCache) (h : ∀ j ∈ js, in_bounds counts i j) :
    ∃ cache1, insert_row_bitmaps counts i row js cache = .ok cache1 ∧
      ∀ c k r, r ∈ cache1 c k ↔ r ∈ cache c k ∨ (c = i ∧ k ∈ js ∧ r = row) := by
  induction js generalizing cache with
  | nil => exact ⟨cache, rfl, fun c k r => by simp⟩
  | cons j rest ih =>
    have hj : in_bounds counts i j := h j (List.mem_cons_self _ _)
    obtain ⟨cache1, h1, h2⟩ := ih
      (fun c k => if c = i ∧ k = j then cache c k ++ [row] else cache c k)
      (fun x hx => h x (List.mem_cons_of_mem _ hx))
    refine ⟨cache1, ?_, fun c k r => ?_⟩
    · simp only [insert_row_bitmaps, cache_emplace_back, if_pos hj, h1]
    · rw [h2 c k r]
      by_cases hc : c = i ∧ k = j
      · simp only [if_pos hc, List.mem_append, List.mem_singleton, List.mem_cons]
        obtain ⟨hc1, hc2⟩ := hc
        subst hc1; subst hc2
        tauto
      · simp only [if_neg hc, List.mem_cons]
        constructor
        · rintro (h3 | ⟨h3, h4, h5⟩)
          · exact Or.inl h3
          · exact Or.inr ⟨h3, Or.inr h4, h5⟩
        · rintro (h3 | ⟨h3, h4 | h4, h5⟩)
          · exact Or.inl h3
          · exact absurd ⟨h3, h4⟩ hc
          · exact Or.inr ⟨h3, h4, h5⟩

theorem insert_row_components_spec (aux_data : BitmapIndexAuxData) (row : DocumentID)
    (bases ds : List Nat) (i : Nat) (cache : StorageCache)
    (hlen : ds.length = bases.length)
    (hin : ∀ t, t < bases.length →
      ∀ j ∈ bitmaps_of_digit aux_data.enc_type (bases.getD t 0)
              (aux_data.bitmap_counts.getD (i + t) 0) (ds.getD t 0),
        in_bounds aux_data.bitmap_counts (i + t) j) :
    ∃ cache1, insert_row_components aux_data row i bases ds cache = .ok cache1 ∧
      ∀ c k r, r ∈ cache1 c k ↔ r ∈ cache c k ∨
        (r = row ∧ ∃ t, t < bases.length ∧ c = i + t ∧
          k ∈ bitmaps_of_digit aux_data.enc_type (bases.getD t 0)
                (aux_data.bitmap_counts.getD c 0) (ds.getD t 0)) := by
  induction bases generalizing ds i cache with
  | nil => exact ⟨cache, by simp [insert_row_components], fun c k r => by simp⟩
  | cons base bases ih =>
    cases ds with
    | nil => simp at hlen
    | cons digit ds =>
      have h0 := hin 0 (by simp)
      simp only [List.getD_cons_zero, Nat.add_zero] at h0
      obtain ⟨cache1, hc1, hm1⟩ := insert_row_bitmaps_spec aux_data.bitmap_counts i row _ cache h0
      obtain ⟨cache2, hc2, hm2⟩ := ih ds (i + 1) cache1 (by simpa using hlen)
        (fun t ht j hj => by
          have := hin (t + 1) (by simp; omega) j
            (by simpa [Nat.add_assoc, Nat.add_comm 1 t] using hj)
          simpa [Nat.add_assoc, Nat.add_comm 1 t] using this)
      refine ⟨cache2, ?_, fun c k r => ?_⟩
      · simp only [insert_row_components, hc1, hc2]
      · rw [hm2 c k r, hm1 c k r]
        constructor
        · rintro ((h | ⟨h1, h2, h3⟩) | ⟨h1, t, ht, h2, h3⟩)
          · exact Or.inl h
          · refine Or.inr ⟨h3, 0, by simp, by simpa using h1, ?_⟩
            simpa [h1] using h2
          · refine Or.inr ⟨h1, t + 1, by simpa using ht, by omega, ?_⟩
            simpa using h3
        · rintro (h | ⟨h1, t, ht, h2, h3⟩)
          · exact Or.inl (Or.inl h)
          · cases t with
            | zero =>
              refine Or.inl (Or.inr ⟨by simpa using h2, ?_, h1⟩)
              have hci : c = i := by simpa using h2
              simpa [hci] using h3
            | succ t =>
              refine Or.inr ⟨h1, t, by simpa using ht, by omega, ?_⟩
              simpa using h3

theorem insert_rows_spec (aux_data : BitmapIndexAuxData)
    (mapped : List (DocumentID × Nat)) (s : StorageCache × List DocumentID)
    (hvd : aux_data.vd = ValueDecomposer.new aux_data.vd.basis)
    (hin : ∀ p ∈ mapped, ∀ t, t < aux_data.vd.basis.length →
      ∀ j ∈ bitmaps_of_digit aux_data.enc_type (aux_data.vd.basis.getD t 0)
              (aux_data.bitmap_counts.getD t 0) (digit_of aux_data.vd.basis t p.2),
        in_bounds aux_data.bitmap_counts t j) :
    ∃ s1, insert_rows aux_data mapped s = .ok s1 ∧ s1.2 = s.2 ++ mapped.map Prod.fst ∧
      ∀ c k r, r ∈ s1.1 c k ↔ r ∈ s.1 c k ∨
        ∃ mv, (r, mv) ∈ mapped ∧ c < aux_data.vd.basis.length ∧
          k ∈ bitmaps_of_digit aux_data.enc_type (aux_data.vd.basis.getD c 0)
                (aux_data.bitmap_counts.getD c 0) (digit_of aux_data.vd.basis c mv) := by
  induction mapped generalizing s with
  | nil => exact ⟨s, rfl, by simp, fun c k r => by simp⟩
  | cons p rest ih =>
    have hd : (aux_data.vd.decompose p.2).1 = digits aux_data.vd.basis p.2 := by
      rw [hvd]; exact vd_decompose_fst _ _
    obtain ⟨cache1, hc1, hm1⟩ := insert_row_components_spec aux_data p.1 aux_data.vd.basis
      (digits aux_data.vd.basis p.2) 0 s.1 (digits_length _ _)
      (fun t ht j hj => by
        have := hin p (List.mem_cons_self _ _) t ht j (by simpa [digit_of] using hj)
        simpa using this)
    obtain ⟨s1, hs1, hs2, hm2⟩ := ih (cache1, s.2 ++ [p.1])
      (fun q hq => hin q (List.mem_cons_of_mem _ hq))
    refine ⟨s1, ?_, ?_, fun c k r => ?_⟩
    · simp only [insert_rows, hd, hc1, hs1]
    · rw [hs2]; simp
    · rw [hm2 c k r]
      simp only [hm1 c k r, List.mem_cons]
      constructor
      · rintro ((h | ⟨h1, t, ht, h2, h3⟩) | ⟨mv, h1, h2, h3⟩)
        · exact Or.inl h
        · refine Or.inr ⟨p.2, Or.inl (by rw [h1]), by omega, ?_⟩
          have hct : c = t := by omega
          subst hct
          simpa [digit_of] using h3
        · exact Or.inr ⟨mv, Or.inr h1, h2, h3⟩
      · rintro (h | ⟨mv, h1 | h1, h2, h3⟩)
        · exact Or.inl (Or.inl h)
        · have hr : r = p.1 := by rw [← h1]
          have hmv : mv = p.2 := by rw [← h1]
          subst hmv
          exact Or.inl (Or.inr ⟨hr, c, h2, by omega, by simpa [digit_of] using h3⟩)
        · exact Or.inr ⟨mv, h1, h2, h3⟩

theorem move_component_spec (cache : StorageCache) (i count j : Nat) (st : BitMapStorage)
    (h : ∀ t, t < count → in_bounds st.bitmap_counts i (j + t)) :
    ∃ st1, move_component cache i count j st = .ok st1 ∧
      st1.bitmap_counts = st.bitmap_counts ∧ st1.all_values_bitmap = st.all_values_bitmap ∧
      ∀ c k, st1.bitmaps c k =
        if c = i ∧ j ≤ k ∧ k < j + count then st.bitmaps c k ∪ (cache c k).toFinset
        else st.bitmaps c k := by
  induction count generalizing j st with
  | zero =>
    refine ⟨st, rfl, rfl, rfl, fun c k => ?_⟩
    rw [if_neg (by omega)]
  | succ count ih =>
    have h0 : in_bounds st.bitmap_counts i j := by simpa using h 0 (by omega)
    obtain ⟨st1, h1, h2, h3, h4⟩ := ih (j + 1)
      { st with bitmaps := fun c k =>
          if c = i ∧ k = j then st.bitmaps c k ∪ (cache i j).toFinset else st.bitmaps c k }
      (fun t ht => by
        have := h (t + 1) (by omega)
        simpa [Nat.add_assoc, Nat.add_comm 1 t] using this)
    refine ⟨st1, ?_, h2, h3, fun c k => ?_⟩
    · simp only [move_component, BitMapStorage.add_to_bitmap, if_pos h0, h1]
    · rw [h4 c k]
      by_cases hc : c = i
      · subst hc
        by_cases hk : k = j
        · subst hk
          rw [if_neg (by omega), if_pos (by omega)]
          simp
        · by_cases hk2 : j + 1 ≤ k ∧ k < j + 1 + count
          · rw [if_pos ⟨rfl, hk2⟩, if_pos (by omega)]
            simp [hk]
          · rw [if_neg (by tauto), if_neg (by omega)]
            simp [hk]
      · rw [if_neg (by tauto), if_neg (by tauto)]
        simp [hc]

theorem in_bounds_append (pre rest : List Nat) (c k : Nat) :
    in_bounds (pre ++ rest) c k ↔
      (c < pre.length ∧ k < pre.getD c 0) ∨
      (pre.length ≤ c ∧ in_bounds rest (c - pre.length) k) := by
  unfold in_bounds
  by_cases h : c < pre.length
  · simp only [List.length_append, List.getD_eq_getElem?_getD, List.getElem?_append_left h]
    constructor
    · rintro ⟨_, h2⟩; exact Or.inl ⟨h, h2⟩
    · rintro (⟨_, h2⟩ | ⟨h1, _⟩)
      · exact ⟨by omega, h2⟩
      · omega
  · have h1 : pre.length ≤ c := by omega
    simp only [List.length_append, List.getD_eq_getElem?_getD, List.getElem?_append_right h1]
    constructor
    · rintro ⟨h2, h3⟩; exact Or.inr ⟨h1, by omega, h3⟩
    · rintro (⟨h2, _⟩ | ⟨_, h2, h3⟩)
      · omega
      · exact ⟨by omega, h3⟩

theorem move_cache_spec (cache : StorageCache) (rest pre : List Nat) (st : BitMapStorage)
    (h : st.bitmap_counts = pre ++ rest) :
    ∃ st1, move_cache cache rest pre.length st = .ok st1 ∧
      st1.bitmap_counts = st.bitmap_counts ∧ st1.all_values_bitmap = st.all_values_bitmap ∧
      ∀ c k, st1.bitmaps c k =
        if pre.length ≤ c ∧ in_bounds st.bitmap_counts c k
        then st.bitmaps c k ∪ (cache c k).toFinset
        else st.bitmaps c k := by
  induction rest generalizing pre st with
  | nil =>
    refine ⟨st, rfl, rfl, rfl, fun c k => ?_⟩
    rw [if_neg]
    rintro ⟨h1, h2⟩
    rw [h, in_bounds_append] at h2
    rcases h2 with h2 | h2
    · omega
    · simp [in_bounds] at h2
  | cons count rest ih =>
    have hb : ∀ t, t < count → in_bounds st.bitmap_counts pre.length (0 + t) := by
      intro t ht
      rw [h, in_bounds_append]
      right
      simp [in_bounds, ht]
    obtain ⟨st1, h1, h2, h3, h4⟩ := move_component_spec cache pre.length count 0 st hb
    obtain ⟨st2, g1, g2, g3, g4⟩ := ih (pre ++ [count]) st1 (by rw [h2, h]; simp)
    refine ⟨st2, ?_, by rw [g2, h2], by rw [g3, h3], fun c k => ?_⟩
    · have : (pre ++ [count]).length = pre.length + 1 := by simp
      rw [this] at g1
      simp only [move_cache, h1, g1]
    · rw [g4 c k, h4 c k, h2]
      have hlen : (pre ++ [count]).length = pre.length + 1 := by simp
      rw [hlen]
      by_cases hc : c = pre.length
      · have hin : in_bounds st.bitmap_counts c k ↔ k < count := by
          rw [h, in_bounds_append, hc]
          simp [in_bounds]
        rw [if_neg (by omega)]
        by_cases hk : k < count
        · rw [if_pos ⟨hc, by omega, by omega⟩, if_pos ⟨by omega, hin.mpr hk⟩]
        · rw [if_neg (by omega), if_neg (by rw [hin]; tauto)]
      · by_cases hc2 : pre.length + 1 ≤ c ∧ in_bounds st.bitmap_counts c k
        · rw [if_pos hc2, if_neg (by tauto), if_pos ⟨by omega, hc2.2⟩]
        · rw [if_neg hc2, if_neg (by tauto), if_neg]
          rintro ⟨h5, h6⟩
          exact hc2 ⟨by omega, h6⟩

/-- Every bitmap a digit is written to exists. -/
theorem bitmaps_of_digit_in_bounds (basis : List Nat) (enc_type : BitmapIndexEncodingType)
    (hge : ∀ b ∈ basis, 1 ≤ b) (hlt : ∀ b ∈ basis, b + 1 < 2 ^ 32) (t value : Nat)
    (ht : t < basis.length) :
    ∀ j ∈ bitmaps_of_digit enc_type (basis.getD t 0)
            ((calculate_bitmap_counts basis enc_type).getD t 0) (digit_of basis t value),
      in_bounds (calculate_bitmap_counts basis enc_type) t j := by
  intro j hj
  have hd := digit_of_lt basis hge value t ht
  have hb : 1 ≤ basis.getD t 0 ∧ basis.getD t 0 + 1 < 2 ^ 32 := by
    rw [List.getD_eq_getElem _ _ ht]
    exact ⟨hge _ (List.getElem_mem _), hlt _ (List.getElem_mem _)⟩
  unfold in_bounds
  rw [counts_length]
  refine ⟨ht, ?_⟩
  rw [counts_getD _ _ t ht] at hj ⊢
  cases enc_type with
  | EQUALITY =>
    simp only [mem_bitmaps_of_digit_equality] at hj ⊢
    omega
  | INTERVAL =>
    simp only [mem_bitmaps_of_digit_interval _ _ _ hb.1 hb.2 hd] at hj ⊢
    omega
  | RANGE =>
    simp only [mem_bitmaps_of_digit_range] at hj ⊢
    omega

/-- The method `insert_mapped_values` on a fresh storage: it succeeds, and bitmap `j` of
component `i` holds the documents with a row whose digit `i` is written to `j`. -/
theorem insert_mapped_values_spec (aux_data : BitmapIndexAuxData)
    (mapped : List (DocumentID × Nat))
    (hvd : aux_data.vd = ValueDecomposer.new aux_data.vd.basis)
    (hge : ∀ b ∈ aux_data.vd.basis, 1 ≤ b) (hlt : ∀ b ∈ aux_data.vd.basis, b + 1 < 2 ^ 32)
    (hcounts : aux_data.bitmap_counts
      = calculate_bitmap_counts aux_data.vd.basis aux_data.enc_type)
    (hlen : mapped.length < 2 ^ 32) :
    ∃ st, insert_mapped_values aux_data (BitMapStorage.create aux_data.bitmap_counts) mapped
        = .ok st ∧
      st.bitmap_counts = aux_data.bitmap_counts ∧
      st.all_values_bitmap = docs_of mapped ∧
      ∀ i j, in_bounds aux_data.bitmap_counts i j → ∀ d,
        d ∈ st.bitmaps i j ↔
          ∃ mv, (d, mv) ∈ mapped ∧
            j ∈ bitmaps_of_digit aux_data.enc_type (aux_data.vd.basis.getD i 0)
                  (aux_data.bitmap_counts.getD i 0) (digit_of aux_data.vd.basis i mv) := by
  have htake : mapped.take (mapped.length % 2 ^ 32) = mapped := by
    rw [Nat.mod_eq_of_lt hlen, List.take_length]
  obtain ⟨s1, hs1, hs2, hs3⟩ := insert_rows_spec aux_data mapped (fun _ _ => [], []) hvd
    (fun p _ t ht j hj => by
      rw [hcounts] at hj ⊢
      exact bitmaps_of_digit_in_bounds _ _ hge hlt t p.2 ht j hj)
  obtain ⟨st, g1, g2, g3, g4⟩ := move_cache_spec s1.1 aux_data.bitmap_counts []
    ((BitMapStorage.create aux_data.bitmap_counts).add_to_all_values_bitmap s1.2) rfl
  refine ⟨st, ?_, ?_, ?_, fun i j hin d => ?_⟩
  · simp only [insert_mapped_values, htake, hs1]
    exact g1
  · rw [g2]; rfl
  · rw [g3, hs2]
    simp [BitMapStorage.add_to_all_values_bitmap, BitMapStorage.create, docs_of]
  · rw [g4 i j]
    have hin1 : in_bounds ((BitMapStorage.create aux_data.bitmap_counts).add_to_all_values_bitmap
        s1.2).bitmap_counts i j := hin
    rw [if_pos ⟨by simp, hin1⟩]
    simp only [BitMapStorage.add_to_all_values_bitmap, BitMapStorage.create,
      Finset.empty_union, List.mem_toFinset, hs3 i j d, List.not_mem_nil, false_or]
    have hi : i < aux_data.vd.basis.length := by
      have := hin.1
      rw [hcounts, counts_length] at this
      exact this
    constructor
    · rintro ⟨mv, h1, _, h3⟩; exact ⟨mv, h1, h3⟩
    · rintro ⟨mv, h1, h3⟩; exact ⟨mv, h1, hi, h3⟩

/-! ## The basis chosen by `get_basis` -/

theorem get_basis_bitsliced_loop_spec (fuel cardinality : Nat) (h : cardinality < 2 ^ fuel) :
    (∀ b ∈ get_basis_bitsliced_loop fuel cardinality, b = 2) ∧
    cardinality < (get_basis_bitsliced_loop fuel cardinality).prod ∧
    (1 ≤ cardinality → get_basis_bitsliced_loop fuel cardinality ≠ []) := by
  induction fuel generalizing cardinality with
  | zero =>
    have : cardinality = 0 := by simpa using h
    subst this
    simp [get_basis_bitsliced_loop]
  | succ fuel ih =>
    unfold get_basis_bitsliced_loop
    by_cases h0 : cardinality = 0
    · simp [h0]
    · rw [if_neg h0]
      have hlt : cardinality / 2 < 2 ^ fuel := by
        rw [Nat.pow_succ] at h; omega
      obtain ⟨h1, h2, _⟩ := ih (cardinality / 2) hlt
      refine ⟨?_, ?_, fun _ => by simp⟩
      · intro b hb
        rcases List.mem_cons.mp hb with hb | hb
        · exact hb
        · exact h1 b hb
      · simp only [List.prod_cons]; omega

theorem sqrt_floor_loop_spec (k n r : Nat) (h1 : r * r ≤ n)
    (h2 : n < (r + 2 ^ k) * (r + 2 ^ k)) :
    sqrt_floor_loop k n r * sqrt_floor_loop k n r ≤ n ∧
      n < (sqrt_floor_loop k n r + 1) * (sqrt_floor_loop k n r + 1) := by
  induction k generalizing r with
  | zero => simpa [sqrt_floor_loop] using ⟨h1, h2⟩
  | succ k ih =>
    unfold sqrt_floor_loop
    by_cases h : (r + 2 ^ k) * (r + 2 ^ k) ≤ n
    · rw [if_pos h]
      apply ih _ h
      have : r + 2 ^ k + 2 ^ k = r + 2 ^ (k + 1) := by rw [Nat.pow_succ]; omega
      rw [this]; exact h2
    · rw [if_neg h]
      exact ih r h1 (by omega)

theorem sqrt_floor_loop_eq (n : Nat) (h : n < 2 ^ 66) :
    sqrt_floor_loop 33 n 0 = Nat.sqrt n := by
  apply Nat.eq_sqrt.mpr
  exact sqrt_floor_loop_spec 33 n 0 (by simp) (by norm_num; omega)

/-! ## The square root in double precision -/

theorem double_lost_bits_small (fuel n : Nat) (h : n < 2 ^ 53) :
    double_lost_bits fuel n = 0 := by
  cases fuel with
  | zero => rfl
  | succ fuel => rw [double_lost_bits, if_pos h]

theorem double_lost_bits_le (fuel n : Nat) :
    double_lost_bits fuel n = 0 ∨ 2 ^ (52 + double_lost_bits fuel n) ≤ n := by
  induction fuel generalizing n with
  | zero => exact Or.inl rfl
  | succ fuel ih =>
    rw [double_lost_bits]
    by_cases h : n < 2 ^ 53
    · rw [if_pos h]; exact Or.inl rfl
    · rw [if_neg h]
      right
      rcases ih (n / 2) with h0 | h1
      · rw [h0]; omega
      · have e : 52 + (1 + double_lost_bits fuel (n / 2))
            = (52 + double_lost_bits fuel (n / 2)) + 1 := by omega
        rw [e, Nat.pow_succ]
        omega

/-- A `uint64_t` below `2 ^ 53` is converted to `double` exactly. -/
theorem double_of_uint64_small (n : Nat) (h : n < 2 ^ 53) : double_of_uint64 n = n := by
  unfold double_of_uint64
  rw [double_lost_bits_small 11 n h]
  simp [Nat.mod_one]

/-- The conversion of a `uint64_t` to `double` changes it by less than a `2 ^ 52`-th. -/
theorem double_of_uint64_bounds (n : Nat) :
    n ≤ double_of_uint64 n + n / 2 ^ 52 ∧ double_of_uint64 n ≤ n + n / 2 ^ 52 := by
  unfold double_of_uint64
  dsimp only
  rcases double_lost_bits_le 11 n with h0 | h1
  · rw [h0]; simp [Nat.mod_one]
  · generalize double_lost_bits 11 n = e at h1 ⊢
    rw [Nat.pow_add] at h1
    have hP : 2 ^ e ≤ n / 2 ^ 52 := by
      rw [Nat.le_div_iff_mul_le (by norm_num)]
      rw [Nat.mul_comm]; exact h1
    have hpos : 0 < 2 ^ e := Nat.pos_pow_of_pos _ (by norm_num)
    generalize 2 ^ e = P at *
    have hdm := Nat.div_add_mod n P
    have hr := Nat.mod_lt n hpos
    generalize n % P = r at *
    generalize n / P = q at *
    have e1 : (q + 1) * P = P * q + P := by ring
    have e2 : q * P = P * q := by ring
    split_ifs
    · rw [e1]; omega
    · rw [e2]; omega

theorem binade_le (fuel k p : Nat) (h : k < 2 ^ (p + 1)) : binade fuel k ≤ p := by
  induction fuel generalizing k p with
  | zero => simp [binade]
  | succ fuel ih =>
    rw [binade]
    by_cases h2 : k < 2
    · rw [if_pos h2]; omega
    · rw [if_neg h2]
      cases p with
      | zero => simp at h; omega
      | succ p =>
        have := ih (k / 2) p (by rw [Nat.pow_succ] at h; omega)
        omega

/-- The root computed in `double` is the integer part of the exact root or one more. -/
theorem sqrt_double_trunc_bounds (x : Nat) (h : x < 2 ^ 66) :
    Nat.sqrt x ≤ sqrt_double_trunc x ∧ sqrt_double_trunc x ≤ Nat.sqrt x + 1 := by
  unfold sqrt_double_trunc
  rw [sqrt_floor_loop_eq x h]
  simp only
  split_ifs <;> omega

/-- Below `2 ^ 52` the root computed in `double` is the integer part of the exact root. -/
theorem sqrt_double_trunc_eq (x : Nat) (h : x < 2 ^ 52) :
    sqrt_double_trunc x = Nat.sqrt x := by
  unfold sqrt_double_trunc
  rw [sqrt_floor_loop_eq x (lt_trans h (by norm_num))]
  simp only
  by_cases hsq : Nat.sqrt x * Nat.sqrt x = x
  · rw [if_pos hsq]
  · rw [if_neg hsq]
    have hk : Nat.sqrt x < 2 ^ 26 := by
      rw [Nat.sqrt_lt']
      calc x < 2 ^ 52 := h
        _ = (2 ^ 26) ^ 2 := by norm_num
    have hp := binade_le 33 (Nat.sqrt x) 25 hk
    have h3 : x < (Nat.sqrt x + 1) * (Nat.sqrt x + 1) := Nat.lt_succ_sqrt x
    generalize Nat.sqrt x = k at *
    have ht : 2 ^ 28 ≤ 2 ^ (53 - binade 33 k) :=
      Nat.pow_le_pow_right (by norm_num) (by omega)
    generalize 2 ^ (53 - binade 33 k) = t at *
    rw [if_neg]
    have ht2 : 2 * (k + 1) ≤ t := by
      have : (2 : Nat) ^ 28 = 268435456 := by norm_num
      have : (2 : Nat) ^ 26 = 67108864 := by norm_num
      omega
    have hpos : 1 ≤ (k + 1) * t := by nlinarith
    obtain ⟨w, hw⟩ : ∃ w, (k + 1) * t = w + 1 := ⟨(k + 1) * t - 1, by omega⟩
    rw [hw, Nat.add_sub_cancel]
    have hx : x + 1 ≤ (k + 1) * (k + 1) := h3
    have h5 : (x + 1) * (t * t) ≤ (w + 1) * (w + 1) := by
      calc (x + 1) * (t * t) ≤ ((k + 1) * (k + 1)) * (t * t) := Nat.mul_le_mul_right _ hx
        _ = ((k + 1) * t) * ((k + 1) * t) := by ring
        _ = (w + 1) * (w + 1) := by rw [hw]
    have h6 : 2 * w + 1 ≤ t * t := by
      have : 2 * ((k + 1) * t) ≤ t * t := by nlinarith
      omega
    nlinarith

/-- Below `2 ^ 52` the value `(uint32_t)sqrt(cardinality)` is the integer part of the exact
square root. -/
theorem sqrt_floor_eq (n : Nat) (h : n < 2 ^ 52) : sqrt_floor n = Nat.sqrt n := by
  unfold sqrt_floor
  rw [double_of_uint64_small n (lt_trans h (by norm_num)), sqrt_double_trunc_eq n h]

theorem sqrt_bounds (c : Nat) (h4 : 4 ≤ c) (h52 : c < 2 ^ 52) :
    2 ≤ Nat.sqrt c ∧ Nat.sqrt c < 2 ^ 26 ∧ c / Nat.sqrt c ≤ Nat.sqrt c + 2 ∧
      1 ≤ c / Nat.sqrt c := by
  have h1 : 2 ≤ Nat.sqrt c := by
    rw [Nat.le_sqrt']; omega
  have h2 : Nat.sqrt c < 2 ^ 26 := by
    rw [Nat.sqrt_lt']
    calc c < 2 ^ 52 := h52
      _ = (2 ^ 26) ^ 2 := by norm_num
  have h3 : c < (Nat.sqrt c + 1) ^ 2 := Nat.lt_succ_sqrt' c
  have h5 : Nat.sqrt c ^ 2 ≤ c := Nat.sqrt_le' c
  have hpos : 0 < Nat.sqrt c := by omega
  refine ⟨h1, h2, ?_, ?_⟩
  · rw [Nat.div_le_iff_le_mul_add_pred hpos]
    nlinarith
  · rw [Nat.le_div_iff_mul_le hpos]
    nlinarith

/-- The first base of a BITMAP basis and the quotient by it, for a cardinality of 4 to
`2 ^ 61`: both stay below `2 ^ 31`. -/
theorem bitmap_base_bounds (c : Nat) (h4 : 4 ≤ c) (h : c ≤ 2 ^ 61) :
    1 ≤ sqrt_floor c ∧ sqrt_floor c < 2 ^ 31 - 1 ∧ c / sqrt_floor c + 1 < 2 ^ 31 := by
  unfold sqrt_floor
  obtain ⟨b1, b2⟩ := double_of_uint64_bounds c
  have e52 : (2 : Nat) ^ 52 = 4503599627370496 := by norm_num
  have e61 : (2 : Nat) ^ 61 = 2305843009213693952 := by norm_num
  have e31 : (2 : Nat) ^ 31 = 2147483648 := by norm_num
  rw [e52] at b1 b2
  rw [e61] at h
  have hx : double_of_uint64 c < 2 ^ 66 := by
    have : (2 : Nat) ^ 66 = 73786976294838206464 := by norm_num
    omega
  obtain ⟨s1, s2⟩ := sqrt_double_trunc_bounds (double_of_uint64 c) hx
  have hm1 : Nat.sqrt (double_of_uint64 c) * Nat.sqrt (double_of_uint64 c)
      ≤ double_of_uint64 c := Nat.sqrt_le _
  have hm2 : double_of_uint64 c
      < (Nat.sqrt (double_of_uint64 c) + 1) * (Nat.sqrt (double_of_uint64 c) + 1) :=
    Nat.lt_succ_sqrt _
  have hm3 : 1 ≤ Nat.sqrt (double_of_uint64 c) := by
    have : 0 < Nat.sqrt (double_of_uint64 c) := Nat.sqrt_pos.mpr (by omega)
    omega
  have hm4 : Nat.sqrt (double_of_uint64 c) < 1518500250 := by
    rw [Nat.sqrt_lt']
    have : (1518500250 : Nat) ^ 2 = 2305843009250062500 := by norm_num
    omega
  have hm5 : 4503599627370496 ≤ c → 2049 ≤ Nat.sqrt (double_of_uint64 c) := by
    intro hc
    rw [Nat.le_sqrt']
    have : (2049 : Nat) ^ 2 = 4198401 := by norm_num
    omega
  generalize double_of_uint64 c = d at *
  generalize Nat.sqrt d = m at *
  generalize sqrt_double_trunc d = s at *
  have e1 : (m + 1) * (m + 1) = m * m + 2 * m + 1 := by ring
  rw [e1] at hm2
  have hc : c < (m + 3) * m := by
    have e2 : (m + 3) * m = m * m + 3 * m := by ring
    rw [e2]
    by_cases hc : 4503599627370496 ≤ c
    · have := hm5 hc
      omega
    · omega
  have hs : c < (m + 3) * s :=
    lt_of_lt_of_le hc (Nat.mul_le_mul_left _ s1)
  have hq : c / s < m + 3 := by
    rw [Nat.div_lt_iff_lt_mul (by omega)]
    exact hs
  rw [e31]
  refine ⟨by omega, by omega, by omega⟩

/-- The basis of `get_basis` for a cardinality between 1 and `2 ^ 61`: it is not empty, its
bases lie between 1 and `2 ^ 31`, and their product covers the cardinality. -/
theorem get_basis_spec (cardinality : Nat) (index_type : BitmapIndexType)
    (h1 : 1 ≤ cardinality) (h2 : cardinality ≤ 2 ^ 61) :
    get_basis cardinality index_type ≠ [] ∧
    (∀ b ∈ get_basis cardinality index_type, 1 ≤ b) ∧
    (∀ b ∈ get_basis cardinality index_type, b < 2 ^ 31) ∧
    cardinality ≤ (get_basis cardinality index_type).prod := by
  unfold get_basis
  by_cases h4 : cardinality < 4
  · rw [if_pos h4]
    have : cardinality % 2 ^ 32 = cardinality := by omega
    rw [this]
    refine ⟨by simp, ?_, ?_, by simp⟩
    · intro b hb; simp at hb; omega
    · intro b hb; simp at hb; omega
  · rw [if_neg h4]
    cases index_type with
    | BITMAP =>
      obtain ⟨s1, s2, s3⟩ := bitmap_base_bounds cardinality (by omega) h2
      generalize hs : sqrt_floor cardinality = s at *
      have e31 : (2 : Nat) ^ 31 = 2147483648 := by norm_num
      rw [e31] at s2 s3
      have e0 : s % 2 ^ 32 = s := Nat.mod_eq_of_lt (by omega)
      simp only [e0]
      have e1 : cardinality / s % 2 ^ 32 = cardinality / s :=
        Nat.mod_eq_of_lt (by omega)
      have e2 : (cardinality / s + 1) % 2 ^ 32 = cardinality / s + 1 :=
        Nat.mod_eq_of_lt (by omega)
      simp only [e1, e2]
      have hdm := Nat.div_add_mod cardinality s
      have hq : 1 ≤ cardinality / s ∨ cardinality % s ≠ 0 := by
        by_contra hn
        push_neg at hn
        have : cardinality / s = 0 := by omega
        rw [this, hn.2] at hdm
        omega
      refine ⟨by simp, ?_, ?_, ?_⟩
      · intro b hb
        simp only [List.mem_cons, List.mem_singleton, List.not_mem_nil, or_false] at hb
        rcases hb with hb | hb
        · omega
        · rw [hb]; split_ifs <;> omega
      · intro b hb
        simp only [List.mem_cons, List.mem_singleton, List.not_mem_nil, or_false] at hb
        rcases hb with hb | hb
        · omega
        · rw [hb]; split_ifs <;> omega
      · simp only [List.prod_cons, List.prod_nil, Nat.mul_one]
        have hml := Nat.mod_lt cardinality (show 0 < s by omega)
        split_ifs with hz
        · rw [Nat.mul_add]; omega
        · have : cardinality % s = 0 := by simpa using hz
          omega
    | BITSLICED =>
      have hlt : cardinality < 2 ^ 64 := by
        calc cardinality ≤ 2 ^ 61 := h2
          _ < 2 ^ 64 := by norm_num
      obtain ⟨g1, g2, g3⟩ := get_basis_bitsliced_loop_spec 64 cardinality hlt
      refine ⟨g3 h1, ?_, ?_, le_of_lt g2⟩
      · intro b hb; rw [g1 b hb]; norm_num
      · intro b hb; rw [g1 b hb]; norm_num

/-- The first base of a BITMAP basis and the quotient by it, for a cardinality of 4 to
`2 ^ 63`: neither leaves `uint32_t`. -/
theorem bitmap_base_bounds_wide (c : Nat) (h4 : 4 ≤ c) (h : c ≤ 2 ^ 63) :
    1 ≤ sqrt_floor c ∧ sqrt_floor c < 2 ^ 32 - 1 ∧ c / sqrt_floor c + 1 < 2 ^ 32 := by
  unfold sqrt_floor
  obtain ⟨b1, b2⟩ := double_of_uint64_bounds c
  have e52 : (2 : Nat) ^ 52 = 4503599627370496 := by norm_num
  have e63 : (2 : Nat) ^ 63 = 9223372036854775808 := by norm_num
  have e32 : (2 : Nat) ^ 32 = 4294967296 := by norm_num
  rw [e52] at b1 b2
  rw [e63] at h
  have hx : double_of_uint64 c < 2 ^ 66 := by
    have : (2 : Nat) ^ 66 = 73786976294838206464 := by norm_num
    omega
  obtain ⟨s1, s2⟩ := sqrt_double_trunc_bounds (double_of_uint64 c) hx
  have hm1 : Nat.sqrt (double_of_uint64 c) * Nat.sqrt (double_of_uint64 c)
      ≤ double_of_uint64 c := Nat.sqrt_le _
  have hm2 : double_of_uint64 c
      < (Nat.sqrt (double_of_uint64 c) + 1) * (Nat.sqrt (double_of_uint64 c) + 1) :=
    Nat.lt_succ_sqrt _
  have hm3 : 1 ≤ Nat.sqrt (double_of_uint64 c) := by
    have : 0 < Nat.sqrt (double_of_uint64 c) := Nat.sqrt_pos.mpr (by omega)
    omega
  have hm4 : Nat.sqrt (double_of_uint64 c) < 3037000500 := by
    rw [Nat.sqrt_lt']
    have : (3037000500 : Nat) ^ 2 = 9223372037000250000 := by norm_num
    omega
  have hm5 : 4503599627370496 ≤ c → 2049 ≤ Nat.sqrt (double_of_uint64 c) := by
    intro hc
    rw [Nat.le_sqrt']
    have : (2049 : Nat) ^ 2 = 4198401 := by norm_num
    omega
  generalize double_of_uint64 c = d at *
  generalize Nat.sqrt d = m at *
  generalize sqrt_double_trunc d = s at *
  have e1 : (m + 1) * (m + 1) = m * m + 2 * m + 1 := by ring
  rw [e1] at hm2
  have hc : c < (m + 3) * m := by
    have e2 : (m + 3) * m = m * m + 3 * m := by ring
    rw [e2]
    by_cases hc : 4503599627370496 ≤ c
    · have := hm5 hc
      omega
    · omega
  have hs : c < (m + 3) * s :=
    lt_of_lt_of_le hc (Nat.mul_le_mul_left _ s1)
  have hq : c / s < m + 3 := by
    rw [Nat.div_lt_iff_lt_mul (by omega)]
    exact hs
  rw [e32]
  refine ⟨by omega, by omega, by omega⟩

/-- The basis of `get_basis` for a cardinality between 1 and `2 ^ 63`: it is not empty, its
bases are at least 1, and their product covers the cardinality. -/
theorem get_basis_spec_wide (cardinality : Nat) (index_type : BitmapIndexType)
    (h1 : 1 ≤ cardinality) (h2 : cardinality ≤ 2 ^ 63) :
    get_basis cardinality index_type ≠ [] ∧
    (∀ b ∈ get_basis cardinality index_type, 1 ≤ b) ∧
    cardinality ≤ (get_basis cardinality index_type).prod := by
  unfold get_basis
  by_cases h4 : cardinality < 4
  · rw [if_pos h4]
    have : cardinality % 2 ^ 32 = cardinality := by omega
    rw [this]
    refine ⟨by simp, ?_, by simp⟩
    intro b hb; simp at hb; omega
  · rw [if_neg h4]
    cases index_type with
    | BITMAP =>
      obtain ⟨s1, s2, s3⟩ := bitmap_base_bounds_wide cardinality (by omega) h2
      generalize hs : sqrt_floor cardinality = s at *
      have e32 : (2 : Nat) ^ 32 = 4294967296 := by norm_num
      rw [e32] at s2 s3
      have e0 : s % 2 ^ 32 = s := Nat.mod_eq_of_lt (by omega)
      simp only [e0]
      have e1 : cardinality / s % 2 ^ 32 = cardinality / s :=
        Nat.mod_eq_of_lt (by omega)
      have e2 : (cardinality / s + 1) % 2 ^ 32 = cardinality / s + 1 :=
        Nat.mod_eq_of_lt (by omega)
      simp only [e1, e2]
      have hdm := Nat.div_add_mod cardinality s
      have hq : 1 ≤ cardinality / s ∨ cardinality % s ≠ 0 := by
        by_contra hn
        push_neg at hn
        have : cardinality / s = 0 := by omega
        rw [this, hn.2] at hdm
        omega
      refine ⟨by simp, ?_, ?_⟩
      · intro b hb
        simp only [List.mem_cons, List.mem_singleton, List.not_mem_nil, or_false] at hb
        rcases hb with hb | hb
        · omega
        · rw [hb]; split_ifs <;> omega
      · simp only [List.prod_cons, List.prod_nil, Nat.mul_one]
        have hml := Nat.mod_lt cardinality (show 0 < s by omega)
        split_ifs with hz
        · rw [Nat.mul_add]; omega
        · have : cardinality % s = 0 := by simpa using hz
          omega
    | BITSLICED =>
      have hlt : cardinality < 2 ^ 64 := by
        calc cardinality ≤ 2 ^ 63 := h2
          _ < 2 ^ 64 := by norm_num
      obtain ⟨g1, g2, g3⟩ := get_basis_bitsliced_loop_spec 64 cardinality hlt
      refine ⟨g3 h1, ?_, le_of_lt g2⟩
      intro b hb; rw [g1 b hb]; norm_num

/-! ## Conversions to `int64_t` -/

theorem to_int64_eq (v : Int) (h1 : -(2 ^ 63) ≤ v) (h2 : v < 2 ^ 63) : to_int64 v = v := by
  unfold to_int64; omega

theorem to_int64_range (v : Int) : -(2 ^ 63) ≤ to_int64 v ∧ to_int64 v < 2 ^ 63 := by
  unfold to_int64; omega

theorem converted_lt_eq (T : IntegralType) (a b : Int) (ha : fits_int64 T a)
    (hb : fits_int64 T b) : converted_lt T a b = decide (a < b) := by
  unfold converted_lt
  obtain ⟨a1, a2, a3⟩ := ha
  obtain ⟨b1, b2, b3⟩ := hb
  by_cases hc : T.is_signed ∨ T.size < 8
  · rw [if_pos hc, to_int64_eq a a1 a2, to_int64_eq b b1 b2]
  · rw [if_neg hc]
    have := a3 hc
    have := b3 hc
    unfold to_uint64
    congr 1
    apply propext
    constructor <;> intro h <;> omega

/-- A value of `T` below `2 ^ 63` is left as it is by the conversions of `configure`. -/
theorem holds_fits (T : IntegralType) (hs1 : 1 ≤ T.size) (hs8 : T.size ≤ 8) (v : Int)
    (hT : T.holds v) (h63 : v < 2 ^ 63) : fits_int64 T v := by
  obtain ⟨size, sg⟩ := T
  unfold IntegralType.holds numeric_limits_min numeric_limits_max at hT
  unfold fits_int64
  simp only at hs1 hs8 hT ⊢
  interval_cases size <;> cases sg <;> simp at hT ⊢ <;> omega

/-- The values of an integral type of at most 8 bytes lie in `[-2 ^ 63, 2 ^ 64)`, and if one
of them is `2 ^ 63` or more the type is unsigned. -/
theorem holds_bounds (T : IntegralType) (hs1 : 1 ≤ T.size) (hs8 : T.size ≤ 8) (v w : Int)
    (hv : T.holds v) (hw : T.holds w) :
    -(2 ^ 63) ≤ v ∧ v < 2 ^ 64 ∧ (2 ^ 63 ≤ v → 0 ≤ w) := by
  obtain ⟨size, sg⟩ := T
  unfold IntegralType.holds numeric_limits_min numeric_limits_max at hv hw
  simp only at hs1 hs8 hv hw
  interval_cases size <;> cases sg <;> simp at hv hw <;> omega

/-! ## The minimum and maximum found by `configure` -/

theorem configure_min_max_spec (T : IntegralType) (values : List (DocumentID × Int))
    (init : Int × Int) (hi1 : fits_int64 T init.1) (hi2 : fits_int64 T init.2)
    (hv : ∀ p ∈ values, fits_int64 T p.2) :
    (configure_min_max T values init).1 ≤ init.1 ∧
    init.2 ≤ (configure_min_max T values init).2 ∧
    (∀ p ∈ values, (configure_min_max T values init).1 ≤ p.2 ∧
      p.2 ≤ (configure_min_max T values init).2) ∧
    ((configure_min_max T values init).1 = init.1 ∨
      ∃ p ∈ values, p.2 = (configure_min_max T values init).1) ∧
    ((configure_min_max T values init).2 = init.2 ∨
      ∃ p ∈ values, p.2 = (configure_min_max T values init).2) := by
  induction values generalizing init with
  | nil => simp [configure_min_max]
  | cons v rest ih =>
    have hv0 := hv v (List.mem_cons_self _ _)
    have hstep : configure_min_max T (v :: rest) init
        = configure_min_max T rest (if v.2 < init.1 then v.2 else init.1,
                                  if v.2 > init.2 then v.2 else init.2) := by
      show configure_min_max T rest
          (if converted_lt T v.2 init.1 then to_int64 v.2 else init.1,
           if converted_lt T init.2 v.2 then to_int64 v.2 else init.2) = _
      rw [converted_lt_eq T _ _ hv0 hi1, converted_lt_eq T _ _ hi2 hv0,
        to_int64_eq v.2 hv0.1 hv0.2.1]
      simp only [decide_eq_true_eq, gt_iff_lt]
    rw [hstep]
    have ha : (if v.2 < init.1 then v.2 else init.1) ≤ init.1 ∧
        (if v.2 < init.1 then v.2 else init.1) ≤ v.2 ∧
        ((if v.2 < init.1 then v.2 else init.1) = init.1 ∨
          (if v.2 < init.1 then v.2 else init.1) = v.2) := by
      split_ifs <;> omega
    have hb : init.2 ≤ (if v.2 > init.2 then v.2 else init.2) ∧
        v.2 ≤ (if v.2 > init.2 then v.2 else init.2) ∧
        ((if v.2 > init.2 then v.2 else init.2) = init.2 ∨
          (if v.2 > init.2 then v.2 else init.2) = v.2) := by
      split_ifs <;> omega
    have hfa : fits_int64 T (if v.2 < init.1 then v.2 else init.1) := by
      split_ifs
      · exact hv0
      · exact hi1
    have hfb : fits_int64 T (if v.2 > init.2 then v.2 else init.2) := by
      split_ifs
      · exact hv0
      · exact hi2
    generalize (if v.2 < init.1 then v.2 else init.1) = a at *
    generalize (if v.2 > init.2 then v.2 else init.2) = b at *
    obtain ⟨h1, h2, h3, h4, h5⟩ := ih (a, b) hfa hfb
      (fun p hp => hv p (List.mem_cons_of_mem _ hp))
    simp only at h1 h2 h4 h5
    refine ⟨by omega, by omega, ?_, ?_, ?_⟩
    · intro p hp
      rcases List.mem_cons.mp hp with hp | hp
      · subst hp
        constructor <;> omega
      · exact h3 p hp
    · rcases h4 with h4 | ⟨p, hp, h4⟩
      · rcases ha.2.2 with h6 | h6
        · exact Or.inl (by omega)
        · exact Or.inr ⟨v, List.mem_cons_self _ _, by omega⟩
      · exact Or.inr ⟨p, List.mem_cons_of_mem _ hp, h4⟩
    · rcases h5 with h5 | ⟨p, hp, h5⟩
      · rcases hb.2.2 with h6 | h6
        · exact Or.inl (by omega)
        · exact Or.inr ⟨v, List.mem_cons_self _ _, by omega⟩
      · exact Or.inr ⟨p, List.mem_cons_of_mem _ hp, h5⟩

/-- The first round of the loop of `configure`: whatever the type, the first value replaces
both initial bounds. -/
theorem configure_first_step (T : IntegralType) (hs1 : 1 ≤ T.size) (hs8 : T.size ≤ 8)
    (v : Int) (hT : T.holds v) (h63 : v < 2 ^ 63) :
    (if converted_lt T v (to_int64 (numeric_limits_max T)) then to_int64 v
      else to_int64 (numeric_limits_max T)) = v ∧
    (if converted_lt T (to_int64 (numeric_limits_min T)) v then to_int64 v
      else to_int64 (numeric_limits_min T)) = v := by
  obtain ⟨size, sg⟩ := T
  unfold IntegralType.holds numeric_limits_min numeric_limits_max at hT
  unfold converted_lt numeric_limits_min numeric_limits_max to_int64 to_uint64
  simp only at hs1 hs8 hT ⊢
  interval_cases size <;> cases sg <;> simp at hT ⊢ <;> constructor <;> split_ifs <;> omega

/-- On a non-empty list of values of `T` (below `2 ^ 63`), the loop of `configure` finds
the least and the greatest value. -/
theorem configure_min_max_attained (T : IntegralType) (values : List (DocumentID × Int))
    (hne : values ≠ []) (hT : ∀ p ∈ values, T.holds p.2) (h63 : ∀ p ∈ values, p.2 < 2 ^ 63)
    (hs1 : 1 ≤ T.size) (hs8 : T.size ≤ 8) :
    (∀ p ∈ values,
      (configure_min_max T values
        (to_int64 (numeric_limits_max T), to_int64 (numeric_limits_min T))).1 ≤ p.2 ∧
      p.2 ≤ (configure_min_max T values
        (to_int64 (numeric_limits_max T), to_int64 (numeric_limits_min T))).2) ∧
    (∃ p ∈ values,
      p.2 = (configure_min_max T values
        (to_int64 (numeric_limits_max T), to_int64 (numeric_limits_min T))).1) ∧
    (∃ p ∈ values,
      p.2 = (configure_min_max T values
        (to_int64 (numeric_limits_max T), to_int64 (numeric_limits_min T))).2) := by
  cases values with
  | nil => exact absurd rfl hne
  | cons v rest =>
    have hv0 := hT v (List.mem_cons_self _ _)
    have hv63 := h63 v (List.mem_cons_self _ _)
    have hf0 := holds_fits T hs1 hs8 v.2 hv0 hv63
    obtain ⟨f1, f2⟩ := configure_first_step T hs1 hs8 v.2 hv0 hv63
    have hstep : configure_min_max T (v :: rest)
        (to_int64 (numeric_limits_max T), to_int64 (numeric_limits_min T))
        = configure_min_max T rest (v.2, v.2) := by
      show configure_min_max T rest
          (if converted_lt T v.2 (to_int64 (numeric_limits_max T)) then to_int64 v.2
            else to_int64 (numeric_limits_max T),
           if converted_lt T (to_int64 (numeric_limits_min T)) v.2 then to_int64 v.2
            else to_int64 (numeric_limits_min T)) = _
      rw [f1, f2]
    rw [hstep]
    obtain ⟨h1, h2, h3, h4, h5⟩ := configure_min_max_spec T rest (v.2, v.2) hf0 hf0
      (fun p hp => holds_fits T hs1 hs8 p.2 (hT p (List.mem_cons_of_mem _ hp))
        (h63 p (List.mem_cons_of_mem _ hp)))
    simp only at h1 h2 h4 h5
    refine ⟨?_, ?_, ?_⟩
    · intro p hp
      rcases List.mem_cons.mp hp with hp | hp
      · subst hp
        exact ⟨h1, h2⟩
      · exact h3 p hp
    · rcases h4 with h4 | ⟨p, hp, h4⟩
      · exact ⟨v, List.mem_cons_self _ _, h4.symm⟩
      · exact ⟨p, List.mem_cons_of_mem _ hp, h4⟩
    · rcases h5 with h5 | ⟨p, hp, h5⟩
      · exact ⟨v, List.mem_cons_self _ _, h5.symm⟩
      · exact ⟨p, List.mem_cons_of_mem _ hp, h5⟩

theorem exists_mapped_iff (mapped : List (DocumentID × Nat)) (hdist : distinct_docs mapped)
    (d : DocumentID) (P : Nat → Prop) :
    (∃ mv, (d, mv) ∈ mapped ∧ P mv) ↔ d ∈ docs_of mapped ∧ P (mapped_value_of mapped d) := by
  constructor
  · rintro ⟨mv, h1, h2⟩
    refine ⟨(mem_docs_of mapped d).mpr ⟨mv, h1⟩, ?_⟩
    rw [mapped_value_of_eq mapped hdist d mv h1]
    exact h2
  · rintro ⟨h1, h2⟩
    exact ⟨_, mem_mapped_value_of mapped d h1, h2⟩

theorem decomposed_getD (aux_data : BitmapIndexAuxData)
    (hvd : aux_data.vd = ValueDecomposer.new aux_data.vd.basis) (i v : Nat) :
    (aux_data.vd.decompose v).1.getD i 0 = digit_of aux_data.vd.basis i v := by
  rw [hvd]
  simp only [vd_decompose_fst]
  rfl

/-- The components of an index whose storage was filled by `insert_mapped_values` from rows
with distinct documents are as `Stored` says. -/
theorem stored_of_insert (index : BitmapIndex) (mapped : List (DocumentID × Nat))
    (hvd : index.aux_data.vd = ValueDecomposer.new index.aux_data.vd.basis)
    (hge : ∀ b ∈ index.aux_data.vd.basis, 1 ≤ b)
    (hlt : ∀ b ∈ index.aux_data.vd.basis, b + 1 < 2 ^ 32)
    (hcounts : index.aux_data.bitmap_counts
      = calculate_bitmap_counts index.aux_data.vd.basis index.aux_data.enc_type)
    (hlen : mapped.length < 2 ^ 32)
    (hdist : distinct_docs mapped)
    (hst : insert_mapped_values index.aux_data
      (BitMapStorage.create index.aux_data.bitmap_counts) mapped = .ok index.storage) :
    Stored index mapped := by
  obtain ⟨st, h1, h2, h3, h4⟩ :=
    insert_mapped_values_spec index.aux_data mapped hvd hge hlt hcounts hlen
  rw [hst] at h1
  have hst' : index.storage = st := by injection h1
  rw [← hst'] at h2 h3 h4
  exact {
    vd_eq := hvd
    base_ge := hge
    base_lt := hlt
    counts_eq := hcounts
    storage_counts := h2
    distinct := hdist
    all_values := h3
    bitmaps := fun i j hin d => by
      rw [h4 i j hin d]
      exact exists_mapped_iff mapped hdist d _ }

/-- An index whose storage was filled by `insert_mapped_values` from rows with distinct
documents and mapped values within the span of the basis is built. -/
theorem built_of_insert (index : BitmapIndex) (mapped : List (DocumentID × Nat))
    (hvd : index.aux_data.vd = ValueDecomposer.new index.aux_data.vd.basis)
    (hne : index.aux_data.vd.basis ≠ [])
    (hge : ∀ b ∈ index.aux_data.vd.basis, 1 ≤ b)
    (hlt : ∀ b ∈ index.aux_data.vd.basis, b + 1 < 2 ^ 32)
    (hcounts : index.aux_data.bitmap_counts
      = calculate_bitmap_counts index.aux_data.vd.basis index.aux_data.enc_type)
    (hlen : mapped.length < 2 ^ 32)
    (hdist : distinct_docs mapped)
    (hst : insert_mapped_values index.aux_data
      (BitMapStorage.create index.aux_data.bitmap_counts) mapped = .ok index.storage)
    (hmlt : ∀ p ∈ mapped, p.2 < index.aux_data.vd.basis.prod)
    (hmle : ∀ p ∈ mapped,
      (p.2 : Int)
        ≤ to_int64 (index.aux_data.max_mapped_value - index.aux_data.min_mapped_value))
    (hspan : to_int64 (index.aux_data.max_mapped_value - index.aux_data.min_mapped_value)
      ≤ (index.aux_data.vd.basis.prod : Int)) :
    Built index mapped :=
  { toStored := stored_of_insert index mapped hvd hge hlt hcounts hlen hdist hst
    basis_ne := hne
    mapped_lt := hmlt
    mapped_le := hmle
    span_le := hspan }

/-- The `int` counters of `insert_mapped_values` fit when the list has fewer than `2 ^ 31`
rows and the bases lie between 1 and `2 ^ 31`. -/
theorem int_counters_fit_of (aux_data : BitmapIndexAuxData)
    (mapped : List (DocumentID × Nat))
    (hge : ∀ b ∈ aux_data.vd.basis, 1 ≤ b) (hlt : ∀ b ∈ aux_data.vd.basis, b < 2 ^ 31)
    (hcounts : aux_data.bitmap_counts
      = calculate_bitmap_counts aux_data.vd.basis aux_data.enc_type)
    (hlen : mapped.length < 2 ^ 31) : int_counters_fit aux_data mapped = true := by
  unfold int_counters_fit INT_MAX
  rw [Bool.and_eq_true, decide_eq_true_eq, List.all_eq_true]
  refine ⟨by omega, fun count hc => ?_⟩
  rw [hcounts] at hc
  unfold calculate_bitmap_counts at hc
  obtain ⟨b, hb, rfl⟩ := List.mem_map.mp hc
  have h1 := hge b hb
  have h2 := hlt b hb
  rw [decide_eq_true_eq]
  cases aux_data.enc_type <;> simp only <;> omega

theorem map_values_unmapped (T : IntegralType) (rg_id : Nat) (path : List Nat)
    (aux_data : BitmapIndexAuxData) (dict : LMDBDictionary) (attr_values : List Int)
    (values : List (DocumentID × Int)) (hm : aux_data.use_value_mapping = false)
    (hb : ∀ p ∈ values, 0 ≤ p.2 - aux_data.min_mapped_value ∧
      p.2 - aux_data.min_mapped_value < 2 ^ 63 ∧ -(2 ^ 63) ≤ p.2 ∧ p.2 < 2 ^ 63) :
    map_values T rg_id path aux_data dict attr_values values
      = .ok (unmapped_rows aux_data.min_mapped_value values) := by
  induction values with
  | nil => rfl
  | cons v rest ih =>
    have hv := hb v (List.mem_cons_self _ _)
    have hr := ih (fun p hp => hb p (List.mem_cons_of_mem _ hp))
    have hmod : (v.2 - aux_data.min_mapped_value) % 2 ^ 64 = v.2 - aux_data.min_mapped_value :=
      Int.emod_eq_of_lt hv.1 (by omega)
    have hc1 : to_int64 v.2 = v.2 := to_int64_eq _ hv.2.2.1 hv.2.2.2
    have hc2 : to_int64 (v.2 - aux_data.min_mapped_value) = v.2 - aux_data.min_mapped_value :=
      to_int64_eq _ (by omega) hv.2.1
    simp only [map_values, hm, Bool.not_false, if_true, get_lmdb_attr_value, hr, hc1, hc2,
      hmod, unmapped_rows, List.map_cons]

theorem unmapped_rows_length (m : Int) (values : List (DocumentID × Int)) :
    (unmapped_rows m values).length = values.length := by
  simp [unmapped_rows]

theorem unmapped_rows_distinct (m : Int) (values : List (DocumentID × Int))
    (h : distinct_docs values) : distinct_docs (unmapped_rows m values) := by
  unfold distinct_docs unmapped_rows at *
  rw [List.map_map]
  exact h

theorem docs_of_unmapped_rows (m : Int) (values : List (DocumentID × Int)) :
    docs_of (unmapped_rows m values) = docs_of values := by
  unfold docs_of unmapped_rows
  rw [List.map_map]
  rfl

theorem mem_unmapped_rows (m : Int) (values : List (DocumentID × Int))
    (p : DocumentID × Nat) (hp : p ∈ unmapped_rows m values) :
    ∃ q ∈ values, p.1 = q.1 ∧ p.2 = Int.toNat (q.2 - m) := by
  unfold unmapped_rows at hp
  obtain ⟨q, hq, rfl⟩ := List.mem_map.mp hp
  exact ⟨q, hq, rfl, rfl⟩

/-- The mapped value of a document of an unmapped index is its value less the minimum. -/
theorem mapped_value_of_unmapped_rows (m : Int) (values : List (DocumentID × Int))
    (h : distinct_docs values) (d : DocumentID) (v : Int) (hv : (d, v) ∈ values) :
    mapped_value_of (unmapped_rows m values) d = Int.toNat (v - m) := by
  apply mapped_value_of_eq _ (unmapped_rows_distinct m values h)
  unfold unmapped_rows
  exact List.mem_map.mpr ⟨(d, v), hv, rfl⟩

/-- The index built without value mapping by a builder that holds no auxiliary data yet:
`build_index` succeeds, the auxiliary data hold the least and the greatest value, and the
index is built from the values less the minimum. -/
theorem build_index_unmapped (T : IntegralType) (rg_id : Nat) (path : List Nat)
    (dict : LMDBDictionary) (values : List (DocumentID × Int))
    (enc_type : BitmapIndexEncodingType) (index_type : BitmapIndexType)
    (h : valid_input T values)
    (hcard : estimate_cardinality values > values.length / 10) :
    ∃ index, build_index T rg_id path dict [] values enc_type index_type = .ok index ∧
      index.T = T ∧ index.rg_id = rg_id ∧ index.column_dotted_path = path ∧
      index.attr_values_lmdb = dict ∧
      index.aux_data.use_value_mapping = false ∧
      index.aux_data.enc_type = enc_type ∧
      index.aux_data.cardinality = estimate_cardinality values ∧
      (∀ p ∈ values, index.aux_data.min_mapped_value ≤ p.2 ∧
        p.2 ≤ index.aux_data.max_mapped_value) ∧
      (∃ p ∈ values, p.2 = index.aux_data.min_mapped_value) ∧
      (∃ p ∈ values, p.2 = index.aux_data.max_mapped_value) ∧
      Built index (unmapped_rows index.aux_data.min_mapped_value values) := by
  have hdist := h.distinct
  have hE := h.exact
  have hlen := h.length_lt
  have h63 : ∀ p ∈ values, p.2 < 2 ^ 63 := fun p hp => by
    have := hE p hp
    unfold exact_range at this
    omega
  obtain ⟨hb1, ⟨pmin, hpmin, hmin⟩, ⟨pmax, hpmax, hmax⟩⟩ :=
    configure_min_max_attained T values h.nonempty h.holds h63 h.size_pos h.size_le
  generalize hmm : configure_min_max T values
    (to_int64 (numeric_limits_max T), to_int64 (numeric_limits_min T)) = mm at *
  have hEmin := hE pmin hpmin
  have hEmax := hE pmax hpmax
  unfold exact_range at hEmin hEmax
  rw [hmin] at hEmin
  rw [hmax] at hEmax
  have hle : mm.1 ≤ mm.2 := by
    have := hb1 pmin hpmin
    omega
  have hR : to_uint64 (mm.2 - mm.1 + 1) = mm.2 - mm.1 + 1 :=
    Int.emod_eq_of_lt (by omega) (by omega)
  obtain ⟨R, hRn⟩ : ∃ R : Nat, mm.2 - mm.1 + 1 = (R : Int) :=
    ⟨(mm.2 - mm.1 + 1).toNat, by omega⟩
  have hR1 : 1 ≤ R := by omega
  have hR2 : R ≤ 2 ^ 61 := by omega
  obtain ⟨g1, g2, g3, g4⟩ := get_basis_spec R index_type hR1 hR2
  have hconf : configure T values enc_type index_type =
      { vd := ValueDecomposer.new (get_basis R index_type)
        bitmap_counts := calculate_bitmap_counts (get_basis R index_type) enc_type
        cardinality := estimate_cardinality values
        enc_type := enc_type
        use_value_mapping := false
        min_mapped_value := mm.1
        max_mapped_value := mm.2 } := by
    have hR' : (to_uint64 (R : Int)).toNat = R := by
      rw [← hRn, hR, hRn, Int.toNat_ofNat]
    unfold configure
    simp only [if_pos hcard, hmm, hRn, hR']
  have hmap := map_values_unmapped T rg_id path (configure T values enc_type index_type) dict
    (sorted_attr_values values) values (by rw [hconf])
    (fun p hp => by
      have := hb1 p hp
      have := hE p hp
      unfold exact_range at this
      rw [hconf]
      simp only
      omega)
  have hspan : to_int64 (mm.2 - mm.1) = mm.2 - mm.1 := to_int64_eq _ (by omega) (by omega)
  have g3w : ∀ b ∈ get_basis R index_type, b + 1 < 2 ^ 32 := fun b hb => by
    have := g3 b hb
    omega
  have hrows_lt : ∀ p ∈ unmapped_rows mm.1 values, (p.2 : Int) ≤ mm.2 - mm.1 := by
    intro p hp
    obtain ⟨q, hq, _, h2⟩ := mem_unmapped_rows mm.1 values p hp
    have := hb1 q hq
    rw [h2]
    omega
  obtain ⟨st, hst, _⟩ := insert_mapped_values_spec
    (configure T values enc_type index_type) (unmapped_rows mm.1 values)
    (by rw [hconf]; rfl)
    (by rw [hconf]; exact g2) (by rw [hconf]; exact g3w) (by rw [hconf]; rfl)
    (by rw [unmapped_rows_length]; omega)
  have hfit := int_counters_fit_of (configure T values enc_type index_type)
    (unmapped_rows mm.1 values)
    (by rw [hconf]; exact g2) (by rw [hconf]; exact g3) (by rw [hconf]; rfl)
    (by rw [unmapped_rows_length]; exact hlen)
  refine ⟨{ T := T, rg_id := rg_id, column_dotted_path := path, storage := st,
            attr_values_lmdb := dict,
            aux_data := configure T values enc_type index_type },
    ?_, rfl, rfl, rfl, rfl, ?_, ?_, ?_, ?_, ?_, ?_, ?_⟩
  · unfold build_index insert
    have hu : (configure T values enc_type index_type).use_value_mapping = false := by
      rw [hconf]
    have hmin' : (configure T values enc_type index_type).min_mapped_value = mm.1 := by
      rw [hconf]
    simp only [hu, Bool.false_eq_true, if_false, hmap, hmin', hfit, Bool.not_true, hst,
      StorageDictionary.insert_one, storage_mdb_put]
  · simp only [hconf]
  · simp only [hconf]
  · simp only [hconf]
  · simp only [hconf]; exact hb1
  · simp only [hconf]; exact ⟨pmin, hpmin, hmin⟩
  · simp only [hconf]; exact ⟨pmax, hpmax, hmax⟩
  · have hmin' : (configure T values enc_type index_type).min_mapped_value = mm.1 := by
      rw [hconf]
    simp only [hmin']
    apply built_of_insert
    · simp only [hconf]; rfl
    · simp only [hconf]; exact g1
    · simp only [hconf]; exact g2
    · simp only [hconf]; exact g3w
    · simp only [hconf]; rfl
    · rw [unmapped_rows_length]; omega
    · exact unmapped_rows_distinct _ _ hdist
    · exact hst
    · intro p hp
      have h1 := hrows_lt p hp
      simp only [hconf]
      have : (ValueDecomposer.new (get_basis R index_type)).basis = get_basis R index_type := rfl
      rw [this]
      omega
    · intro p hp
      simp only [hconf]
      rw [hspan]
      exact hrows_lt p hp
    · simp only [hconf]
      have : (ValueDecomposer.new (get_basis R index_type)).basis = get_basis R index_type := rfl
      rw [this, hspan]
      omega

/-! ## Queries on an index built without value mapping -/

theorem unmapped_le_iff (m : Int) (values : List (DocumentID × Int))
    (hdist : distinct_docs values) (hmin : ∀ p ∈ values, m ≤ p.2) (u : Int)
    (d : DocumentID) :
    (d ∈ docs_of (unmapped_rows m values) ∧
        (mapped_value_of (unmapped_rows m values) d : Int) ≤ u)
      ↔ ∃ v, (d, v) ∈ values ∧ v - m ≤ u := by
  rw [docs_of_unmapped_rows]
  constructor
  · rintro ⟨hd, hle⟩
    obtain ⟨v, hv⟩ := (mem_docs_of values d).mp hd
    refine ⟨v, hv, ?_⟩
    rw [mapped_value_of_unmapped_rows m values hdist d v hv] at hle
    have := hmin _ hv
    simp only at this
    omega
  · rintro ⟨v, hv, hle⟩
    refine ⟨(mem_docs_of values d).mpr ⟨v, hv⟩, ?_⟩
    rw [mapped_value_of_unmapped_rows m values hdist d v hv]
    have := hmin _ hv
    simp only at this
    omega

theorem unmapped_eq_iff (m : Int) (values : List (DocumentID × Int))
    (hdist : distinct_docs values) (hmin : ∀ p ∈ values, m ≤ p.2) (u : Nat)
    (d : DocumentID) :
    (d ∈ docs_of (unmapped_rows m values) ∧ mapped_value_of (unmapped_rows m values) d = u)
      ↔ ∃ v, (d, v) ∈ values ∧ v - m = (u : Int) := by
  rw [docs_of_unmapped_rows]
  constructor
  · rintro ⟨hd, he⟩
    obtain ⟨v, hv⟩ := (mem_docs_of values d).mp hd
    refine ⟨v, hv, ?_⟩
    rw [mapped_value_of_unmapped_rows m values hdist d v hv] at he
    have := hmin _ hv
    simp only at this
    omega
  · rintro ⟨v, hv, he⟩
    refine ⟨(mem_docs_of values d).mpr ⟨v, hv⟩, ?_⟩
    rw [mapped_value_of_unmapped_rows m values hdist d v hv]
    omega

theorem returns_docs_empty {r : Except IndexError BitMap} {P : DocumentID → Prop}
    (h : returns_docs r P) (hP : ∀ d, ¬ P d) : r = .ok ∅ := by
  obtain ⟨bmp, h1, h2⟩ := h
  rw [h1]
  congr 1
  ext d
  simp only [Finset.not_mem_empty, iff_false]
  exact fun hd => hP d ((h2 d).mp hd)

/-- What `lesser` returns on an index built without value mapping, interval or range
encoded: the documents whose value does not exceed the bound, the bound itself counting
only when the flags include the right endpoint. -/
theorem lesser_unmapped (index : BitmapIndex) (values : List (DocumentID × Int))
    (hdist : distinct_docs values)
    (hu : index.aux_data.use_value_mapping = false)
    (henc : index.aux_data.enc_type ≠ .EQUALITY)
    (hb : ∀ p ∈ values, index.aux_data.min_mapped_value ≤ p.2 ∧
      p.2 ≤ index.aux_data.max_mapped_value)
    (hEm : exact_range index.aux_data.min_mapped_value)
    (hEx : exact_range index.aux_data.max_mapped_value)
    (hB : Built index (unmapped_rows index.aux_data.min_mapped_value values))
    (max : Int) (hq : query_range max) (flags : IntervalFlags) :
    returns_docs (lesser index max flags)
      (fun d => ∃ v, (d, v) ∈ values ∧
        (if flags = .INCLUDE_LEFT ∨ flags = .OPEN then v < max else v ≤ max)) := by
  unfold exact_range at hEm hEx
  unfold query_range at hq
  have emax : to_int64 max = max := to_int64_eq _ (by omega) (by omega)
  have emax1 : to_int64 (max - 1) = max - 1 := to_int64_eq _ (by omega) (by omega)
  unfold lesser lookup_max_value
  simp only [hu, Bool.false_eq_true, if_false, false_and, if_neg henc, emax, emax1]
  rw [to_int64_eq _ (by split_ifs <;> omega) (by split_ifs <;> omega)]
  refine returns_docs_congr (hB.less_or_equal_query henc _) (fun d => ?_)
  rw [unmapped_le_iff _ values hdist (fun p hp => (hb p hp).1)]
  constructor
  · rintro ⟨v, hv, hle⟩
    refine ⟨v, hv, ?_⟩
    have := hb _ hv
    simp only at this
    split_ifs at hle ⊢ <;> omega
  · rintro ⟨v, hv, hle⟩
    refine ⟨v, hv, ?_⟩
    have := hb _ hv
    simp only at this
    split_ifs at hle ⊢ <;> omega

/-- What `range_search` returns on an index built without value mapping, interval or
range encoded, for `min ≤ max`: the documents whose value lies between the bounds, each
bound counting only when the flags include it. -/
theorem range_search_unmapped (index : BitmapIndex) (values : List (DocumentID × Int))
    (hdist : distinct_docs values)
    (hu : index.aux_data.use_value_mapping = false)
    (henc : index.aux_data.enc_type ≠ .EQUALITY)
    (hb : ∀ p ∈ values, index.aux_data.min_mapped_value ≤ p.2 ∧
      p.2 ≤ index.aux_data.max_mapped_value)
    (hmax : ∃ p ∈ values, p.2 = index.aux_data.max_mapped_value)
    (hEm : exact_range index.aux_data.min_mapped_value)
    (hEx : exact_range index.aux_data.max_mapped_value)
    (hB : Built index (unmapped_rows index.aux_data.min_mapped_value values))
    (min max : Int) (hle : min ≤ max) (hqmin : query_range min) (hqmax : query_range max)
    (flags : IntervalFlags) :
    returns_docs (range_search index min max flags)
      (fun d => ∃ v, (d, v) ∈ values ∧
        (if flags = .INCLUDE_RIGHT ∨ flags = .OPEN then min < v else min ≤ v) ∧
        (if flags = .INCLUDE_LEFT ∨ flags = .OPEN then v < max else v ≤ max)) := by
  have hmins : ∀ p ∈ values, index.aux_data.min_mapped_value ≤ p.2 := fun p hp => (hb p hp).1
  obtain ⟨pmax, hpmax, hpm⟩ := hmax
  have hspan : index.aux_data.max_mapped_value - index.aux_data.min_mapped_value
      < (index.aux_data.vd.basis.prod : Int) := by
    have h1 : (pmax.1, Int.toNat (pmax.2 - index.aux_data.min_mapped_value))
        ∈ unmapped_rows index.aux_data.min_mapped_value values :=
      List.mem_map.mpr ⟨pmax, hpmax, rfl⟩
    have h2 := hB.mapped_lt _ h1
    have h3 := hmins _ hpmax
    simp only at h2
    omega
  have hmm : index.aux_data.min_mapped_value ≤ index.aux_data.max_mapped_value := by
    have := hb _ hpmax; omega
  unfold exact_range at hEm hEx
  unfold query_range at hqmin hqmax
  have emin : to_int64 min = min := to_int64_eq _ (by omega) (by omega)
  have emin1 : to_int64 (min + 1) = min + 1 := to_int64_eq _ (by omega) (by omega)
  have emax : to_int64 max = max := to_int64_eq _ (by omega) (by omega)
  have emax1 : to_int64 (max - 1) = max - 1 := to_int64_eq _ (by omega) (by omega)
  have espan : to_int64 (index.aux_data.max_mapped_value - index.aux_data.min_mapped_value)
      = index.aux_data.max_mapped_value - index.aux_data.min_mapped_value :=
    to_int64_eq _ (by omega) (by omega)
  unfold range_search lookup_min_value lookup_max_value
  simp only [hu, Bool.false_eq_true, if_false, false_and, if_neg (not_lt.mpr hle), emin,
    emin1, emax, emax1]
  have hlo0 : -(2 ^ 62) ≤ (if flags = .INCLUDE_RIGHT ∨ flags = .OPEN then min + 1 else min) ∧
      (if flags = .INCLUDE_RIGHT ∨ flags = .OPEN then min + 1 else min) ≤ 2 ^ 62 := by
    split_ifs <;> omega
  have hhi0 : -(2 ^ 62) - 1 ≤ (if flags = .INCLUDE_LEFT ∨ flags = .OPEN then max - 1 else max) ∧
      (if flags = .INCLUDE_LEFT ∨ flags = .OPEN then max - 1 else max) < 2 ^ 62 := by
    split_ifs <;> omega
  generalize hlo : (if flags = .INCLUDE_RIGHT ∨ flags = .OPEN then min + 1 else min) = lo
  generalize hhi : (if flags = .INCLUDE_LEFT ∨ flags = .OPEN then max - 1 else max) = hi
  rw [hlo] at hlo0
  rw [hhi] at hhi0
  have hloP : ∀ v : Int,
      (if flags = .INCLUDE_RIGHT ∨ flags = .OPEN then min < v else min ≤ v) ↔ lo ≤ v := by
    intro v; rw [← hlo]; split_ifs <;> omega
  have hhiP : ∀ v : Int,
      (if flags = .INCLUDE_LEFT ∨ flags = .OPEN then v < max else v ≤ max) ↔ v ≤ hi := by
    intro v; rw [← hhi]; split_ifs <;> omega
  simp only [hloP, hhiP]
  generalize hmn : index.aux_data.min_mapped_value = mn at *
  generalize hmx : index.aux_data.max_mapped_value = mx at *
  rw [to_int64_eq (lo - mn) (by omega) (by omega),
    to_int64_eq ((if hi > mx then mx else hi) - mn) (by split_ifs <;> omega)
      (by split_ifs <;> omega)]
  generalize hv1 : (if lo < mn then (0 : Int) else lo - mn) = v1
  generalize hv2 : (if hi > mx then mx else hi) - mn = v2
  have hv1' : 0 ≤ v1 ∧ (lo < mn → v1 = 0) ∧ (mn ≤ lo → v1 = lo - mn) := by
    rw [← hv1]; split_ifs <;> omega
  have hv2' : (hi > mx → v2 = mx - mn) ∧ (hi ≤ mx → v2 = hi - mn) := by
    rw [← hv2]; split_ifs <;> omega
  clear hv1 hv2 hlo hhi hloP hhiP
  have hv1e : (if lo < mn then Except.ok (0 : Int) else Except.ok (lo - mn)
      : Except IndexError Int) = Except.ok v1 := by
    split_ifs with h
    · rw [hv1'.2.1 h]
    · rw [hv1'.2.2 (by omega)]
  rw [hv1e]
  simp only
  by_cases c1 : v1 > v2
  · rw [if_pos c1]
    refine returns_docs_ok _ _ (fun d => ?_)
    simp only [Finset.not_mem_empty, false_iff, not_exists, not_and]
    intro v hv h1
    have := hb _ hv
    simp only at this
    omega
  rw [if_neg c1]
  by_cases c2 : v1 = v2
  · rw [if_pos c2]
    obtain ⟨n, hn⟩ : ∃ n : Nat, v1 = (n : Int) := ⟨v1.toNat, by omega⟩
    rw [hn]
    have hnM : (n : Int) ≤ mx - mn := by omega
    refine returns_docs_congr
      (hB.lookup_mapped_value n (by omega) (by rw [hmx, hmn, espan]; exact hnM)) (fun d => ?_)
    rw [unmapped_eq_iff _ values hdist hmins]
    constructor
    · rintro ⟨v, hv, he⟩
      have := hb _ hv
      simp only at this
      exact ⟨v, hv, by omega, by omega⟩
    · rintro ⟨v, hv, h1, h2⟩
      have := hb _ hv
      simp only at this
      exact ⟨v, hv, by omega⟩
  rw [if_neg c2, if_neg henc]
  unfold range_search_internal
  obtain ⟨b2, hb2, hm2⟩ := hB.less_or_equal_query henc v2
  simp only at hm2
  rw [hb2]
  simp only
  by_cases c3 : v1 = 0
  · rw [if_pos c3]
    refine returns_docs_ok _ _ (fun d => ?_)
    rw [hm2 d, unmapped_le_iff _ values hdist hmins]
    constructor
    · rintro ⟨v, hv, he⟩
      have := hb _ hv
      simp only at this
      exact ⟨v, hv, by omega, by omega⟩
    · rintro ⟨v, hv, h1, h2⟩
      have := hb _ hv
      simp only at this
      exact ⟨v, hv, by omega⟩
  · rw [if_neg c3, to_int64_eq (v1 - 1) (by omega) (by omega)]
    obtain ⟨b1, hb1, hm1⟩ := hB.less_or_equal_query henc (v1 - 1)
    simp only at hm1
    rw [hb1]
    refine returns_docs_ok _ _ (fun d => ?_)
    rw [Finset.mem_sdiff, hm2 d, hm1 d, unmapped_le_iff _ values hdist hmins,
      unmapped_le_iff _ values hdist hmins]
    constructor
    · rintro ⟨⟨v, hv, he⟩, hnot⟩
      have := hb _ hv
      simp only at this
      refine ⟨v, hv, ?_, by omega⟩
      by_contra hlt
      exact hnot ⟨v, hv, by omega⟩
    · rintro ⟨v, hv, h1, h2⟩
      have := hb _ hv
      simp only at this
      refine ⟨⟨v, hv, by omega⟩, ?_⟩
      rintro ⟨w, hw, hw2⟩
      have hvw : v = w := by
        have e1 := mapped_value_of_unmapped_rows mn values hdist d v hv
        have e2 := mapped_value_of_unmapped_rows mn values hdist d w hw
        have := hb _ hw
        simp only at this
        omega
      omega

/-! ## The sorted vector of distinct values and the in-memory mapping -/

theorem mem_unique (l : List Int) (x : Int) : x ∈ unique l ↔ x ∈ l := by
  induction l using unique.induct with
  | case1 => simp [unique]
  | case2 a => simp [unique]
  | case3 a rest ih =>
    simp only [unique, if_true, ih, List.mem_cons]
    tauto
  | case4 a b rest hne ih =>
    simp only [unique, if_neg hne, List.mem_cons, ih]

theorem sorted_unique (l : List Int) (h : l.Sorted (fun a b => a ≤ b)) :
    (unique l).Sorted (fun a b => a < b) := by
  induction l using unique.induct with
  | case1 => simp [unique]
  | case2 a => simp [unique]
  | case3 a rest ih =>
    simp only [unique, if_true]
    exact ih (List.Sorted.of_cons h)
  | case4 a b rest hne ih =>
    simp only [unique, if_neg hne]
    have h1 := List.Sorted.of_cons h
    rw [List.sorted_cons]
    refine ⟨fun x hx => ?_, ih h1⟩
    have hx1 : x ∈ b :: rest := (mem_unique _ x).mp hx
    have hab : a ≤ b := (List.sorted_cons.mp h).1 b (List.mem_cons_self _ _)
    have hbx : b ≤ x := by
      rcases List.mem_cons.mp hx1 with hx2 | hx2
      · omega
      · exact (List.sorted_cons.mp h1).1 x hx2
    omega

theorem sorted_attr_values_sorted (values : List (DocumentID × Int)) :
    (sorted_attr_values values).Sorted (fun a b => a < b) := by
  unfold sorted_attr_values
  apply sorted_unique
  exact List.sorted_insertionSort (fun a b : Int => a ≤ b) _

theorem sorted_attr_values_nodup (values : List (DocumentID × Int)) :
    (sorted_attr_values values).Nodup :=
  (sorted_attr_values_sorted values).nodup

theorem mem_sorted_attr_values (values : List (DocumentID × Int)) (x : Int) :
    x ∈ sorted_attr_values values ↔ ∃ d, (d, x) ∈ values := by
  unfold sorted_attr_values
  rw [mem_unique, (List.perm_insertionSort (fun a b : Int => a ≤ b) _).mem_iff]
  simp

theorem sorted_attr_values_length (values : List (DocumentID × Int)) :
    (sorted_attr_values values).length = (values.map Prod.snd).dedup.length := by
  apply List.Perm.length_eq
  rw [List.perm_ext_iff_of_nodup (sorted_attr_values_nodup values) (List.nodup_dedup _)]
  intro a
  rw [mem_sorted_attr_values, List.mem_dedup]
  simp

theorem dedup_length_le (values : List (DocumentID × Int)) :
    (values.map Prod.snd).dedup.length ≤ values.length := by
  have := (List.dedup_sublist (values.map Prod.snd)).length_le
  simpa using this

theorem values_mapping_find_none (attr : List Int) (v : Int) (k : Nat) (h : v ∉ attr) :
    values_mapping_find attr v k = none := by
  induction attr generalizing k with
  | nil => rfl
  | cons a rest ih =>
    have h1 : a ≠ v := fun e => h (e ▸ List.mem_cons_self _ _)
    have h2 : v ∉ rest := fun e => h (List.mem_cons_of_mem _ e)
    simp only [values_mapping_find, if_neg h1, ih _ h2]

theorem values_mapping_find_some (attr : List Int) (v : Int) (k : Nat) (h : v ∈ attr) :
    ∃ i, i < attr.length ∧ attr.getD i 0 = v ∧
      values_mapping_find attr v k = some ((k + i) % 2 ^ 32) := by
  induction attr generalizing k with
  | nil => simp at h
  | cons a rest ih =>
    by_cases h1 : a = v
    · exact ⟨0, by simp, by simpa using h1, by simp [values_mapping_find, h1]⟩
    · have h2 : v ∈ rest := by
        rcases List.mem_cons.mp h with h3 | h3
        · exact absurd h3.symm h1
        · exact h3
      obtain ⟨i, hi1, hi2, hi3⟩ := ih (k + 1) h2
      refine ⟨i + 1, by simpa using hi1, by simpa using hi2, ?_⟩
      simp only [values_mapping_find, if_neg h1, hi3]
      congr 2
      omega

/-- Two values with the same index in the sorted vector are equal. -/
theorem values_mapping_find_injective (attr : List Int) (hlen : attr.length < 2 ^ 32)
    (v w : Int) (n : Nat) (hv : values_mapping_find attr v 0 = some n)
    (hw : values_mapping_find attr w 0 = some n) : v = w := by
  have hv1 : v ∈ attr := by
    by_contra h; rw [values_mapping_find_none attr v 0 h] at hv; simp at hv
  have hw1 : w ∈ attr := by
    by_contra h; rw [values_mapping_find_none attr w 0 h] at hw; simp at hw
  obtain ⟨i, hi1, hi2, hi3⟩ := values_mapping_find_some attr v 0 hv1
  obtain ⟨j, hj1, hj2, hj3⟩ := values_mapping_find_some attr w 0 hw1
  rw [hi3] at hv
  rw [hj3] at hw
  have hij : i = j := by
    have e1 : (0 + i) % 2 ^ 32 = n := by injection hv
    have e2 : (0 + j) % 2 ^ 32 = n := by injection hw
    omega
  rw [← hi2, ← hj2, hij]

theorem values_mapping_find_lt (attr : List Int) (hlen : attr.length < 2 ^ 32)
    (v : Int) (n : Nat) (hv : values_mapping_find attr v 0 = some n) : n < attr.length := by
  have hv1 : v ∈ attr := by
    by_contra h; rw [values_mapping_find_none attr v 0 h] at hv; simp at hv
  obtain ⟨i, hi1, _, hi3⟩ := values_mapping_find_some attr v 0 hv1
  rw [hi3] at hv
  have e1 : (0 + i) % 2 ^ 32 = n := by injection hv
  omega

/-- The pairs written to LMDB are the keys of the values with their index. -/
theorem mem_lmdb_values_mapping (rg_id : Nat) (path : List Nat) (attr : List Int)
    (hnd : attr.Nodup) (k : Nat) (e : AttributeValue × Nat) :
    e ∈ lmdb_values_mapping rg_id path attr k ↔
      ∃ v, e.1 = { rg_id := rg_id, column_dotted_path := path, value := v } ∧
        values_mapping_find attr v k = some e.2 := by
  induction attr generalizing k with
  | nil => simp [lmdb_values_mapping, values_mapping_find]
  | cons a rest ih =>
    have hnd1 := List.nodup_cons.mp hnd
    simp only [lmdb_values_mapping, List.mem_cons, ih hnd1.2 (k + 1), values_mapping_find]
    constructor
    · rintro (h | ⟨v, h1, h2⟩)
      · exact ⟨a, by rw [h], by rw [h]; simp⟩
      · refine ⟨v, h1, ?_⟩
        have hva : a ≠ v := by
          intro e1
          have : v ∈ rest := by
            by_contra hn
            rw [values_mapping_find_none rest v _ hn] at h2
            simp at h2
          exact hnd1.1 (e1 ▸ this)
        rw [if_neg hva]; exact h2
    · rintro ⟨v, h1, h2⟩
      by_cases hva : a = v
      · rw [if_pos hva] at h2
        left
        have : e.2 = k % 2 ^ 32 := by injection h2 with h3; exact h3.symm
        rw [hva]
        exact Prod.ext h1 this
      · rw [if_neg hva] at h2
        exact Or.inr ⟨v, h1, h2⟩

/-! ## Serialized keys -/

theorem bytes_eq_of_not_lt (a b : List Nat) (h1 : bytes_lt a b = false)
    (h2 : bytes_lt b a = false) : a = b := by
  induction a generalizing b with
  | nil =>
    cases b with
    | nil => rfl
    | cons y ys => simp [bytes_lt] at h1
  | cons x xs ih =>
    cases b with
    | nil => simp [bytes_lt] at h2
    | cons y ys =>
      simp only [bytes_lt] at h1 h2
      by_cases hxy : x < y
      · simp [hxy] at h1
      · by_cases hyx : y < x
        · simp [hyx] at h2
        · simp only [hxy, hyx, if_false] at h1 h2
          have : x = y := by omega
          rw [this, ih ys h1 h2]

theorem le_bytes_injective (count n m : Nat) (hn : n < 256 ^ count) (hm : m < 256 ^ count)
    (h : le_bytes count n = le_bytes count m) : n = m := by
  induction count generalizing n m with
  | zero => simp at hn hm; omega
  | succ count ih =>
    simp only [le_bytes, List.cons.injEq] at h
    have h1 : n / 256 < 256 ^ count := by rw [Nat.pow_succ] at hn; omega
    have h2 : m / 256 < 256 ^ count := by rw [Nat.pow_succ] at hm; omega
    have := ih (n / 256) (m / 256) h1 h2 h.2
    omega

theorem holds_emod_injective (T : IntegralType) (hs : 1 ≤ T.size) (v w : Int)
    (hv : T.holds v) (hw : T.holds w)
    (h : v % 2 ^ (8 * T.size) = w % 2 ^ (8 * T.size)) : v = w := by
  have hdvd : (2 ^ (8 * T.size) : Int) ∣ v - w := by
    apply Int.dvd_of_emod_eq_zero
    rw [Int.sub_emod, h, sub_self, Int.zero_emod]
  have hpow : (2 : Int) ^ (8 * T.size) = 2 * 2 ^ (8 * T.size - 1) := by
    rw [← pow_succ']
    congr 1
    omega
  have hpos : (0 : Int) < 2 ^ (8 * T.size - 1) := by positivity
  have habs : |v - w| < 2 ^ (8 * T.size) := by
    unfold IntegralType.holds numeric_limits_min numeric_limits_max at hv hw
    rw [abs_lt]
    by_cases hsg : T.is_signed = true
    · simp only [hsg, if_true] at hv hw
      rw [hpow]
      generalize (2 : Int) ^ (8 * T.size - 1) = P at *
      constructor <;> omega
    · simp only [hsg, Bool.false_eq_true, if_false] at hv hw
      generalize (2 : Int) ^ (8 * T.size) = Q at *
      constructor <;> omega
  have := Int.eq_zero_of_abs_lt_dvd hdvd habs
  omega

/-- Keys of one row group and column with values of `T` are serialized to different
bytes. -/
theorem to_byte_array_injective (T : IntegralType) (hs : 1 ≤ T.size) (rg_id : Nat)
    (path : List Nat) (v w : Int) (hv : T.holds v) (hw : T.holds w)
    (h : AttributeValue.to_byte_array T
        { rg_id := rg_id, column_dotted_path := path, value := v }
      = AttributeValue.to_byte_array T
        { rg_id := rg_id, column_dotted_path := path, value := w }) : v = w := by
  unfold AttributeValue.to_byte_array at h
  simp only [List.append_assoc, List.append_cancel_left_eq] at h
  have hP : (0 : Int) < 2 ^ (8 * T.size) := by positivity
  have hb : ∀ x : Int, Int.toNat (x % 2 ^ (8 * T.size)) < 256 ^ T.size := by
    intro x
    have h1 := Int.emod_nonneg x (ne_of_gt hP)
    have h2 := Int.emod_lt_of_pos x hP
    have h3 : (256 : Nat) ^ T.size = 2 ^ (8 * T.size) := by
      rw [Nat.pow_mul]
    rw [h3]
    have h4 : ((Int.toNat (x % 2 ^ (8 * T.size)) : Nat) : Int) = x % 2 ^ (8 * T.size) :=
      Int.toNat_of_nonneg h1
    have h5 : ((2 ^ (8 * T.size) : Nat) : Int) = 2 ^ (8 * T.size) := by push_cast; rfl
    omega
  have h6 := le_bytes_injective T.size _ _ (hb v) (hb w) h
  apply holds_emod_injective T hs v w hv hw
  have h7 := Int.emod_nonneg v (ne_of_gt hP)
  have h8 := Int.emod_nonneg w (ne_of_gt hP)
  omega

/-! ## The dictionary -/

theorem mdb_put_spec (T : IntegralType) (dict : LMDBDictionary) (key : AttributeValue)
    (value : Nat)
    (hnew : ∀ e ∈ dict, e.1.to_byte_array T ≠ key.to_byte_array T) :
    ∃ dict1, mdb_put T dict key value = some dict1 ∧
      ∀ e, e ∈ dict1 ↔ e = (key, value) ∨ e ∈ dict := by
  induction dict with
  | nil => exact ⟨[(key, value)], rfl, fun e => by simp⟩
  | cons e0 rest ih =>
    unfold mdb_put
    by_cases h1 : bytes_lt (key.to_byte_array T) (e0.1.to_byte_array T) = true
    · rw [if_pos h1]
      exact ⟨_, rfl, fun e => by simp⟩
    · rw [if_neg h1]
      by_cases h2 : bytes_lt (e0.1.to_byte_array T) (key.to_byte_array T) = true
      · rw [if_pos h2]
        obtain ⟨dict1, hd1, hd2⟩ := ih (fun e he => hnew e (List.mem_cons_of_mem _ he))
        refine ⟨e0 :: dict1, by rw [hd1]; rfl, fun e => ?_⟩
        simp only [List.mem_cons, hd2 e]
        tauto
      · exfalso
        apply hnew e0 (List.mem_cons_self _ _)
        exact bytes_eq_of_not_lt _ _ (by simpa using h2) (by simpa using h1)

theorem lmdb_insert_spec (T : IntegralType) (pairs : List (AttributeValue × Nat))
    (dict : LMDBDictionary)
    (h1 : ∀ e ∈ dict, ∀ p ∈ pairs, e.1.to_byte_array T ≠ p.1.to_byte_array T)
    (h2 : pairs.Pairwise (fun p q => p.1.to_byte_array T ≠ q.1.to_byte_array T)) :
    ∃ dict1, LMDBDictionary.insert T dict pairs = .ok dict1 ∧
      ∀ e, e ∈ dict1 ↔ e ∈ dict ∨ e ∈ pairs := by
  induction pairs generalizing dict with
  | nil => exact ⟨dict, rfl, fun e => by simp⟩
  | cons p rest ih =>
    obtain ⟨d1, hd1, hm1⟩ := mdb_put_spec T dict p.1 p.2
      (fun e he => h1 e he p (List.mem_cons_self _ _))
    have hp := List.pairwise_cons.mp h2
    obtain ⟨d2, hd2, hm2⟩ := ih d1
      (fun e he q hq => by
        rcases (hm1 e).mp he with h3 | h3
        · rw [h3]; exact hp.1 q hq
        · exact h1 e h3 q (List.mem_cons_of_mem _ hq))
      hp.2
    refine ⟨d2, ?_, fun e => ?_⟩
    · simp only [LMDBDictionary.insert, hd1, hd2]
    · rw [hm2 e, hm1 e]
      simp only [List.mem_cons]
      tauto

theorem mdb_set_none (T : IntegralType) (dict : LMDBDictionary) (key : AttributeValue)
    (pos : Nat) (h : ∀ e ∈ dict, e.1.to_byte_array T ≠ key.to_byte_array T) :
    mdb_set T dict key pos = none := by
  induction dict generalizing pos with
  | nil => rfl
  | cons e0 rest ih =>
    simp only [mdb_set, if_neg (h e0 (List.mem_cons_self _ _))]
    exact ih _ (fun e he => h e (List.mem_cons_of_mem _ he))

theorem mdb_set_some (T : IntegralType) (dict : LMDBDictionary) (key : AttributeValue)
    (pos value : Nat)
    (hex : ∃ e ∈ dict, e.1.to_byte_array T = key.to_byte_array T)
    (huniq : ∀ e ∈ dict, e.1.to_byte_array T = key.to_byte_array T → e.2 = value) :
    ∃ pos1, mdb_set T dict key pos = some (pos1, value) := by
  induction dict generalizing pos with
  | nil => obtain ⟨e, he, _⟩ := hex; simp at he
  | cons e0 rest ih =>
    unfold mdb_set
    by_cases h0 : e0.1.to_byte_array T = key.to_byte_array T
    · rw [if_pos h0, huniq e0 (List.mem_cons_self _ _) h0]
      exact ⟨pos, rfl⟩
    · rw [if_neg h0]
      apply ih
      · obtain ⟨e, he, h1⟩ := hex
        rcases List.mem_cons.mp he with h2 | h2
        · rw [h2] at h1; exact absurd h1 h0
        · exact ⟨e, h2, h1⟩
      · exact fun e he => huniq e (List.mem_cons_of_mem _ he)

/-- What `get_lmdb_attr_value_with_mapping` finds in the dictionary that
`insert_values_mapping_into_lmdb` filled from an empty one: the index of the value among
the sorted distinct values, or nothing (`std::invalid_argument`). -/
theorem get_lmdb_attr_value_with_mapping_spec (T : IntegralType) (hs : 1 ≤ T.size)
    (rg_id : Nat) (path : List Nat) (attr : List Int) (hnd : attr.Nodup)
    (hT : ∀ x ∈ attr, T.holds x) (v : Int) (hv : T.holds v) :
    ∃ dict, LMDBDictionary.insert T [] (lmdb_values_mapping rg_id path attr 0) = .ok dict ∧
      get_lmdb_attr_value_with_mapping T rg_id path dict v =
        match values_mapping_find attr v 0 with
        | some n => .ok (n : Int)
        | none => .error .invalid_argument := by
  have hmem := mem_lmdb_values_mapping rg_id path attr hnd 0
  have hfind_mem : ∀ x n, values_mapping_find attr x 0 = some n → x ∈ attr := by
    intro x n hx
    by_contra hc
    rw [values_mapping_find_none attr x 0 hc] at hx
    simp at hx
  have hpw : (lmdb_values_mapping rg_id path attr 0).Pairwise
      (fun p q => p.1.to_byte_array T ≠ q.1.to_byte_array T) := by
    have hnd2 : (lmdb_values_mapping rg_id path attr 0).Nodup := by
      have : ∀ (l : List Int) (k : Nat), l.Nodup →
          (lmdb_values_mapping rg_id path l k).Nodup := by
        intro l
        induction l with
        | nil => intro k _; simp [lmdb_values_mapping]
        | cons a rest ih =>
          intro k hl
          have hl1 := List.nodup_cons.mp hl
          simp only [lmdb_values_mapping, List.nodup_cons]
          refine ⟨?_, ih (k + 1) hl1.2⟩
          intro hin
          obtain ⟨x, hx1, hx2⟩ := (mem_lmdb_values_mapping rg_id path rest hl1.2 (k + 1) _).mp hin
          simp only [AttributeValue.mk.injEq, true_and] at hx1
          apply hl1.1
          rw [hx1]
          by_contra hc
          rw [values_mapping_find_none rest x _ hc] at hx2
          simp at hx2
      exact this attr 0 hnd
    refine List.Pairwise.imp_of_mem ?_ (List.Nodup.pairwise_of_forall_ne hnd2 (fun _ _ _ _ h => h))
    intro p q hp hq hne hbytes
    obtain ⟨x, hx1, hx2⟩ := (hmem p).mp hp
    obtain ⟨y, hy1, hy2⟩ := (hmem q).mp hq
    rw [hx1, hy1] at hbytes
    have hxy := to_byte_array_injective T hs rg_id path x y (hT x (hfind_mem x _ hx2))
      (hT y (hfind_mem y _ hy2)) hbytes
    apply hne
    rw [hxy] at hx1 hx2
    have : p.2 = q.2 := by rw [hx2] at hy2; injection hy2
    exact Prod.ext (hx1.trans hy1.symm) this
  obtain ⟨dict, hd1, hd2⟩ := lmdb_insert_spec T (lmdb_values_mapping rg_id path attr 0) []
    (fun e he => by simp at he) hpw
  refine ⟨dict, hd1, ?_⟩
  have hd3 : ∀ e, e ∈ dict ↔ ∃ x, e.1 = { rg_id := rg_id, column_dotted_path := path, value := x } ∧
      values_mapping_find attr x 0 = some e.2 := by
    intro e
    rw [hd2 e, ← hmem e]
    simp
  unfold get_lmdb_attr_value_with_mapping LMDBDictionary.find
  cases hf : values_mapping_find attr v 0 with
  | none =>
    have hnone := mdb_set_none T dict
      { rg_id := rg_id, column_dotted_path := path, value := v } 0
      (fun e he hbytes => by
        obtain ⟨x, hx1, hx2⟩ := (hd3 e).mp he
        rw [hx1] at hbytes
        have := to_byte_array_injective T hs rg_id path x v (hT x (hfind_mem x _ hx2)) hv hbytes
        rw [this, hf] at hx2
        simp at hx2)
    rw [hnone]
    simp [const_iterator.eq, LMDBDictionary.end_iterator]
  | some n =>
    obtain ⟨pos1, hsome⟩ := mdb_set_some T dict
      { rg_id := rg_id, column_dotted_path := path, value := v } 0 n
      ⟨({ rg_id := rg_id, column_dotted_path := path, value := v }, n),
        (hd3 _).mpr ⟨v, rfl, hf⟩, rfl⟩
      (fun e he hbytes => by
        obtain ⟨x, hx1, hx2⟩ := (hd3 e).mp he
        rw [hx1] at hbytes
        have := to_byte_array_injective T hs rg_id path x v (hT x (hfind_mem x _ hx2)) hv hbytes
        rw [this, hf] at hx2
        injection hx2 with h3
        exact h3.symm)
    rw [hsome]
    simp [const_iterator.eq, LMDBDictionary.end_iterator]

/-! ## The index built with value mapping -/

theorem map_values_mapped (T : IntegralType) (rg_id : Nat) (path : List Nat)
    (aux_data : BitmapIndexAuxData) (dict : LMDBDictionary) (attr : List Int)
    (values : List (DocumentID × Int)) (hm : aux_data.use_value_mapping = true)
    (hin : ∀ p ∈ values, p.2 ∈ attr) :
    map_values T rg_id path aux_data dict attr values
      = .ok (values.map (fun p => (p.1, (values_mapping_find attr p.2 0).getD 0))) := by
  induction values with
  | nil => rfl
  | cons v rest ih =>
    obtain ⟨i, _, _, hi⟩ := values_mapping_find_some attr v.2 0 (hin v (List.mem_cons_self _ _))
    have hr := ih (fun p hp => hin p (List.mem_cons_of_mem _ hp))
    simp only [map_values, hm, Bool.not_true, Bool.false_eq_true, if_false, hi, hr,
      List.map_cons, Option.getD_some]

theorem mapped_rows_length (values : List (DocumentID × Int)) :
    (mapped_rows values).length = values.length := by
  simp [mapped_rows]

theorem mapped_rows_distinct (values : List (DocumentID × Int))
    (h : distinct_docs values) : distinct_docs (mapped_rows values) := by
  unfold distinct_docs mapped_rows at *
  rw [List.map_map]
  exact h

theorem docs_of_mapped_rows (values : List (DocumentID × Int)) :
    docs_of (mapped_rows values) = docs_of values := by
  unfold docs_of mapped_rows
  rw [List.map_map]
  rfl

/-- The mapped value of a document of a mapped index is the index of its value among the
sorted distinct values. -/
theorem mapped_value_of_mapped_rows (values : List (DocumentID × Int))
    (h : distinct_docs values) (d : DocumentID) (v : Int) (hv : (d, v) ∈ values) :
    values_mapping_find (sorted_attr_values values) v 0
      = some (mapped_value_of (mapped_rows values) d) := by
  have h1 : mapped_value_of (mapped_rows values) d
      = (values_mapping_find (sorted_attr_values values) v 0).getD 0 := by
    apply mapped_value_of_eq _ (mapped_rows_distinct values h)
    unfold mapped_rows
    exact List.mem_map.mpr ⟨(d, v), hv, rfl⟩
  obtain ⟨i, _, _, hi⟩ := values_mapping_find_some (sorted_attr_values values) v 0
    ((mem_sorted_attr_values values v).mpr ⟨d, hv⟩)
  rw [h1, hi]
  rfl

theorem estimate_cardinality_eq (values : List (DocumentID × Int))
    (hlen : values.length < 2 ^ 31) :
    estimate_cardinality values = (sorted_attr_values values).length := by
  unfold estimate_cardinality
  rw [sorted_attr_values_length]
  have := dedup_length_le values
  omega

theorem sorted_attr_values_length_pos (values : List (DocumentID × Int))
    (hne : values ≠ []) : 1 ≤ (sorted_attr_values values).length := by
  obtain ⟨p, hp⟩ := List.exists_mem_of_ne_nil values hne
  have : p.2 ∈ sorted_attr_values values :=
    (mem_sorted_attr_values values p.2).mpr ⟨p.1, hp⟩
  exact List.length_pos_of_mem this

/-- The index built with value mapping by a fresh builder: `build_index` succeeds, the
dictionary maps every value of the list to its index among the sorted distinct values and
no other value of `T`, and the index is built from those indices. -/
theorem build_index_mapped (T : IntegralType) (rg_id : Nat) (path : List Nat)
    (values : List (DocumentID × Int))
    (enc_type : BitmapIndexEncodingType) (index_type : BitmapIndexType)
    (h : valid_input T values)
    (hcard : ¬ estimate_cardinality values > values.length / 10) :
    ∃ index, build_index T rg_id path [] [] values enc_type index_type = .ok index ∧
      index.aux_data.use_value_mapping = true ∧
      index.aux_data.enc_type = enc_type ∧
      index.aux_data.cardinality = (sorted_attr_values values).length ∧
      index.aux_data.min_mapped_value = 0 ∧
      index.aux_data.max_mapped_value = ((sorted_attr_values values).length : Int) ∧
      (∀ v, T.holds v →
        get_lmdb_attr_value_with_mapping index.T index.rg_id index.column_dotted_path
            index.attr_values_lmdb v =
          match values_mapping_find (sorted_attr_values values) v 0 with
          | some n => .ok (n : Int)
          | none => .error .invalid_argument) ∧
      Built index (mapped_rows values) := by
  have hC := estimate_cardinality_eq values h.length_lt
  have hC1 := sorted_attr_values_length_pos values h.nonempty
  have hC2 : (sorted_attr_values values).length ≤ values.length := by
    rw [sorted_attr_values_length]; exact dedup_length_le values
  have hlen := h.length_lt
  generalize hattr : sorted_attr_values values = attr at *
  obtain ⟨g1, g2, g3, g4⟩ := get_basis_spec attr.length index_type hC1 (by omega)
  have hconf : configure T values enc_type index_type =
      { vd := ValueDecomposer.new (get_basis attr.length index_type)
        bitmap_counts := calculate_bitmap_counts (get_basis attr.length index_type) enc_type
        cardinality := attr.length
        enc_type := enc_type
        use_value_mapping := true
        min_mapped_value := 0
        max_mapped_value := (attr.length : Int) } := by
    unfold configure
    rw [hC] at hcard
    simp only [hC, if_neg hcard]
  have hattrT : ∀ x ∈ attr, T.holds x := by
    intro x hx
    rw [← hattr] at hx
    obtain ⟨d, hd⟩ := (mem_sorted_attr_values values x).mp hx
    exact h.holds _ hd
  have hnd : attr.Nodup := by rw [← hattr]; exact sorted_attr_values_nodup values
  have hdict : ∃ dict, LMDBDictionary.insert T [] (lmdb_values_mapping rg_id path attr 0)
      = .ok dict ∧ ∀ v, T.holds v →
        get_lmdb_attr_value_with_mapping T rg_id path dict v =
          match values_mapping_find attr v 0 with
          | some n => .ok (n : Int)
          | none => .error .invalid_argument := by
    obtain ⟨p0, hp0⟩ := List.exists_mem_of_ne_nil values h.nonempty
    obtain ⟨dict, hd, _⟩ := get_lmdb_attr_value_with_mapping_spec T h.size_pos rg_id path attr
      hnd hattrT p0.2 (h.holds _ hp0)
    refine ⟨dict, hd, fun v hv => ?_⟩
    obtain ⟨dict1, hd1, hg⟩ := get_lmdb_attr_value_with_mapping_spec T h.size_pos rg_id path
      attr hnd hattrT v hv
    rw [hd] at hd1
    have : dict = dict1 := by injection hd1
    rw [this]; exact hg
  obtain ⟨dict, hd1, hd2⟩ := hdict
  have hmap := map_values_mapped T rg_id path (configure T values enc_type index_type) dict
    attr values (by rw [hconf])
    (fun p hp => by rw [← hattr]; exact (mem_sorted_attr_values values p.2).mpr ⟨p.1, hp⟩)
  have hrows : values.map (fun p => (p.1, (values_mapping_find attr p.2 0).getD 0))
      = mapped_rows values := by
    unfold mapped_rows; rw [hattr]
  rw [hrows] at hmap
  have hrow_lt : ∀ p ∈ mapped_rows values, p.2 < attr.length := by
    intro p hp
    unfold mapped_rows at hp
    obtain ⟨q, hq, rfl⟩ := List.mem_map.mp hp
    rw [hattr]
    obtain ⟨i, hi1, _, hi3⟩ := values_mapping_find_some attr q.2 0
      (by rw [← hattr]; exact (mem_sorted_attr_values values q.2).mpr ⟨q.1, hq⟩)
    simp only [hi3, Option.getD_some]
    omega
  have g3w : ∀ b ∈ get_basis attr.length index_type, b + 1 < 2 ^ 32 := fun b hb => by
    have := g3 b hb
    omega
  have espan : to_int64 ((attr.length : Int) - 0) = (attr.length : Int) :=
    by rw [Int.sub_zero]; exact to_int64_eq _ (by omega) (by omega)
  obtain ⟨st, hst, _⟩ := insert_mapped_values_spec
    (configure T values enc_type index_type) (mapped_rows values)
    (by rw [hconf]; rfl)
    (by rw [hconf]; exact g2) (by rw [hconf]; exact g3w) (by rw [hconf]; rfl)
    (by rw [mapped_rows_length]; omega)
  have hfit := int_counters_fit_of (configure T values enc_type index_type)
    (mapped_rows values)
    (by rw [hconf]; exact g2) (by rw [hconf]; exact g3) (by rw [hconf]; rfl)
    (by rw [mapped_rows_length]; exact hlen)
  refine ⟨{ T := T, rg_id := rg_id, column_dotted_path := path, storage := st,
            attr_values_lmdb := dict,
            aux_data := configure T values enc_type index_type }, ?_, ?_, ?_, ?_, ?_, ?_, ?_, ?_⟩
  · unfold build_index insert
    have hu : (configure T values enc_type index_type).use_value_mapping = true := by
      rw [hconf]
    simp only [hu, if_true, hattr, hd1, hmap, hfit, Bool.not_true, Bool.false_eq_true,
      if_false, hst, StorageDictionary.insert_one, storage_mdb_put]
  · simp only [hconf]
  · simp only [hconf]
  · simp only [hconf]
  · simp only [hconf]
  · simp only [hconf]
  · exact hd2
  · have hbasis : (ValueDecomposer.new (get_basis attr.length index_type)).basis
        = get_basis attr.length index_type := rfl
    apply built_of_insert
    · simp only [hconf]; rfl
    · simp only [hconf]; exact g1
    · simp only [hconf]; exact g2
    · simp only [hconf]; exact g3w
    · simp only [hconf]; rfl
    · rw [mapped_rows_length]; omega
    · exact mapped_rows_distinct _ h.distinct
    · exact hst
    · intro p hp
      have h1 := hrow_lt p hp
      simp only [hconf, hbasis]
      omega
    · intro p hp
      have h1 := hrow_lt p hp
      simp only [hconf, espan]
      omega
    · simp only [hconf, hbasis, espan]
      omega

/-! ## Equality queries -/

theorem run_query_ok (index : BitmapIndex) (query : BitmapIndex → Except IndexError BitMap) :
    run_query (.ok index) query = query index := rfl

theorem lookup_of_returns_docs (index : BitmapIndex) (value mapped_value : Int)
    (P : DocumentID → Prop)
    (h1 : get_lmdb_attr_value index.T index.rg_id index.column_dotted_path index.aux_data
      index.attr_values_lmdb value = .ok mapped_value)
    (h2 : returns_docs (lookup_mapped_value index mapped_value) P) :
    returns_docs (lookup index value) P := by
  obtain ⟨bmp, hb, hm⟩ := h2
  refine ⟨bmp, ?_, hm⟩
  simp only [lookup, h1, hb]

theorem build_index_fields (T : IntegralType) (rg_id : Nat) (path : List Nat)
    (dict : LMDBDictionary) (aux_dict : StorageDictionary BitmapIndexAuxData)
    (values : List (DocumentID × Int))
    (enc_type : BitmapIndexEncodingType) (index_type : BitmapIndexType) (index : BitmapIndex)
    (h : build_index T rg_id path dict aux_dict values enc_type index_type = .ok index) :
    index.T = T ∧ index.rg_id = rg_id ∧ index.column_dotted_path = path ∧
      index.aux_data = configure T values enc_type index_type := by
  unfold build_index at h
  simp only at h
  generalize insert T rg_id path (configure T values enc_type index_type)
    (BitMapStorage.create (configure T values enc_type index_type).bitmap_counts) dict values
    = r at h
  cases r with
  | error e => simp at h
  | ok r =>
    simp only at h
    split at h
    · simp at h
    · simp only [Except.ok.injEq] at h
      rw [← h]
      exact ⟨rfl, rfl, rfl, rfl⟩

/-- The method `lookup` on an index built without value mapping returns the documents
whose value is the one looked up. -/
theorem lookup_unmapped (index : BitmapIndex) (values : List (DocumentID × Int))
    (hdist : distinct_docs values)
    (hu : index.aux_data.use_value_mapping = false)
    (hs1 : 1 ≤ index.T.size) (hs8 : index.T.size ≤ 8)
    (hT : ∀ p ∈ values, index.T.holds p.2) (hE : ∀ p ∈ values, exact_range p.2)
    (hb : ∀ p ∈ values, index.aux_data.min_mapped_value ≤ p.2 ∧
      p.2 ≤ index.aux_data.max_mapped_value)
    (hmin : ∃ p ∈ values, p.2 = index.aux_data.min_mapped_value)
    (hmax : ∃ p ∈ values, p.2 = index.aux_data.max_mapped_value)
    (hB : Built index (unmapped_rows index.aux_data.min_mapped_value values))
    (v : Int) (hv : index.T.holds v) :
    returns_docs (lookup index v) (fun d => (d, v) ∈ values) := by
  have hmins : ∀ p ∈ values, index.aux_data.min_mapped_value ≤ p.2 := fun p hp => (hb p hp).1
  obtain ⟨pmax, hpmax, hpm⟩ := hmax
  obtain ⟨pmin, hpmin, hpn⟩ := hmin
  have hEx := hE pmax hpmax
  have hEn := hE pmin hpmin
  obtain ⟨hv1, hv2, hv3⟩ := holds_bounds index.T hs1 hs8 v pmin.2 hv (hT pmin hpmin)
  rw [hpm] at hEx
  rw [hpn] at hEn hv3
  unfold exact_range at hEx hEn
  have hmm : index.aux_data.min_mapped_value ≤ index.aux_data.max_mapped_value := by
    have := hb _ hpmax; omega
  have espan : to_int64 (index.aux_data.max_mapped_value - index.aux_data.min_mapped_value)
      = index.aux_data.max_mapped_value - index.aux_data.min_mapped_value :=
    to_int64_eq _ (by omega) (by omega)
  have hspan : index.aux_data.max_mapped_value - index.aux_data.min_mapped_value
      < (index.aux_data.vd.basis.prod : Int) := by
    have h1 : (pmax.1, Int.toNat (pmax.2 - index.aux_data.min_mapped_value))
        ∈ unmapped_rows index.aux_data.min_mapped_value values :=
      List.mem_map.mpr ⟨pmax, hpmax, rfl⟩
    have h2 := hB.mapped_lt _ h1
    have h3 := hmins _ hpmax
    simp only at h2
    omega
  have hin : ∀ d, (d, v) ∈ values →
      to_int64 (to_int64 v - index.aux_data.min_mapped_value)
        = v - index.aux_data.min_mapped_value := by
    intro d hd
    have h1 := hb _ hd
    have h2 := hE _ hd
    unfold exact_range at h2
    simp only at h1 h2
    rw [to_int64_eq v (by omega) (by omega), to_int64_eq _ (by omega) (by omega)]
  apply lookup_of_returns_docs index v
    (to_int64 (to_int64 v - index.aux_data.min_mapped_value))
  · simp only [get_lmdb_attr_value, hu, Bool.not_false, if_true]
  · by_cases hr : to_int64 (to_int64 v - index.aux_data.min_mapped_value) < 0 ∨
        to_int64 (to_int64 v - index.aux_data.min_mapped_value)
          > to_int64 (index.aux_data.max_mapped_value - index.aux_data.min_mapped_value)
    · rw [Built.lookup_mapped_value_empty index _ hr]
      refine returns_docs_ok _ _ (fun d => ?_)
      simp only [Finset.not_mem_empty, false_iff]
      intro hd
      have := hb _ hd
      simp only at this
      rw [hin d hd, espan] at hr
      omega
    · rw [espan] at hr
      obtain ⟨n, hn⟩ : ∃ n : Nat,
          to_int64 (to_int64 v - index.aux_data.min_mapped_value) = (n : Int) :=
        ⟨(to_int64 (to_int64 v - index.aux_data.min_mapped_value)).toNat, by omega⟩
      rw [hn]
      refine returns_docs_congr
        (hB.lookup_mapped_value n (by omega) (by rw [espan]; omega)) (fun d => ?_)
      rw [unmapped_eq_iff _ values hdist hmins]
      constructor
      · rintro ⟨w, hw, he⟩
        have h1 := hb _ hw
        have h2 := hE _ hw
        unfold exact_range at h2
        simp only at h1 h2
        have : w = v := by
          rw [hn] at hr
          unfold to_int64 at hn
          omega
        rw [← this]; exact hw
      · intro hd
        refine ⟨v, hd, ?_⟩
        rw [← hn, hin d hd]

/-- The method `lookup` on an index built with value mapping returns the documents whose
value is the one looked up. -/
theorem lookup_mapped (index : BitmapIndex) (values : List (DocumentID × Int))
    (hdist : distinct_docs values) (hlen : values.length < 2 ^ 31)
    (hu : index.aux_data.use_value_mapping = true)
    (hmin : index.aux_data.min_mapped_value = 0)
    (hmax : index.aux_data.max_mapped_value = ((sorted_attr_values values).length : Int))
    (hfind : ∀ v, index.T.holds v →
        get_lmdb_attr_value_with_mapping index.T index.rg_id index.column_dotted_path
            index.attr_values_lmdb v =
          match values_mapping_find (sorted_attr_values values) v 0 with
          | some n => .ok (n : Int)
          | none => .error .invalid_argument)
    (hB : Built index (mapped_rows values))
    (v : Int) (hv : index.T.holds v) :
    returns_docs (lookup index v) (fun d => (d, v) ∈ values) := by
  have hattr_len : (sorted_attr_values values).length < 2 ^ 32 := by
    have h1 := sorted_attr_values_length values
    have h2 := dedup_length_le values
    omega
  cases hf : values_mapping_find (sorted_attr_values values) v 0 with
  | none =>
    have h1 := hfind v hv
    rw [hf] at h1
    have : lookup index v = .ok ∅ := by
      simp only [lookup, get_lmdb_attr_value, hu, Bool.not_true, Bool.false_eq_true,
        if_false, h1]
    rw [this]
    refine returns_docs_ok _ _ (fun d => ?_)
    simp only [Finset.not_mem_empty, false_iff]
    intro hd
    have := mapped_value_of_mapped_rows values hdist d v hd
    rw [hf] at this
    simp at this
  | some n =>
    have h1 := hfind v hv
    rw [hf] at h1
    have hn := values_mapping_find_lt _ hattr_len v n hf
    apply lookup_of_returns_docs index v (n : Int)
    · simp only [get_lmdb_attr_value, hu, Bool.not_true, Bool.false_eq_true, if_false, h1]
    · have espan : to_int64 (((sorted_attr_values values).length : Int) - 0)
          = ((sorted_attr_values values).length : Int) := by
        rw [Int.sub_zero]; exact to_int64_eq _ (by omega) (by omega)
      have hnp : n < index.aux_data.vd.basis.prod := by
        have := hB.span_le
        rw [hmax, hmin, espan] at this
        omega
      refine returns_docs_congr
        (hB.lookup_mapped_value n hnp (by rw [hmax, hmin, espan]; omega)) (fun d => ?_)
      rw [docs_of_mapped_rows]
      constructor
      · rintro ⟨hd, he⟩
        obtain ⟨w, hw⟩ := (mem_docs_of values d).mp hd
        have h2 := mapped_value_of_mapped_rows values hdist d w hw
        rw [he] at h2
        have := values_mapping_find_injective _ hattr_len w v n h2 hf
        rw [← this]; exact hw
      · intro hd
        refine ⟨(mem_docs_of values d).mpr ⟨v, hd⟩, ?_⟩
        have h2 := mapped_value_of_mapped_rows values hdist d v hd
        rw [hf] at h2
        exact (Option.some.inj h2).symm

/-- C2 (what the code does): on the index built without value mapping from the rows of
`integer_value_larger_query_test`, `greater(8, CLOSED)` returns the empty bitmap although
document 40 has the value 8: the mapped bound `8 - 4` equals the cardinality 4, which
`greater` takes for the mapped sentinel without testing `use_value_mapping`. -/
theorem greater_unmapped_at_cardinality :
    estimate_cardinality values_S1 > values_S1.length / 10 ∧
    ((40 : DocumentID), (8 : Int)) ∈ values_S1 ∧
    run_query (create_index uint32_t values_S1 .INTERVAL .BITSLICED)
      (fun index => greater index 8 .CLOSED) = .ok ∅ ∧
    run_query (create_index uint32_t values_S1 .RANGE .BITMAP)
      (fun index => greater index 8 .CLOSED) = .ok ∅ := by
  decide

/-- C5 (what the code does): on the index built with value mapping from ten documents
with the value 256, `greater(2, CLOSED)` returns the empty bitmap although every value is
at least 2: the key of 2 is serialized to bytes that come after those of 256, so
`lower_bound` finds no key. -/
theorem greater_mapped_byte_order :
    ¬ estimate_cardinality values_256 > values_256.length / 10 ∧
    valid_input uint32_t values_256 ∧
    run_query (create_index uint32_t values_256 .INTERVAL .BITSLICED)
      (fun index => greater index 2 .CLOSED) = .ok ∅ ∧
    run_query (create_index uint32_t values_256 .RANGE .BITMAP)
      (fun index => greater index 2 .CLOSED) = .ok ∅ := by
  decide

/-! ## The built index, whatever the mapping -/

/-- For every valid input a fresh builder returns an index, the index is built from rows
for the documents of the input, and `lookup` answers with the rows of the input. -/
theorem build_index_lookup (T : IntegralType) (rg_id : Nat) (path : List Nat)
    (values : List (DocumentID × Int)) (enc_type : BitmapIndexEncodingType)
    (index_type : BitmapIndexType) (h : valid_input T values) :
    ∃ index, build_index T rg_id path [] [] values enc_type index_type = .ok index ∧
      index.aux_data.enc_type = enc_type ∧
      (∃ rows, Built index rows ∧ docs_of rows = docs_of values) ∧
      ∀ v, T.holds v → returns_docs (lookup index v) (fun d => (d, v) ∈ values) := by
  by_cases hcard : estimate_cardinality values > values.length / 10
  · obtain ⟨index, hbuild, hT, _, _, _, hu, he, _, hb, hmin, hmax, hB⟩ :=
      build_index_unmapped T rg_id path [] values enc_type index_type h hcard
    exact ⟨index, hbuild, he, ⟨_, hB, docs_of_unmapped_rows _ _⟩,
      fun v hv => lookup_unmapped index values h.distinct hu (by rw [hT]; exact h.size_pos)
        (by rw [hT]; exact h.size_le) (by rw [hT]; exact h.holds) h.exact hb hmin hmax hB v
        (by rw [hT]; exact hv)⟩
  · obtain ⟨index, hbuild, hu, he, _, hmin, hmax, hfind, hB⟩ :=
      build_index_mapped T rg_id path values enc_type index_type h hcard
    have hT : index.T = T := (build_index_fields _ _ _ _ _ _ _ _ _ hbuild).1
    exact ⟨index, hbuild, he, ⟨_, hB, docs_of_mapped_rows _⟩,
      fun v hv => lookup_mapped index values h.distinct h.length_lt hu hmin hmax
        (fun w hw => hfind w (by rw [← hT]; exact hw)) hB v (by rw [hT]; exact hv)⟩

theorem returns_docs_unique {r1 r2 : Except IndexError BitMap} {P : DocumentID → Prop}
    (h1 : returns_docs r1 P) (h2 : returns_docs r2 P) : r1 = r2 := by
  obtain ⟨b1, e1, m1⟩ := h1
  obtain ⟨b2, e2, m2⟩ := h2
  rw [e1, e2]
  congr 1
  ext d
  rw [m1 d, m2 d]

/-- C9 (amended): on every EQUALITY-encoded index, every call of `greater` fails with
`std::invalid_argument`; a call of `lesser` fails with it once the mapped bound `v2` is
found, unless value mapping is on and `v2 = -1`, where it returns the empty bitmap; a
call of `range_search` with `min ≤ max` fails with it once the mapped bounds are found
with `v1 < v2` and neither is the sentinel of the value mapping, while it returns
`lookup_mapped_value(v1)` for `v1 = v2` and the empty bitmap for `v1 > v2`. -/
theorem equality_index_range_queries (index : BitmapIndex)
    (henc : index.aux_data.enc_type = .EQUALITY) (min max : Int) (flags : IntervalFlags) :
    greater index min flags = .error .invalid_argument ∧
    (∀ v2, lookup_max_value index max flags = .ok v2 →
      ¬ (index.aux_data.use_value_mapping = true ∧ v2 = -1) →
      lesser index max flags = .error .invalid_argument) ∧
    (∀ v2, lookup_max_value index max flags = .ok v2 →
      index.aux_data.use_value_mapping = true ∧ v2 = -1 →
      lesser index max flags = .ok ∅) ∧
    (∀ v1 v2, min ≤ max → lookup_min_value index min flags = .ok v1 →
      lookup_max_value index max flags = .ok v2 →
      ¬ (index.aux_data.use_value_mapping = true ∧ v1 = index.aux_data.cardinality) →
      ¬ (index.aux_data.use_value_mapping = true ∧ v2 = -1) →
      (v1 < v2 → range_search index min max flags = .error .invalid_argument) ∧
      (v1 = v2 → range_search index min max flags = lookup_mapped_value index v1) ∧
      (v1 > v2 → range_search index min max flags = .ok ∅)) := by
  refine ⟨?_, ?_, ?_, ?_⟩
  · simp only [greater, henc, if_true]
  · intro v2 h2 hn
    simp only [lesser, h2, if_neg hn, henc, if_true]
  · intro v2 h2 hs
    simp only [lesser, h2, if_pos hs]
  · intro v1 v2 hle h1 h2 hn1 hn2
    have hmm : ¬ min > max := not_lt.mpr hle
    refine ⟨fun hlt => ?_, fun heq => ?_, fun hgt => ?_⟩
    · simp only [range_search, if_neg hmm, h1, h2, if_neg hn1, if_neg hn2,
        if_neg (show ¬ v1 > v2 by omega), if_neg (show ¬ v1 = v2 by omega), henc, if_true]
    · simp only [range_search, if_neg hmm, h1, h2, if_neg hn1, if_neg hn2,
        if_neg (show ¬ v1 > v2 by omega), if_pos heq]
    · simp only [range_search, if_neg hmm, h1, h2, if_neg hn1, if_neg hn2, if_pos hgt]

theorem equality_index_range_queries_witness :
    (built_index (create_index uint32_t values_S1 .EQUALITY .BITMAP)).aux_data.enc_type
      = .EQUALITY ∧
    greater (built_index (create_index uint32_t values_S1 .EQUALITY .BITMAP)) 5 .CLOSED
      = .error .invalid_argument ∧
    lesser (built_index (create_index uint32_t values_S1 .EQUALITY .BITMAP)) 7 .CLOSED
      = .error .invalid_argument ∧
    range_search (built_index (create_index uint32_t values_S1 .EQUALITY .BITMAP)) 5 7 .CLOSED
      = .error .invalid_argument :=
  ⟨by decide,
   (equality_index_range_queries
    (built_index (create_index uint32_t values_S1 .EQUALITY .BITMAP)) (by decide) 5 7
    .CLOSED).1,
   (equality_index_range_queries
    (built_index (create_index uint32_t values_S1 .EQUALITY .BITMAP)) (by decide) 5 7
    .CLOSED).2.1 3 (by decide) (by decide),
   ((equality_index_range_queries
    (built_index (create_index uint32_t values_S1 .EQUALITY .BITMAP)) (by decide) 5 7
    .CLOSED).2.2.2 1 3 (by decide) (by decide) (by decide) (by decide) (by decide)).1
    (by decide)⟩

set_option maxRecDepth 8192 in
/-- C9 (as stated, refuted): on the EQUALITY-encoded index of the test rows,
`range_search(4, 4, CLOSED)` returns the bitmap of `lookup(4)` and
`range_search(9, 20, CLOSED)` the empty bitmap, neither failing. -/
theorem range_search_equality_returns :
    (built_index (create_index uint32_t values_S1 .EQUALITY .BITMAP)).aux_data.enc_type
      = .EQUALITY ∧
    run_query (create_index uint32_t values_S1 .EQUALITY .BITMAP)
      (fun index => range_search index 4 4 .CLOSED) = .ok {15, 17, 30} ∧
    run_query (create_index uint32_t values_S1 .EQUALITY .BITMAP)
      (fun index => range_search index 9 20 .CLOSED) = .ok ∅ := by
  decide

/-! ## The flag and the digits returned by `decompose` -/

theorem digit_of_eq_div_mod (basis : List Nat) (h : ∀ b ∈ basis, 1 ≤ b) (value i : Nat)
    (hi : i < basis.length) :
    digit_of basis i value = value / (basis.drop (i + 1)).prod % basis.getD i 0 := by
  induction basis generalizing i with
  | nil => simp at hi
  | cons b rest ih =>
    have hr : ∀ x ∈ rest, 1 ≤ x := fun x hx => h x (List.mem_cons_of_mem _ hx)
    cases i with
    | zero => rw [digit_of_cons_zero b rest value hr]; simp
    | succ j =>
      rw [digit_of_cons_succ b rest value j hr]
      have hj : j < rest.length := by simpa using hi
      rw [ih hr j hj]
      simp

theorem is_base_2_iff (basis : List Nat) :
    (ValueDecomposer.new basis).is_base_2 = true ↔ ∀ b ∈ basis, b = 2 := by
  unfold ValueDecomposer.new
  simp [List.all_eq_true]

/-- The flag returned by `decompose` tells whether the value is below the product of the
basis. -/
theorem decompose_flag_iff (basis : List Nat) (hb : ∀ b ∈ basis, 1 ≤ b) (v : Nat) :
    ((ValueDecomposer.new basis).decompose v).2 = true ↔ v < basis.prod := by
  rw [(decompose_eq_loop basis v).2, (decompose_loop_spec basis v hb).1,
    decide_eq_true_iff, Nat.div_eq_zero_iff (prod_pos_of_ge_one basis hb)]

/-- C11: for every basis whose bases are all at least 1 and every value `v`,
`decompose(v)` returns `true` exactly when `v` is below the product of the basis; on the
product itself it returns `false`. -/
theorem decompose_true_iff_lt (basis : List Nat) (hb : ∀ b ∈ basis, 1 ≤ b) :
    (∀ v, ((ValueDecomposer.new basis).decompose v).2 = true ↔ v < basis.prod) ∧
    ((ValueDecomposer.new basis).decompose basis.prod).2 = false := by
  refine ⟨decompose_flag_iff basis hb, ?_⟩
  rw [← Bool.not_eq_true, decompose_flag_iff basis hb]
  exact Nat.lt_irrefl _

theorem decompose_true_iff_lt_witness :
    (∀ b ∈ [3, 4, 2], 1 ≤ b) ∧
    ((ValueDecomposer.new [3, 4, 2]).decompose 23).2 = true ∧
    ((ValueDecomposer.new [3, 4, 2]).decompose 24).2 = false ∧
    ((ValueDecomposer.new [2, 2]).decompose 4).2 = false :=
  ⟨by decide,
   ((decompose_true_iff_lt [3, 4, 2] (by decide)).1 23).mpr (by decide),
   (decompose_true_iff_lt [3, 4, 2] (by decide)).2,
   (decompose_true_iff_lt [2, 2] (by decide)).2⟩

/-- C12: for every basis `[b_0..b_{k-1}]` whose bases are all at least 1 and every value
`v`, `decompose(v)` yields exactly `k` digits, digit `i` being
`(v / product of b_j for j > i) mod b_i` and so below `b_i`; the constructor selects the
bit-extraction branch exactly when every base is 2, and both branches give these digits. -/
theorem decompose_digits (basis : List Nat) (v : Nat) (hb : ∀ b ∈ basis, 1 ≤ b) :
    ((ValueDecomposer.new basis).is_base_2 = true ↔ ∀ b ∈ basis, b = 2) ∧
    ((ValueDecomposer.new basis).decompose v).1.length = basis.length ∧
    (∀ i, i < basis.length →
      ((ValueDecomposer.new basis).decompose v).1.getD i 0
        = v / (basis.drop (i + 1)).prod % basis.getD i 0 ∧
      ((ValueDecomposer.new basis).decompose v).1.getD i 0 < basis.getD i 0) ∧
    ((∀ b ∈ basis, b = 2) → ∀ i, i < basis.length →
      (decompose_loop_base_2 basis v).1.getD i 0 = v / 2 ^ (basis.length - (i + 1)) % 2) := by
  refine ⟨is_base_2_iff basis, ?_, ?_, ?_⟩
  · rw [vd_decompose_fst, digits_length]
  · intro i hi
    rw [vd_decompose_fst]
    exact ⟨digit_of_eq_div_mod basis hb v i hi, digit_of_lt basis hb v i hi⟩
  · intro h2 i hi
    rw [decompose_loop_base_2_eq basis v h2]
    have h1 := digit_of_eq_div_mod basis hb v i hi
    unfold digit_of digits at h1
    rw [h1]
    have hd : (basis.drop (i + 1)).prod = 2 ^ (basis.length - (i + 1)) := by
      have hrep : basis.drop (i + 1) = List.replicate (basis.length - (i + 1)) 2 := by
        rw [List.eq_replicate_iff]
        exact ⟨by simp, fun b hb1 => h2 b (List.mem_of_mem_drop hb1)⟩
      rw [hrep, List.prod_replicate]
    have hg : basis.getD i 0 = 2 := by
      rw [List.getD_eq_getElem _ _ hi]
      exact h2 _ (List.getElem_mem _)
    rw [hd, hg]

theorem decompose_digits_witness :
    (∀ b ∈ [2, 2, 2], 1 ≤ b) ∧
    ((ValueDecomposer.new [2, 2, 2]).is_base_2 = true ↔ ∀ b ∈ [2, 2, 2], b = 2) ∧
    ((ValueDecomposer.new [2, 2, 2]).decompose 5).1.length = [2, 2, 2].length ∧
    (∀ i, i < [2, 2, 2].length →
      ((ValueDecomposer.new [2, 2, 2]).decompose 5).1.getD i 0
        = 5 / (([2, 2, 2] : List Nat).drop (i + 1)).prod % ([2, 2, 2] : List Nat).getD i 0 ∧
      ((ValueDecomposer.new [2, 2, 2]).decompose 5).1.getD i 0
        < ([2, 2, 2] : List Nat).getD i 0) ∧
    ((∀ b ∈ [2, 2, 2], b = 2) → ∀ i, i < [2, 2, 2].length →
      (decompose_loop_base_2 [2, 2, 2] 5).1.getD i 0
        = 5 / 2 ^ ([2, 2, 2].length - (i + 1)) % 2) :=
  ⟨by decide, decompose_digits [2, 2, 2] 5 (by decide)⟩

/-! ## The basis chosen by `get_basis` -/

/-- The loop that pushes a 2 per halving pushes as many twos as the cardinality has bits. -/
theorem get_basis_bitsliced_loop_eq (fuel cardinality : Nat) (h : cardinality < 2 ^ fuel) :
    get_basis_bitsliced_loop fuel cardinality
      = List.replicate (if cardinality = 0 then 0 else Nat.log 2 cardinality + 1) 2 := by
  induction fuel generalizing cardinality with
  | zero =>
    have : cardinality = 0 := by simpa using h
    subst this
    simp [get_basis_bitsliced_loop]
  | succ fuel ih =>
    unfold get_basis_bitsliced_loop
    by_cases h0 : cardinality = 0
    · simp [h0]
    · rw [if_neg h0, if_neg h0]
      have hlt : cardinality / 2 < 2 ^ fuel := by
        rw [Nat.div_lt_iff_lt_mul (by norm_num)]
        rw [Nat.pow_succ] at h
        exact h
      rw [ih _ hlt]
      by_cases h1 : cardinality < 2
      · have e1 : cardinality = 1 := by omega
        subst e1
        simp [List.replicate]
      · have h2 : 2 ≤ cardinality := by omega
        have hd : cardinality / 2 ≠ 0 := by omega
        rw [if_neg hd, Nat.log_of_one_lt_of_le (by norm_num) h2]
        rfl

/-- Away from the powers of two the number of bits is the rounded-up logarithm. -/
theorem log_succ_eq_clog (c : Nat) (h1 : 1 ≤ c) (hp : ∀ m, c ≠ 2 ^ m) :
    Nat.log 2 c + 1 = Nat.clog 2 c := by
  have hc : c ≠ 0 := by omega
  have hlow : 2 ^ Nat.log 2 c ≤ c := Nat.pow_log_le_self 2 hc
  have hlow1 : 2 ^ Nat.log 2 c < c := lt_of_le_of_ne hlow (fun e => hp _ e.symm)
  have hup : c < 2 ^ (Nat.log 2 c + 1) := Nat.lt_pow_succ_log_self (by norm_num) c
  apply le_antisymm
  · exact (Nat.pow_lt_iff_lt_clog (by norm_num)).mp hlow1
  · exact (Nat.le_pow_iff_clog_le (by norm_num)).mp (le_of_lt hup)

/-- C13 (amended): for index type BITSLICED, `get_basis` returns the single-component
basis `[C]` for a cardinality `1 ≤ C < 4` and `floor(log2 C) + 1` twos (one per bit of
`C`) for `C ≥ 4`; that number is `ceil(log2 C)` unless `C` is a power of two. -/
theorem get_basis_bitsliced (cardinality : Nat) (h1 : 1 ≤ cardinality)
    (h64 : cardinality < 2 ^ 64) :
    (cardinality < 4 → get_basis cardinality .BITSLICED = [cardinality]) ∧
    (4 ≤ cardinality →
      get_basis cardinality .BITSLICED = List.replicate (Nat.log 2 cardinality + 1) 2) ∧
    ((∀ m, cardinality ≠ 2 ^ m) → Nat.log 2 cardinality + 1 = Nat.clog 2 cardinality) := by
  refine ⟨fun h4 => ?_, fun h4 => ?_, log_succ_eq_clog cardinality h1⟩
  · unfold get_basis
    rw [if_pos h4]
    have : cardinality % 2 ^ 32 = cardinality := by omega
    rw [this]
  · unfold get_basis
    rw [if_neg (by omega)]
    simp only
    rw [get_basis_bitsliced_loop_eq 64 cardinality h64, if_neg (by omega)]

theorem get_basis_bitsliced_witness :
    1 ≤ 5 ∧ 5 < 2 ^ 64 ∧ get_basis 5 .BITSLICED = List.replicate (Nat.log 2 5 + 1) 2 ∧
    get_basis 3 .BITSLICED = [3] :=
  ⟨by decide, by decide,
   (get_basis_bitsliced 5 (by decide) (by decide)).2.1 (by decide),
   (get_basis_bitsliced 3 (by decide) (by decide)).1 (by decide)⟩

/-- C13 (as stated, refuted): for the cardinality 4 `get_basis` returns three twos where
`max(1, ceil(log2 4))` is 2, and for the cardinalities 1 and 3 it returns `[1]` and `[3]`,
which are not vectors of twos. -/
theorem get_basis_bitsliced_power_of_two :
    get_basis 4 .BITSLICED = [2, 2, 2] ∧
    max 1 (Nat.clog 2 4) = 2 ∧
    get_basis 4 .BITSLICED ≠ List.replicate (max 1 (Nat.clog 2 4)) 2 ∧
    get_basis 1 .BITSLICED = [1] ∧
    get_basis 3 .BITSLICED = [3] := by
  have hc : Nat.clog 2 4 = 2 := Nat.clog_pow 2 2 (by norm_num)
  refine ⟨by decide, by rw [hc]; rfl, ?_, by decide, by decide⟩
  rw [hc]
  decide

/-- The quotient rounded up, as the source computes it. -/
theorem div_ceil_eq (c s : Nat) (hs : 0 < s) :
    (if c % s ≠ 0 then c / s + 1 else c / s) = (c + s - 1) / s := by
  have hdm := Nat.div_add_mod c s
  have hml := Nat.mod_lt c hs
  have hqs : c / s * s = s * (c / s) := Nat.mul_comm _ _
  have h1 : (c / s + 1) * s = c / s * s + s := Nat.succ_mul _ _
  have h2 : (c / s + 1 + 1) * s = (c / s + 1) * s + s := Nat.succ_mul _ _
  symm
  split_ifs with hz
  · apply Nat.div_eq_of_lt_le
    · omega
    · omega
  · have hr0 : c % s = 0 := by simpa using hz
    apply Nat.div_eq_of_lt_le
    · omega
    · omega

/-- C14 (amended): for index type BITMAP, `get_basis` returns
`[floor(sqrt C), ceil(C / floor(sqrt C))]` for every cardinality `C` with `4 ≤ C < 2 ^ 52`
and the single-component basis `[C]` for `1 ≤ C < 4`. -/
theorem get_basis_bitmap (cardinality : Nat) (h1 : 1 ≤ cardinality)
    (h52 : cardinality < 2 ^ 52) :
    (cardinality < 4 → get_basis cardinality .BITMAP = [cardinality]) ∧
    (4 ≤ cardinality →
      get_basis cardinality .BITMAP
        = [Nat.sqrt cardinality,
           (cardinality + Nat.sqrt cardinality - 1) / Nat.sqrt cardinality]) := by
  refine ⟨fun h4 => ?_, fun h4 => ?_⟩
  · unfold get_basis
    rw [if_pos h4]
    have : cardinality % 2 ^ 32 = cardinality := by omega
    rw [this]
  · unfold get_basis
    rw [if_neg (by omega)]
    obtain ⟨s1, s2, s3, s4⟩ := sqrt_bounds cardinality h4 h52
    simp only
    rw [sqrt_floor_eq cardinality (by omega)]
    have e0 : Nat.sqrt cardinality % 2 ^ 32 = Nat.sqrt cardinality := by omega
    simp only [e0]
    rw [← div_ceil_eq cardinality (Nat.sqrt cardinality) (by omega)]
    generalize Nat.sqrt cardinality = s at *
    have e1 : cardinality / s % 2 ^ 32 = cardinality / s := by omega
    have e2 : (cardinality / s + 1) % 2 ^ 32 = cardinality / s + 1 := by omega
    simp only [e1, e2]

theorem get_basis_bitmap_witness :
    1 ≤ 10 ∧ 10 < 2 ^ 52 ∧
    get_basis 10 .BITMAP = [Nat.sqrt 10, (10 + Nat.sqrt 10 - 1) / Nat.sqrt 10] ∧
    get_basis 3 .BITMAP = [3] :=
  ⟨by decide, by decide,
   (get_basis_bitmap 10 (by decide) (by decide)).2 (by decide),
   (get_basis_bitmap 3 (by decide) (by decide)).1 (by decide)⟩

/-- C14 (as stated, refuted): for the cardinality `C = 2 ^ 52 + 2 ^ 27`, whose square root
has the integer part `2 ^ 26` (as `(2 ^ 26) ^ 2 ≤ C < (2 ^ 26 + 1) ^ 2`), the root computed
in `double` is rounded up to `2 ^ 26 + 1` and `get_basis` returns
`[2 ^ 26 + 1, 2 ^ 26 + 1]`, not `[2 ^ 26, 2 ^ 26 + 2]`. -/
theorem get_basis_bitmap_rounds_up :
    67108864 * 67108864 ≤ 2 ^ 52 + 2 ^ 27 ∧ 2 ^ 52 + 2 ^ 27 < 67108865 * 67108865 ∧
    (2 ^ 52 + 2 ^ 27 + 67108864 - 1) / 67108864 = 67108866 ∧
    get_basis (2 ^ 52 + 2 ^ 27) .BITMAP = [67108865, 67108865] ∧
    get_basis (2 ^ 52 + 2 ^ 27) .BITMAP ≠ [67108864, 67108866] := by
  decide

/-! ## The basis covers the mapped values -/

/-- The auxiliary data that `configure` makes without value mapping, for values of `T`
below `2 ^ 63` no two of which lie `2 ^ 63` or more apart: the bounds are the least and the
greatest value, and the basis is the one of the number of values between them. -/
theorem configure_unmapped (T : IntegralType) (values : List (DocumentID × Int))
    (enc_type : BitmapIndexEncodingType) (index_type : BitmapIndexType)
    (hne : values ≠ []) (hs1 : 1 ≤ T.size) (hs8 : T.size ≤ 8)
    (hT : ∀ p ∈ values, T.holds p.2) (h63 : ∀ p ∈ values, p.2 < 2 ^ 63)
    (hspan : ∀ p ∈ values, ∀ q ∈ values, p.2 - q.2 < 2 ^ 63)
    (hcard : estimate_cardinality values > values.length / 10) :
    ∃ (lo hi : Int) (R : Nat),
      (∀ p ∈ values, lo ≤ p.2 ∧ p.2 ≤ hi ∧ -(2 ^ 63) ≤ p.2 ∧ p.2 - lo < 2 ^ 63) ∧
      hi - lo + 1 = (R : Int) ∧
      (∀ b ∈ get_basis R index_type, 1 ≤ b) ∧
      R ≤ (get_basis R index_type).prod ∧
      configure T values enc_type index_type =
        { vd := ValueDecomposer.new (get_basis R index_type)
          bitmap_counts := calculate_bitmap_counts (get_basis R index_type) enc_type
          cardinality := estimate_cardinality values
          enc_type := enc_type
          use_value_mapping := false
          min_mapped_value := lo
          max_mapped_value := hi } := by
  obtain ⟨hb1, ⟨pmin, hpmin, hmin⟩, ⟨pmax, hpmax, hmax⟩⟩ :=
    configure_min_max_attained T values hne hT h63 hs1 hs8
  generalize hmm : configure_min_max T values
    (to_int64 (numeric_limits_max T), to_int64 (numeric_limits_min T)) = mm at *
  have hlo : ∀ p ∈ values, -(2 ^ 63) ≤ p.2 := fun p hp =>
    (holds_bounds T hs1 hs8 p.2 p.2 (hT p hp) (hT p hp)).1
  have hle : mm.1 ≤ mm.2 := by
    have := hb1 pmin hpmin
    omega
  have hsp : mm.2 - mm.1 < 2 ^ 63 := by
    have := hspan pmax hpmax pmin hpmin
    omega
  have hR : to_uint64 (mm.2 - mm.1 + 1) = mm.2 - mm.1 + 1 :=
    Int.emod_eq_of_lt (by omega) (by omega)
  obtain ⟨R, hRn⟩ : ∃ R : Nat, mm.2 - mm.1 + 1 = (R : Int) :=
    ⟨(mm.2 - mm.1 + 1).toNat, by omega⟩
  have hR1 : 1 ≤ R := by omega
  have hR2 : R ≤ 2 ^ 63 := by omega
  obtain ⟨_, g2, g4⟩ := get_basis_spec_wide R index_type hR1 hR2
  refine ⟨mm.1, mm.2, R, ?_, hRn, g2, g4, ?_⟩
  · intro p hp
    have h1 := hb1 p hp
    have h2 := hlo p hp
    have h3 := hspan p hp pmin hpmin
    refine ⟨h1.1, h1.2, h2, ?_⟩
    omega
  · have hR' : (to_uint64 (R : Int)).toNat = R := by
      rw [← hRn, hR, hRn, Int.toNat_ofNat]
    unfold configure
    simp only [if_pos hcard, hmm, hRn, hR']

/-- The auxiliary data that `configure` makes with value mapping, for a non-empty list of
fewer than `2 ^ 32` values: the basis is the one of the number of distinct values. -/
theorem configure_mapped (T : IntegralType) (values : List (DocumentID × Int))
    (enc_type : BitmapIndexEncodingType) (index_type : BitmapIndexType)
    (hne : values ≠ []) (hlen : values.length < 2 ^ 32)
    (hcard : ¬ estimate_cardinality values > values.length / 10) :
    (∀ b ∈ get_basis (sorted_attr_values values).length index_type, 1 ≤ b) ∧
    (sorted_attr_values values).length
      ≤ (get_basis (sorted_attr_values values).length index_type).prod ∧
    (sorted_attr_values values).length < 2 ^ 32 ∧
    configure T values enc_type index_type =
      { vd := ValueDecomposer.new (get_basis (sorted_attr_values values).length index_type)
        bitmap_counts := calculate_bitmap_counts
          (get_basis (sorted_attr_values values).length index_type) enc_type
        cardinality := (sorted_attr_values values).length
        enc_type := enc_type
        use_value_mapping := true
        min_mapped_value := 0
        max_mapped_value := ((sorted_attr_values values).length : Int) } := by
  have hC2 : (sorted_attr_values values).length ≤ values.length := by
    rw [sorted_attr_values_length]; exact dedup_length_le values
  have hC : estimate_cardinality values = (sorted_attr_values values).length := by
    unfold estimate_cardinality
    rw [← sorted_attr_values_length]
    omega
  have hC1 := sorted_attr_values_length_pos values hne
  obtain ⟨_, g2, g4⟩ := get_basis_spec_wide (sorted_attr_values values).length index_type hC1
    (by
      have : (2 : Nat) ^ 32 ≤ 2 ^ 63 := by norm_num
      omega)
  refine ⟨g2, g4, by omega, ?_⟩
  unfold configure
  rw [hC] at hcard
  simp only [hC, if_neg hcard]

/-- C15 (amended): for every integer type `T` of 1 to 8 bytes, every non-empty list of
fewer than `2 ^ 32` values of `T` that are all below `2 ^ 63` and no two of which lie
`2 ^ 63` or more apart, and both index types, the basis chosen by `build_index` (through
`configure`, whose result is the auxiliary data of every index that `build_index` returns)
has a product of at least the cardinality when value mapping is used and of at least
`max - min + 1` when it is not, and every mapped value that `insert` computes for a row
decomposes without residue. -/
theorem basis_covers_mapped_values (T : IntegralType) (values : List (DocumentID × Int))
    (enc_type : BitmapIndexEncodingType) (index_type : BitmapIndexType)
    (hne : values ≠ []) (hs1 : 1 ≤ T.size) (hs8 : T.size ≤ 8)
    (hT : ∀ p ∈ values, T.holds p.2) (h63 : ∀ p ∈ values, p.2 < 2 ^ 63)
    (hspan : ∀ p ∈ values, ∀ q ∈ values, p.2 - q.2 < 2 ^ 63)
    (hlen : values.length < 2 ^ 32) :
    ((configure T values enc_type index_type).use_value_mapping = true →
      (configure T values enc_type index_type).cardinality
        ≤ (configure T values enc_type index_type).vd.basis.prod) ∧
    ((configure T values enc_type index_type).use_value_mapping = false →
      (∀ p ∈ values, (configure T values enc_type index_type).min_mapped_value ≤ p.2 ∧
        p.2 ≤ (configure T values enc_type index_type).max_mapped_value) ∧
      (configure T values enc_type index_type).max_mapped_value
          - (configure T values enc_type index_type).min_mapped_value + 1
        ≤ ((configure T values enc_type index_type).vd.basis.prod : Int)) ∧
    (∀ rg_id path dict, ∃ mapped,
      map_values T rg_id path (configure T values enc_type index_type) dict
          (sorted_attr_values values) values = .ok mapped ∧
      mapped.map Prod.fst = values.map Prod.fst ∧
      ∀ r ∈ mapped, ((configure T values enc_type index_type).vd.decompose r.2).2 = true) ∧
    (∀ rg_id path dict aux_dict index,
      build_index T rg_id path dict aux_dict values enc_type index_type = .ok index →
      index.aux_data = configure T values enc_type index_type) := by
  have h3 : ((configure T values enc_type index_type).use_value_mapping = true →
      (configure T values enc_type index_type).cardinality
        ≤ (configure T values enc_type index_type).vd.basis.prod) ∧
    ((configure T values enc_type index_type).use_value_mapping = false →
      (∀ p ∈ values, (configure T values enc_type index_type).min_mapped_value ≤ p.2 ∧
        p.2 ≤ (configure T values enc_type index_type).max_mapped_value) ∧
      (configure T values enc_type index_type).max_mapped_value
          - (configure T values enc_type index_type).min_mapped_value + 1
        ≤ ((configure T values enc_type index_type).vd.basis.prod : Int)) ∧
    (∀ rg_id path dict, ∃ mapped,
      map_values T rg_id path (configure T values enc_type index_type) dict
          (sorted_attr_values values) values = .ok mapped ∧
      mapped.map Prod.fst = values.map Prod.fst ∧
      ∀ r ∈ mapped,
        ((configure T values enc_type index_type).vd.decompose r.2).2 = true) := by
    by_cases hcard : estimate_cardinality values > values.length / 10
    · obtain ⟨lo, hi, R, hb, hRn, g2, g4, hconf⟩ :=
        configure_unmapped T values enc_type index_type hne hs1 hs8 hT h63 hspan hcard
      rw [hconf]
      refine ⟨fun hm => by simp at hm, fun _ => ⟨fun p hp => ⟨(hb p hp).1, (hb p hp).2.1⟩, ?_⟩,
        fun rg_id path dict => ?_⟩
      · show hi - lo + 1 ≤ (((ValueDecomposer.new (get_basis R index_type)).basis.prod : Nat) : Int)
        rw [hRn]
        exact Int.ofNat_le.mpr g4
      · refine ⟨unmapped_rows lo values, ?_, ?_, ?_⟩
        · exact map_values_unmapped T rg_id path _ dict (sorted_attr_values values) values rfl
            (fun p hp => by
              have := hb p hp
              have := h63 p hp
              simp only
              omega)
        · unfold unmapped_rows
          rw [List.map_map]
          rfl
        · intro r hr
          obtain ⟨q, hq, _, e⟩ := mem_unmapped_rows lo values r hr
          show ((ValueDecomposer.new (get_basis R index_type)).decompose r.2).2 = true
          rw [decompose_flag_iff _ g2, e]
          have := hb q hq
          omega
    · obtain ⟨g2, g4, hl, hconf⟩ :=
        configure_mapped T values enc_type index_type hne hlen hcard
      rw [hconf]
      refine ⟨fun _ => g4, fun hm => by simp at hm, fun rg_id path dict => ?_⟩
      have hin : ∀ p ∈ values, p.2 ∈ sorted_attr_values values := fun p hp =>
        (mem_sorted_attr_values values p.2).mpr ⟨p.1, hp⟩
      refine ⟨_, map_values_mapped T rg_id path _ dict (sorted_attr_values values) values rfl
        hin, ?_, ?_⟩
      · rw [List.map_map]
        rfl
      · intro r hr
        obtain ⟨p, hp, rfl⟩ := List.mem_map.mp hr
        show ((ValueDecomposer.new
          (get_basis (sorted_attr_values values).length index_type)).decompose _).2 = true
        rw [decompose_flag_iff _ g2]
        obtain ⟨i, hi1, _, hi3⟩ :=
          values_mapping_find_some (sorted_attr_values values) p.2 0 (hin p hp)
        simp only [hi3, Option.getD_some]
        have : (0 + i) % 2 ^ 32 ≤ i := by
          rw [Nat.zero_add]; exact Nat.mod_le _ _
        omega
  exact ⟨h3.1, h3.2.1, h3.2.2, fun rg_id path dict aux_dict index hb =>
    (build_index_fields _ _ _ _ _ _ _ _ _ hb).2.2.2⟩

theorem basis_covers_mapped_values_witness :
    values_S1 ≠ [] ∧ 1 ≤ uint32_t.size ∧ uint32_t.size ≤ 8 ∧
    (∀ p ∈ values_S1, uint32_t.holds p.2) ∧ (∀ p ∈ values_S1, p.2 < 2 ^ 63) ∧
    (∀ p ∈ values_S1, ∀ q ∈ values_S1, p.2 - q.2 < 2 ^ 63) ∧
    values_S1.length < 2 ^ 32 ∧
    ((configure uint32_t values_S1 .RANGE .BITMAP).use_value_mapping = false →
      (∀ p ∈ values_S1, (configure uint32_t values_S1 .RANGE .BITMAP).min_mapped_value ≤ p.2 ∧
        p.2 ≤ (configure uint32_t values_S1 .RANGE .BITMAP).max_mapped_value) ∧
      (configure uint32_t values_S1 .RANGE .BITMAP).max_mapped_value
          - (configure uint32_t values_S1 .RANGE .BITMAP).min_mapped_value + 1
        ≤ ((configure uint32_t values_S1 .RANGE .BITMAP).vd.basis.prod : Int)) :=
  ⟨by decide, by decide, by decide, by decide, by decide, by decide, by decide,
   (basis_covers_mapped_values uint32_t values_S1 .RANGE .BITMAP (by decide) (by decide)
    (by decide) (by decide) (by decide) (by decide) (by decide)).2.1⟩

/-! ## The bitmap counts -/

/-- C16 (amended): for every basis of `uint32_t` bases, `calculate_bitmap_counts` returns
a vector of the same length with `counts[i] = basis[i]` for EQUALITY,
`counts[i] = (basis[i] + 1) / 2`, the half of `basis[i]` rounded up, for INTERVAL when
`basis[i]` is below `2 ^ 32 - 1`, and `counts[i] = basis[i] - 1` for RANGE when `basis[i]`
is at least 1. -/
theorem calculate_bitmap_counts_spec (basis : List Nat) (enc_type : BitmapIndexEncodingType)
    (h32 : ∀ b ∈ basis, b < 2 ^ 32) :
    (calculate_bitmap_counts basis enc_type).length = basis.length ∧
    ∀ i, i < basis.length →
      (enc_type = .EQUALITY →
        (calculate_bitmap_counts basis enc_type).getD i 0 = basis.getD i 0) ∧
      (enc_type = .INTERVAL → basis.getD i 0 < 2 ^ 32 - 1 →
        (calculate_bitmap_counts basis enc_type).getD i 0 = (basis.getD i 0 + 1) / 2 ∧
        basis.getD i 0 ≤ 2 * (calculate_bitmap_counts basis enc_type).getD i 0 ∧
        2 * (calculate_bitmap_counts basis enc_type).getD i 0 ≤ basis.getD i 0 + 1) ∧
      (enc_type = .RANGE → 1 ≤ basis.getD i 0 →
        (calculate_bitmap_counts basis enc_type).getD i 0 = basis.getD i 0 - 1) := by
  refine ⟨counts_length basis enc_type, fun i hi => ?_⟩
  have hb : basis.getD i 0 < 2 ^ 32 := by
    rw [List.getD_eq_getElem _ _ hi]
    exact h32 _ (List.getElem_mem _)
  have hg := counts_getD basis enc_type i hi
  generalize basis.getD i 0 = b at *
  refine ⟨fun he => ?_, fun he hlt => ?_, fun he hge => ?_⟩
  · rw [hg, he]
  · rw [hg, he]
    simp only
    omega
  · rw [hg, he]
    simp only
    omega

theorem calculate_bitmap_counts_spec_witness :
    (∀ b ∈ [3, 4, 7], b < 2 ^ 32) ∧
    (calculate_bitmap_counts [3, 4, 7] .INTERVAL).length = [3, 4, 7].length ∧
    ∀ i, i < [3, 4, 7].length →
      (BitmapIndexEncodingType.INTERVAL = .EQUALITY →
        (calculate_bitmap_counts [3, 4, 7] .INTERVAL).getD i 0
          = ([3, 4, 7] : List Nat).getD i 0) ∧
      (BitmapIndexEncodingType.INTERVAL = .INTERVAL →
        ([3, 4, 7] : List Nat).getD i 0 < 2 ^ 32 - 1 →
        (calculate_bitmap_counts [3, 4, 7] .INTERVAL).getD i 0
          = (([3, 4, 7] : List Nat).getD i 0 + 1) / 2 ∧
        ([3, 4, 7] : List Nat).getD i 0
          ≤ 2 * (calculate_bitmap_counts [3, 4, 7] .INTERVAL).getD i 0 ∧
        2 * (calculate_bitmap_counts [3, 4, 7] .INTERVAL).getD i 0
          ≤ ([3, 4, 7] : List Nat).getD i 0 + 1) ∧
      (BitmapIndexEncodingType.INTERVAL = .RANGE → 1 ≤ ([3, 4, 7] : List Nat).getD i 0 →
        (calculate_bitmap_counts [3, 4, 7] .INTERVAL).getD i 0
          = ([3, 4, 7] : List Nat).getD i 0 - 1) :=
  ⟨by decide, calculate_bitmap_counts_spec [3, 4, 7] .INTERVAL (by decide)⟩

/-- C16 (as stated, refuted): for the base `2 ^ 32 - 1` the sum `basis[i] + 1` wraps to 0
in `uint32_t`, so the INTERVAL count is 0 and not `(basis[i] + 1) / 2 = 2 ^ 31`. -/
theorem calculate_bitmap_counts_interval_wraps :
    calculate_bitmap_counts [4294967295] .INTERVAL = [0] ∧
    (4294967295 + 1) / 2 = 2147483648 ∧
    (calculate_bitmap_counts [4294967295] .INTERVAL).getD 0 0 ≠ (4294967295 + 1) / 2 := by
  decide

/-! ## The choice made by `configure` -/

/-- C17 (amended): for an integer value type of 1 to 8 bytes and a list of fewer than
`2 ^ 32` values of the type, each below `2 ^ 63`, `configure` (whose result `build_index`
keeps as the auxiliary data of the index) sets the cardinality to the number of distinct
values and enables value mapping exactly when the cardinality is at most
`floor(len(values) / 10)`; with mapping disabled `min_mapped_value` and `max_mapped_value`
are the minimum and the maximum of the inserted values, with mapping enabled they are 0
and the cardinality. -/
theorem configure_mapping_choice (T : IntegralType) (values : List (DocumentID × Int))
    (enc_type : BitmapIndexEncodingType) (index_type : BitmapIndexType)
    (hs1 : 1 ≤ T.size) (hs8 : T.size ≤ 8) (hT : ∀ p ∈ values, T.holds p.2)
    (h63 : ∀ p ∈ values, p.2 < 2 ^ 63) (hlen : values.length < 2 ^ 32) :
    (configure T values enc_type index_type).cardinality
      = (values.map Prod.snd).dedup.length ∧
    ((configure T values enc_type index_type).use_value_mapping = true ↔
      (configure T values enc_type index_type).cardinality ≤ values.length / 10) ∧
    ((configure T values enc_type index_type).use_value_mapping = false →
      (∀ p ∈ values, (configure T values enc_type index_type).min_mapped_value ≤ p.2 ∧
        p.2 ≤ (configure T values enc_type index_type).max_mapped_value) ∧
      (∃ p ∈ values, p.2 = (configure T values enc_type index_type).min_mapped_value) ∧
      (∃ p ∈ values, p.2 = (configure T values enc_type index_type).max_mapped_value)) ∧
    ((configure T values enc_type index_type).use_value_mapping = true →
      (configure T values enc_type index_type).min_mapped_value = 0 ∧
      (configure T values enc_type index_type).max_mapped_value
        = ((configure T values enc_type index_type).cardinality : Int)) ∧
    (∀ rg_id path dict aux_dict index,
      build_index T rg_id path dict aux_dict values enc_type index_type = .ok index →
      index.aux_data = configure T values enc_type index_type) := by
  refine ⟨?_, ?_, ?_, ?_, fun rg_id path dict aux_dict index hb =>
    (build_index_fields _ _ _ _ _ _ _ _ _ hb).2.2.2⟩
  all_goals
    have hC : estimate_cardinality values = (values.map Prod.snd).dedup.length := by
      unfold estimate_cardinality
      have := dedup_length_le values
      omega
    by_cases hcard : estimate_cardinality values > values.length / 10
  · unfold configure; simp only [if_pos hcard]; exact hC
  · unfold configure; simp only [if_neg hcard]; exact hC
  · unfold configure
    simp only [if_pos hcard, Bool.false_eq_true, false_iff]
    omega
  · unfold configure
    simp only [if_neg hcard, true_iff]
    omega
  · have hne : values ≠ [] := by
      intro e
      rw [e] at hcard
      simp [estimate_cardinality] at hcard
    have hatt := configure_min_max_attained T values hne hT h63 hs1 hs8
    unfold configure
    simp only [if_pos hcard]
    exact fun _ => hatt
  · unfold configure
    simp only [if_neg hcard]
    intro hm; simp at hm
  · unfold configure
    simp only [if_pos hcard]
    intro hm; simp at hm
  · unfold configure
    simp only [if_neg hcard]
    intro _; simp

theorem configure_mapping_choice_witness :
    (1 ≤ uint32_t.size ∧ uint32_t.size ≤ 8) ∧ (∀ p ∈ values_S1, uint32_t.holds p.2) ∧
    (∀ p ∈ values_S1, p.2 < 2 ^ 63) ∧ values_S1.length < 2 ^ 32 ∧
    (configure uint32_t values_S1 .RANGE .BITMAP).cardinality
      = (values_S1.map Prod.snd).dedup.length ∧
    ((configure uint32_t values_S1 .RANGE .BITMAP).use_value_mapping = true ↔
      (configure uint32_t values_S1 .RANGE .BITMAP).cardinality ≤ values_S1.length / 10) ∧
    ((configure uint32_t values_S1 .RANGE .BITMAP).use_value_mapping = false →
      (∀ p ∈ values_S1, (configure uint32_t values_S1 .RANGE .BITMAP).min_mapped_value ≤ p.2 ∧
        p.2 ≤ (configure uint32_t values_S1 .RANGE .BITMAP).max_mapped_value) ∧
      (∃ p ∈ values_S1,
        p.2 = (configure uint32_t values_S1 .RANGE .BITMAP).min_mapped_value) ∧
      (∃ p ∈ values_S1,
        p.2 = (configure uint32_t values_S1 .RANGE .BITMAP).max_mapped_value)) ∧
    ((configure uint32_t values_S1 .RANGE .BITMAP).use_value_mapping = true →
      (configure uint32_t values_S1 .RANGE .BITMAP).min_mapped_value = 0 ∧
      (configure uint32_t values_S1 .RANGE .BITMAP).max_mapped_value
        = ((configure uint32_t values_S1 .RANGE .BITMAP).cardinality : Int)) ∧
    (∀ rg_id path dict aux_dict index,
      build_index uint32_t rg_id path dict aux_dict values_S1 .RANGE .BITMAP = .ok index →
      index.aux_data = configure uint32_t values_S1 .RANGE .BITMAP) :=
  ⟨by decide, by decide, by decide, by decide,
   configure_mapping_choice uint32_t values_S1 .RANGE .BITMAP (by decide) (by decide)
    (by decide) (by decide) (by decide)⟩

/-! ## The value mapping is the rank among the sorted distinct values -/

/-- In a strictly increasing list the number of elements below the one at position `i` is
`i`. -/
theorem filter_lt_length_of_sorted (l : List Int) (h : l.Sorted (fun a b => a < b)) (i : Nat)
    (hi : i < l.length) :
    (l.filter (fun w => decide (w < l.getD i 0))).length = i := by
  induction l generalizing i with
  | nil => simp at hi
  | cons a rest ih =>
    rw [List.sorted_cons] at h
    cases i with
    | zero =>
      simp only [List.getD_cons_zero]
      rw [List.filter_eq_nil_iff.mpr]
      · rfl
      · intro w hw
        simp only [decide_eq_true_eq, not_lt]
        rcases List.mem_cons.mp hw with e | e
        · rw [e]
        · exact le_of_lt (h.1 w e)
    | succ j =>
      have hj : j < rest.length := by simpa using hi
      simp only [List.getD_cons_succ]
      have hmem : rest.getD j 0 ∈ rest := by
        rw [List.getD_eq_getElem _ _ hj]
        exact List.getElem_mem _
      have ha : a < rest.getD j 0 := h.1 _ hmem
      rw [List.filter_cons_of_pos (by simpa using ha), List.length_cons, ih h.2 j hj]

/-- Positions in a strictly increasing list compare as the elements at them. -/
theorem getD_lt_iff_of_sorted (l : List Int) (h : l.Sorted (fun a b => a < b)) (i j : Nat)
    (hi : i < l.length) (hj : j < l.length) :
    l.getD i 0 < l.getD j 0 ↔ i < j := by
  rw [List.getD_eq_getElem _ _ hi, List.getD_eq_getElem _ _ hj]
  have hmono : StrictMono l.get := List.Sorted.get_strictMono h
  have := hmono.lt_iff_lt (a := (⟨i, hi⟩ : Fin l.length)) (b := ⟨j, hj⟩)
  simpa using this

/-- The in-memory mapping sends a value of the list to its position among the sorted
distinct values. -/
theorem values_mapping_find_position (values : List (DocumentID × Int))
    (hlen : values.length < 2 ^ 32) (v : Int) (hv : v ∈ sorted_attr_values values) :
    ∃ i, i < (sorted_attr_values values).length ∧
      (sorted_attr_values values).getD i 0 = v ∧
      values_mapping_find (sorted_attr_values values) v 0 = some i := by
  obtain ⟨i, hi1, hi2, hi3⟩ := values_mapping_find_some (sorted_attr_values values) v 0 hv
  have hle : (sorted_attr_values values).length ≤ values.length := by
    rw [sorted_attr_values_length]; exact dedup_length_le values
  refine ⟨i, hi1, hi2, ?_⟩
  rw [hi3]
  congr 1
  omega

/-- The pairs inserted into LMDB carry the indices that the in-memory mapping holds. -/
theorem lmdb_values_mapping_eq (rg_id : Nat) (path : List Nat) (attr : List Int) (k : Nat)
    (hnd : attr.Nodup) :
    lmdb_values_mapping rg_id path attr k
      = attr.map (fun v =>
          (({ rg_id := rg_id, column_dotted_path := path, value := v } : AttributeValue),
            (values_mapping_find attr v k).getD 0)) := by
  induction attr generalizing k with
  | nil => rfl
  | cons a rest ih =>
    rw [List.nodup_cons] at hnd
    rw [lmdb_values_mapping, List.map_cons, ih (k + 1) hnd.2]
    congr 1
    · simp [values_mapping_find]
    · apply List.map_congr_left
      intro w hw
      have hne : a ≠ w := fun e => hnd.1 (e ▸ hw)
      simp [values_mapping_find, hne]

/-- C18: when value mapping is used, the ordinal that `insert_values_mapping_into_lmdb`
assigns to an inserted value, in the in-memory mapping (from which `insert` takes the mapped
value of every row) and in the pairs it inserts into the attribute dictionary alike, is its
rank among the distinct inserted values in increasing order: the number of distinct inserted
values below it.  The ordinals are exactly `0 .. cardinality - 1`, and inserted values
compare as their ordinals do (so different values get different ordinals).  The list has
fewer than `2 ^ 32` rows. -/
theorem value_mapping_is_rank (rg_id : Nat) (path : List Nat)
    (values : List (DocumentID × Int)) (hlen : values.length < 2 ^ 32) :
    ∃ ordinal : Int → Nat,
      (∀ p ∈ values,
        values_mapping_find (sorted_attr_values values) p.2 0 = some (ordinal p.2)) ∧
      lmdb_values_mapping rg_id path (sorted_attr_values values) 0
        = (sorted_attr_values values).map (fun v =>
            (({ rg_id := rg_id, column_dotted_path := path, value := v } : AttributeValue),
              ordinal v)) ∧
      (∀ (T : IntegralType) (aux_data : BitmapIndexAuxData) (dict : LMDBDictionary),
        aux_data.use_value_mapping = true →
        map_values T rg_id path aux_data dict (sorted_attr_values values) values
          = .ok (values.map (fun p => (p.1, ordinal p.2)))) ∧
      (∀ p ∈ values, ordinal p.2
        = ((values.map Prod.snd).dedup.filter (fun w => decide (w < p.2))).length) ∧
      (∀ p ∈ values, ordinal p.2 < estimate_cardinality values) ∧
      (∀ n, n < estimate_cardinality values → ∃ p ∈ values, ordinal p.2 = n) ∧
      (∀ p ∈ values, ∀ q ∈ values, (p.2 < q.2 ↔ ordinal p.2 < ordinal q.2)) ∧
      (∀ p ∈ values, ∀ q ∈ values, ordinal p.2 = ordinal q.2 → p.2 = q.2) := by
  have hsorted := sorted_attr_values_sorted values
  have hc : estimate_cardinality values = (sorted_attr_values values).length := by
    unfold estimate_cardinality
    rw [sorted_attr_values_length]
    have := dedup_length_le values
    omega
  have hpos : ∀ p ∈ values, ∃ i, i < (sorted_attr_values values).length ∧
      (sorted_attr_values values).getD i 0 = p.2 ∧
      values_mapping_find (sorted_attr_values values) p.2 0 = some i :=
    fun p hp => values_mapping_find_position values hlen p.2
      ((mem_sorted_attr_values values p.2).mpr ⟨p.1, hp⟩)
  have hord : ∀ p ∈ values,
      ((values_mapping_find (sorted_attr_values values) p.2 0).getD 0)
          < (sorted_attr_values values).length ∧
      (sorted_attr_values values).getD
          ((values_mapping_find (sorted_attr_values values) p.2 0).getD 0) 0 = p.2 ∧
      values_mapping_find (sorted_attr_values values) p.2 0
        = some ((values_mapping_find (sorted_attr_values values) p.2 0).getD 0) := by
    intro p hp
    obtain ⟨i, hi1, hi2, hi3⟩ := hpos p hp
    rw [hi3]
    exact ⟨hi1, hi2, rfl⟩
  refine ⟨fun v => (values_mapping_find (sorted_attr_values values) v 0).getD 0,
    ?_, ?_, ?_, ?_, ?_, ?_, ?_, ?_⟩
  · intro p hp
    exact (hord p hp).2.2
  · exact lmdb_values_mapping_eq rg_id path _ 0 (sorted_attr_values_nodup values)
  · intro T aux_data dict hu
    exact map_values_mapped T rg_id path aux_data dict (sorted_attr_values values) values hu
      (fun p hp => (mem_sorted_attr_values values p.2).mpr ⟨p.1, hp⟩)
  · intro p hp
    obtain ⟨h1, h2, _⟩ := hord p hp
    have hf := filter_lt_length_of_sorted _ hsorted _ h1
    rw [h2] at hf
    simp only
    rw [← hf]
    apply List.Perm.length_eq
    apply List.Perm.filter
    rw [List.perm_ext_iff_of_nodup (sorted_attr_values_nodup values) (List.nodup_dedup _)]
    intro a
    rw [mem_sorted_attr_values, List.mem_dedup]
    simp
  · intro p hp
    rw [hc]
    exact (hord p hp).1
  · intro n hn
    rw [hc] at hn
    have hmem : (sorted_attr_values values).getD n 0 ∈ sorted_attr_values values := by
      rw [List.getD_eq_getElem _ _ hn]
      exact List.getElem_mem _
    obtain ⟨d, hd⟩ := (mem_sorted_attr_values values _).mp hmem
    refine ⟨(d, (sorted_attr_values values).getD n 0), hd, ?_⟩
    obtain ⟨h1, h2, _⟩ := hord _ hd
    simp only at h1 h2 ⊢
    by_contra hne
    rcases Nat.lt_or_gt_of_ne hne with hlt | hgt
    · have := (getD_lt_iff_of_sorted _ hsorted _ _ h1 hn).mpr hlt
      omega
    · have := (getD_lt_iff_of_sorted _ hsorted _ _ hn h1).mpr hgt
      omega
  · intro p hp q hq
    obtain ⟨p1, p2, _⟩ := hord p hp
    obtain ⟨q1, q2, _⟩ := hord q hq
    have := getD_lt_iff_of_sorted _ hsorted _ _ p1 q1
    rw [p2, q2] at this
    exact this
  · intro p hp q hq he
    obtain ⟨_, p2, _⟩ := hord p hp
    obtain ⟨_, q2, _⟩ := hord q hq
    simp only at he
    rw [he] at p2
    rw [← p2, q2]

theorem value_mapping_is_rank_witness :
    values_two_values.length < 2 ^ 32 ∧
    ∃ ordinal : Int → Nat,
      (∀ p ∈ values_two_values,
        values_mapping_find (sorted_attr_values values_two_values) p.2 0
          = some (ordinal p.2)) ∧
      lmdb_values_mapping test_rg_id test_column_path (sorted_attr_values values_two_values) 0
        = (sorted_attr_values values_two_values).map (fun v =>
            (({ rg_id := test_rg_id, column_dotted_path := test_column_path, value := v }
                : AttributeValue),
              ordinal v)) ∧
      (∀ (T : IntegralType) (aux_data : BitmapIndexAuxData) (dict : LMDBDictionary),
        aux_data.use_value_mapping = true →
        map_values T test_rg_id test_column_path aux_data dict
            (sorted_attr_values values_two_values) values_two_values
          = .ok (values_two_values.map (fun p => (p.1, ordinal p.2)))) ∧
      (∀ p ∈ values_two_values, ordinal p.2
        = ((values_two_values.map Prod.snd).dedup.filter
            (fun w => decide (w < p.2))).length) ∧
      (∀ p ∈ values_two_values, ordinal p.2 < estimate_cardinality values_two_values) ∧
      (∀ n, n < estimate_cardinality values_two_values →
        ∃ p ∈ values_two_values, ordinal p.2 = n) ∧
      (∀ p ∈ values_two_values, ∀ q ∈ values_two_values,
        (p.2 < q.2 ↔ ordinal p.2 < ordinal q.2)) ∧
      (∀ p ∈ values_two_values, ∀ q ∈ values_two_values,
        ordinal p.2 = ordinal q.2 → p.2 = q.2) :=
  ⟨by decide,
   value_mapping_is_rank test_rg_id test_column_path values_two_values (by decide)⟩

/-! ## The byte order of the attribute keys -/

/-- C20 (what the code does): the key of 256 is serialized to bytes that come before those
of the key of 2 of the same row group and column, and the dictionary of the index built
from the values 7 and 256 lists the key of 256 (ordinal 1) before the key of 7
(ordinal 0). -/
theorem attribute_value_byte_order :
    bytes_lt
      (AttributeValue.to_byte_array uint32_t
        { rg_id := test_rg_id, column_dotted_path := test_column_path, value := 256 })
      (AttributeValue.to_byte_array uint32_t
        { rg_id := test_rg_id, column_dotted_path := test_column_path, value := 2 }) = true ∧
    (2 : Int) < 256 ∧
    (built_index (create_index uint32_t values_two_values .RANGE .BITMAP)).attr_values_lmdb.map
      (fun e => (e.1.value, e.2)) = [(256, 1), (7, 0)] := by
  decide

/-! ## The byte order of the keys of the bitmap offsets -/

theorem bytes_lt_append_left (p x y : List Nat) :
    bytes_lt (p ++ x) (p ++ y) = bytes_lt x y := by
  induction p with
  | nil => rfl
  | cons a rest ih => simp [bytes_lt, ih]

/-- Two keys of one row group and column compare as the two bytes of their numbers. -/
theorem bitmap_key_bytes_lt (rg_id : Nat) (path : List Nat) (a b : Nat) :
    bytes_lt (BitmapLMDBID.new rg_id path a).to_byte_array
        (BitmapLMDBID.new rg_id path b).to_byte_array
      = bytes_lt [a % 2 ^ 16 % 256, a % 2 ^ 16 / 256 % 256]
          [b % 2 ^ 16 % 256, b % 2 ^ 16 / 256 % 256] := by
  unfold BitmapLMDBID.to_byte_array BitmapLMDBID.new
  simp only [List.append_assoc, bytes_lt_append_left]
  rfl

/-- Below 256 the keys are ordered as their numbers. -/
theorem bitmap_key_lt_of_lt (rg_id : Nat) (path : List Nat) (a b : Nat) (hab : a < b)
    (hb : b < 256) :
    bytes_lt (BitmapLMDBID.new rg_id path a).to_byte_array
        (BitmapLMDBID.new rg_id path b).to_byte_array = true ∧
    bytes_lt (BitmapLMDBID.new rg_id path b).to_byte_array
        (BitmapLMDBID.new rg_id path a).to_byte_array = false := by
  rw [bitmap_key_bytes_lt, bitmap_key_bytes_lt]
  have ha1 : a % 2 ^ 16 % 256 = a := by omega
  have hb1 : b % 2 ^ 16 % 256 = b := by omega
  have ha2 : a % 2 ^ 16 / 256 % 256 = 0 := by omega
  have hb2 : b % 2 ^ 16 / 256 % 256 = 0 := by omega
  rw [ha1, hb1, ha2, hb2]
  constructor
  · simp [bytes_lt, hab]
  · simp only [bytes_lt, if_neg (show ¬ b < a by omega), if_pos hab]

/-- A key that comes after every key of the dictionary is put at its end. -/
theorem offsets_mdb_put_append (dict : BitmapOffsetsDictionary) (key : BitmapLMDBID)
    (value : OffsetRange)
    (h : ∀ e ∈ dict, bytes_lt e.1.to_byte_array key.to_byte_array = true ∧
      bytes_lt key.to_byte_array e.1.to_byte_array = false) :
    offsets_mdb_put dict key value = some (dict ++ [(key, value)]) := by
  induction dict with
  | nil => rfl
  | cons e rest ih =>
    obtain ⟨h1, h2⟩ := h e (List.mem_cons_self _ _)
    simp only [offsets_mdb_put, h1, h2, Bool.false_eq_true, if_false, if_true,
      ih (fun x hx => h x (List.mem_cons_of_mem _ hx)), Option.map_some', List.cons_append]

/-- After `save` of 257 bitmaps the dictionary starts with the key number 0 followed by the
key number 256. -/
theorem saved_offsets_head (rg_id : Nat) (path : List Nat) (offset : Nat) (sizes : List Nat)
    (i buffer_offset : Nat) (dict : BitmapOffsetsDictionary) (hi : i ≤ 256)
    (hlen : i + sizes.length = 257)
    (hdict : dict.map Prod.fst = (List.range i).map (BitmapLMDBID.new rg_id path)) :
    ∃ e0 e1 rest,
      BitmapOffsetsDictionary.insert dict
          (save_lmdb_entries rg_id path offset sizes i buffer_offset)
        = .ok (e0 :: e1 :: rest) ∧
      e0.1 = BitmapLMDBID.new rg_id path 0 ∧ e1.1 = BitmapLMDBID.new rg_id path 256 := by
  induction sizes generalizing i buffer_offset dict with
  | nil => simp at hlen; omega
  | cons size sizes ih =>
    simp only [save_lmdb_entries, BitmapOffsetsDictionary.insert]
    by_cases h256 : i < 256
    · have hall : ∀ e ∈ dict,
          bytes_lt e.1.to_byte_array (BitmapLMDBID.new rg_id path i).to_byte_array = true ∧
          bytes_lt (BitmapLMDBID.new rg_id path i).to_byte_array e.1.to_byte_array
            = false := by
        intro e he
        have h1 : e.1 ∈ dict.map Prod.fst := List.mem_map.mpr ⟨e, he, rfl⟩
        rw [hdict] at h1
        obtain ⟨j, hj, hje⟩ := List.mem_map.mp h1
        rw [← hje]
        exact bitmap_key_lt_of_lt rg_id path j i (List.mem_range.mp hj) h256
      rw [offsets_mdb_put_append dict _ _ hall]
      simp only
      apply ih (i + 1) _ _ (by omega) (by simp at hlen ⊢; omega)
      rw [List.map_append, hdict, List.range_succ, List.map_append]
      rfl
    · have hi256 : i = 256 := by omega
      subst hi256
      have hnil : sizes = [] := by
        apply List.eq_nil_of_length_eq_zero
        simp at hlen
        omega
      subst hnil
      obtain ⟨tl0, hr⟩ : ∃ tl0, List.range 256 = 0 :: 1 :: tl0 :=
        ⟨_, by rw [show 256 = 254 + 1 + 1 from rfl, List.range_succ_eq_map,
          List.range_succ_eq_map]; rfl⟩
      rw [hr] at hdict
      rcases dict with _ | ⟨e0, _ | ⟨e1, tl⟩⟩
      · simp at hdict
      · simp at hdict
      · simp only [List.map_cons, List.cons.injEq] at hdict
        obtain ⟨h0, h1, _⟩ := hdict
        have c1 : bytes_lt (BitmapLMDBID.new rg_id path 256).to_byte_array e0.1.to_byte_array
            = false := by
          rw [h0, bitmap_key_bytes_lt]; decide
        have c2 : bytes_lt e0.1.to_byte_array (BitmapLMDBID.new rg_id path 256).to_byte_array
            = true := by
          rw [h0, bitmap_key_bytes_lt]; decide
        have c3 : bytes_lt (BitmapLMDBID.new rg_id path 256).to_byte_array e1.1.to_byte_array
            = true := by
          rw [h1, bitmap_key_bytes_lt]; decide
        refine ⟨e0,
          (BitmapLMDBID.new rg_id path 256,
            { start_offset := (offset + buffer_offset) % 2 ^ 32,
              end_offset := (offset + buffer_offset + size) % 2 ^ 32 }),
          e1 :: tl, ?_, h0, rfl⟩
        simp only [offsets_mdb_put, c1, c2, c3, Bool.false_eq_true, if_false, if_true,
          Option.map_some', BitmapOffsetsDictionary.insert]

/-- The method `load_offsets` throws when the entry after the key number 0 is not the key
number 1 and the first component has a bitmap. -/
theorem load_offsets_throws (rg_id : Nat) (path : List Nat) (e0 e1 : BitmapLMDBID × OffsetRange)
    (rest : BitmapOffsetsDictionary) (count : Nat) (counts : List Nat)
    (h0 : e0.1 = BitmapLMDBID.new rg_id path 0)
    (h1 : e1.1 ≠ BitmapLMDBID.new rg_id path 1) :
    load_offsets (e0 :: e1 :: rest) rg_id path ((count + 1) :: counts)
      = .error .runtime_error := by
  have hfind : BitmapOffsetsDictionary.find (e0 :: e1 :: rest) (BitmapLMDBID.new rg_id path 0)
      = { cursor := some 0, value := (BitmapLMDBID.new rg_id path 0, e0.2) } := by
    simp [BitmapOffsetsDictionary.find, offsets_mdb_set, h0]
  unfold load_offsets
  simp only [hfind, ne_eq, not_true_eq_false, if_false, offsets_iterator.increment]
  simp [load_offsets_components, load_offsets_component, h1]

/-- C19 (what the code does): the key number 256 is serialized to bytes that come before
those of the key number 1 of the same row group and column; after `save` of the 257
bitmaps of a storage with the bitmap counts `[128, 128]` the cursor meets the key number
256 right after the key number 0, and `load_offsets` throws. -/
theorem bitmap_key_byte_order :
    bytes_lt (BitmapLMDBID.new test_rg_id test_column_path 256).to_byte_array
      (BitmapLMDBID.new test_rg_id test_column_path 1).to_byte_array = true ∧
    (∃ e0 e1 rest, saved_offsets_257 = .ok (e0 :: e1 :: rest) ∧
      e0.1.bitmap_number = 0 ∧ e1.1.bitmap_number = 256) ∧
    run_load_offsets saved_offsets_257 [128, 128] = .error .runtime_error := by
  obtain ⟨e0, e1, rest, hs, h0, h1⟩ :=
    saved_offsets_head test_rg_id test_column_path 0 (List.replicate 257 8) 0 0 []
      (by norm_num) (by rw [List.length_replicate]) rfl
  have hsaved : saved_offsets_257 = .ok (e0 :: e1 :: rest) := hs
  refine ⟨by rw [bitmap_key_bytes_lt]; decide, ⟨e0, e1, rest, hsaved, ?_, ?_⟩, ?_⟩
  · rw [h0]; rfl
  · rw [h1]; rfl
  · rw [hsaved]
    exact load_offsets_throws test_rg_id test_column_path e0 e1 rest 127 [128] h0
      (by rw [h1]; decide)

/-! ## The queries on the components of an index -/

theorem exact_of_call (r : Except IndexError BitMap) :
    (match r.map some with
      | .error e => (.error e : Except IndexError IndexResult)
      | .ok (some values) => .ok { accuracy := .IA_EXACT, values := some values }
      | .ok none => .ok { accuracy := .IA_NONE, values := none })
      = r.map (fun bmp => { accuracy := .IA_EXACT, values := some bmp }) := by
  cases r <;> rfl

/-- C28: `find_candidate_documents` returns accuracy EXACT with the bitmap of the routed
call for a BINARY_CONST predicate with `=` (lookup), `!=` (not_equals), `>` (greater,
OPEN), `>=` (greater, INCLUDE_LEFT), `<` (lesser, OPEN), `<=` (lesser, INCLUDE_RIGHT) and
for UNARY IS_NOT_NULL (get_not_null); for every other predicate it returns accuracy NONE
with no bitmap; it never returns COARSE. -/
theorem find_candidate_documents_routing (index : BitmapIndex) (predicate : Predicate) :
    find_candidate_documents index predicate =
      (match routed_call predicate with
        | some call =>
          (call index).map (fun bmp => { accuracy := .IA_EXACT, values := some bmp })
        | none => .ok { accuracy := .IA_NONE, values := none }) ∧
    (∀ r, find_candidate_documents index predicate = .ok r → r.accuracy ≠ .IA_COARSE) := by
  have key : find_candidate_documents index predicate =
      (match routed_call predicate with
        | some call =>
          (call index).map (fun bmp => { accuracy := .IA_EXACT, values := some bmp })
        | none => .ok { accuracy := .IA_NONE, values := none }) := by
    obtain ⟨kind, op, value⟩ := predicate
    cases kind <;> cases op <;>
      first
        | rfl
        | exact exact_of_call _
  refine ⟨key, fun r hr => ?_⟩
  unfold find_candidate_documents at hr
  generalize query_index index predicate = q at hr
  rcases q with e | (_ | values)
  · simp at hr
  · simp only [Except.ok.injEq] at hr
    rw [← hr]; simp
  · simp only [Except.ok.injEq] at hr
    rw [← hr]; simp

/-! ## The total byte size of a storage -/

theorem foldl_add_mod {α : Type} (f : α → Nat) (M : Nat) (l : List α) (init : Nat) :
    l.foldl (fun total x => (total + f x) % M) init % M = (init + (l.map f).sum) % M := by
  induction l generalizing init with
  | nil => simp
  | cons x rest ih =>
    simp only [List.foldl_cons, List.map_cons, List.sum_cons]
    rw [ih, Nat.mod_add_mod, Nat.add_assoc]

/-- The sum kept in the `uint32_t` is the sum of the sizes modulo `2 ^ 32`. -/
theorem foldl_sizes_eq (fmt : RoaringFormat) (l : List BitMap) :
    l.foldl (fun total bmp => (total + get_save_byte_size fmt bmp) % 2 ^ 32) 0
      = (l.map (get_save_byte_size fmt)).sum % 2 ^ 32 := by
  have h := foldl_add_mod (get_save_byte_size fmt) (2 ^ 32) l 0
  rw [Nat.zero_add] at h
  rw [← h]
  symm
  apply Nat.mod_eq_of_lt
  cases l using List.reverseRecOn with
  | nil => simp
  | append_singleton rest x =>
    rw [List.foldl_append]
    simp only [List.foldl_cons, List.foldl_nil]
    exact Nat.mod_lt _ (by norm_num)

/-- Below the last block of the `uint32_t` range, rounding gives the least multiple of 4096
that is not below the count. -/
theorem round_to_disk_block_size_spec (byte_count : Nat) (h : byte_count ≤ 2 ^ 32 - 4096) :
    4096 ∣ round_to_disk_block_size byte_count ∧
    byte_count ≤ round_to_disk_block_size byte_count ∧
    round_to_disk_block_size byte_count < byte_count + 4096 ∧
    ∀ m, 4096 ∣ m → byte_count ≤ m → round_to_disk_block_size byte_count ≤ m := by
  unfold round_to_disk_block_size
  simp only
  have hdm := Nat.div_add_mod byte_count 4096
  have hml := Nat.mod_lt byte_count (show 0 < 4096 by norm_num)
  by_cases hz : byte_count % 4096 = 0
  · rw [if_neg (by simpa using hz)]
    have e : byte_count / 4096 * 4096 % 2 ^ 32 = byte_count := by omega
    rw [e]
    exact ⟨Nat.dvd_of_mod_eq_zero hz, le_refl _, by omega, fun m _ hm => hm⟩
  · rw [if_pos hz]
    have e1 : (byte_count / 4096 + 1) % 2 ^ 32 = byte_count / 4096 + 1 := by omega
    have e2 : (byte_count / 4096 + 1) * 4096 % 2 ^ 32 = (byte_count / 4096 + 1) * 4096 := by
      omega
    rw [e1, e2]
    refine ⟨Dvd.intro_left _ rfl, by omega, by omega, fun m hd hm => ?_⟩
    obtain ⟨k, rfl⟩ := hd
    have : byte_count / 4096 < k := by omega
    have : byte_count / 4096 + 1 ≤ k := this
    calc (byte_count / 4096 + 1) * 4096 ≤ k * 4096 := Nat.mul_le_mul_right _ this
      _ = 4096 * k := Nat.mul_comm _ _

/-- C23 (amended): when the sum of `save_byte_size` over the all-values bitmap and every
component bitmap is at most `2 ^ 32 - 4096`, `get_total_byte_size()` returns the least
multiple of 4096 that is greater than or equal to the sum: the result is divisible by
4096, is at least the sum and exceeds it by less than 4096. -/
theorem get_total_byte_size_spec (fmt : RoaringFormat) (st : BitMapStorage)
    (h : ((collected_bitmaps st).map (get_save_byte_size fmt)).sum ≤ 2 ^ 32 - 4096) :
    4096 ∣ get_total_byte_size fmt st ∧
    ((collected_bitmaps st).map (get_save_byte_size fmt)).sum ≤ get_total_byte_size fmt st ∧
    get_total_byte_size fmt st
      < ((collected_bitmaps st).map (get_save_byte_size fmt)).sum + 4096 ∧
    ∀ m, 4096 ∣ m → ((collected_bitmaps st).map (get_save_byte_size fmt)).sum ≤ m →
      get_total_byte_size fmt st ≤ m := by
  unfold get_total_byte_size
  rw [foldl_sizes_eq, Nat.mod_eq_of_lt (by omega)]
  exact round_to_disk_block_size_spec _ h

theorem get_total_byte_size_spec_witness :
    ((collected_bitmaps (BitMapStorage.create [2, 2, 2])).map
      (get_save_byte_size (constant_size_format 600))).sum ≤ 2 ^ 32 - 4096 ∧
    4096 ∣ get_total_byte_size (constant_size_format 600) (BitMapStorage.create [2, 2, 2]) ∧
    ((collected_bitmaps (BitMapStorage.create [2, 2, 2])).map
      (get_save_byte_size (constant_size_format 600))).sum
      ≤ get_total_byte_size (constant_size_format 600) (BitMapStorage.create [2, 2, 2]) ∧
    get_total_byte_size (constant_size_format 600) (BitMapStorage.create [2, 2, 2])
      < ((collected_bitmaps (BitMapStorage.create [2, 2, 2])).map
          (get_save_byte_size (constant_size_format 600))).sum + 4096 ∧
    ∀ m, 4096 ∣ m →
      ((collected_bitmaps (BitMapStorage.create [2, 2, 2])).map
        (get_save_byte_size (constant_size_format 600))).sum ≤ m →
      get_total_byte_size (constant_size_format 600) (BitMapStorage.create [2, 2, 2]) ≤ m :=
  ⟨by decide,
   get_total_byte_size_spec (constant_size_format 600) (BitMapStorage.create [2, 2, 2])
    (by decide)⟩

/-- C23 (as stated, refuted): nine bitmaps of 477218588 bytes each have sizes whose sum,
4294967292, does not overflow 32 bits, but rounding it up to a block does, and
`get_total_byte_size()` returns 0. -/
theorem get_total_byte_size_wraps :
    ((collected_bitmaps (BitMapStorage.create [8])).map
      (get_save_byte_size (constant_size_format 477218588))).sum = 4294967292 ∧
    4294967292 < 2 ^ 32 ∧
    round_to_disk_block_size 4294967292 = 0 ∧
    get_total_byte_size (constant_size_format 477218588) (BitMapStorage.create [8]) = 0 := by
  decide

/-! ## The auxiliary data as an LMDB value -/

theorem le_bytes_length (count n : Nat) : (le_bytes count n).length = count := by
  induction count generalizing n with
  | zero => rfl
  | succ k ih => simp [le_bytes, ih]

theorem of_le_bytes_le_bytes (count n : Nat) (h : n < 256 ^ count) :
    of_le_bytes (le_bytes count n) = n := by
  induction count generalizing n with
  | zero => simp at h; subst h; rfl
  | succ k ih =>
    have h1 : n / 256 < 256 ^ k := by
      rw [Nat.div_lt_iff_lt_mul (by norm_num)]
      rw [pow_succ] at h
      exact h
    simp only [le_bytes, of_le_bytes, ih _ h1]
    omega

theorem uint32_bytes_length (xs : List Nat) : (uint32_bytes xs).length = 4 * xs.length := by
  induction xs with
  | nil => rfl
  | cons x rest ih => simp [uint32_bytes, le_bytes_length, ih]; omega

theorem memcpy_to_append (pre rest source : List Nat) (offset : Nat)
    (h : pre.length = offset) :
    memcpy_to (pre ++ rest) offset source = (pre ++ source) ++ rest.drop source.length := by
  subst h
  unfold memcpy_to
  rw [List.take_left, List.drop_append]

theorem memcpy_to_head (old mid source : List Nat) (h : old.length = source.length) :
    memcpy_to (old ++ mid) 0 source = source ++ mid := by
  unfold memcpy_to
  rw [List.take_zero, Nat.zero_add, ← h, List.drop_left]
  rfl

theorem write_uint32_loop_append (xs pre rest : List Nat) (offset : Nat)
    (h : pre.length = offset) (hsmall : offset + 4 * xs.length < 2 ^ 32) :
    write_uint32_loop (pre ++ rest) offset xs
      = ((pre ++ uint32_bytes xs) ++ rest.drop (4 * xs.length), offset + 4 * xs.length) := by
  induction xs generalizing pre rest offset with
  | nil => simp [write_uint32_loop, uint32_bytes]
  | cons x tl ih =>
    simp only [List.length_cons] at hsmall
    have hmod : (offset + 4) % 2 ^ 32 = offset + 4 := Nat.mod_eq_of_lt (by omega)
    rw [write_uint32_loop, memcpy_to_append pre rest _ offset h, hmod,
      ih (pre ++ le_bytes 4 x) _ (offset + 4) (by simp [le_bytes_length, h]) (by omega)]
    simp only [uint32_bytes, le_bytes_length, List.drop_drop, List.length_cons,
      List.append_assoc, Prod.mk.injEq]
    constructor
    · congr 3
      congr 1
      omega
    · omega

theorem read_le_of_drop (buffer head rest : List Nat) (offset count : Nat)
    (h : buffer.drop offset = head ++ rest) (hlen : head.length = count) (hpos : 0 < count) :
    read_le buffer offset count = some (of_le_bytes head) := by
  have hl : (buffer.drop offset).length = count + rest.length := by
    rw [h, List.length_append, hlen]
  rw [List.length_drop] at hl
  unfold read_le
  rw [if_pos (by omega), h, ← hlen, List.take_left]

theorem read_uint32_loop_of_drop (xs buffer rest : List Nat) (offset : Nat)
    (h : buffer.drop offset = uint32_bytes xs ++ rest) (hx : ∀ x ∈ xs, x < 2 ^ 32)
    (hsmall : offset + 4 * xs.length < 2 ^ 32) :
    read_uint32_loop buffer xs.length offset = some (xs, offset + 4 * xs.length) := by
  induction xs generalizing offset with
  | nil => simp [read_uint32_loop]
  | cons x tl ih =>
    simp only [List.length_cons] at hsmall
    have hmod : (offset + 4) % 2 ^ 32 = offset + 4 := Nat.mod_eq_of_lt (by omega)
    have h1 : buffer.drop offset = le_bytes 4 x ++ (uint32_bytes tl ++ rest) := by
      rw [h, uint32_bytes, List.append_assoc]
    have h2 : buffer.drop (offset + 4) = uint32_bytes tl ++ rest := by
      rw [← List.drop_drop, h1]
      exact List.drop_left' (le_bytes_length 4 x)
    rw [List.length_cons, read_uint32_loop,
      read_le_of_drop buffer _ _ offset 4 h1 (le_bytes_length 4 x) (by norm_num), hmod,
      ih (offset + 4) h2 (fun y hy => hx y (List.mem_cons_of_mem _ hy)) (by omega),
      of_le_bytes_le_bytes 4 x (by have := hx x (List.mem_cons_self _ _); omega)]
    simp only [Option.some.injEq, Prod.mk.injEq, true_and]
    omega

theorem memcpy_to_fields (P R s1 s2 s3 s4 s5 s6 : List Nat) (X : Nat) (hP : P.length = X)
    (hX : X + 26 < 2 ^ 32) (h1 : s1.length = 1) (h2 : s2.length = 4) (h3 : s3.length = 4)
    (h4 : s4.length = 1) (h5 : s5.length = 8) (h6 : s6.length = 8) (hR : R.length = 26) :
    memcpy_to (memcpy_to (memcpy_to (memcpy_to (memcpy_to (memcpy_to (P ++ R) X s1)
        ((X + 1) % 2 ^ 32) s2)
        (((X + 1) % 2 ^ 32 + 4) % 2 ^ 32) s3)
        ((((X + 1) % 2 ^ 32 + 4) % 2 ^ 32 + 4) % 2 ^ 32) s4)
        (((((X + 1) % 2 ^ 32 + 4) % 2 ^ 32 + 4) % 2 ^ 32 + 1) % 2 ^ 32) s5)
        ((((((X + 1) % 2 ^ 32 + 4) % 2 ^ 32 + 4) % 2 ^ 32 + 1) % 2 ^ 32 + 8) % 2 ^ 32) s6
      = (((((P ++ s1) ++ s2) ++ s3) ++ s4) ++ s5) ++ s6 := by
  have m1 : (X + 1) % 2 ^ 32 = X + 1 := Nat.mod_eq_of_lt (by omega)
  have m2 : (X + 1 + 4) % 2 ^ 32 = X + 1 + 4 := Nat.mod_eq_of_lt (by omega)
  have m3 : (X + 1 + 4 + 4) % 2 ^ 32 = X + 1 + 4 + 4 := Nat.mod_eq_of_lt (by omega)
  have m4 : (X + 1 + 4 + 4 + 1) % 2 ^ 32 = X + 1 + 4 + 4 + 1 := Nat.mod_eq_of_lt (by omega)
  have m5 : (X + 1 + 4 + 4 + 1 + 8) % 2 ^ 32 = X + 1 + 4 + 4 + 1 + 8 :=
    Nat.mod_eq_of_lt (by omega)
  rw [m1, m2, m3, m4, m5, memcpy_to_append P R s1 X hP,
    memcpy_to_append (P ++ s1) _ s2 (X + 1) (by simp [hP, h1]),
    memcpy_to_append (P ++ s1 ++ s2) _ s3 (X + 1 + 4) (by simp [hP, h1, h2]),
    memcpy_to_append (P ++ s1 ++ s2 ++ s3) _ s4 (X + 1 + 4 + 4) (by simp [hP, h1, h2, h3]),
    memcpy_to_append (P ++ s1 ++ s2 ++ s3 ++ s4) _ s5 (X + 1 + 4 + 4 + 1)
      (by simp [hP, h1, h2, h3, h4]),
    memcpy_to_append (P ++ s1 ++ s2 ++ s3 ++ s4 ++ s5) _ s6 (X + 1 + 4 + 4 + 1 + 8)
      (by simp [hP, h1, h2, h3, h4, h5])]
  simp only [List.drop_drop]
  rw [List.drop_eq_nil_of_le (by omega), List.append_nil]

theorem to_byte_array_eq (aux : BitmapIndexAuxData) (buffer : List Nat)
    (hbasis : aux.vd.basis.length < 2 ^ 28) (hcounts : aux.bitmap_counts.length < 2 ^ 28)
    (hbuf : buffer.length = aux.byte_length) :
    aux.to_byte_array buffer
      = ((((((((le_bytes 4 aux.bitmap_counts.length ++ uint32_bytes aux.vd.basis)
          ++ (buffer.drop (4 + 4 * aux.vd.basis.length)).take 4)
          ++ uint32_bytes aux.bitmap_counts)
          ++ le_bytes 1 (enc_type_code aux.enc_type))
          ++ le_bytes 4 aux.cardinality)
          ++ le_bytes 4 (enc_type_code aux.enc_type))
          ++ le_bytes 1 (if aux.use_value_mapping then 1 else 0))
          ++ le_bytes 8 (Int.toNat (aux.min_mapped_value % 2 ^ 64)))
          ++ le_bytes 8 (Int.toNat (aux.max_mapped_value % 2 ^ 64)) := by
  have hn : aux.vd.basis.length % 2 ^ 32 = aux.vd.basis.length := Nat.mod_eq_of_lt (by omega)
  have hm : aux.bitmap_counts.length % 2 ^ 32 = aux.bitmap_counts.length :=
    Nat.mod_eq_of_lt (by omega)
  have hlen : buffer.length = 4 * aux.vd.basis.length + 4 * aux.bitmap_counts.length + 34 := by
    rw [hbuf, BitmapIndexAuxData.byte_length, hn, hm]
    omega
  simp only [BitmapIndexAuxData.to_byte_array, hn, hm, List.take_length]
  have e1 := memcpy_to_append [] buffer (le_bytes 4 aux.vd.basis.length) 0 rfl
  simp only [List.nil_append, le_bytes_length] at e1
  rw [e1]
  have e2 := write_uint32_loop_append aux.vd.basis (le_bytes 4 aux.vd.basis.length)
    (buffer.drop 4) 4 (le_bytes_length 4 _) (by omega)
  rw [e2]
  simp only [List.drop_drop]
  have hgap : ((buffer.drop (4 + 4 * aux.vd.basis.length)).take 4).length = 4 := by
    rw [List.length_take, List.length_drop]
    omega
  have e3 : memcpy_to (le_bytes 4 aux.vd.basis.length ++ uint32_bytes aux.vd.basis
        ++ buffer.drop (4 + 4 * aux.vd.basis.length)) 0 (le_bytes 4 aux.bitmap_counts.length)
      = ((le_bytes 4 aux.bitmap_counts.length ++ uint32_bytes aux.vd.basis)
          ++ (buffer.drop (4 + 4 * aux.vd.basis.length)).take 4)
          ++ buffer.drop (4 * aux.vd.basis.length + 8) := by
    rw [List.append_assoc, memcpy_to_head _ _ _ (by simp [le_bytes_length]),
      List.append_assoc, List.append_assoc]
    congr 2
    have h := (List.take_append_drop 4 (buffer.drop (4 + 4 * aux.vd.basis.length))).symm
    rw [List.drop_drop] at h
    rw [show 4 * aux.vd.basis.length + 8 = 4 + 4 * aux.vd.basis.length + 4 by omega]
    exact h
  have ho : (4 + 4 * aux.vd.basis.length + 4) % 2 ^ 32 = 4 * aux.vd.basis.length + 8 :=
    by rw [Nat.mod_eq_of_lt (by omega)]; omega
  rw [e3, ho]
  have e4 := write_uint32_loop_append aux.bitmap_counts
    ((le_bytes 4 aux.bitmap_counts.length ++ uint32_bytes aux.vd.basis)
      ++ (buffer.drop (4 + 4 * aux.vd.basis.length)).take 4)
    (buffer.drop (4 * aux.vd.basis.length + 8)) (4 * aux.vd.basis.length + 8)
    (by simp only [List.length_append, le_bytes_length, uint32_bytes_length, hgap]; omega)
    (by omega)
  rw [e4]
  simp only [List.drop_drop]
  exact memcpy_to_fields _ _ _ _ _ _ _ _ _
    (by simp only [List.length_append, le_bytes_length, uint32_bytes_length, hgap]; omega)
    (by omega) (le_bytes_length _ _) (le_bytes_length _ _) (le_bytes_length _ _)
    (le_bytes_length _ _) (le_bytes_length _ _) (le_bytes_length _ _)
    (by rw [List.length_drop]; omega)

theorem drop_next (buffer head rest : List Nat) (offset count : Nat)
    (h : buffer.drop offset = head ++ rest) (hlen : head.length = count) :
    buffer.drop (offset + count) = rest := by
  rw [← List.drop_drop, h]
  exact List.drop_left' hlen

theorem from_byte_array_eq (basis counts gap : List Nat) (code1 cardinality code flag mn mx : Nat)
    (hlen : counts.length = basis.length) (hsmall : basis.length < 2 ^ 28)
    (hbasis : ∀ x ∈ basis, x < 2 ^ 32) (hcounts : ∀ x ∈ counts, x < 2 ^ 32)
    (hgap : gap.length = 4) (hcard : cardinality < 2 ^ 32) (hcode : code < 2 ^ 32)
    (hflag : flag < 2 ^ 8) (hmn : mn < 2 ^ 64) (hmx : mx < 2 ^ 64) :
    BitmapIndexAuxData.from_byte_array
        (le_bytes 4 counts.length ++ (uint32_bytes basis ++ (gap ++ (uint32_bytes counts
          ++ (le_bytes 1 code1 ++ (le_bytes 4 cardinality ++ (le_bytes 4 code
          ++ (le_bytes 1 flag ++ (le_bytes 8 mn ++ (le_bytes 8 mx ++ []))))))))))
      = (enc_type_of_code code).map (fun enc_type =>
          { vd := ValueDecomposer.new basis
            bitmap_counts := counts
            cardinality := cardinality
            enc_type := enc_type
            use_value_mapping := decide (flag ≠ 0)
            min_mapped_value := int64_of_nat mn
            max_mapped_value := int64_of_nat mx }) := by
  generalize hT : le_bytes 4 counts.length ++ (uint32_bytes basis ++ (gap ++ (uint32_bytes counts
          ++ (le_bytes 1 code1 ++ (le_bytes 4 cardinality ++ (le_bytes 4 code
          ++ (le_bytes 1 flag ++ (le_bytes 8 mn ++ (le_bytes 8 mx ++ []))))))))) = T
  have d0 : T.drop 0 = _ := hT.symm
  have d1 := drop_next T _ _ 0 4 d0 (le_bytes_length _ _)
  have d2 := drop_next T _ _ _ _ d1 (uint32_bytes_length basis)
  have d3 := drop_next T _ _ _ _ d2 hgap
  have d4 := drop_next T _ _ _ _ d3 (uint32_bytes_length counts)
  have d5 := drop_next T _ _ _ _ d4 (le_bytes_length _ _)
  have d6 := drop_next T _ _ _ _ d5 (le_bytes_length _ _)
  have d7 := drop_next T _ _ _ _ d6 (le_bytes_length _ _)
  have d8 := drop_next T _ _ _ _ d7 (le_bytes_length _ _)
  have d9 := drop_next T _ _ _ _ d8 (le_bytes_length _ _)
  have r0 := read_le_of_drop T _ _ 0 4 d0 (le_bytes_length _ _) (by norm_num)
  rw [of_le_bytes_le_bytes 4 _ (by omega)] at r0
  have r1 := read_uint32_loop_of_drop basis T _ _ d1 hbasis (by omega)
  have r3 := read_uint32_loop_of_drop counts T _ _ d3 hcounts (by omega)
  have r4 := read_le_of_drop T _ _ _ 1 d4 (le_bytes_length _ _) (by norm_num)
  have r5 := read_le_of_drop T _ _ _ 4 d5 (le_bytes_length _ _) (by norm_num)
  rw [of_le_bytes_le_bytes 4 _ (by omega)] at r5
  have r6 := read_le_of_drop T _ _ _ 4 d6 (le_bytes_length _ _) (by norm_num)
  rw [of_le_bytes_le_bytes 4 _ (by omega)] at r6
  have r7 := read_le_of_drop T _ _ _ 1 d7 (le_bytes_length _ _) (by norm_num)
  rw [of_le_bytes_le_bytes 1 _ (by omega)] at r7
  have r8 := read_le_of_drop T _ _ _ 8 d8 (le_bytes_length _ _) (by norm_num)
  rw [of_le_bytes_le_bytes 8 _ (by omega)] at r8
  have r9 := read_le_of_drop T _ _ _ 8 d9 (le_bytes_length _ _) (by norm_num)
  rw [of_le_bytes_le_bytes 8 _ (by omega)] at r9
  simp only [Nat.zero_add, hlen] at r0 r1 r3 r4 r5 r6 r7 r8 r9
  have o1 : (4 + 4 * basis.length + 4) % 2 ^ 32 = 4 + 4 * basis.length + 4 :=
    Nat.mod_eq_of_lt (by omega)
  have o5 : (4 + 4 * basis.length + 4 + 4 * basis.length + 1) % 2 ^ 32
      = 4 + 4 * basis.length + 4 + 4 * basis.length + 1 := Nat.mod_eq_of_lt (by omega)
  have o6 : (4 + 4 * basis.length + 4 + 4 * basis.length + 5) % 2 ^ 32
      = 4 + 4 * basis.length + 4 + 4 * basis.length + 1 + 4 := by
    rw [Nat.mod_eq_of_lt (by omega)]
  have o7 : (4 + 4 * basis.length + 4 + 4 * basis.length + 9) % 2 ^ 32
      = 4 + 4 * basis.length + 4 + 4 * basis.length + 1 + 4 + 4 := by
    rw [Nat.mod_eq_of_lt (by omega)]
  have o8 : (4 + 4 * basis.length + 4 + 4 * basis.length + 10) % 2 ^ 32
      = 4 + 4 * basis.length + 4 + 4 * basis.length + 1 + 4 + 4 + 1 := by
    rw [Nat.mod_eq_of_lt (by omega)]
  have o9 : (4 + 4 * basis.length + 4 + 4 * basis.length + 18) % 2 ^ 32
      = 4 + 4 * basis.length + 4 + 4 * basis.length + 1 + 4 + 4 + 1 + 8 := by
    rw [Nat.mod_eq_of_lt (by omega)]
  simp only [BitmapIndexAuxData.from_byte_array, r0, r1, o1, r3, r4, o5, r5, o6, r6,
    o7, r7, o8, r8, o9, r9]
  cases enc_type_of_code code <;> rfl

theorem enc_type_of_code_code (enc_type : BitmapIndexEncodingType) :
    enc_type_of_code (enc_type_code enc_type) = some enc_type := by
  cases enc_type <;> rfl

theorem int64_of_nat_toNat (v : Int) (h : -2 ^ 63 ≤ v ∧ v < 2 ^ 63) :
    int64_of_nat (Int.toNat (v % 2 ^ 64)) = v := by
  unfold int64_of_nat
  have h0 : 0 ≤ v % 2 ^ 64 := Int.emod_nonneg _ (by norm_num)
  have h1 : ((Int.toNat (v % 2 ^ 64) : Nat) : Int) = v % 2 ^ 64 := Int.toNat_of_nonneg h0
  have h2 : Int.toNat (v % 2 ^ 64) < 2 ^ 63 ↔ v % 2 ^ 64 < 2 ^ 63 := by
    rw [← h1]
    norm_cast
  by_cases hv : 0 ≤ v
  · have h3 : v % 2 ^ 64 = v := Int.emod_eq_of_lt hv (by omega)
    rw [if_pos (h2.mpr (by omega)), h1, h3]
  · have h3 : v % 2 ^ 64 = v + 2 ^ 64 := by
      rw [← Int.add_emod_self]
      exact Int.emod_eq_of_lt (by omega) (by omega)
    rw [if_neg (fun hc => by have := h2.mp hc; omega), h1, h3]
    omega

/-- C21: for auxiliary data whose `bitmap_counts` has the length of the basis, as
`build_index` produces it, with fields in the range of their C++ types, `to_byte_array`
fills a buffer of `byte_length()` bytes, whatever it held, and `from_byte_array` applied
to these bytes succeeds and restores the same basis, bitmap counts, encoding type,
cardinality, `use_value_mapping`, `min_mapped_value` and `max_mapped_value`. -/
theorem aux_data_round_trip (aux : BitmapIndexAuxData) (buffer : List Nat)
    (hlen : aux.bitmap_counts.length = aux.vd.basis.length)
    (hsmall : aux.vd.basis.length < 2 ^ 28)
    (hbasis : ∀ base ∈ aux.vd.basis, base < 2 ^ 32)
    (hcounts : ∀ count ∈ aux.bitmap_counts, count < 2 ^ 32)
    (hcard : aux.cardinality < 2 ^ 32)
    (hmin : -2 ^ 63 ≤ aux.min_mapped_value ∧ aux.min_mapped_value < 2 ^ 63)
    (hmax : -2 ^ 63 ≤ aux.max_mapped_value ∧ aux.max_mapped_value < 2 ^ 63)
    (hbuf : buffer.length = aux.byte_length) :
    (aux.to_byte_array buffer).length = aux.byte_length ∧
    ∃ restored, BitmapIndexAuxData.from_byte_array (aux.to_byte_array buffer) = some restored ∧
      restored.vd.basis = aux.vd.basis ∧
      restored.bitmap_counts = aux.bitmap_counts ∧
      restored.enc_type = aux.enc_type ∧
      restored.cardinality = aux.cardinality ∧
      restored.use_value_mapping = aux.use_value_mapping ∧
      restored.min_mapped_value = aux.min_mapped_value ∧
      restored.max_mapped_value = aux.max_mapped_value := by
  have hT := to_byte_array_eq aux buffer hsmall (by omega) hbuf
  have hgap : ((buffer.drop (4 + 4 * aux.vd.basis.length)).take 4).length = 4 := by
    have hn : aux.vd.basis.length % 2 ^ 32 = aux.vd.basis.length :=
      Nat.mod_eq_of_lt (by omega)
    have hm : aux.bitmap_counts.length % 2 ^ 32 = aux.bitmap_counts.length :=
      Nat.mod_eq_of_lt (by omega)
    rw [List.length_take, List.length_drop, hbuf, BitmapIndexAuxData.byte_length, hn, hm]
    omega
  have hcode : enc_type_code aux.enc_type < 2 ^ 32 := by
    cases aux.enc_type <;> decide
  have hflag : (if aux.use_value_mapping then 1 else 0) < 2 ^ 8 := by
    cases aux.use_value_mapping <;> decide
  have hmn : Int.toNat (aux.min_mapped_value % 2 ^ 64) < 2 ^ 64 := by
    have := Int.emod_lt_of_pos aux.min_mapped_value (show (0 : Int) < 2 ^ 64 by norm_num)
    have := Int.emod_nonneg aux.min_mapped_value (show (2 ^ 64 : Int) ≠ 0 by norm_num)
    omega
  have hmx : Int.toNat (aux.max_mapped_value % 2 ^ 64) < 2 ^ 64 := by
    have := Int.emod_lt_of_pos aux.max_mapped_value (show (0 : Int) < 2 ^ 64 by norm_num)
    have := Int.emod_nonneg aux.max_mapped_value (show (2 ^ 64 : Int) ≠ 0 by norm_num)
    omega
  have hP := from_byte_array_eq aux.vd.basis aux.bitmap_counts
    ((buffer.drop (4 + 4 * aux.vd.basis.length)).take 4) (enc_type_code aux.enc_type)
    aux.cardinality (enc_type_code aux.enc_type) (if aux.use_value_mapping then 1 else 0)
    (Int.toNat (aux.min_mapped_value % 2 ^ 64)) (Int.toNat (aux.max_mapped_value % 2 ^ 64))
    hlen hsmall hbasis hcounts hgap hcard hcode hflag hmn hmx
  simp only [List.append_nil, ← List.append_assoc] at hP
  rw [← hT, enc_type_of_code_code, Option.map_some'] at hP
  refine ⟨?_, _, hP, rfl, rfl, rfl, rfl, ?_, int64_of_nat_toNat _ hmin, int64_of_nat_toNat _ hmax⟩
  · have hn : aux.vd.basis.length % 2 ^ 32 = aux.vd.basis.length :=
      Nat.mod_eq_of_lt (by omega)
    have hm : aux.bitmap_counts.length % 2 ^ 32 = aux.bitmap_counts.length :=
      Nat.mod_eq_of_lt (by omega)
    rw [hT, BitmapIndexAuxData.byte_length, hn, hm]
    simp only [List.length_append, le_bytes_length, uint32_bytes_length, hgap]
    omega
  · cases aux.use_value_mapping <;> rfl

theorem aux_data_round_trip_witness :
    (configure uint32_t values_S1 .INTERVAL .BITMAP).bitmap_counts.length
      = (configure uint32_t values_S1 .INTERVAL .BITMAP).vd.basis.length ∧
    ((configure uint32_t values_S1 .INTERVAL .BITMAP).to_byte_array
        (List.replicate (configure uint32_t values_S1 .INTERVAL .BITMAP).byte_length 170)).length
      = (configure uint32_t values_S1 .INTERVAL .BITMAP).byte_length ∧
    ∃ restored, BitmapIndexAuxData.from_byte_array
        ((configure uint32_t values_S1 .INTERVAL .BITMAP).to_byte_array
          (List.replicate (configure uint32_t values_S1 .INTERVAL .BITMAP).byte_length 170))
        = some restored ∧
      restored.vd.basis = (configure uint32_t values_S1 .INTERVAL .BITMAP).vd.basis ∧
      restored.bitmap_counts = (configure uint32_t values_S1 .INTERVAL .BITMAP).bitmap_counts ∧
      restored.enc_type = (configure uint32_t values_S1 .INTERVAL .BITMAP).enc_type ∧
      restored.cardinality = (configure uint32_t values_S1 .INTERVAL .BITMAP).cardinality ∧
      restored.use_value_mapping
        = (configure uint32_t values_S1 .INTERVAL .BITMAP).use_value_mapping ∧
      restored.min_mapped_value
        = (configure uint32_t values_S1 .INTERVAL .BITMAP).min_mapped_value ∧
      restored.max_mapped_value
        = (configure uint32_t values_S1 .INTERVAL .BITMAP).max_mapped_value :=
  ⟨by decide,
   aux_data_round_trip (configure uint32_t values_S1 .INTERVAL .BITMAP)
    (List.replicate (configure uint32_t values_S1 .INTERVAL .BITMAP).byte_length 170)
    (by decide) (by decide) (by decide) (by decide) (by decide) (by decide) (by decide)
    (List.length_replicate _ _)⟩

/-! ## The offsets dictionary: insertion and search -/

/-- A key whose bytes are not in the dictionary is put into it. -/
theorem offsets_mdb_put_fresh (dict : BitmapOffsetsDictionary) (key : BitmapLMDBID)
    (value : OffsetRange) (h : ∀ e ∈ dict, e.1.to_byte_array ≠ key.to_byte_array) :
    ∃ dict1, offsets_mdb_put dict key value = some dict1 ∧
      dict1.Perm ((key, value) :: dict) := by
  induction dict with
  | nil => exact ⟨_, rfl, List.Perm.refl _⟩
  | cons e rest ih =>
    unfold offsets_mdb_put
    by_cases h1 : bytes_lt key.to_byte_array e.1.to_byte_array = true
    · rw [if_pos h1]
      exact ⟨_, rfl, List.Perm.refl _⟩
    · rw [if_neg h1]
      by_cases h2 : bytes_lt e.1.to_byte_array key.to_byte_array = true
      · rw [if_pos h2]
        obtain ⟨d, hd, hp⟩ := ih (fun x hx => h x (List.mem_cons_of_mem _ hx))
        rw [hd]
        exact ⟨_, rfl, (List.Perm.cons e hp).trans (List.Perm.swap _ _ _)⟩
      · exfalso
        exact h e (List.mem_cons_self _ _)
          (bytes_eq_of_not_lt _ _ (by simpa using h2) (by simpa using h1))

/-- Entries whose key bytes differ from one another and from those of the dictionary are
all inserted. -/
theorem offsets_insert_fresh (entries : List (BitmapLMDBID × OffsetRange))
    (dict : BitmapOffsetsDictionary)
    (hd : ∀ e ∈ dict, ∀ p ∈ entries, e.1.to_byte_array ≠ p.1.to_byte_array)
    (hp : entries.Pairwise (fun p q => p.1.to_byte_array ≠ q.1.to_byte_array)) :
    ∃ dict1, BitmapOffsetsDictionary.insert dict entries = .ok dict1 ∧
      dict1.Perm (entries ++ dict) := by
  induction entries generalizing dict with
  | nil => exact ⟨dict, rfl, List.Perm.refl _⟩
  | cons p rest ih =>
    obtain ⟨d1, h1, hp1⟩ := offsets_mdb_put_fresh dict p.1 p.2
      (fun e he => hd e he p (List.mem_cons_self _ _))
    rw [List.pairwise_cons] at hp
    obtain ⟨d2, h2, hp2⟩ := ih d1 (fun e he q hq => by
      have he1 := hp1.subset he
      rcases List.mem_cons.mp he1 with he2 | he2
      · rw [he2]
        exact hp.1 q hq
      · exact hd e he2 q (List.mem_cons_of_mem _ hq)) hp.2
    refine ⟨d2, ?_, ?_⟩
    · simp only [BitmapOffsetsDictionary.insert, h1, h2]
    · refine hp2.trans ?_
      refine (List.Perm.append_left rest hp1).trans ?_
      exact List.perm_middle

/-- The search for a key that is in the dictionary, all entries with its bytes having one
value. -/
theorem offsets_mdb_set_mem (dict : BitmapOffsetsDictionary) (key : BitmapLMDBID)
    (value : OffsetRange) (pos : Nat) (hmem : (key, value) ∈ dict)
    (huniq : ∀ e ∈ dict, e.1.to_byte_array = key.to_byte_array → e.2 = value) :
    ∃ found, offsets_mdb_set dict key pos = some (found, value) := by
  induction dict generalizing pos with
  | nil => simp at hmem
  | cons e rest ih =>
    unfold offsets_mdb_set
    by_cases h : e.1.to_byte_array = key.to_byte_array
    · rw [if_pos h, huniq e (List.mem_cons_self _ _) h]
      exact ⟨pos, rfl⟩
    · rw [if_neg h]
      rcases List.mem_cons.mp hmem with h1 | h1
      · exact absurd (by rw [← h1]) h
      · exact ih (pos + 1) h1 (fun x hx => huniq x (List.mem_cons_of_mem _ hx))

theorem offsets_find_mem (dict : BitmapOffsetsDictionary) (key : BitmapLMDBID)
    (value : OffsetRange) (hmem : (key, value) ∈ dict)
    (huniq : ∀ e ∈ dict, e.1.to_byte_array = key.to_byte_array → e.2 = value) :
    ∃ found, dict.find key = { cursor := some found, value := (key, value) } := by
  obtain ⟨found, h⟩ := offsets_mdb_set_mem dict key value 0 hmem huniq
  exact ⟨found, by simp only [BitmapOffsetsDictionary.find, h]⟩

/-- Two keys of one row group and column with the same bytes have the same number. -/
theorem bitmap_key_bytes_injective (rg_id : Nat) (path : List Nat) (a b : Nat)
    (h : (BitmapLMDBID.new rg_id path a).to_byte_array
      = (BitmapLMDBID.new rg_id path b).to_byte_array) :
    a % 2 ^ 16 = b % 2 ^ 16 := by
  unfold BitmapLMDBID.to_byte_array BitmapLMDBID.new at h
  simp only [List.append_assoc, List.append_cancel_left_eq] at h
  have h2 : le_bytes 2 (a % 2 ^ 16) = le_bytes 2 (b % 2 ^ 16) := by
    simpa using h
  exact le_bytes_injective 2 _ _ (Nat.mod_lt _ (by norm_num)) (Nat.mod_lt _ (by norm_num)) h2

/-! ## The entries recorded by `save` -/

/-- Without wrapping, the entry of the bitmap `k` is the key number `i + k` with the range
that starts after the sizes of the bitmaps before it. -/
theorem save_lmdb_entries_eq (rg_id : Nat) (path : List Nat) (offset : Nat) (sizes : List Nat)
    (i buffer_offset : Nat) (h : offset + buffer_offset + sizes.sum < 2 ^ 32) :
    save_lmdb_entries rg_id path offset sizes i buffer_offset
      = (List.range sizes.length).map (fun k =>
          (BitmapLMDBID.new rg_id path (i + k),
            ({ start_offset := offset + buffer_offset + (sizes.take k).sum
               end_offset := offset + buffer_offset + (sizes.take k).sum + sizes.getD k 0 }
              : OffsetRange))) := by
  induction sizes generalizing i buffer_offset with
  | nil => rfl
  | cons size rest ih =>
    simp only [List.sum_cons] at h
    have h1 : (offset + buffer_offset) % 2 ^ 32 = offset + buffer_offset :=
      Nat.mod_eq_of_lt (by omega)
    have h2 : (offset + buffer_offset + size) % 2 ^ 32 = offset + buffer_offset + size :=
      Nat.mod_eq_of_lt (by omega)
    have h3 : (buffer_offset + size) % 2 ^ 32 = buffer_offset + size :=
      Nat.mod_eq_of_lt (by omega)
    rw [save_lmdb_entries, h1, h2, h3, ih (i + 1) (buffer_offset + size) (by omega),
      List.length_cons, List.range_succ_eq_map, List.map_cons, List.map_map]
    congr 1
    apply List.map_congr_left
    intro k _
    simp only [Function.comp, List.take_succ_cons, List.sum_cons, List.getD_cons_succ,
      Prod.mk.injEq, OffsetRange.mk.injEq]
    refine ⟨by congr 1; omega, by omega, by omega⟩

/-- The bitmaps of the components, by component and number. -/
theorem component_bitmaps_getElem (st : BitMapStorage) (counts : List Nat) (c0 c j : Nat)
    (hc : c < counts.length) (hj : j < counts.getD c 0) :
    (component_bitmaps st counts c0)[(counts.take c).sum + j]? = some (st.bitmaps (c0 + c) j) := by
  induction counts generalizing c0 c with
  | nil => simp at hc
  | cons count rest ih =>
    unfold component_bitmaps
    cases c with
    | zero =>
      simp only [List.getD_cons_zero] at hj
      simp only [List.take_zero, List.sum_nil, Nat.zero_add, Nat.add_zero]
      rw [List.getElem?_append_left (by simpa using hj)]
      simp [hj]
    | succ c1 =>
      simp only [List.getD_cons_succ] at hj
      simp only [List.length_cons] at hc
      simp only [List.take_succ_cons, List.sum_cons]
      rw [List.getElem?_append_right (by simp; omega)]
      have := ih (c0 + 1) c1 (by omega) hj
      simp only [List.length_map, List.length_range]
      rw [show count + (List.take c1 rest).sum + j - count = (List.take c1 rest).sum + j by omega,
        this]
      congr 2
      omega

theorem component_bitmaps_length (st : BitMapStorage) (counts : List Nat) (c0 : Nat) :
    (component_bitmaps st counts c0).length = counts.sum := by
  induction counts generalizing c0 with
  | nil => rfl
  | cons count rest ih => simp [component_bitmaps, ih]

/-- The bytes of the bitmaps fit into the buffer of `save`: the loop that writes them
succeeds. -/
theorem save_write_loop_ok (fmt : RoaringFormat) (total_size : Nat) (bitmaps : List BitMap)
    (written : List Nat)
    (hwrite : ∀ bmp, (fmt.write bmp).length = get_save_byte_size fmt bmp)
    (hfit : written.length + (bitmaps.map (get_save_byte_size fmt)).sum ≤ total_size) :
    ∃ buffer, save_write_loop fmt total_size bitmaps written = .ok buffer ∧
      buffer.length = written.length + (bitmaps.map (get_save_byte_size fmt)).sum := by
  induction bitmaps generalizing written with
  | nil => exact ⟨written, rfl, by simp⟩
  | cons bmp rest ih =>
    simp only [List.map_cons, List.sum_cons] at hfit ⊢
    have hlt : get_save_byte_size fmt bmp < 2 ^ 32 := Nat.mod_lt _ (by norm_num)
    unfold save_write_loop
    rw [if_neg (by rw [hwrite]; omega), if_neg (by rw [hwrite, Nat.mod_eq_of_lt hlt]; simp)]
    obtain ⟨buffer, hb, hl⟩ := ih (written ++ fmt.write bmp)
      (by rw [List.length_append, hwrite]; omega)
    exact ⟨buffer, hb, by rw [hl, List.length_append, hwrite]; omega⟩

theorem sum_take_le (l : List Nat) (k : Nat) : (l.take k).sum ≤ l.sum := by
  have h := List.sum_take_add_sum_drop l k
  omega

theorem sum_take_succ_getD (l : List Nat) (k : Nat) (h : k < l.length) :
    (l.take (k + 1)).sum = (l.take k).sum + l.getD k 0 := by
  induction l generalizing k with
  | nil => simp at h
  | cons x rest ih =>
    cases k with
    | zero => simp
    | succ k1 =>
      simp only [List.length_cons] at h
      simp only [List.take_succ_cons, List.sum_cons, List.getD_cons_succ,
        ih k1 (by omega)]
      omega

theorem getD_map_size (fmt : RoaringFormat) (bitmaps : List BitMap) (k : Nat)
    (h : k < bitmaps.length) :
    (bitmaps.map (get_save_byte_size fmt)).getD k 0
      = get_save_byte_size fmt (bitmaps.getD k ∅) := by
  induction bitmaps generalizing k with
  | nil => simp at h
  | cons x rest ih =>
    cases k with
    | zero => simp
    | succ k1 =>
      simp only [List.length_cons] at h
      simp only [List.map_cons, List.getD_cons_succ]
      exact ih k1 (by omega)

/-- The size `save` computes for its buffer is the size `get_total_byte_size` returns. -/
theorem save_total_size_eq (fmt : RoaringFormat) (st : BitMapStorage) :
    round_to_disk_block_size
        (((collected_bitmaps st).map (get_save_byte_size fmt)).sum % 2 ^ 32)
      = get_total_byte_size fmt st := by
  unfold get_total_byte_size
  rw [foldl_sizes_eq]

/-- Where nothing wraps and the keys are new, `save` succeeds, reports the size
`get_total_byte_size` returns, and adds one entry per bitmap to the dictionary. -/
theorem save_spec (fmt : RoaringFormat) (rg_id : Nat) (path : List Nat)
    (st : BitMapStorage) (dict : BitmapOffsetsDictionary) (file : DataFile)
    (padding : List Nat) (offset : Nat)
    (hwrite : ∀ bmp, (fmt.write bmp).length = get_save_byte_size fmt bmp)
    (hfresh : ∀ e ∈ dict, ∀ i,
      e.1.to_byte_array ≠ (BitmapLMDBID.new rg_id path i).to_byte_array)
    (hcount : (collected_bitmaps st).length ≤ 2 ^ 16)
    (hsum : ((collected_bitmaps st).map (get_save_byte_size fmt)).sum ≤ 2 ^ 32 - 4096)
    (hend : offset + ((collected_bitmaps st).map (get_save_byte_size fmt)).sum < 2 ^ 32) :
    ∃ dict1 file1,
      st.save fmt rg_id path dict file padding offset
        = .ok (dict1, file1, get_total_byte_size fmt st) ∧
      dict1.Perm ((List.range (collected_bitmaps st).length).map (fun k =>
        (BitmapLMDBID.new rg_id path k, expected_range fmt (collected_bitmaps st) offset k))
        ++ dict) := by
  generalize hB : collected_bitmaps st = B at *
  have hS : (B.map (get_save_byte_size fmt)).sum % 2 ^ 32
      = (B.map (get_save_byte_size fmt)).sum := Nat.mod_eq_of_lt (by omega)
  have htotal := save_total_size_eq fmt st
  rw [hB, hS] at htotal
  obtain ⟨_, hge, _, _⟩ := round_to_disk_block_size_spec _ hsum
  rw [htotal] at hge
  obtain ⟨buffer, hbuf, _⟩ := save_write_loop_ok fmt (get_total_byte_size fmt st) B []
    hwrite (by simpa using hge)
  have hentries := save_lmdb_entries_eq rg_id path offset (B.map (get_save_byte_size fmt))
    0 0 (by omega)
  simp only [Nat.zero_add, Nat.add_zero, List.length_map] at hentries
  have hmap : (List.range B.length).map (fun k =>
        (BitmapLMDBID.new rg_id path k,
          ({ start_offset := offset + ((B.map (get_save_byte_size fmt)).take k).sum
             end_offset := offset + ((B.map (get_save_byte_size fmt)).take k).sum
               + (B.map (get_save_byte_size fmt)).getD k 0 } : OffsetRange)))
      = (List.range B.length).map (fun k =>
        (BitmapLMDBID.new rg_id path k, expected_range fmt B offset k)) := by
    apply List.map_congr_left
    intro k hk
    simp only [expected_range, List.map_take, getD_map_size fmt B k (List.mem_range.mp hk)]
  rw [hmap] at hentries
  have hpair : ((List.range B.length).map (fun k =>
      (BitmapLMDBID.new rg_id path k, expected_range fmt B offset k))).Pairwise
      (fun p q => p.1.to_byte_array ≠ q.1.to_byte_array) := by
    rw [List.pairwise_map]
    refine List.Pairwise.imp_of_mem ?_ (List.pairwise_lt_range B.length)
    intro a b ha hb hab heq
    have := bitmap_key_bytes_injective rg_id path a b heq
    rw [List.mem_range] at ha hb
    rw [Nat.mod_eq_of_lt (by omega), Nat.mod_eq_of_lt (by omega)] at this
    omega
  obtain ⟨dict1, hins, hperm⟩ := offsets_insert_fresh _ dict (fun e he p hp => by
    obtain ⟨k, _, hk⟩ := List.mem_map.mp hp
    rw [← hk]
    exact hfresh e he k) hpair
  refine ⟨dict1, write_file file offset (buffer ++
    (List.range (get_total_byte_size fmt st - buffer.length)).map
      (fun k => padding.getD k 0)), ?_, hperm⟩
  unfold BitMapStorage.save
  simp only [hB, hS, htotal, hbuf, hentries, hins]

/-- C22 (amended): when the sizes add up to at most `2 ^ 32 - 4096` and `offset` plus
their sum stays below `2 ^ 32`, the storage has at most 65536 bitmaps, the offsets
dictionary has no key of this row group and column yet and every bitmap writes as many
bytes as its save size, `save(offset)` succeeds and records one range per bitmap under the
ordinals 0, 1, 2, ...: ordinal 0 is the all-values bitmap, bitmap `j` of component `c` has
the ordinal `1 + (sum of the counts of the components before c) + j`; the first range
starts at `offset`, the length of each range is the save size of its bitmap, each next
range starts where the previous one ends, and every range lies inside
`[offset, offset + get_total_byte_size())`. -/
theorem save_records_offsets (fmt : RoaringFormat) (rg_id : Nat) (path : List Nat)
    (st : BitMapStorage) (dict : BitmapOffsetsDictionary) (file : DataFile)
    (padding : List Nat) (offset : Nat)
    (hwrite : ∀ bmp, (fmt.write bmp).length = get_save_byte_size fmt bmp)
    (hfresh : ∀ e ∈ dict, ∀ i,
      e.1.to_byte_array ≠ (BitmapLMDBID.new rg_id path i).to_byte_array)
    (hcount : (collected_bitmaps st).length ≤ 2 ^ 16)
    (hsum : ((collected_bitmaps st).map (get_save_byte_size fmt)).sum ≤ 2 ^ 32 - 4096)
    (hend : offset + ((collected_bitmaps st).map (get_save_byte_size fmt)).sum < 2 ^ 32) :
    (collected_bitmaps st)[0]? = some st.load_all_values_bitmap ∧
    (∀ c j, in_bounds st.bitmap_counts c j →
      (collected_bitmaps st)[bitmap_ordinal st.bitmap_counts c j]? = some (st.bitmaps c j)) ∧
    (collected_bitmaps st).length = 1 + st.bitmap_counts.sum ∧
    (expected_range fmt (collected_bitmaps st) offset 0).start_offset = offset ∧
    (∀ i, i < (collected_bitmaps st).length →
      (expected_range fmt (collected_bitmaps st) offset i).end_offset
        = (expected_range fmt (collected_bitmaps st) offset i).start_offset
          + get_save_byte_size fmt ((collected_bitmaps st).getD i ∅)) ∧
    (∀ i, i + 1 < (collected_bitmaps st).length →
      (expected_range fmt (collected_bitmaps st) offset (i + 1)).start_offset
        = (expected_range fmt (collected_bitmaps st) offset i).end_offset) ∧
    (∀ i, i < (collected_bitmaps st).length →
      offset ≤ (expected_range fmt (collected_bitmaps st) offset i).start_offset ∧
      (expected_range fmt (collected_bitmaps st) offset i).end_offset
        ≤ offset + get_total_byte_size fmt st) ∧
    ∃ dict1 file1,
      st.save fmt rg_id path dict file padding offset
        = .ok (dict1, file1, get_total_byte_size fmt st) ∧
      ∀ i, i < (collected_bitmaps st).length →
        ∃ found, dict1.find (BitmapLMDBID.new rg_id path i)
          = { cursor := some found
              value := (BitmapLMDBID.new rg_id path i,
                expected_range fmt (collected_bitmaps st) offset i) } := by
  generalize hB : collected_bitmaps st = B at *
  have hS : (B.map (get_save_byte_size fmt)).sum % 2 ^ 32
      = (B.map (get_save_byte_size fmt)).sum := Nat.mod_eq_of_lt (by omega)
  have htotal := save_total_size_eq fmt st
  rw [hB, hS] at htotal
  obtain ⟨_, hge, _, _⟩ := round_to_disk_block_size_spec _ hsum
  rw [htotal] at hge
  have hpre : ∀ i, i < B.length →
      ((B.take i).map (get_save_byte_size fmt)).sum + get_save_byte_size fmt (B.getD i ∅)
        ≤ (B.map (get_save_byte_size fmt)).sum := by
    intro i hi
    have h1 := sum_take_succ_getD (B.map (get_save_byte_size fmt)) i (by simpa using hi)
    rw [getD_map_size fmt B i hi, ← List.map_take, ← List.map_take] at h1
    have h2 := sum_take_le (B.map (get_save_byte_size fmt)) (i + 1)
    rw [← List.map_take] at h2
    omega
  refine ⟨by rw [← hB]; simp [collected_bitmaps], ?_, ?_, by simp [expected_range],
    fun i _ => rfl, ?_, ?_, ?_⟩
  · intro c j hcj
    rw [← hB]
    unfold collected_bitmaps bitmap_ordinal
    rw [show 1 + (st.bitmap_counts.take c).sum + j = ((st.bitmap_counts.take c).sum + j) + 1
      by omega, List.getElem?_cons_succ,
      component_bitmaps_getElem st st.bitmap_counts 0 c j hcj.1 hcj.2, Nat.zero_add]
  · rw [← hB]
    simp only [collected_bitmaps, List.length_cons, component_bitmaps_length]
    omega
  · intro i hi
    have h1 := sum_take_succ_getD (B.map (get_save_byte_size fmt)) i
      (by simp only [List.length_map]; omega)
    rw [getD_map_size fmt B i (by omega), ← List.map_take, ← List.map_take] at h1
    simp only [expected_range, h1]
    omega
  · intro i hi
    have := hpre i hi
    simp only [expected_range]
    omega
  · obtain ⟨dict1, file1, hsave, hperm⟩ := save_spec fmt rg_id path st dict file padding offset
      hwrite hfresh (by rw [hB]; exact hcount) (by rw [hB]; exact hsum)
      (by rw [hB]; exact hend)
    rw [hB] at hperm
    refine ⟨dict1, file1, hsave, ?_⟩
    intro i hi
    apply offsets_find_mem
    · apply hperm.symm.subset
      apply List.mem_append_left
      exact List.mem_map.mpr ⟨i, List.mem_range.mpr hi, rfl⟩
    · intro e he hbytes
      rcases List.mem_append.mp (hperm.subset he) with h1 | h1
      · obtain ⟨k, hk, hke⟩ := List.mem_map.mp h1
        rw [← hke] at hbytes ⊢
        have := bitmap_key_bytes_injective rg_id path k i hbytes
        rw [List.mem_range] at hk
        rw [Nat.mod_eq_of_lt (by omega), Nat.mod_eq_of_lt (by omega)] at this
        subst this
        rfl
      · exact absurd hbytes (hfresh e h1 i)

theorem save_records_offsets_witness :
    (∀ bmp, ((constant_size_format 600).write bmp).length
      = get_save_byte_size (constant_size_format 600) bmp) ∧
    (collected_bitmaps test_created_storage).length ≤ 2 ^ 16 ∧
    ((collected_bitmaps test_created_storage).map
      (get_save_byte_size (constant_size_format 600))).sum ≤ 2 ^ 32 - 4096 ∧
    4096 + ((collected_bitmaps test_created_storage).map
      (get_save_byte_size (constant_size_format 600))).sum < 2 ^ 32 ∧
    (collected_bitmaps test_created_storage)[0]? = some test_created_storage.load_all_values_bitmap ∧
    (∀ c j, in_bounds test_created_storage.bitmap_counts c j →
      (collected_bitmaps test_created_storage)[bitmap_ordinal test_created_storage.bitmap_counts c j]? = some (test_created_storage.bitmaps c j)) ∧
    (collected_bitmaps test_created_storage).length = 1 + test_created_storage.bitmap_counts.sum ∧
    (expected_range (constant_size_format 600) (collected_bitmaps test_created_storage) 4096 0).start_offset = 4096 ∧
    (∀ i, i < (collected_bitmaps test_created_storage).length →
      (expected_range (constant_size_format 600) (collected_bitmaps test_created_storage) 4096 i).end_offset
        = (expected_range (constant_size_format 600) (collected_bitmaps test_created_storage) 4096 i).start_offset
          + get_save_byte_size (constant_size_format 600) ((collected_bitmaps test_created_storage).getD i ∅)) ∧
    (∀ i, i + 1 < (collected_bitmaps test_created_storage).length →
      (expected_range (constant_size_format 600) (collected_bitmaps test_created_storage) 4096 (i + 1)).start_offset
        = (expected_range (constant_size_format 600) (collected_bitmaps test_created_storage) 4096 i).end_offset) ∧
    (∀ i, i < (collected_bitmaps test_created_storage).length →
      4096 ≤ (expected_range (constant_size_format 600) (collected_bitmaps test_created_storage) 4096 i).start_offset ∧
      (expected_range (constant_size_format 600) (collected_bitmaps test_created_storage) 4096 i).end_offset
        ≤ 4096 + get_total_byte_size (constant_size_format 600) test_created_storage) ∧
    ∃ dict1 file1,
      test_created_storage.save (constant_size_format 600) test_rg_id test_column_path [] empty_file [] 4096
        = .ok (dict1, file1, get_total_byte_size (constant_size_format 600) test_created_storage) ∧
      ∀ i, i < (collected_bitmaps test_created_storage).length →
        ∃ found, dict1.find (BitmapLMDBID.new test_rg_id test_column_path i)
          = { cursor := some found
              value := (BitmapLMDBID.new test_rg_id test_column_path i,
                expected_range (constant_size_format 600) (collected_bitmaps test_created_storage) 4096 i) } :=
  ⟨fun _ => List.length_replicate _ _, by decide, by decide, by decide,
   save_records_offsets (constant_size_format 600) test_rg_id test_column_path
    test_created_storage [] empty_file [] 4096 (fun _ => List.length_replicate _ _)
    (fun e he => absurd he (List.not_mem_nil e)) (by decide) (by decide) (by decide)⟩

/-- C22 (as stated) fails where the offsets wrap: saved at the offset `2 ^ 32 - 4096`, a
storage of two bitmaps of 2048 bytes each gets a second range that starts at
`2 ^ 32 - 2048` and ends at 0, outside `[offset, offset + get_total_byte_size())` and not
2048 long; and `save` on a dictionary that already holds the key number 0 of the row group
and column throws and records nothing. -/
theorem save_offsets_wrap :
    (∃ dict1 file1,
      (BitMapStorage.create [1]).save (constant_size_format 2048) test_rg_id test_column_path
          [] empty_file [] 4294963200 = .ok (dict1, file1, 4096) ∧
      get_total_byte_size (constant_size_format 2048) (BitMapStorage.create [1]) = 4096 ∧
      get_save_byte_size (constant_size_format 2048) ((BitMapStorage.create [1]).bitmaps 0 0)
        = 2048 ∧
      dict1.find (BitmapLMDBID.new test_rg_id test_column_path 1)
        = { cursor := some 1
            value := (BitmapLMDBID.new test_rg_id test_column_path 1,
              { start_offset := 4294965248, end_offset := 0 }) }) ∧
    (BitMapStorage.create [1]).save (constant_size_format 8) test_rg_id test_column_path
        [(BitmapLMDBID.new test_rg_id test_column_path 0, { start_offset := 0, end_offset := 8 })]
        empty_file [] 4096 = .error .thrown_text := by
  constructor
  · obtain ⟨buffer, hbuf, _⟩ := save_write_loop_ok (constant_size_format 2048) 4096
      (collected_bitmaps (BitMapStorage.create [1])) []
      (fun _ => List.length_replicate _ _) (by decide)
    refine ⟨[(BitmapLMDBID.new test_rg_id test_column_path 0,
          { start_offset := 4294963200, end_offset := 4294965248 }),
        (BitmapLMDBID.new test_rg_id test_column_path 1,
          { start_offset := 4294965248, end_offset := 0 })],
      write_file empty_file 4294963200 (buffer ++
        (List.range (4096 - buffer.length)).map (fun k => ([] : List Nat).getD k 0)),
      ?_, by decide, by decide, ?_⟩
    · unfold BitMapStorage.save
      simp only [show round_to_disk_block_size
        (((collected_bitmaps (BitMapStorage.create [1])).map
          (get_save_byte_size (constant_size_format 2048))).sum % 2 ^ 32) = 4096 by decide,
        hbuf]
      rfl
    · decide
  · obtain ⟨buffer, hbuf, _⟩ := save_write_loop_ok (constant_size_format 8) 4096
      (collected_bitmaps (BitMapStorage.create [1])) []
      (fun _ => List.length_replicate _ _) (by decide)
    unfold BitMapStorage.save
    simp only [show round_to_disk_block_size
      (((collected_bitmaps (BitMapStorage.create [1])).map
        (get_save_byte_size (constant_size_format 8))).sum % 2 ^ 32) = 4096 by decide,
      hbuf]
    rfl

/-! ## The dictionaries keyed by a storage: insertion and search -/

/-- A key whose bytes are not in the dictionary is put into it. -/
theorem storage_mdb_put_fresh {V : Type} (dict : StorageDictionary V)
    (key : BitmapStorageLMDBID) (value : V)
    (h : ∀ e ∈ dict, e.1.to_byte_array ≠ key.to_byte_array) :
    ∃ dict1, storage_mdb_put dict key value = some dict1 ∧
      dict1.Perm ((key, value) :: dict) := by
  induction dict with
  | nil => exact ⟨_, rfl, List.Perm.refl _⟩
  | cons e rest ih =>
    unfold storage_mdb_put
    by_cases h1 : bytes_lt key.to_byte_array e.1.to_byte_array = true
    · rw [if_pos h1]
      exact ⟨_, rfl, List.Perm.refl _⟩
    · rw [if_neg h1]
      by_cases h2 : bytes_lt e.1.to_byte_array key.to_byte_array = true
      · rw [if_pos h2]
        obtain ⟨d, hd, hp⟩ := ih (fun x hx => h x (List.mem_cons_of_mem _ hx))
        rw [hd]
        exact ⟨_, rfl, (List.Perm.cons e hp).trans (List.Perm.swap _ _ _)⟩
      · exfalso
        exact h e (List.mem_cons_self _ _)
          (bytes_eq_of_not_lt _ _ (by simpa using h2) (by simpa using h1))

/-- Entries whose key bytes differ from one another and from those of the dictionary are
all inserted. -/
theorem storage_insert_fresh {V : Type} (entries : List (BitmapStorageLMDBID × V))
    (dict : StorageDictionary V)
    (hd : ∀ e ∈ dict, ∀ p ∈ entries, e.1.to_byte_array ≠ p.1.to_byte_array)
    (hp : entries.Pairwise (fun p q => p.1.to_byte_array ≠ q.1.to_byte_array)) :
    ∃ dict1, StorageDictionary.insert dict entries = .ok dict1 ∧
      dict1.Perm (entries ++ dict) := by
  induction entries generalizing dict with
  | nil => exact ⟨dict, rfl, List.Perm.refl _⟩
  | cons p rest ih =>
    obtain ⟨d1, h1, hp1⟩ := storage_mdb_put_fresh dict p.1 p.2
      (fun e he => hd e he p (List.mem_cons_self _ _))
    rw [List.pairwise_cons] at hp
    obtain ⟨d2, h2, hp2⟩ := ih d1 (fun e he q hq => by
      have he1 := hp1.subset he
      rcases List.mem_cons.mp he1 with he2 | he2
      · rw [he2]
        exact hp.1 q hq
      · exact hd e he2 q (List.mem_cons_of_mem _ hq)) hp.2
    refine ⟨d2, ?_, ?_⟩
    · simp only [StorageDictionary.insert, h1, h2]
    · refine hp2.trans ?_
      refine (List.Perm.append_left rest hp1).trans ?_
      exact List.perm_middle

/-- The search for a key that is in the dictionary, all entries with its bytes having one
value. -/
theorem storage_mdb_set_mem {V : Type} (dict : StorageDictionary V)
    (key : BitmapStorageLMDBID) (value : V) (pos : Nat) (hmem : (key, value) ∈ dict)
    (huniq : ∀ e ∈ dict, e.1.to_byte_array = key.to_byte_array → e.2 = value) :
    ∃ found, storage_mdb_set dict key pos = some (found, value) := by
  induction dict generalizing pos with
  | nil => simp at hmem
  | cons e rest ih =>
    unfold storage_mdb_set
    by_cases h : e.1.to_byte_array = key.to_byte_array
    · rw [if_pos h, huniq e (List.mem_cons_self _ _) h]
      exact ⟨pos, rfl⟩
    · rw [if_neg h]
      rcases List.mem_cons.mp hmem with h1 | h1
      · exact absurd (by rw [← h1]) h
      · exact ih (pos + 1) h1 (fun x hx => huniq x (List.mem_cons_of_mem _ hx))

theorem storage_find_mem {V : Type} [Inhabited V] (dict : StorageDictionary V)
    (key : BitmapStorageLMDBID) (value : V) (hmem : (key, value) ∈ dict)
    (huniq : ∀ e ∈ dict, e.1.to_byte_array = key.to_byte_array → e.2 = value) :
    ∃ found, dict.find key = { cursor := some found, value := (key, value) } := by
  obtain ⟨found, h⟩ := storage_mdb_set_mem dict key value 0 hmem huniq
  exact ⟨found, by simp only [StorageDictionary.find, h]⟩

/-- The search for a key whose bytes are not in the dictionary finds nothing. -/
theorem storage_mdb_set_none {V : Type} (dict : StorageDictionary V)
    (key : BitmapStorageLMDBID) (pos : Nat)
    (h : ∀ e ∈ dict, e.1.to_byte_array ≠ key.to_byte_array) :
    storage_mdb_set dict key pos = none := by
  induction dict generalizing pos with
  | nil => rfl
  | cons e rest ih =>
    unfold storage_mdb_set
    rw [if_neg (h e (List.mem_cons_self _ _))]
    exact ih (pos + 1) (fun x hx => h x (List.mem_cons_of_mem _ hx))

/-- A search that finds an entry finds one of the dictionary with the bytes of the key. -/
theorem storage_mdb_set_some {V : Type} (dict : StorageDictionary V)
    (key : BitmapStorageLMDBID) (pos : Nat) (r : Nat × V)
    (h : storage_mdb_set dict key pos = some r) :
    ∃ e ∈ dict, e.1.to_byte_array = key.to_byte_array ∧ e.2 = r.2 := by
  induction dict generalizing pos with
  | nil => simp [storage_mdb_set] at h
  | cons e rest ih =>
    unfold storage_mdb_set at h
    by_cases hb : e.1.to_byte_array = key.to_byte_array
    · rw [if_pos hb] at h
      simp only [Option.some.injEq] at h
      exact ⟨e, List.mem_cons_self _ _, hb, by rw [← h]⟩
    · rw [if_neg hb] at h
      obtain ⟨x, hx, hxb, hxv⟩ := ih (pos + 1) h
      exact ⟨x, List.mem_cons_of_mem _ hx, hxb, hxv⟩

/-! ## The sizes and ranges of `save_all` -/

/-- The size of a storage is a multiple of the block size. -/
theorem round_to_disk_block_size_dvd (byte_count : Nat) :
    4096 ∣ round_to_disk_block_size byte_count := by
  unfold round_to_disk_block_size
  simp only
  apply (Nat.dvd_mod_iff (by norm_num : 4096 ∣ 2 ^ 32)).mpr
  exact Dvd.intro_left _ rfl

theorem check_written_sizes_eq (sizes : List Nat) (total : Nat)
    (h : total + sizes.sum < 2 ^ 32) :
    check_written_sizes sizes sizes total = .ok (total + sizes.sum) := by
  induction sizes generalizing total with
  | nil => simp [check_written_sizes]
  | cons size rest ih =>
    simp only [List.sum_cons] at h
    simp only [check_written_sizes, ne_eq, not_true_eq_false, if_false, List.sum_cons]
    rw [Nat.mod_eq_of_lt (by omega), ih _ (by omega)]
    congr 1
    omega

/-- The sum of the save sizes of a storage is at most its total size, below the last
block of the `uint32_t` range. -/
theorem sizes_le_total (fmt : RoaringFormat) (st : BitMapStorage)
    (hsum : ((collected_bitmaps st).map (get_save_byte_size fmt)).sum ≤ 2 ^ 32 - 4096) :
    ((collected_bitmaps st).map (get_save_byte_size fmt)).sum ≤ get_total_byte_size fmt st := by
  have htotal := save_total_size_eq fmt st
  rw [Nat.mod_eq_of_lt (by omega)] at htotal
  rw [← htotal]
  exact (round_to_disk_block_size_spec _ hsum).2.1

/-- Where nothing wraps and the keys are new, the loop of `save_all` saves every storage
and gives the storage number `k` the expected range. -/
theorem save_all_loop_spec (fmt : RoaringFormat) (padding : List Nat)
    (indexes : List BitmapIndex) (offset : Nat) (dict : BitmapOffsetsDictionary)
    (file : DataFile)
    (hwrite : ∀ bmp, (fmt.write bmp).length = get_save_byte_size fmt bmp)
    (hcount : ∀ index ∈ indexes, (collected_bitmaps index.storage).length ≤ 2 ^ 16)
    (hsum : ∀ index ∈ indexes,
      ((collected_bitmaps index.storage).map (get_save_byte_size fmt)).sum ≤ 2 ^ 32 - 4096)
    (hend : offset + (storage_sizes fmt indexes).sum < 2 ^ 32)
    (hfresh : ∀ e ∈ dict, ∀ index ∈ indexes, ∀ i, e.1.to_byte_array
      ≠ (BitmapLMDBID.new index.rg_id index.column_dotted_path i).to_byte_array)
    (hdistinct : indexes.Pairwise (fun a c => ∀ i j,
      (BitmapLMDBID.new a.rg_id a.column_dotted_path i).to_byte_array
        ≠ (BitmapLMDBID.new c.rg_id c.column_dotted_path j).to_byte_array)) :
    ∃ r, save_all_loop fmt padding indexes offset dict file = .ok r ∧
      r.lmdb_entries = (List.range indexes.length).map (fun k =>
        (storage_key (indexes.getD k default_index),
          expected_storage_range fmt indexes offset k)) ∧
      r.expected_sizes = storage_sizes fmt indexes ∧
      r.io_sizes = storage_sizes fmt indexes := by
  induction indexes generalizing offset dict file with
  | nil => exact ⟨_, rfl, rfl, rfl, rfl⟩
  | cons index rest ih =>
    simp only [storage_sizes, List.map_cons, List.sum_cons] at hend
    have hle := sizes_le_total fmt index.storage (hsum index (List.mem_cons_self _ _))
    obtain ⟨dict1, file1, hsave, hperm⟩ := save_spec fmt index.rg_id index.column_dotted_path
      index.storage dict file padding offset hwrite
      (fun e he i => hfresh e he index (List.mem_cons_self _ _) i)
      (hcount index (List.mem_cons_self _ _)) (hsum index (List.mem_cons_self _ _))
      (by omega)
    rw [List.pairwise_cons] at hdistinct
    have hmod : (offset + get_total_byte_size fmt index.storage) % 2 ^ 32
        = offset + get_total_byte_size fmt index.storage := Nat.mod_eq_of_lt (by omega)
    obtain ⟨r, hr, he, hs, hio⟩ := ih (offset + get_total_byte_size fmt index.storage) dict1
      file1 (fun x hx => hcount x (List.mem_cons_of_mem _ hx))
      (fun x hx => hsum x (List.mem_cons_of_mem _ hx))
      (by simp only [storage_sizes]; omega)
      (fun e he x hx i => by
        rcases List.mem_append.mp (hperm.subset he) with h1 | h1
        · obtain ⟨k, _, hk⟩ := List.mem_map.mp h1
          rw [← hk]
          exact hdistinct.1 x hx k i
        · exact hfresh e h1 x (List.mem_cons_of_mem _ hx) i)
      hdistinct.2
    refine ⟨{ lmdb_entries :=
                ({ rg_id := index.rg_id, column_dotted_path := index.column_dotted_path },
                  { start_offset := offset,
                    end_offset := offset + get_total_byte_size fmt index.storage })
                  :: r.lmdb_entries
              expected_sizes := get_total_byte_size fmt index.storage :: r.expected_sizes
              io_sizes := get_total_byte_size fmt index.storage :: r.io_sizes
              bitmap_offsets_lmdb := r.bitmap_offsets_lmdb
              file := r.file }, ?_, ?_, ?_, ?_⟩
    · rw [save_all_loop, hsave]
      simp only [hmod, hr]
    · simp only [he, List.length_cons, List.range_succ_eq_map, List.map_cons, List.map_map,
        List.cons.injEq]
      refine ⟨?_, ?_⟩
      · simp [storage_key, expected_storage_range, storage_sizes]
      · apply List.map_congr_left
        intro k _
        simp only [Function.comp, List.getD_cons_succ, expected_storage_range, storage_sizes,
          List.map_cons, List.take_succ_cons, List.sum_cons, Prod.mk.injEq,
          OffsetRange.mk.injEq, true_and]
        constructor <;> omega
    · simp only [hs, storage_sizes, List.map_cons]
    · simp only [hio, storage_sizes, List.map_cons]

/-- The keys of the bitmaps of two storages with different keys differ. -/
theorem bitmap_key_ne_of_storage_key_ne (a c : BitmapIndex) (i j : Nat)
    (h : (storage_key a).to_byte_array ≠ (storage_key c).to_byte_array) :
    (BitmapLMDBID.new a.rg_id a.column_dotted_path i).to_byte_array
      ≠ (BitmapLMDBID.new c.rg_id c.column_dotted_path j).to_byte_array := by
  intro heq
  apply h
  unfold BitmapLMDBID.to_byte_array BitmapLMDBID.new at heq
  exact (List.append_inj' heq (by simp [le_bytes_length])).1

theorem sum_take_mono (l : List Nat) (k m : Nat) (h : k ≤ m) :
    (l.take k).sum ≤ (l.take m).sum := by
  have h1 : l.take k = (l.take m).take k := by
    rw [List.take_take, Nat.min_eq_left h]
  rw [h1]
  exact sum_take_le _ _

theorem getD_storage_sizes (fmt : RoaringFormat) (indexes : List BitmapIndex) (k : Nat)
    (h : k < indexes.length) :
    (storage_sizes fmt indexes).getD k 0
      = get_total_byte_size fmt (indexes.getD k default_index).storage := by
  induction indexes generalizing k with
  | nil => simp at h
  | cons x rest ih =>
    cases k with
    | zero => simp [storage_sizes]
    | succ k1 =>
      simp only [List.length_cons] at h
      simp only [storage_sizes, List.map_cons, List.getD_cons_succ]
      exact ih k1 (by omega)

theorem getD_mem_of_lt (indexes : List BitmapIndex) (k : Nat) (h : k < indexes.length) :
    indexes.getD k default_index ∈ indexes := by
  rw [List.getD_eq_getElem _ _ h]
  exact List.getElem_mem _

/-- C24 (amended): when the builder's current offset plus the sizes of the storages stays
below `2 ^ 32`, every storage has at most 65536 bitmaps whose save sizes add up to at most
`2 ^ 32 - 4096`, every bitmap writes as many bytes as its save size, no two finished
indexes share a row group and column and the tables hold no key of theirs yet, `save_all`
succeeds and records for the index number `k` of the completed-futures vector the range
`(cursor, cursor + total_byte_size)`, the cursor starting at the builder's current offset
and advanced by the size of each storage: the recorded ranges are contiguous and pairwise
disjoint, every size is a multiple of 4096 and so is every start offset when the current
offset was one (as the offset 0 of a new builder), and afterwards the builder's current
offset has grown by the sum of the sizes and no finished index is left. -/
theorem save_all_ranges (fmt : RoaringFormat) (padding : List Nat)
    (builder : BatchBitmapIndexBuilder)
    (hwrite : ∀ bmp, (fmt.write bmp).length = get_save_byte_size fmt bmp)
    (hcount : ∀ index ∈ builder.bmp_futures,
      (collected_bitmaps index.storage).length ≤ 2 ^ 16)
    (hsum : ∀ index ∈ builder.bmp_futures,
      ((collected_bitmaps index.storage).map (get_save_byte_size fmt)).sum ≤ 2 ^ 32 - 4096)
    (hend : builder.current_offset + (storage_sizes fmt builder.bmp_futures).sum < 2 ^ 32)
    (hfresh : ∀ e ∈ builder.bitmap_offsets_lmdb, ∀ index ∈ builder.bmp_futures, ∀ i,
      e.1.to_byte_array
        ≠ (BitmapLMDBID.new index.rg_id index.column_dotted_path i).to_byte_array)
    (hstorage_fresh : ∀ e ∈ builder.storage_offsets_lmdb, ∀ index ∈ builder.bmp_futures,
      e.1.to_byte_array ≠ (storage_key index).to_byte_array)
    (hdistinct : builder.bmp_futures.Pairwise (fun a c =>
      (storage_key a).to_byte_array ≠ (storage_key c).to_byte_array)) :
    ∃ saved, builder.save_all fmt padding = .ok saved ∧
      saved.bmp_futures = [] ∧
      saved.current_offset
        = builder.current_offset + (storage_sizes fmt builder.bmp_futures).sum ∧
      (∀ k, k < builder.bmp_futures.length →
        ∃ found,
          saved.storage_offsets_lmdb.find
              (storage_key (builder.bmp_futures.getD k default_index))
            = { cursor := some found
                value := (storage_key (builder.bmp_futures.getD k default_index),
                  expected_storage_range fmt builder.bmp_futures builder.current_offset k) }) ∧
      (expected_storage_range fmt builder.bmp_futures builder.current_offset 0).start_offset
        = builder.current_offset ∧
      (∀ k, k < builder.bmp_futures.length →
        (expected_storage_range fmt builder.bmp_futures builder.current_offset k).end_offset
          = (expected_storage_range fmt builder.bmp_futures builder.current_offset
              k).start_offset
            + get_total_byte_size fmt (builder.bmp_futures.getD k default_index).storage) ∧
      (∀ k, k + 1 < builder.bmp_futures.length →
        (expected_storage_range fmt builder.bmp_futures builder.current_offset
            (k + 1)).start_offset
          = (expected_storage_range fmt builder.bmp_futures builder.current_offset
              k).end_offset) ∧
      (∀ k l, k < l → l < builder.bmp_futures.length →
        (expected_storage_range fmt builder.bmp_futures builder.current_offset k).end_offset
          ≤ (expected_storage_range fmt builder.bmp_futures builder.current_offset
              l).start_offset) ∧
      (∀ k, k < builder.bmp_futures.length →
        4096 ∣ get_total_byte_size fmt (builder.bmp_futures.getD k default_index).storage) ∧
      (4096 ∣ builder.current_offset → ∀ k, k < builder.bmp_futures.length →
        4096 ∣ (expected_storage_range fmt builder.bmp_futures builder.current_offset
          k).start_offset) := by
  obtain ⟨r, hr, he, hs, hio⟩ := save_all_loop_spec fmt padding builder.bmp_futures
    builder.current_offset builder.bitmap_offsets_lmdb builder.file hwrite hcount hsum hend
    hfresh (hdistinct.imp (fun h i j => bitmap_key_ne_of_storage_key_ne _ _ i j h))
  have hcheck := check_written_sizes_eq (storage_sizes fmt builder.bmp_futures) 0 (by omega)
  rw [Nat.zero_add] at hcheck
  have hpair : r.lmdb_entries.Pairwise
      (fun p q => p.1.to_byte_array ≠ q.1.to_byte_array) := by
    rw [he, List.pairwise_map]
    refine List.Pairwise.imp_of_mem ?_ (List.pairwise_lt_range builder.bmp_futures.length)
    intro a b ha hb hab
    rw [List.mem_range] at ha hb
    rw [List.getD_eq_getElem _ _ ha, List.getD_eq_getElem _ _ hb]
    exact List.pairwise_iff_getElem.mp hdistinct a b ha hb hab
  obtain ⟨dict1, hins, hperm⟩ := storage_insert_fresh r.lmdb_entries
    builder.storage_offsets_lmdb (fun e hmem p hp => by
      rw [he] at hp
      obtain ⟨k, hk, hkp⟩ := List.mem_map.mp hp
      rw [← hkp]
      exact hstorage_fresh e hmem _ (getD_mem_of_lt _ k (List.mem_range.mp hk))) hpair
  have hstart : ∀ k, k + 1 ≤ builder.bmp_futures.length →
      ((storage_sizes fmt builder.bmp_futures).take (k + 1)).sum
        = ((storage_sizes fmt builder.bmp_futures).take k).sum
          + (storage_sizes fmt builder.bmp_futures).getD k 0 := by
    intro k hk
    exact sum_take_succ_getD _ k (by simp only [storage_sizes, List.length_map]; omega)
  refine ⟨{ bmp_futures := []
            bitmap_offsets_lmdb := r.bitmap_offsets_lmdb
            storage_offsets_lmdb := dict1
            aux_data_lmdb := builder.aux_data_lmdb
            file := r.file
            current_offset
              := builder.current_offset + (storage_sizes fmt builder.bmp_futures).sum },
    ?_, rfl, rfl, ?_, by simp [expected_storage_range], ?_, ?_, ?_, ?_, ?_⟩
  · unfold BatchBitmapIndexBuilder.save_all
    simp only [hr, hs, hio, hcheck, hins, Nat.mod_eq_of_lt hend]
  · intro k hk
    apply storage_find_mem
    · apply hperm.symm.subset
      apply List.mem_append_left
      rw [he]
      exact List.mem_map.mpr ⟨k, List.mem_range.mpr hk, rfl⟩
    · intro e hmem hbytes
      rcases List.mem_append.mp (hperm.subset hmem) with h1 | h1
      · rw [he] at h1
        obtain ⟨m, hm, hme⟩ := List.mem_map.mp h1
        rw [List.mem_range] at hm
        rw [← hme] at hbytes ⊢
        have hkm : m = k := by
          by_contra hne
          rcases Nat.lt_or_gt_of_ne hne with hlt | hgt
          · have := List.pairwise_iff_getElem.mp hdistinct m k hm hk hlt
            rw [List.getD_eq_getElem _ _ hm, List.getD_eq_getElem _ _ hk] at hbytes
            exact this hbytes
          · have := List.pairwise_iff_getElem.mp hdistinct k m hk hm hgt
            rw [List.getD_eq_getElem _ _ hm, List.getD_eq_getElem _ _ hk] at hbytes
            exact this hbytes.symm
        subst hkm
        rfl
      · exact absurd hbytes (hstorage_fresh e h1 _ (getD_mem_of_lt _ k hk))
  · intro k hk
    simp only [expected_storage_range, getD_storage_sizes fmt _ k hk]
  · intro k hk
    simp only [expected_storage_range, hstart k (by omega)]
    omega
  · intro k l hkl hl
    have h1 := hstart k (by omega)
    have h2 := sum_take_mono (storage_sizes fmt builder.bmp_futures) (k + 1) l hkl
    simp only [expected_storage_range]
    omega
  · intro k hk
    unfold get_total_byte_size
    exact round_to_disk_block_size_dvd _
  · intro hdvd k hk
    simp only [expected_storage_range]
    apply Nat.dvd_add hdvd
    apply List.dvd_sum
    intro x hx
    have hx1 := List.mem_of_mem_take hx
    simp only [storage_sizes, List.mem_map] at hx1
    obtain ⟨index, _, hix⟩ := hx1
    rw [← hix]
    unfold get_total_byte_size
    exact round_to_disk_block_size_dvd _

theorem save_all_ranges_witness :
    (∀ bmp, ((constant_size_format 600).write bmp).length
      = get_save_byte_size (constant_size_format 600) bmp) ∧
    (∀ index ∈ test_builder.bmp_futures,
      (collected_bitmaps index.storage).length ≤ 2 ^ 16) ∧
    (∀ index ∈ test_builder.bmp_futures,
      ((collected_bitmaps index.storage).map
        (get_save_byte_size (constant_size_format 600))).sum ≤ 2 ^ 32 - 4096) ∧
    test_builder.current_offset
      + (storage_sizes (constant_size_format 600) test_builder.bmp_futures).sum < 2 ^ 32 ∧
    ∃ saved, test_builder.save_all (constant_size_format 600) [] = .ok saved ∧
      saved.bmp_futures = [] ∧
      saved.current_offset
        = test_builder.current_offset + (storage_sizes (constant_size_format 600) test_builder.bmp_futures).sum ∧
      (∀ k, k < test_builder.bmp_futures.length →
        ∃ found,
          saved.storage_offsets_lmdb.find
              (storage_key (test_builder.bmp_futures.getD k default_index))
            = { cursor := some found
                value := (storage_key (test_builder.bmp_futures.getD k default_index),
                  expected_storage_range (constant_size_format 600) test_builder.bmp_futures test_builder.current_offset k) }) ∧
      (expected_storage_range (constant_size_format 600) test_builder.bmp_futures test_builder.current_offset 0).start_offset
        = test_builder.current_offset ∧
      (∀ k, k < test_builder.bmp_futures.length →
        (expected_storage_range (constant_size_format 600) test_builder.bmp_futures test_builder.current_offset k).end_offset
          = (expected_storage_range (constant_size_format 600) test_builder.bmp_futures test_builder.current_offset
              k).start_offset
            + get_total_byte_size (constant_size_format 600) (test_builder.bmp_futures.getD k default_index).storage) ∧
      (∀ k, k + 1 < test_builder.bmp_futures.length →
        (expected_storage_range (constant_size_format 600) test_builder.bmp_futures test_builder.current_offset
            (k + 1)).start_offset
          = (expected_storage_range (constant_size_format 600) test_builder.bmp_futures test_builder.current_offset
              k).end_offset) ∧
      (∀ k l, k < l → l < test_builder.bmp_futures.length →
        (expected_storage_range (constant_size_format 600) test_builder.bmp_futures test_builder.current_offset k).end_offset
          ≤ (expected_storage_range (constant_size_format 600) test_builder.bmp_futures test_builder.current_offset
              l).start_offset) ∧
      (∀ k, k < test_builder.bmp_futures.length →
        4096 ∣ get_total_byte_size (constant_size_format 600) (test_builder.bmp_futures.getD k default_index).storage) ∧
      (4096 ∣ test_builder.current_offset → ∀ k, k < test_builder.bmp_futures.length →
        4096 ∣ (expected_storage_range (constant_size_format 600) test_builder.bmp_futures test_builder.current_offset
          k).start_offset) :=
  ⟨fun _ => List.length_replicate _ _, by decide, by decide, by decide,
   save_all_ranges (constant_size_format 600) [] test_builder
    (fun _ => List.length_replicate _ _) (by decide) (by decide) (by decide)
    (fun e he => absurd he (List.not_mem_nil e))
    (fun e he => absurd he (List.not_mem_nil e))
    (List.pairwise_singleton _ _)⟩

/-- C24 (as stated) fails where the cursor wraps: a builder that has written
`2 ^ 32 - 4096` bytes saves a storage of 4096 bytes under the range
`(2 ^ 32 - 4096, 0)`, and its current offset is 0 afterwards: it has not grown by the
size. -/
theorem save_all_wraps :
    get_total_byte_size (constant_size_format 8) test_finished_index.storage = 4096 ∧
    test_builder_at_4gb.current_offset = 4294963200 ∧
    ∃ saved, test_builder_at_4gb.save_all (constant_size_format 8) [] = .ok saved ∧
      saved.current_offset = 0 ∧
      saved.storage_offsets_lmdb
        = [(storage_key test_finished_index,
            { start_offset := 4294963200, end_offset := 0 })] := by
  refine ⟨by decide, rfl, ?_⟩
  obtain ⟨dict1, file1, hsave, _⟩ := save_spec (constant_size_format 8) test_rg_id
    test_column_path test_created_storage [] empty_file [] 4294963200
    (fun _ => List.length_replicate _ _) (fun e he => absurd he (List.not_mem_nil e))
    (by decide) (by decide) (by decide)
  have htotal : get_total_byte_size (constant_size_format 8) test_created_storage = 4096 := by
    decide
  rw [htotal] at hsave
  refine ⟨{ bmp_futures := []
            bitmap_offsets_lmdb := dict1
            storage_offsets_lmdb := [(storage_key test_finished_index,
              { start_offset := 4294963200, end_offset := 0 })]
            aux_data_lmdb := []
            file := file1
            current_offset := 0 }, ?_, rfl, rfl⟩
  have hloop : save_all_loop (constant_size_format 8) [] [test_finished_index] 4294963200 []
      empty_file
      = .ok { lmdb_entries := [(storage_key test_finished_index,
                { start_offset := 4294963200, end_offset := 0 })]
              expected_sizes := [4096]
              io_sizes := [4096]
              bitmap_offsets_lmdb := dict1
              file := file1 } := by
    have h1 : test_finished_index.storage.save (constant_size_format 8)
        test_finished_index.rg_id test_finished_index.column_dotted_path [] empty_file []
        4294963200 = .ok (dict1, file1, 4096) := hsave
    have h2 : get_total_byte_size (constant_size_format 8) test_finished_index.storage
        = 4096 := htotal
    simp only [save_all_loop, h1, h2]
    rfl
  have hb : test_builder_at_4gb.save_all (constant_size_format 8) []
      = (match save_all_loop (constant_size_format 8) [] [test_finished_index] 4294963200 []
            empty_file with
        | .error e => .error e
        | .ok r =>
          match check_written_sizes r.expected_sizes r.io_sizes 0 with
          | .error e => .error e
          | .ok total_bytes_written =>
            match StorageDictionary.insert ([] : StorageDictionary OffsetRange)
                r.lmdb_entries with
            | .error e => .error e
            | .ok storage_offsets =>
              .ok { bmp_futures := []
                    bitmap_offsets_lmdb := r.bitmap_offsets_lmdb
                    storage_offsets_lmdb := storage_offsets
                    aux_data_lmdb := []
                    file := r.file
                    current_offset := (4294963200 + total_bytes_written) % 2 ^ 32 }) := rfl
  rw [hb, hloop]
  rfl

/-! ## Saving a storage and loading it back -/

theorem sum_map_le_of_le (fmt : RoaringFormat) (bitmaps : List BitMap) (bound : Nat)
    (h : ∀ bmp, get_save_byte_size fmt bmp ≤ bound) :
    (bitmaps.map (get_save_byte_size fmt)).sum ≤ bitmaps.length * bound := by
  induction bitmaps with
  | nil => simp
  | cons x rest ih =>
    simp only [List.map_cons, List.sum_cons, List.length_cons]
    have := h x
    rw [Nat.succ_mul]
    omega

/-- C25 (what the code does): a storage with the bitmap counts `[128, 128]`, whatever its
bitmaps hold, is saved with 257 entries in the offsets dictionary; loading it back eagerly
from the range and the dictionary that `save` produced throws `std::runtime_error` in
`load_offsets`, because the cursor meets the key number 256 right after the key number 0.
No loaded storage is returned. -/
theorem save_then_load_throws (fmt : RoaringFormat) (rg_id : Nat) (path : List Nat)
    (st : BitMapStorage) (file : DataFile) (padding : List Nat) (offset : Nat)
    (indeterminate : OffsetRange)
    (hcounts : st.bitmap_counts = [128, 128])
    (hwrite : ∀ bmp, (fmt.write bmp).length = get_save_byte_size fmt bmp)
    (hsize : ∀ bmp, get_save_byte_size fmt bmp ≤ 4096) :
    ∃ dict1 file1,
      st.save fmt rg_id path [] file padding offset
        = .ok (dict1, file1, get_total_byte_size fmt st) ∧
      LoadedBitMapStorage.load fmt rg_id path file1
          { start_offset := offset
            end_offset := (offset + get_total_byte_size fmt st) % 2 ^ 32 }
          st.bitmap_counts dict1 indeterminate INT_MAX true
        = .error .runtime_error := by
  have hlen : (collected_bitmaps st).length = 257 := by
    simp [collected_bitmaps, component_bitmaps_length, hcounts]
  have hsum : ((collected_bitmaps st).map (get_save_byte_size fmt)).sum ≤ 2 ^ 32 - 4096 := by
    have := sum_map_le_of_le fmt (collected_bitmaps st) 4096 hsize
    rw [hlen] at this
    omega
  have hS : ((collected_bitmaps st).map (get_save_byte_size fmt)).sum % 2 ^ 32
      = ((collected_bitmaps st).map (get_save_byte_size fmt)).sum :=
    Nat.mod_eq_of_lt (by omega)
  have htotal := save_total_size_eq fmt st
  rw [hS] at htotal
  obtain ⟨_, hge, _, _⟩ := round_to_disk_block_size_spec _ hsum
  rw [htotal] at hge
  obtain ⟨buffer, hbuf, _⟩ := save_write_loop_ok fmt (get_total_byte_size fmt st)
    (collected_bitmaps st) [] hwrite (by simpa using hge)
  obtain ⟨e0, e1, rest, hins, h0, h1⟩ := saved_offsets_head rg_id path offset
    ((collected_bitmaps st).map (get_save_byte_size fmt)) 0 0 [] (by norm_num)
    (by rw [List.length_map, hlen]) rfl
  refine ⟨e0 :: e1 :: rest, write_file file offset (buffer ++
    (List.range (get_total_byte_size fmt st - buffer.length)).map
      (fun k => padding.getD k 0)), ?_, ?_⟩
  · unfold BitMapStorage.save
    simp only [hS, htotal, hbuf, hins]
  · have hthrow := load_offsets_throws rg_id path e0 e1 rest 127 [128] h0
      (by rw [h1]; simp [BitmapLMDBID.new])
    unfold LoadedBitMapStorage.load
    simp only [hcounts, Bool.not_true, Bool.false_eq_true, if_false, hthrow]

theorem save_then_load_throws_witness :
    storage_257.bitmap_counts = [128, 128] ∧
    ∃ dict1 file1,
      storage_257.save (constant_size_format 8) test_rg_id test_column_path [] empty_file [] 0
        = .ok (dict1, file1, get_total_byte_size (constant_size_format 8) storage_257) ∧
      LoadedBitMapStorage.load (constant_size_format 8) test_rg_id test_column_path file1
          { start_offset := 0
            end_offset
              := (0 + get_total_byte_size (constant_size_format 8) storage_257) % 2 ^ 32 }
          storage_257.bitmap_counts dict1 default INT_MAX true
        = .error .runtime_error :=
  ⟨rfl,
   save_then_load_throws (constant_size_format 8) test_rg_id test_column_path storage_257
    empty_file [] 0 default rfl (fun _ => List.length_replicate _ _)
    (fun _ => by simp [get_save_byte_size, constant_size_format])⟩

/-! ## The storage that is loaded without its bitmaps -/

theorem recompute_frequency_threshold_bitmaps (st : LoadedBitMapStorage) :
    st.recompute_frequency_threshold.bitmaps = st.bitmaps ∧
    st.recompute_frequency_threshold.bitmap_offsets = st.bitmap_offsets ∧
    st.recompute_frequency_threshold.frequencies = st.frequencies := by
  unfold LoadedBitMapStorage.recompute_frequency_threshold
  simp only
  split <;> exact ⟨rfl, rfl, rfl⟩

theorem increase_frequency_bitmaps (st st1 : LoadedBitMapStorage) (component i : Nat)
    (h : st.increase_frequency component i = .ok st1) :
    st1.bitmaps = st.bitmaps ∧ st1.bitmap_offsets = st.bitmap_offsets := by
  unfold LoadedBitMapStorage.increase_frequency at h
  split at h
  · cases h
  · simp only at h
    split at h
    · cases h
      exact ⟨(recompute_frequency_threshold_bitmaps st).1,
        (recompute_frequency_threshold_bitmaps st).2.1⟩
    · cases h
      exact ⟨rfl, rfl⟩

theorem increase_frequency_error (st : LoadedBitMapStorage) (component i : Nat)
    (e : IndexError) (h : st.increase_frequency component i = .error e) :
    e = .out_of_bounds := by
  unfold LoadedBitMapStorage.increase_frequency at h
  split at h
  · cases h
    rfl
  · cases h

/-- The constructor leaves every bitmap null. -/
theorem at2_null_bitmaps (counts : List Nat) (component i : Nat) :
    at2 (counts.map (fun count => List.replicate count (none : Option BitMap))) component i
        = none ∨
    at2 (counts.map (fun count => List.replicate count (none : Option BitMap))) component i
        = some none := by
  unfold at2
  cases h : (counts.map (fun count => List.replicate count (none : Option BitMap)))[component]?
    with
  | none => exact Or.inl rfl
  | some row =>
    simp only
    rw [List.getElem?_map] at h
    cases hc : counts[component]? with
    | none => rw [hc] at h; cases h
    | some count =>
      rw [hc] at h
      simp only [Option.map_some', Option.some.injEq] at h
      rw [← h]
      by_cases hi : i < count
      · right
        rw [List.getElem?_replicate]
        simp [hi]
      · left
        rw [List.getElem?_replicate]
        simp [hi]

/-- C26 (what the code does): `BitMapStorage::load` without `load_all_bitmaps`, its
default, returns the storage as the constructor made it, whatever the cache size: no bitmap
is in memory and `load_offsets` has not run, so `bitmap_offsets` is empty, and every call
of `load_bitmap` and of `load_const_bitmap` indexes the empty vector instead of returning
the persisted contents of the bitmap. -/
theorem lazy_load_bitmap_out_of_bounds (fmt : RoaringFormat) (rg_id : Nat) (path : List Nat)
    (file : DataFile) (offsets : OffsetRange) (bitmap_counts : List Nat)
    (dict : BitmapOffsetsDictionary) (indeterminate : OffsetRange) (bitmap_cache_size : Nat)
    (component i : Nat) (always_store : Bool) :
    default_load_all_bitmaps = false ∧
    ∃ st, LoadedBitMapStorage.load fmt rg_id path file offsets bitmap_counts dict
        indeterminate bitmap_cache_size default_load_all_bitmaps = .ok st ∧
      st.bitmap_offsets = [] ∧
      st.load_bitmap fmt file component i always_store = .error .out_of_bounds ∧
      st.load_const_bitmap fmt file component i always_store = .error .out_of_bounds := by
  refine ⟨rfl, LoadedBitMapStorage.new rg_id path bitmap_counts bitmap_cache_size
    indeterminate, rfl, ?_, ?_, ?_⟩
  · exact (recompute_frequency_threshold_bitmaps _).2.1
  · unfold LoadedBitMapStorage.load_bitmap
    cases h : (LoadedBitMapStorage.new rg_id path bitmap_counts bitmap_cache_size
        indeterminate).increase_frequency component i with
    | error e => rw [increase_frequency_error _ _ _ _ h]
    | ok st1 =>
      obtain ⟨hb, ho⟩ := increase_frequency_bitmaps _ _ _ _ h
      have hb1 : st1.bitmaps
          = bitmap_counts.map (fun count => List.replicate count none) := by
        rw [hb]
        exact (recompute_frequency_threshold_bitmaps _).1
      have ho1 : st1.bitmap_offsets = [] := by
        rw [ho]
        exact (recompute_frequency_threshold_bitmaps _).2.1
      simp only
      rcases at2_null_bitmaps bitmap_counts component i with hn | hn
      · rw [hb1, hn]
      · rw [hb1, hn]
        simp only [ho1, at2, List.getElem?_nil]
  · unfold LoadedBitMapStorage.load_const_bitmap
    cases h : (LoadedBitMapStorage.new rg_id path bitmap_counts bitmap_cache_size
        indeterminate).increase_frequency component i with
    | error e => rw [increase_frequency_error _ _ _ _ h]
    | ok st1 =>
      obtain ⟨hb, ho⟩ := increase_frequency_bitmaps _ _ _ _ h
      have hb1 : st1.bitmaps
          = bitmap_counts.map (fun count => List.replicate count none) := by
        rw [hb]
        exact (recompute_frequency_threshold_bitmaps _).1
      have ho1 : st1.bitmap_offsets = [] := by
        rw [ho]
        exact (recompute_frequency_threshold_bitmaps _).2.1
      simp only
      rcases at2_null_bitmaps bitmap_counts component i with hn | hn
      · rw [hb1, hn]
      · rw [hb1, hn]
        simp only [ho1, at2, List.getElem?_nil]

/-! ## Opening an index whose tables have no entry -/

/-- The search for a key whose bytes are not in the dictionary returns `end()`. -/
theorem storage_find_none {V : Type} [Inhabited V] (dict : StorageDictionary V)
    (key : BitmapStorageLMDBID) (h : ∀ e ∈ dict, e.1.to_byte_array ≠ key.to_byte_array) :
    dict.find key = StorageDictionary.end_iterator := by
  unfold StorageDictionary.find
  rw [storage_mdb_set_none dict key 0 h]

theorem end_iterator_equals {V : Type} [Inhabited V] :
    (StorageDictionary.end_iterator : storage_iterator V).equals
      StorageDictionary.end_iterator = true := by
  simp [storage_iterator.equals, StorageDictionary.end_iterator]

/-- An iterator that `find` returned and that is not `end()` stands at an entry with the
bytes of the key. -/
theorem storage_find_found {V : Type} [Inhabited V] (dict : StorageDictionary V)
    (key : BitmapStorageLMDBID)
    (h : (dict.find key).equals StorageDictionary.end_iterator = false) :
    ∃ e ∈ dict, e.1.to_byte_array = key.to_byte_array ∧ (dict.find key).value.2 = e.2 := by
  unfold StorageDictionary.find at h ⊢
  cases hs : storage_mdb_set dict key 0 with
  | none =>
    rw [hs] at h
    simp only at h
    rw [end_iterator_equals] at h
    cases h
  | some r =>
    obtain ⟨e, he, hb, hv⟩ := storage_mdb_set_some dict key 0 r hs
    exact ⟨e, he, hb, hv.symm⟩

theorem load_storage_offset_range_none (batch : BatchBitmapIndex) (rg_id : Nat)
    (column_ref : ColumnReference)
    (h : ∀ e ∈ batch.storage_offsets_lmdb, e.1.to_byte_array
      ≠ ({ rg_id := rg_id, column_dotted_path := column_ref.dotted_path }
          : BitmapStorageLMDBID).to_byte_array) :
    batch.load_storage_offset_range rg_id column_ref = none := by
  unfold BatchBitmapIndex.load_storage_offset_range
  simp only [storage_find_none _ _ h, end_iterator_equals, true_or, if_true]

theorem load_storage_offset_range_some (batch : BatchBitmapIndex) (rg_id : Nat)
    (column_ref : ColumnReference) (offsets : OffsetRange)
    (h : batch.load_storage_offset_range rg_id column_ref = some offsets) :
    ∃ e ∈ batch.storage_offsets_lmdb, e.1.to_byte_array
      = ({ rg_id := rg_id, column_dotted_path := column_ref.dotted_path }
          : BitmapStorageLMDBID).to_byte_array ∧ e.2 = offsets := by
  unfold BatchBitmapIndex.load_storage_offset_range at h
  simp only at h
  split at h
  · cases h
  · rename_i hn
    simp only [not_or, Bool.not_eq_true] at hn
    obtain ⟨e, he, hb, hv⟩ := storage_find_found _ _ hn.1
    simp only [Option.some.injEq] at h
    exact ⟨e, he, hb, by rw [← hv, h]⟩

theorem get_aux_data_none (rg_info : RowGroupInfo) (column_ref : ColumnReference)
    (aux_data_lmdb : StorageDictionary BitmapIndexAuxData)
    (h : ∀ e ∈ aux_data_lmdb, e.1.to_byte_array
      ≠ ({ rg_id := rg_info.id, column_dotted_path := column_ref.dotted_path }
          : BitmapStorageLMDBID).to_byte_array) :
    get_aux_data rg_info column_ref aux_data_lmdb = none := by
  unfold get_aux_data
  simp only [storage_find_none _ _ h, end_iterator_equals, if_true]

theorem get_aux_data_some (rg_info : RowGroupInfo) (column_ref : ColumnReference)
    (aux_data_lmdb : StorageDictionary BitmapIndexAuxData) (aux_data : BitmapIndexAuxData)
    (h : get_aux_data rg_info column_ref aux_data_lmdb = some aux_data) :
    ∃ e ∈ aux_data_lmdb, e.1.to_byte_array
      = ({ rg_id := rg_info.id, column_dotted_path := column_ref.dotted_path }
          : BitmapStorageLMDBID).to_byte_array ∧ e.2 = aux_data := by
  unfold get_aux_data at h
  simp only at h
  split at h
  · cases h
  · rename_i hn
    simp only [Bool.not_eq_true] at hn
    obtain ⟨e, he, hb, hv⟩ := storage_find_found _ _ hn
    simp only [Option.some.injEq] at h
    exact ⟨e, he, hb, by rw [← hv, h]⟩

/-- C27 (what the code does): for a row group of the batch,
`get_bitmap_index(rg_id, column)` returns the null pointer whenever the table of the
storage offsets has no entry under the key bytes of `(rg_id, column path)`, and whenever
the table of the auxiliary data has no entry under the key bytes of the id of the row group
at the place `rg_id` and the column path (the key of `(rg_id, column path)` when the row
groups of the batch are numbered by their place), whatever the data file, the table of the
bitmap offsets and the other tables hold; an index is returned only when both tables have
their entry. -/
theorem get_bitmap_index_missing (fmt : RoaringFormat) (batch : BatchBitmapIndex)
    (indeterminate : OffsetRange) (rg_id : Nat) (column_ref : ColumnReference)
    (rg_info : RowGroupInfo) (hrg : batch.batch_info.rg_info[rg_id]? = some rg_info) :
    ((∀ e ∈ batch.storage_offsets_lmdb, e.1.to_byte_array
        ≠ ({ rg_id := rg_id, column_dotted_path := column_ref.dotted_path }
            : BitmapStorageLMDBID).to_byte_array) →
      batch.get_bitmap_index fmt indeterminate rg_id column_ref = .ok none) ∧
    ((∀ e ∈ batch.aux_data_lmdb, e.1.to_byte_array
        ≠ ({ rg_id := rg_info.id, column_dotted_path := column_ref.dotted_path }
            : BitmapStorageLMDBID).to_byte_array) →
      batch.get_bitmap_index fmt indeterminate rg_id column_ref = .ok none) ∧
    (rg_info.id = rg_id →
      (∀ e ∈ batch.aux_data_lmdb, e.1.to_byte_array
        ≠ ({ rg_id := rg_id, column_dotted_path := column_ref.dotted_path }
            : BitmapStorageLMDBID).to_byte_array) →
      batch.get_bitmap_index fmt indeterminate rg_id column_ref = .ok none) ∧
    (∀ index, batch.get_bitmap_index fmt indeterminate rg_id column_ref = .ok (some index) →
      (∃ e ∈ batch.storage_offsets_lmdb, e.1.to_byte_array
        = ({ rg_id := rg_id, column_dotted_path := column_ref.dotted_path }
            : BitmapStorageLMDBID).to_byte_array) ∧
      (∃ e ∈ batch.aux_data_lmdb, e.1.to_byte_array
        = ({ rg_id := rg_info.id, column_dotted_path := column_ref.dotted_path }
            : BitmapStorageLMDBID).to_byte_array)) := by
  have hB : (∀ e ∈ batch.aux_data_lmdb, e.1.to_byte_array
        ≠ ({ rg_id := rg_info.id, column_dotted_path := column_ref.dotted_path }
            : BitmapStorageLMDBID).to_byte_array) →
      batch.get_bitmap_index fmt indeterminate rg_id column_ref = .ok none := by
    intro h
    unfold BatchBitmapIndex.get_bitmap_index
    simp only [hrg, get_aux_data_none rg_info column_ref _ h]
    cases batch.load_storage_offset_range rg_id column_ref <;> rfl
  refine ⟨?_, hB, ?_, ?_⟩
  · intro h
    unfold BatchBitmapIndex.get_bitmap_index
    simp only [hrg, load_storage_offset_range_none batch rg_id column_ref h]
  · intro hid h
    rw [← hid] at h
    exact hB h
  · intro index h
    unfold BatchBitmapIndex.get_bitmap_index at h
    simp only [hrg] at h
    cases ho : batch.load_storage_offset_range rg_id column_ref with
    | none => rw [ho] at h; cases h
    | some offsets =>
      rw [ho] at h
      simp only at h
      cases ha : get_aux_data rg_info column_ref batch.aux_data_lmdb with
      | none => rw [ha] at h; cases h
      | some aux_data =>
        obtain ⟨e1, he1, hb1, _⟩ := load_storage_offset_range_some batch rg_id column_ref
          offsets ho
        obtain ⟨e2, he2, hb2, _⟩ := get_aux_data_some rg_info column_ref _ aux_data ha
        exact ⟨⟨e1, he1, hb1⟩, ⟨e2, he2, hb2⟩⟩

theorem get_bitmap_index_missing_witness :
    test_aborted_batch.batch_info.rg_info[0]? = some { id := 0, num_docs := 7 } ∧
    test_aborted_batch.get_bitmap_index (constant_size_format 8) default 0 test_column_ref
      = .ok none ∧
    ((∀ e ∈ test_aborted_batch.storage_offsets_lmdb, e.1.to_byte_array
        ≠ ({ rg_id := 0, column_dotted_path := test_column_ref.dotted_path }
            : BitmapStorageLMDBID).to_byte_array) →
      test_aborted_batch.get_bitmap_index (constant_size_format 8) default 0 test_column_ref
        = .ok none) ∧
    ((∀ e ∈ test_aborted_batch.aux_data_lmdb, e.1.to_byte_array
        ≠ ({ rg_id := ({ id := 0, num_docs := 7 } : RowGroupInfo).id
             column_dotted_path := test_column_ref.dotted_path }
            : BitmapStorageLMDBID).to_byte_array) →
      test_aborted_batch.get_bitmap_index (constant_size_format 8) default 0 test_column_ref
        = .ok none) ∧
    (({ id := 0, num_docs := 7 } : RowGroupInfo).id = 0 →
      (∀ e ∈ test_aborted_batch.aux_data_lmdb, e.1.to_byte_array
        ≠ ({ rg_id := 0, column_dotted_path := test_column_ref.dotted_path }
            : BitmapStorageLMDBID).to_byte_array) →
      test_aborted_batch.get_bitmap_index (constant_size_format 8) default 0 test_column_ref
        = .ok none) ∧
    (∀ index,
      test_aborted_batch.get_bitmap_index (constant_size_format 8) default 0 test_column_ref
        = .ok (some index) →
      (∃ e ∈ test_aborted_batch.storage_offsets_lmdb, e.1.to_byte_array
        = ({ rg_id := 0, column_dotted_path := test_column_ref.dotted_path }
            : BitmapStorageLMDBID).to_byte_array) ∧
      (∃ e ∈ test_aborted_batch.aux_data_lmdb, e.1.to_byte_array
        = ({ rg_id := ({ id := 0, num_docs := 7 } : RowGroupInfo).id
             column_dotted_path := test_column_ref.dotted_path }
            : BitmapStorageLMDBID).to_byte_array)) :=
  ⟨rfl,
   (get_bitmap_index_missing (constant_size_format 8) test_aborted_batch default 0
    test_column_ref { id := 0, num_docs := 7 } rfl).1
      (fun e he => absurd he (List.not_mem_nil e)),
   get_bitmap_index_missing (constant_size_format 8) test_aborted_batch default 0
    test_column_ref { id := 0, num_docs := 7 } rfl⟩

/-- C27 (the claim fails on the code): in a batch whose row group at place 0 has the id 2,
with the range of a storage recorded under the key of `(0, column)` only, and auxiliary
data and bitmap offsets under the keys of the row group id 2 only,
`get_bitmap_index(0, column)` returns an index, although the table of the auxiliary data
has no entry for `(0, column path)` and the table of the storage offsets has none for the
row group id 2: the storage offsets are looked up under the place `rg_id`, the auxiliary
data under the id of the row group at that place. -/
theorem get_bitmap_index_mixed_keys :
    test_mixed_batch.batch_info.rg_info[0]? = some { id := 2, num_docs := 7 } ∧
    (∀ e ∈ test_mixed_batch.aux_data_lmdb, e.1.to_byte_array
      ≠ ({ rg_id := 0, column_dotted_path := test_column_ref.dotted_path }
          : BitmapStorageLMDBID).to_byte_array) ∧
    (∀ e ∈ test_mixed_batch.storage_offsets_lmdb, e.1.to_byte_array
      ≠ ({ rg_id := 2, column_dotted_path := test_column_ref.dotted_path }
          : BitmapStorageLMDBID).to_byte_array) ∧
    (test_mixed_batch.get_bitmap_index (constant_size_format 8) default 0
      test_column_ref).map Option.isSome = .ok true := by
  decide

/-! ## The cache of a storage whose offsets are loaded -/

theorem at2_set2_ne {α : Type} (v : List (List α)) (c i c1 i1 : Nat) (x : α)
    (h : ¬ (c1 = c ∧ i1 = i)) : at2 (set2 v c i x) c1 i1 = at2 v c1 i1 := by
  unfold at2 set2
  by_cases hc : c1 = c
  · subst hc
    have hi : i ≠ i1 := fun e => h ⟨rfl, e.symm⟩
    by_cases hl : c1 < v.length
    · rw [List.getElem?_set_self hl, List.getElem?_eq_getElem hl]
      simp only
      rw [List.getD_eq_getElem _ _ hl, List.getElem?_set_ne hi]
    · rw [List.set_eq_of_length_le (by omega)]
  · rw [List.getElem?_set_ne (fun e => hc e.symm)]

theorem at2_set2_eq {α : Type} (v : List (List α)) (c i : Nat) (x : α)
    (h : (at2 v c i).isSome) : at2 (set2 v c i x) c i = some x := by
  unfold at2 at h
  unfold at2 set2
  by_cases hl : c < v.length
  · rw [List.getElem?_eq_getElem hl] at h
    simp only at h
    rw [List.getElem?_set_self hl]
    simp only
    rw [List.getD_eq_getElem _ _ hl]
    have hi : i < v[c].length := by
      by_contra hn
      rw [List.getElem?_eq_none (by omega)] at h
      simp at h
    rw [List.getElem?_set_self hi]
  · rw [List.getElem?_eq_none (by omega)] at h
    simp at h

theorem at2_set2_isSome {α : Type} (v : List (List α)) (c i c1 i1 : Nat) (x : α) :
    (at2 (set2 v c i x) c1 i1).isSome = (at2 v c1 i1).isSome := by
  by_cases h : c1 = c ∧ i1 = i
  · obtain ⟨h1, h2⟩ := h
    subst h1 h2
    cases hs : (at2 v c1 i1).isSome with
    | true => rw [at2_set2_eq v c1 i1 x hs]; rfl
    | false =>
      unfold at2 at hs
      unfold at2 set2
      by_cases hl : c1 < v.length
      · rw [List.getElem?_eq_getElem hl] at hs
        simp only at hs
        rw [List.getElem?_set_self hl]
        simp only
        rw [List.getD_eq_getElem _ _ hl]
        have hi : ¬ i1 < v[c1].length := by
          intro hn
          rw [List.getElem?_eq_getElem hn] at hs
          simp at hs
        rw [List.getElem?_eq_none (by rw [List.length_set]; omega)]
        rfl
      · rw [List.set_eq_of_length_le (by omega), List.getElem?_eq_none (by omega)]
        rfl
  · rw [at2_set2_ne v c i c1 i1 x h]

theorem recompute_frequency_threshold_fields (st : LoadedBitMapStorage) :
    st.recompute_frequency_threshold.bitmap_counts = st.bitmap_counts ∧
    st.recompute_frequency_threshold.frequencies = st.frequencies ∧
    st.recompute_frequency_threshold.bitmaps = st.bitmaps ∧
    st.recompute_frequency_threshold.bitmap_offsets = st.bitmap_offsets ∧
    st.recompute_frequency_threshold.all_values_bitmap = st.all_values_bitmap ∧
    st.recompute_frequency_threshold.all_values_bitmap_offsets
      = st.all_values_bitmap_offsets := by
  unfold LoadedBitMapStorage.recompute_frequency_threshold
  simp only
  split <;> exact ⟨rfl, rfl, rfl, rfl, rfl, rfl⟩

/-- The invariant depends on the counts, the three vectors and the all-values bitmap
only. -/
theorem offsets_loaded_of_fields (fmt : RoaringFormat) (file : DataFile)
    (st st1 : LoadedBitMapStorage) (h : offsets_loaded fmt file st)
    (h1 : st1.bitmap_counts = st.bitmap_counts)
    (h2 : ∀ c i, (at2 st1.frequencies c i).isSome = (at2 st.frequencies c i).isSome)
    (h3 : st1.bitmaps = st.bitmaps) (h4 : st1.bitmap_offsets = st.bitmap_offsets)
    (h5 : st1.all_values_bitmap = st.all_values_bitmap)
    (h6 : st1.all_values_bitmap_offsets = st.all_values_bitmap_offsets) :
    offsets_loaded fmt file st1 :=
  { frequencies := fun c i hb => by rw [h2]; exact h.frequencies c i (h1 ▸ hb)
    bitmaps := fun c i hb => by rw [h3]; exact h.bitmaps c i (h1 ▸ hb)
    bitmap_offsets := fun c i hb => by rw [h4]; exact h.bitmap_offsets c i (h1 ▸ hb)
    consistent := fun c i bmp range hb ho => by
      rw [h3] at hb
      rw [h4] at ho
      exact h.consistent c i bmp range hb ho
    all_values := fun bmp hb => by
      rw [h5] at hb
      rw [h6]
      exact h.all_values bmp hb }

theorem increase_frequency_loaded (fmt : RoaringFormat) (file : DataFile)
    (st : LoadedBitMapStorage) (component i : Nat) (h : offsets_loaded fmt file st)
    (hb : in_bounds st.bitmap_counts component i) :
    ∃ st1, st.increase_frequency component i = .ok st1 ∧ offsets_loaded fmt file st1 ∧
      st1.bitmap_counts = st.bitmap_counts ∧ st1.bitmaps = st.bitmaps ∧
      st1.bitmap_offsets = st.bitmap_offsets ∧
      st1.all_values_bitmap_offsets = st.all_values_bitmap_offsets := by
  have hf := h.frequencies component i hb
  unfold LoadedBitMapStorage.increase_frequency
  cases hfr : at2 st.frequencies component i with
  | none => rw [hfr] at hf; cases hf
  | some frequency =>
    simp only
    obtain ⟨r1, r2, r3, r4, r5, r6⟩ := recompute_frequency_threshold_fields st
    by_cases heq : frequency = st.frequency_threshold
    · rw [if_pos heq]
      refine ⟨_, rfl, ?_, r1, r3, r4, r6⟩
      exact offsets_loaded_of_fields fmt file st _ h r1
        (fun c1 i1 => by simp only [at2_set2_isSome, r2]) r3 r4 r5 r6
    · rw [if_neg heq]
      refine ⟨_, rfl, ?_, rfl, rfl, rfl, rfl⟩
      exact offsets_loaded_of_fields fmt file st _ h rfl
        (fun c1 i1 => by simp only [at2_set2_isSome]) rfl rfl rfl rfl

theorem check_unload_loaded (fmt : RoaringFormat) (file : DataFile)
    (st : LoadedBitMapStorage) (component i : Nat) (h : offsets_loaded fmt file st)
    (hb : in_bounds st.bitmap_counts component i) :
    ∃ st1, st.check_unload component i = .ok st1 ∧ offsets_loaded fmt file st1 ∧
      st1.bitmap_counts = st.bitmap_counts ∧
      st1.bitmap_offsets = st.bitmap_offsets ∧
      st1.all_values_bitmap_offsets = st.all_values_bitmap_offsets := by
  have hf := h.frequencies component i hb
  unfold LoadedBitMapStorage.check_unload
  cases hfr : at2 st.frequencies component i with
  | none => rw [hfr] at hf; cases hf
  | some frequency =>
    simp only
    by_cases hge : frequency ≥ st.frequency_threshold
    · rw [if_pos hge]
      refine ⟨_, rfl, ?_, rfl, rfl, rfl⟩
      exact
        { frequencies := h.frequencies
          bitmaps := fun c1 i1 hb1 => by
            simp only [at2_set2_isSome]
            exact h.bitmaps c1 i1 hb1
          bitmap_offsets := h.bitmap_offsets
          consistent := fun c1 i1 bmp range hbm ho => by
            by_cases hci : c1 = component ∧ i1 = i
            · obtain ⟨e1, e2⟩ := hci
              subst e1 e2
              simp only at hbm
              rw [at2_set2_eq _ _ _ _ (h.bitmaps c1 i1 hb)] at hbm
              cases hbm
            · simp only at hbm
              rw [at2_set2_ne _ _ _ _ _ _ hci] at hbm
              exact h.consistent c1 i1 bmp range hbm ho
          all_values := h.all_values }
    · rw [if_neg hge]
      exact ⟨st, rfl, h, rfl, rfl, rfl⟩

theorem load_bitmap_loaded (fmt : RoaringFormat) (file : DataFile)
    (st : LoadedBitMapStorage) (component i : Nat) (always_store : Bool)
    (h : offsets_loaded fmt file st) (hb : in_bounds st.bitmap_counts component i) :
    ∃ range st1, at2 st.bitmap_offsets component i = some range ∧
      st.load_bitmap fmt file component i always_store
        = .ok (load_bitmap_async fmt file range.start_offset range.end_offset, st1) ∧
      offsets_loaded fmt file st1 ∧
      st1.bitmap_counts = st.bitmap_counts ∧
      st1.bitmap_offsets = st.bitmap_offsets ∧
      st1.all_values_bitmap_offsets = st.all_values_bitmap_offsets := by
  obtain ⟨st1, hinc, hl1, hc1, hb1, ho1, ha1⟩ :=
    increase_frequency_loaded fmt file st component i h hb
  have hbi : in_bounds st1.bitmap_counts component i := by rw [hc1]; exact hb
  have hoff := hl1.bitmap_offsets component i hbi
  cases hr : at2 st1.bitmap_offsets component i with
  | none => rw [hr] at hoff; cases hoff
  | some range =>
    refine ⟨range, ?_⟩
    have hbm := hl1.bitmaps component i hbi
    unfold LoadedBitMapStorage.load_bitmap
    rw [hinc]
    simp only
    cases hcache : at2 st1.bitmaps component i with
    | none => rw [hcache] at hbm; cases hbm
    | some cached =>
      cases cached with
      | some bmp =>
        have hbmp := hl1.consistent component i bmp range hcache hr
        simp only
        cases always_store with
        | true =>
          exact ⟨st1, by rw [← ho1]; exact hr, by simp [hbmp], hl1, hc1, ho1, ha1⟩
        | false =>
          obtain ⟨st2, hun, hl2, hc2, ho2, ha2⟩ :=
            check_unload_loaded fmt file st1 component i hl1 hbi
          exact ⟨st2, by rw [← ho1]; exact hr, by simp [hun, hbmp], hl2, hc2.trans hc1,
            ho2.trans ho1, ha2.trans ha1⟩
      | none =>
        simp only [hr]
        have hl2 : offsets_loaded fmt file
            { st1 with
              bitmaps :=
                set2 st1.bitmaps component i
                  (some (load_bitmap_async fmt file range.start_offset range.end_offset)) } :=
          { frequencies := hl1.frequencies
            bitmaps := fun c1 i1 hb2 => by
              simp only [at2_set2_isSome]
              exact hl1.bitmaps c1 i1 hb2
            bitmap_offsets := hl1.bitmap_offsets
            consistent := fun c1 i1 bmp range1 hbm1 ho => by
              by_cases hci : c1 = component ∧ i1 = i
              · obtain ⟨e1, e2⟩ := hci
                subst e1 e2
                simp only at hbm1 ho
                rw [at2_set2_eq _ _ _ _ hbm] at hbm1
                rw [hr] at ho
                cases ho
                cases hbm1
                rfl
              · simp only at hbm1 ho
                rw [at2_set2_ne _ _ _ _ _ _ hci] at hbm1
                exact hl1.consistent c1 i1 bmp range1 hbm1 ho
            all_values := hl1.all_values }
        cases always_store with
        | true =>
          exact ⟨_, by rw [← ho1]; exact hr, by simp, hl2, hc1, ho1, ha1⟩
        | false =>
          obtain ⟨st3, hun, hl3, hc3, ho3, ha3⟩ :=
            check_unload_loaded fmt file _ component i hl2 hbi
          exact ⟨st3, by rw [← ho1]; exact hr, by simp [hun], hl3, hc3.trans hc1,
            ho3.trans ho1, ha3.trans ha1⟩

theorem load_const_bitmap_loaded (fmt : RoaringFormat) (file : DataFile)
    (st : LoadedBitMapStorage) (component i : Nat) (always_store : Bool)
    (h : offsets_loaded fmt file st) (hb : in_bounds st.bitmap_counts component i) :
    ∃ range st1, at2 st.bitmap_offsets component i = some range ∧
      st.load_const_bitmap fmt file component i always_store
        = .ok (load_bitmap_async fmt file range.start_offset range.end_offset, st1) ∧
      offsets_loaded fmt file st1 ∧
      st1.bitmap_counts = st.bitmap_counts ∧
      st1.bitmap_offsets = st.bitmap_offsets ∧
      st1.all_values_bitmap_offsets = st.all_values_bitmap_offsets := by
  obtain ⟨st1, hinc, hl1, hc1, hb1, ho1, ha1⟩ :=
    increase_frequency_loaded fmt file st component i h hb
  have hbi : in_bounds st1.bitmap_counts component i := by rw [hc1]; exact hb
  have hoff := hl1.bitmap_offsets component i hbi
  cases hr : at2 st1.bitmap_offsets component i with
  | none => rw [hr] at hoff; cases hoff
  | some range =>
    refine ⟨range, ?_⟩
    have hbm := hl1.bitmaps component i hbi
    unfold LoadedBitMapStorage.load_const_bitmap
    rw [hinc]
    simp only
    cases hcache : at2 st1.bitmaps component i with
    | none => rw [hcache] at hbm; cases hbm
    | some cached =>
      cases cached with
      | some bmp =>
        have hbmp := hl1.consistent component i bmp range hcache hr
        simp only
        cases always_store with
        | true =>
          exact ⟨st1, by rw [← ho1]; exact hr, by simp [hbmp], hl1, hc1, ho1, ha1⟩
        | false =>
          obtain ⟨st2, hun, hl2, hc2, ho2, ha2⟩ :=
            check_unload_loaded fmt file st1 component i hl1 hbi
          exact ⟨st2, by rw [← ho1]; exact hr, by simp [hun, hbmp], hl2, hc2.trans hc1,
            ho2.trans ho1, ha2.trans ha1⟩
      | none =>
        simp only [hr]
        have hl2 : offsets_loaded fmt file
            { st1 with
              bitmaps :=
                set2 st1.bitmaps component i
                  (some (load_bitmap_async fmt file range.start_offset range.end_offset)) } :=
          { frequencies := hl1.frequencies
            bitmaps := fun c1 i1 hb2 => by
              simp only [at2_set2_isSome]
              exact hl1.bitmaps c1 i1 hb2
            bitmap_offsets := hl1.bitmap_offsets
            consistent := fun c1 i1 bmp range1 hbm1 ho => by
              by_cases hci : c1 = component ∧ i1 = i
              · obtain ⟨e1, e2⟩ := hci
                subst e1 e2
                simp only at hbm1 ho
                rw [at2_set2_eq _ _ _ _ hbm] at hbm1
                rw [hr] at ho
                cases ho
                cases hbm1
                rfl
              · simp only at hbm1 ho
                rw [at2_set2_ne _ _ _ _ _ _ hci] at hbm1
                exact hl1.consistent c1 i1 bmp range1 hbm1 ho
            all_values := hl1.all_values }
        cases always_store with
        | true =>
          exact ⟨_, by rw [← ho1]; exact hr, by simp, hl2, hc1, ho1, ha1⟩
        | false =>
          obtain ⟨st3, hun, hl3, hc3, ho3, ha3⟩ :=
            check_unload_loaded fmt file _ component i hl2 hbi
          exact ⟨st3, by rw [← ho1]; exact hr, by simp [hun], hl3, hc3.trans hc1,
            ho3.trans ho1, ha3.trans ha1⟩

theorem load_all_values_bitmap_loaded (fmt : RoaringFormat) (file : DataFile)
    (st : LoadedBitMapStorage) (h : offsets_loaded fmt file st) :
    (st.load_all_values_bitmap fmt file).1
      = load_bitmap_async fmt file st.all_values_bitmap_offsets.start_offset
          st.all_values_bitmap_offsets.end_offset ∧
    offsets_loaded fmt file (st.load_all_values_bitmap fmt file).2 ∧
    (st.load_all_values_bitmap fmt file).2.bitmap_counts = st.bitmap_counts ∧
    (st.load_all_values_bitmap fmt file).2.bitmap_offsets = st.bitmap_offsets ∧
    (st.load_all_values_bitmap fmt file).2.all_values_bitmap_offsets
      = st.all_values_bitmap_offsets := by
  unfold LoadedBitMapStorage.load_all_values_bitmap
  cases hc : st.all_values_bitmap with
  | some bmp => exact ⟨h.all_values bmp hc, h, rfl, rfl, rfl⟩
  | none =>
    refine ⟨rfl, ?_, rfl, rfl, rfl⟩
    exact
      { frequencies := h.frequencies
        bitmaps := h.bitmaps
        bitmap_offsets := h.bitmap_offsets
        consistent := h.consistent
        all_values := fun bmp hb => by
          simp only [Option.some.injEq] at hb
          exact hb.symm }

/-- One call on a storage whose offsets are loaded returns the persisted contents and
keeps the offsets loaded. -/
theorem call_loaded (fmt : RoaringFormat) (file : DataFile) (st : LoadedBitMapStorage)
    (call : StorageCall) (h : offsets_loaded fmt file st)
    (hr : call.in_range st.bitmap_counts) :
    ∃ bmp st1, st.call fmt file call = .ok (bmp, st1) ∧
      persisted_contents fmt file st call = some bmp ∧
      offsets_loaded fmt file st1 ∧
      st1.bitmap_counts = st.bitmap_counts ∧
      st1.bitmap_offsets = st.bitmap_offsets ∧
      st1.all_values_bitmap_offsets = st.all_values_bitmap_offsets := by
  cases call with
  | load_bitmap component i always_store =>
    obtain ⟨range, st1, ho, hcall, hl, hc, hb, ha⟩ :=
      load_bitmap_loaded fmt file st component i always_store h hr
    exact ⟨_, st1, hcall, by simp [persisted_contents, ho], hl, hc, hb, ha⟩
  | load_const_bitmap component i always_store =>
    obtain ⟨range, st1, ho, hcall, hl, hc, hb, ha⟩ :=
      load_const_bitmap_loaded fmt file st component i always_store h hr
    exact ⟨_, st1, hcall, by simp [persisted_contents, ho], hl, hc, hb, ha⟩
  | load_all_values_bitmap =>
    obtain ⟨h1, hl, hc, hb, ha⟩ := load_all_values_bitmap_loaded fmt file st h
    exact ⟨(st.load_all_values_bitmap fmt file).1, (st.load_all_values_bitmap fmt file).2,
      rfl, by rw [h1]; rfl, hl, hc, hb, ha⟩

theorem persisted_contents_congr (fmt : RoaringFormat) (file : DataFile)
    (st st1 : LoadedBitMapStorage) (call : StorageCall)
    (hb : st1.bitmap_offsets = st.bitmap_offsets)
    (ha : st1.all_values_bitmap_offsets = st.all_values_bitmap_offsets) :
    persisted_contents fmt file st1 call = persisted_contents fmt file st call := by
  cases call <;> simp [persisted_contents, hb, ha]

/-- Every call of a sequence returns the persisted contents of its bitmap. -/
theorem calls_loaded (fmt : RoaringFormat) (file : DataFile) (st : LoadedBitMapStorage)
    (calls : List StorageCall) (h : offsets_loaded fmt file st)
    (hr : ∀ call ∈ calls, call.in_range st.bitmap_counts) :
    ∃ results, st.calls fmt file calls = .ok results ∧
      results.map some = calls.map (persisted_contents fmt file st) := by
  induction calls generalizing st with
  | nil => exact ⟨[], rfl, rfl⟩
  | cons call rest ih =>
    obtain ⟨bmp, st1, hcall, hp, hl, hc, hb, ha⟩ :=
      call_loaded fmt file st call h (hr call (List.mem_cons_self _ _))
    obtain ⟨results, hres, hmap⟩ := ih st1 hl (fun x hx => by
      rw [hc]
      exact hr x (List.mem_cons_of_mem _ hx))
    refine ⟨bmp :: results, ?_, ?_⟩
    · simp only [LoadedBitMapStorage.calls, hcall, hres]
    · simp only [List.map_cons, hp, hmap, List.cons.injEq, true_and]
      apply List.map_congr_left
      intro x _
      exact persisted_contents_congr fmt file st st1 x hb ha

/-- Cache transparency on a storage whose offsets are loaded (as the eager
`BitMapStorage::load` leaves them): every sequence of calls of `load_bitmap`,
`load_const_bitmap` and `load_all_values_bitmap` for bitmaps of the storage returns the
persisted contents of each bitmap; a storage over the same offsets with another cache
size, other frequencies, another threshold and other bitmaps in memory returns the same,
and so does the storage after `recompute_frequency_threshold`. -/
theorem cache_transparent (fmt : RoaringFormat) (file : DataFile)
    (st other : LoadedBitMapStorage) (calls : List StorageCall)
    (h : offsets_loaded fmt file st) (hother : offsets_loaded fmt file other)
    (hcounts : other.bitmap_counts = st.bitmap_counts)
    (hoffsets : other.bitmap_offsets = st.bitmap_offsets)
    (hall : other.all_values_bitmap_offsets = st.all_values_bitmap_offsets)
    (hr : ∀ call ∈ calls, call.in_range st.bitmap_counts) :
    ∃ results, st.calls fmt file calls = .ok results ∧
      results.map some = calls.map (persisted_contents fmt file st) ∧
      other.calls fmt file calls = .ok results ∧
      st.recompute_frequency_threshold.calls fmt file calls = .ok results := by
  obtain ⟨results, hres, hmap⟩ := calls_loaded fmt file st calls h hr
  obtain ⟨results1, hres1, hmap1⟩ := calls_loaded fmt file other calls hother
    (fun x hx => by rw [hcounts]; exact hr x hx)
  obtain ⟨r1, r2, r3, r4, r5, r6⟩ := recompute_frequency_threshold_fields st
  obtain ⟨results2, hres2, hmap2⟩ := calls_loaded fmt file st.recompute_frequency_threshold
    calls (offsets_loaded_of_fields fmt file st _ h r1 (fun c i => by rw [r2]) r3 r4 r5 r6)
    (fun x hx => by rw [r1]; exact hr x hx)
  have e1 : results1 = results := by
    apply List.map_injective_iff.mpr (Option.some_injective _)
    rw [hmap1, hmap]
    apply List.map_congr_left
    intro x _
    exact persisted_contents_congr fmt file st other x hoffsets hall
  have e2 : results2 = results := by
    apply List.map_injective_iff.mpr (Option.some_injective _)
    rw [hmap2, hmap]
    apply List.map_congr_left
    intro x _
    exact persisted_contents_congr fmt file st _ x r4 r6
  exact ⟨results, hres, hmap, e1 ▸ hres1, e2 ▸ hres2⟩

theorem at2_singleton_some {α : Type} (x : α) (c i : Nat) (y : α)
    (h : at2 [[x]] c i = some y) : c = 0 ∧ i = 0 ∧ y = x := by
  cases c with
  | zero =>
    cases i with
    | zero =>
      simp only [at2, List.getElem?_cons_zero, Option.some.injEq] at h
      exact ⟨rfl, rfl, h.symm⟩
    | succ i1 => simp [at2] at h
  | succ c1 => simp [at2] at h

theorem in_bounds_singleton (c i : Nat) (h : in_bounds [1] c i) : c = 0 ∧ i = 0 := by
  obtain ⟨hc, hi⟩ := h
  simp only [List.length_singleton, Nat.lt_one_iff] at hc
  subst hc
  simp only [List.getD_cons_zero, Nat.lt_one_iff] at hi
  exact ⟨rfl, hi⟩

theorem test_loaded_storage_loaded :
    offsets_loaded (constant_size_format 8) empty_file test_loaded_storage :=
  { frequencies := fun c i hb => by
      obtain ⟨hc, hi⟩ := in_bounds_singleton c i hb
      subst hc hi
      rfl
    bitmaps := fun c i hb => by
      obtain ⟨hc, hi⟩ := in_bounds_singleton c i hb
      subst hc hi
      rfl
    bitmap_offsets := fun c i hb => by
      obtain ⟨hc, hi⟩ := in_bounds_singleton c i hb
      subst hc hi
      rfl
    consistent := fun c i bmp range hb _ => by
      obtain ⟨_, _, h⟩ := at2_singleton_some _ c i _ hb
      cases h
    all_values := fun bmp hb => by cases hb }

theorem test_loaded_storage_unbounded_loaded :
    offsets_loaded (constant_size_format 8) empty_file test_loaded_storage_unbounded :=
  { frequencies := fun c i hb => by
      obtain ⟨hc, hi⟩ := in_bounds_singleton c i hb
      subst hc hi
      rfl
    bitmaps := fun c i hb => by
      obtain ⟨hc, hi⟩ := in_bounds_singleton c i hb
      subst hc hi
      rfl
    bitmap_offsets := fun c i hb => by
      obtain ⟨hc, hi⟩ := in_bounds_singleton c i hb
      subst hc hi
      rfl
    consistent := fun c i bmp range hb _ => by
      obtain ⟨_, _, h⟩ := at2_singleton_some _ c i _ hb
      simp only [Option.some.injEq] at h
      rw [h]
      rfl
    all_values := fun bmp hb => by cases hb }

theorem test_calls_in_range :
    ∀ call ∈ test_calls, call.in_range test_loaded_storage.bitmap_counts := by
  intro call hmem
  simp only [test_calls, List.mem_cons, List.mem_singleton, List.not_mem_nil, or_false]
    at hmem
  rcases hmem with h | h | h | h <;> subst h <;>
    simp [StorageCall.in_range, in_bounds, test_loaded_storage]

theorem cache_transparent_witness :
    offsets_loaded (constant_size_format 8) empty_file test_loaded_storage ∧
    offsets_loaded (constant_size_format 8) empty_file test_loaded_storage_unbounded ∧
    (∀ call ∈ test_calls, call.in_range test_loaded_storage.bitmap_counts) ∧
    ∃ results,
      test_loaded_storage.calls (constant_size_format 8) empty_file test_calls
        = .ok results ∧
      results.map some
        = test_calls.map
            (persisted_contents (constant_size_format 8) empty_file test_loaded_storage) ∧
      test_loaded_storage_unbounded.calls (constant_size_format 8) empty_file test_calls
        = .ok results ∧
      test_loaded_storage.recompute_frequency_threshold.calls (constant_size_format 8)
          empty_file test_calls
        = .ok results :=
  ⟨test_loaded_storage_loaded, test_loaded_storage_unbounded_loaded, test_calls_in_range,
   cache_transparent (constant_size_format 8) empty_file test_loaded_storage
    test_loaded_storage_unbounded test_calls test_loaded_storage_loaded
    test_loaded_storage_unbounded_loaded rfl rfl rfl test_calls_in_range⟩

/-! ## Snapshot ranges -/

/-- What `intersects` computes: an end of the range lies in the other range. -/
theorem intersects_iff (a b : SnapshotRange) :
    a.intersects b = true ↔
      (b.min_snapshot_id ≤ a.min_snapshot_id ∧ a.min_snapshot_id ≤ b.max_snapshot_id) ∨
      (b.min_snapshot_id ≤ a.max_snapshot_id ∧ a.max_snapshot_id ≤ b.max_snapshot_id) := by
  simp [SnapshotRange.intersects]

/-- Whenever `intersects` answers true the two ranges share a snapshot id, and for two
ranges of which the first has `min ≤ max` and does not strictly contain the second,
`intersects` answers true exactly when they share a snapshot id. -/
theorem intersects_sound (a b : SnapshotRange)
    (ha : a.min_snapshot_id ≤ a.max_snapshot_id) :
    (a.intersects b = true → a.shares_id b) ∧
    (¬ (a.min_snapshot_id < b.min_snapshot_id ∧ b.max_snapshot_id < a.max_snapshot_id) →
      (a.intersects b = true ↔ a.shares_id b)) := by
  have hsound : a.intersects b = true → a.shares_id b := by
    rw [intersects_iff]
    rintro (⟨h1, h2⟩ | ⟨h1, h2⟩)
    · exact ⟨a.min_snapshot_id, le_refl _, ha, h1, h2⟩
    · exact ⟨a.max_snapshot_id, ha, le_refl _, h1, h2⟩
  refine ⟨hsound, fun hn => ⟨hsound, ?_⟩⟩
  rintro ⟨id, h1, h2, h3, h4⟩
  rw [intersects_iff]
  omega

theorem intersects_sound_witness :
    (({ min_snapshot_id := 3, max_snapshot_id := 5 } : SnapshotRange).intersects
        { min_snapshot_id := 0, max_snapshot_id := 10 } = true →
      ({ min_snapshot_id := 3, max_snapshot_id := 5 } : SnapshotRange).shares_id
        { min_snapshot_id := 0, max_snapshot_id := 10 }) ∧
    (¬ ((3 : Int) < 0 ∧ (10 : Int) < 5) →
      (({ min_snapshot_id := 3, max_snapshot_id := 5 } : SnapshotRange).intersects
          { min_snapshot_id := 0, max_snapshot_id := 10 } = true ↔
        ({ min_snapshot_id := 3, max_snapshot_id := 5 } : SnapshotRange).shares_id
          { min_snapshot_id := 0, max_snapshot_id := 10 })) :=
  intersects_sound { min_snapshot_id := 3, max_snapshot_id := 5 }
    { min_snapshot_id := 0, max_snapshot_id := 10 } (by decide)

/-- C40 (the code diverges): whenever the range `a` strictly contains the range `b`
(`a.min < b.min ≤ b.max < a.max`), the two share a snapshot id and `b.intersects(a)` is
true, but `a.intersects(b)` is false: `intersects` only tests whether an end of the
receiver lies in the other range. -/
theorem intersects_misses_containment (a b : SnapshotRange)
    (h1 : a.min_snapshot_id < b.min_snapshot_id)
    (h2 : b.min_snapshot_id ≤ b.max_snapshot_id)
    (h3 : b.max_snapshot_id < a.max_snapshot_id) :
    a.shares_id b ∧ a.intersects b = false ∧ b.intersects a = true := by
  refine ⟨⟨b.min_snapshot_id, by omega, by omega, le_refl _, h2⟩, ?_, ?_⟩
  · rw [← Bool.not_eq_true, intersects_iff]
    omega
  · rw [intersects_iff]
    omega

theorem intersects_misses_containment_witness :
    ({ min_snapshot_id := 0, max_snapshot_id := 10 } : SnapshotRange).shares_id
      { min_snapshot_id := 3, max_snapshot_id := 5 } ∧
    ({ min_snapshot_id := 0, max_snapshot_id := 10 } : SnapshotRange).intersects
      { min_snapshot_id := 3, max_snapshot_id := 5 } = false ∧
    ({ min_snapshot_id := 3, max_snapshot_id := 5 } : SnapshotRange).intersects
      { min_snapshot_id := 0, max_snapshot_id := 10 } = true :=
  intersects_misses_containment { min_snapshot_id := 0, max_snapshot_id := 10 }
    { min_snapshot_id := 3, max_snapshot_id := 5 } (by decide) (by decide) (by decide)

/-! ## The method `upper_bound` of the dictionary -/

theorem bytes_lt_irrefl (k : List Nat) : bytes_lt k k = false := by
  induction k with
  | nil => rfl
  | cons a rest ih => simp [bytes_lt, ih]

/-- The cursor `MDB_SET_RANGE` leaves: past the entries below the key. -/
theorem mdb_set_range_append (T : IntegralType) (pre rest : LMDBDictionary)
    (key : AttributeValue) (pos : Nat)
    (hpre : ∀ e ∈ pre, bytes_lt (e.1.to_byte_array T) (key.to_byte_array T) = true) :
    mdb_set_range T (pre ++ rest) key pos = mdb_set_range T rest key (pos + pre.length) := by
  induction pre generalizing pos with
  | nil => simp
  | cons e pre ih =>
    have he := hpre e (List.mem_cons_self _ _)
    show mdb_set_range T (e :: (pre ++ rest)) key pos = _
    rw [mdb_set_range, if_pos he, ih (pos + 1) (fun x hx => hpre x (List.mem_cons_of_mem _ hx)),
      List.length_cons]
    congr 1
    omega

theorem getElem?_append_length {α : Type} (pre rest : List α) (k : Nat) :
    (pre ++ rest)[pre.length + k]? = rest[k]? := by
  rw [List.getElem?_append_right (by omega)]
  congr 1
  omega

theorem upper_bound_loop_stop (dict : LMDBDictionary) (key : AttributeValue) (fuel : Nat)
    (it : const_iterator) (h : it.value.1 ≠ key) :
    upper_bound_loop dict key (fuel + 1) it = .ok it := by
  simp [upper_bound_loop, h]

theorem upper_bound_loop_step (dict : LMDBDictionary) (key : AttributeValue) (fuel : Nat)
    (it it1 : const_iterator) (h : it.value.1 = key) (hinc : it.increment dict = .ok it1) :
    upper_bound_loop dict key (fuel + 1) it = upper_bound_loop dict key fuel it1 := by
  simp [upper_bound_loop, h, hinc]

theorem upper_bound_loop_null (dict : LMDBDictionary) (key : AttributeValue) (fuel : Nat)
    (it : const_iterator) (h : it.value.1 = key) (hc : it.cursor = none) :
    upper_bound_loop dict key (fuel + 1) it = .error .null_cursor := by
  simp [upper_bound_loop, h, const_iterator.increment, hc]

/-- The iterator `lower_bound` returns when the entries below the key are followed by an
entry that is not below it. -/
theorem lower_bound_append (T : IntegralType) (pre rest : LMDBDictionary)
    (e : AttributeValue × Nat) (key : AttributeValue)
    (hpre : ∀ x ∈ pre, bytes_lt (x.1.to_byte_array T) (key.to_byte_array T) = true)
    (he : bytes_lt (e.1.to_byte_array T) (key.to_byte_array T) = false) :
    LMDBDictionary.lower_bound T (pre ++ e :: rest) key
      = { cursor := some pre.length, value := e } := by
  unfold LMDBDictionary.lower_bound
  rw [mdb_set_range_append T pre (e :: rest) key 0 hpre]
  have h := getElem?_append_length pre (e :: rest) 0
  simp only [Nat.add_zero, List.getElem?_cons_zero] at h
  simp only [mdb_set_range, he, Bool.false_eq_true, if_false, Nat.zero_add, h]

/-- The iterator `lower_bound` returns when every entry is below the key: `end()`. -/
theorem lower_bound_all_below (T : IntegralType) (dict : LMDBDictionary)
    (key : AttributeValue)
    (hpre : ∀ x ∈ dict, bytes_lt (x.1.to_byte_array T) (key.to_byte_array T) = true) :
    LMDBDictionary.lower_bound T dict key = LMDBDictionary.end_iterator := by
  unfold LMDBDictionary.lower_bound
  have := mdb_set_range_append T dict [] key 0 hpre
  rw [List.append_nil] at this
  rw [this]
  simp [mdb_set_range]

/-- C36 (the code diverges): whenever the key is the last key of the store (every other
entry is below it in the order of the serialized keys), `upper_bound(key)` does not return
`end()`: `operator++` resets the cursor at the end of the store but leaves `value_` at the
key, so the loop `while (iter->first == key) ++iter` runs once more and calls
`mdb_cursor_get` through the null cursor. -/
theorem upper_bound_at_last_key (T : IntegralType) (pre : LMDBDictionary)
    (key : AttributeValue) (value : Nat)
    (hpre : ∀ e ∈ pre, bytes_lt (e.1.to_byte_array T) (key.to_byte_array T) = true) :
    LMDBDictionary.upper_bound T (pre ++ [(key, value)]) key = .error .null_cursor := by
  unfold LMDBDictionary.upper_bound
  rw [lower_bound_append T pre [] (key, value) key hpre (bytes_lt_irrefl _)]
  have hinc : const_iterator.increment (pre ++ [(key, value)])
      { cursor := some pre.length, value := (key, value) }
      = .ok { cursor := none, value := (key, value) } := by
    have h := getElem?_append_length pre [(key, value)] 1
    simp only [const_iterator.increment, h]
    rfl
  rw [upper_bound_loop_step _ _ _ _ _ rfl hinc]
  rw [List.length_append, List.length_singleton]
  exact upper_bound_loop_null _ _ _ _ rfl rfl

theorem upper_bound_at_last_key_witness :
    (∀ e ∈ [(test_key 1, 0)],
      bytes_lt (e.1.to_byte_array uint32_t) ((test_key 2).to_byte_array uint32_t) = true) ∧
    LMDBDictionary.upper_bound uint32_t ([(test_key 1, 0)] ++ [(test_key 2, 1)]) (test_key 2)
      = .error .null_cursor :=
  ⟨by decide, upper_bound_at_last_key uint32_t [(test_key 1, 0)] (test_key 2) 1 (by decide)⟩

/-- Where `upper_bound(key)` does return: when the first entry not below the key has
another key it is returned; when it has the key and is followed by an entry with another
key, that entry is returned; when every entry is below the key, which is not the key of a
value-initialised iterator, `end()` is returned. -/
theorem upper_bound_found (T : IntegralType) (pre rest : LMDBDictionary)
    (key : AttributeValue)
    (hpre : ∀ x ∈ pre, bytes_lt (x.1.to_byte_array T) (key.to_byte_array T) = true) :
    (∀ e, bytes_lt (e.1.to_byte_array T) (key.to_byte_array T) = false → e.1 ≠ key →
      LMDBDictionary.upper_bound T (pre ++ e :: rest) key
        = .ok { cursor := some pre.length, value := e }) ∧
    (∀ value e, e.1 ≠ key →
      LMDBDictionary.upper_bound T (pre ++ (key, value) :: e :: rest) key
        = .ok { cursor := some (pre.length + 1), value := e }) ∧
    (key ≠ LMDBDictionary.end_iterator.value.1 →
      LMDBDictionary.upper_bound T pre key = .ok LMDBDictionary.end_iterator) := by
  refine ⟨fun e he hne => ?_, fun value e hne => ?_, fun hne => ?_⟩
  · unfold LMDBDictionary.upper_bound
    rw [lower_bound_append T pre rest e key hpre he]
    exact upper_bound_loop_stop _ _ _ _ hne
  · unfold LMDBDictionary.upper_bound
    rw [lower_bound_append T pre (e :: rest) (key, value) key hpre (bytes_lt_irrefl _)]
    have hinc : const_iterator.increment (pre ++ (key, value) :: e :: rest)
        { cursor := some pre.length, value := (key, value) }
        = .ok { cursor := some (pre.length + 1), value := e } := by
      have h := getElem?_append_length pre ((key, value) :: e :: rest) 1
      simp only [const_iterator.increment, h, List.getElem?_cons_succ, List.getElem?_cons_zero]
    rw [upper_bound_loop_step _ _ _ _ _ rfl hinc]
    have hlen : (pre ++ (key, value) :: e :: rest).length + 1
        = (pre.length + rest.length + 2) + 1 := by
      simp only [List.length_append, List.length_cons]
      omega
    rw [hlen]
    exact upper_bound_loop_stop _ _ _ _ hne
  · unfold LMDBDictionary.upper_bound
    rw [lower_bound_all_below T pre key hpre]
    exact upper_bound_loop_stop _ _ _ _ (Ne.symm hne)

theorem upper_bound_found_witness :
    (∀ e, bytes_lt (e.1.to_byte_array uint32_t) ((test_key 1).to_byte_array uint32_t) = false →
      e.1 ≠ test_key 1 →
      LMDBDictionary.upper_bound uint32_t ([] ++ e :: [(test_key 2, 1)]) (test_key 1)
        = .ok { cursor := some ([] : LMDBDictionary).length, value := e }) ∧
    (∀ value e, e.1 ≠ test_key 1 →
      LMDBDictionary.upper_bound uint32_t ([] ++ (test_key 1, value) :: e :: [(test_key 2, 1)])
          (test_key 1)
        = .ok { cursor := some (([] : LMDBDictionary).length + 1), value := e }) ∧
    (test_key 1 ≠ LMDBDictionary.end_iterator.value.1 →
      LMDBDictionary.upper_bound uint32_t [] (test_key 1) = .ok LMDBDictionary.end_iterator) :=
  upper_bound_found uint32_t [] [(test_key 2, 1)] (test_key 1) (by simp)

/-! ## The frequency threshold of the cache -/

theorem collect_frequencies_length (frequencies : List (List Nat)) (counts : List Nat)
    (i : Nat) : (collect_frequencies frequencies counts i).length = counts.sum := by
  induction counts generalizing i with
  | nil => rfl
  | cons count rest ih =>
    simp only [collect_frequencies, List.length_append, List.length_map, List.length_range,
      List.sum_cons, ih]

theorem filter_ge_add_filter_lt (l : List Nat) (t : Nat) :
    (l.filter (fun f => decide (f ≥ t))).length + (l.filter (fun f => decide (f < t))).length
      = l.length := by
  induction l with
  | nil => rfl
  | cons a rest ih =>
    by_cases h : a < t
    · have h1 : ¬ a ≥ t := by omega
      simp only [List.filter_cons, h, h1, decide_True, decide_False, if_true, if_false,
        List.length_cons, Bool.false_eq_true]
      omega
    · have h1 : a ≥ t := by omega
      simp only [List.filter_cons, h, h1, decide_True, decide_False, if_true, if_false,
        List.length_cons, Bool.false_eq_true]
      omega

/-- In a sorted list fewer than `c + 1` elements are below the element at place `c`. -/
theorem sorted_filter_lt_le (s : List Nat) (hs : s.Sorted (fun a b => a ≤ b)) (c : Nat)
    (hc : c < s.length) :
    (s.filter (fun f => decide (f < s.getD c 0))).length ≤ c := by
  induction s generalizing c with
  | nil => simp at hc
  | cons a rest ih =>
    rw [List.sorted_cons] at hs
    cases c with
    | zero =>
      simp only [List.getD_cons_zero]
      rw [List.filter_eq_nil_iff.mpr]
      · simp
      · intro x hx
        simp only [List.mem_cons] at hx
        rcases hx with rfl | hx
        · simp
        · have := hs.1 x hx
          simp only [decide_eq_true_eq]
          omega
    | succ c1 =>
      simp only [List.getD_cons_succ]
      have := ih hs.2 c1 (by simpa using hc)
      rw [List.filter_cons]
      split
      · simp only [List.length_cons]; omega
      · omega

/-- C34 (what the code does): whenever `recompute_frequency_threshold` runs with
`bitmap_cache_size` smaller than the number of component bitmaps, the resulting
`frequency_threshold` is one of the access frequencies, at most `bitmap_cache_size`
component bitmaps have an access frequency below it, and at least (number of component
bitmaps - `bitmap_cache_size`) have an access frequency at or above it: the selection counts
from the low end of the frequencies.  The frequencies are left as they are. -/
theorem frequency_threshold_selection (st : LoadedBitMapStorage)
    (h : st.bitmap_cache_size < st.bitmap_counts.sum) :
    st.recompute_frequency_threshold.frequencies = st.frequencies ∧
    st.recompute_frequency_threshold.bitmap_counts = st.bitmap_counts ∧
    st.recompute_frequency_threshold.frequency_threshold
      ∈ collect_frequencies st.frequencies st.bitmap_counts 0 ∧
    below_threshold st.recompute_frequency_threshold ≤ st.bitmap_cache_size ∧
    cached_candidates st.recompute_frequency_threshold
      ≥ st.bitmap_counts.sum - st.bitmap_cache_size := by
  obtain ⟨r2, r1, _⟩ := recompute_frequency_threshold_fields st
  have hlen := collect_frequencies_length st.frequencies st.bitmap_counts 0
  have hperm := List.perm_insertionSort (fun a b : Nat => a ≤ b)
    (collect_frequencies st.frequencies st.bitmap_counts 0)
  have hsorted := List.sorted_insertionSort (fun a b : Nat => a ≤ b)
    (collect_frequencies st.frequencies st.bitmap_counts 0)
  have hthr : st.recompute_frequency_threshold.frequency_threshold
      = ((collect_frequencies st.frequencies st.bitmap_counts 0).insertionSort
          (fun a b => a ≤ b)).getD st.bitmap_cache_size 0 := by
    unfold LoadedBitMapStorage.recompute_frequency_threshold
    simp only
    rw [if_neg (by rw [hlen]; omega)]
  have hc : st.bitmap_cache_size
      < ((collect_frequencies st.frequencies st.bitmap_counts 0).insertionSort
          (fun a b => a ≤ b)).length := by
    rw [hperm.length_eq, hlen]; exact h
  have hbelow : below_threshold st.recompute_frequency_threshold ≤ st.bitmap_cache_size := by
    unfold below_threshold
    rw [r1, r2, hthr, ← (hperm.filter _).length_eq]
    exact sorted_filter_lt_le _ hsorted _ hc
  refine ⟨r1, r2, ?_, hbelow, ?_⟩
  · rw [hthr, List.getD_eq_getElem _ _ hc]
    exact hperm.mem_iff.mp (List.getElem_mem _)
  · have hsum := filter_ge_add_filter_lt
      (collect_frequencies st.frequencies st.bitmap_counts 0)
      st.recompute_frequency_threshold.frequency_threshold
    rw [hlen] at hsum
    simp only [below_threshold, r1, r2] at hbelow
    simp only [cached_candidates, r1, r2]
    omega

theorem frequency_threshold_selection_witness :
    test_storage_321.bitmap_cache_size < test_storage_321.bitmap_counts.sum ∧
    test_storage_321.recompute_frequency_threshold.frequencies = test_storage_321.frequencies ∧
    test_storage_321.recompute_frequency_threshold.bitmap_counts
      = test_storage_321.bitmap_counts ∧
    test_storage_321.recompute_frequency_threshold.frequency_threshold
      ∈ collect_frequencies test_storage_321.frequencies test_storage_321.bitmap_counts 0 ∧
    below_threshold test_storage_321.recompute_frequency_threshold
      ≤ test_storage_321.bitmap_cache_size ∧
    cached_candidates test_storage_321.recompute_frequency_threshold
      ≥ test_storage_321.bitmap_counts.sum - test_storage_321.bitmap_cache_size :=
  ⟨by decide, frequency_threshold_selection test_storage_321 (by decide)⟩

/-- C34 (the claim fails on the code): with three component bitmaps and the cache size 1, the
threshold computed for the frequencies 3, 2, 1 is 2, and two bitmaps have a frequency at or
above it; the threshold the constructor computes (all frequencies 0) is 0, and all three
bitmaps have a frequency at or above it. -/
theorem frequency_threshold_not_exact :
    test_storage_321.bitmap_cache_size = 1 ∧
    test_storage_321.recompute_frequency_threshold.frequency_threshold = 2 ∧
    cached_candidates test_storage_321.recompute_frequency_threshold = 2 ∧
    (LoadedBitMapStorage.new test_rg_id test_column_path [3] 1
      { start_offset := 0, end_offset := 0 }).frequency_threshold = 0 ∧
    cached_candidates (LoadedBitMapStorage.new test_rg_id test_column_path [3] 1
      { start_offset := 0, end_offset := 0 }) = 3 := by
  decide

/-! ## Unloading after a read -/

theorem increase_frequency_spec (st : LoadedBitMapStorage) (component i frequency : Nat)
    (hf : at2 st.frequencies component i = some frequency) :
    ∃ st1, st.increase_frequency component i = .ok st1 ∧
      at2 st1.frequencies component i = some ((frequency + 1) % 2 ^ 32) ∧
      st1.bitmaps = st.bitmaps ∧ st1.bitmap_offsets = st.bitmap_offsets := by
  obtain ⟨_, r2, r3, r4, _⟩ := recompute_frequency_threshold_fields st
  unfold LoadedBitMapStorage.increase_frequency
  rw [hf]
  simp only
  by_cases heq : frequency = st.frequency_threshold
  · rw [if_pos heq]
    refine ⟨_, rfl, ?_, r3, r4⟩
    simp only
    rw [r2]
    exact at2_set2_eq _ _ _ _ (by rw [hf]; rfl)
  · rw [if_neg heq]
    exact ⟨_, rfl, at2_set2_eq _ _ _ _ (by rw [hf]; rfl), rfl, rfl⟩

theorem check_unload_spec (st : LoadedBitMapStorage) (component i frequency : Nat)
    (bmp : BitMap) (hf : at2 st.frequencies component i = some frequency)
    (hb : at2 st.bitmaps component i = some (some bmp)) :
    ∃ st1, st.check_unload component i = .ok st1 ∧
      st1.frequencies = st.frequencies ∧ st1.frequency_threshold = st.frequency_threshold ∧
      at2 st1.bitmaps component i
        = if frequency ≥ st.frequency_threshold then some none else some (some bmp) := by
  unfold LoadedBitMapStorage.check_unload
  rw [hf]
  simp only
  by_cases hge : frequency ≥ st.frequency_threshold
  · rw [if_pos hge, if_pos hge]
    exact ⟨_, rfl, rfl, rfl, at2_set2_eq _ _ _ _ (by rw [hb]; rfl)⟩
  · rw [if_neg hge, if_neg hge]
    exact ⟨st, rfl, rfl, rfl, hb⟩

theorem load_const_bitmap_eq_load_bitmap (fmt : RoaringFormat) (file : DataFile)
    (st : LoadedBitMapStorage) (component i : Nat) (always_store : Bool) :
    st.load_const_bitmap fmt file component i always_store
      = st.load_bitmap fmt file component i always_store := rfl

/-- The state `load_bitmap` leaves: the bitmap is in memory unless the call did not pin it
and its frequency is at or above the threshold. -/
theorem load_bitmap_unloads (fmt : RoaringFormat) (file : DataFile)
    (st : LoadedBitMapStorage) (component i frequency : Nat) (always_store : Bool)
    (hf : at2 st.frequencies component i = some frequency)
    (hb : (at2 st.bitmaps component i).isSome)
    (ho : (at2 st.bitmap_offsets component i).isSome) :
    ∃ bmp st1, st.load_bitmap fmt file component i always_store = .ok (bmp, st1) ∧
      at2 st1.frequencies component i = some ((frequency + 1) % 2 ^ 32) ∧
      at2 st1.bitmaps component i
        = if always_store = false ∧ (frequency + 1) % 2 ^ 32 ≥ st1.frequency_threshold
          then some none else some (some bmp) := by
  obtain ⟨st1, hinc, hf1, hb1, ho1⟩ := increase_frequency_spec st component i frequency hf
  rw [← hb1] at hb
  rw [← ho1] at ho
  unfold LoadedBitMapStorage.load_bitmap
  rw [hinc]
  simp only
  cases hbm : at2 st1.bitmaps component i with
  | none => rw [hbm] at hb; cases hb
  | some slot =>
    cases slot with
    | some bmp =>
      simp only
      cases always_store with
      | true =>
        refine ⟨bmp, st1, rfl, hf1, ?_⟩
        rw [hbm]
        simp
      | false =>
        obtain ⟨st2, hun, g1, g2, g3⟩ :=
          check_unload_spec st1 component i _ bmp hf1 hbm
        simp only [Bool.false_eq_true, if_false, hun]
        refine ⟨bmp, st2, rfl, by rw [g1]; exact hf1, ?_⟩
        rw [g3, g2]
        simp
    | none =>
      simp only
      cases hoff : at2 st1.bitmap_offsets component i with
      | none => rw [hoff] at ho; cases ho
      | some range =>
        simp only
        have hset : at2 (set2 st1.bitmaps component i
            (some (load_bitmap_async fmt file range.start_offset range.end_offset)))
            component i
            = some (some (load_bitmap_async fmt file range.start_offset range.end_offset)) :=
          at2_set2_eq _ _ _ _ (by rw [hbm]; rfl)
        cases always_store with
        | true =>
          refine ⟨_, _, rfl, hf1, ?_⟩
          simp only
          rw [hset]
          simp
        | false =>
          obtain ⟨st2, hun, g1, g2, g3⟩ :=
            check_unload_spec
              { st1 with
                bitmaps :=
                  set2 st1.bitmaps component i
                    (some (load_bitmap_async fmt file range.start_offset range.end_offset)) }
              component i _ _ hf1 hset
          simp only [Bool.false_eq_true, if_false, hun]
          refine ⟨_, st2, rfl, by rw [g1]; exact hf1, ?_⟩
          rw [g3, g2]
          simp

/-- C35 (the code diverges): when `load_bitmap` or `load_const_bitmap` completes for a
bitmap of a storage that has its frequency, slot and offsets, the bitmap is dropped from
the in-memory cache iff the caller did not pin it and its access frequency is at or above
`frequency_threshold`; a bitmap whose frequency is below the threshold stays cached. -/
theorem load_drops_at_or_above_threshold (fmt : RoaringFormat) (file : DataFile)
    (st : LoadedBitMapStorage) (component i frequency : Nat) (always_store : Bool)
    (hf : at2 st.frequencies component i = some frequency)
    (hb : (at2 st.bitmaps component i).isSome)
    (ho : (at2 st.bitmap_offsets component i).isSome) :
    ∀ result ∈ [st.load_bitmap fmt file component i always_store,
        st.load_const_bitmap fmt file component i always_store],
      ∃ bmp st1 frequency1, result = .ok (bmp, st1) ∧
        at2 st1.frequencies component i = some frequency1 ∧
        (at2 st1.bitmaps component i = some none ↔
          always_store = false ∧ frequency1 ≥ st1.frequency_threshold) ∧
        (at2 st1.bitmaps component i = some (some bmp) ↔
          always_store = true ∨ frequency1 < st1.frequency_threshold) := by
  intro result hres
  have hres1 : result = st.load_bitmap fmt file component i always_store := by
    simp only [List.mem_cons, List.mem_singleton, List.not_mem_nil, or_false] at hres
    rcases hres with h | h
    · exact h
    · rw [h, load_const_bitmap_eq_load_bitmap]
  obtain ⟨bmp, st1, hcall, hf1, hb1⟩ :=
    load_bitmap_unloads fmt file st component i frequency always_store hf hb ho
  refine ⟨bmp, st1, _, by rw [hres1]; exact hcall, hf1, ?_, ?_⟩
  · rw [hb1]
    by_cases hc : always_store = false ∧ (frequency + 1) % 2 ^ 32 ≥ st1.frequency_threshold
    · simp [hc]
    · simp only [hc, if_false, iff_false]
      simp
  · rw [hb1]
    by_cases hc : always_store = false ∧ (frequency + 1) % 2 ^ 32 ≥ st1.frequency_threshold
    · rw [if_pos hc]
      obtain ⟨h1, h2⟩ := hc
      simp only [h1, Bool.false_eq_true, false_or]
      constructor
      · intro hx; cases hx
      · intro hx; omega
    · rw [if_neg hc]
      simp only [true_iff]
      cases always_store with
      | true => exact Or.inl rfl
      | false =>
        right
        by_contra hx
        exact hc ⟨rfl, by omega⟩

theorem load_drops_at_or_above_threshold_witness :
    at2 test_storage_two.frequencies 0 0 = some 0 ∧
    (test_storage_two.load_bitmap (constant_size_format 8) empty_file 0 0 false).map
        (fun r => (r.1, at2 r.2.bitmaps 0 0, at2 r.2.frequencies 0 0, r.2.frequency_threshold))
      = .ok ({15}, some none, some 1, 0) ∧
    ∀ result ∈ [test_storage_two.load_bitmap (constant_size_format 8) empty_file 0 0 false,
        test_storage_two.load_const_bitmap (constant_size_format 8) empty_file 0 0 false],
      ∃ bmp st1 frequency1, result = .ok (bmp, st1) ∧
        at2 st1.frequencies 0 0 = some frequency1 ∧
        (at2 st1.bitmaps 0 0 = some none ↔
          false = false ∧ frequency1 ≥ st1.frequency_threshold) ∧
        (at2 st1.bitmaps 0 0 = some (some bmp) ↔
          false = true ∨ frequency1 < st1.frequency_threshold) :=
  ⟨by decide, by decide,
   load_drops_at_or_above_threshold (constant_size_format 8) empty_file test_storage_two 0 0 0
    false (by decide) (by decide) (by decide)⟩

/-! ## The keys of one row group and column -/

/-- Between two keys that begin with the same bytes, every key begins with them. -/
theorem prefix_between (P : List Nat) : ∀ k1 k2 k3 : List Nat, P <+: k1 → P <+: k3 →
    bytes_lt k2 k1 = false → bytes_lt k3 k2 = false → P <+: k2 := by
  induction P with
  | nil => intro _ k2 _ _ _ _ _; exact ⟨k2, rfl⟩
  | cons p P ih =>
    intro k1 k2 k3 h1 h3 h12 h23
    obtain ⟨t1, rfl⟩ := h1
    obtain ⟨t3, rfl⟩ := h3
    cases k2 with
    | nil => simp [bytes_lt] at h12
    | cons b k2 =>
      simp only [List.cons_append, bytes_lt] at h12 h23
      have hb : b = p := by
        by_contra hne
        rcases Nat.lt_or_gt_of_ne hne with hlt | hgt
        · simp [hlt] at h12
        · simp [hgt] at h23
      subst hb
      simp only [lt_self_iff_false, if_false] at h12 h23
      rw [List.cons_prefix_cons]
      exact ⟨rfl, ih _ _ _ ⟨t1, rfl⟩ ⟨t3, rfl⟩ h12 h23⟩

/-- Two paths without a 0 that are followed by a 0 in equal byte strings are equal. -/
theorem nul_terminated_inj (p : List Nat) : ∀ (q x y : List Nat), (∀ b ∈ p, b ≠ 0) →
    (∀ b ∈ q, b ≠ 0) → p ++ 0 :: x = q ++ 0 :: y → p = q := by
  induction p with
  | nil =>
    intro q x y _ hq h
    cases q with
    | nil => rfl
    | cons b q =>
      simp only [List.nil_append, List.cons_append, List.cons.injEq] at h
      exact absurd h.1.symm (hq b (List.mem_cons_self _ _))
  | cons a p ih =>
    intro q x y hp hq h
    cases q with
    | nil =>
      simp only [List.nil_append, List.cons_append, List.cons.injEq] at h
      exact absurd h.1 (hp a (List.mem_cons_self _ _))
    | cons b q =>
      simp only [List.cons_append, List.cons.injEq] at h
      rw [h.1, ih q x y (fun c hc => hp c (List.mem_cons_of_mem _ hc))
        (fun c hc => hq c (List.mem_cons_of_mem _ hc)) h.2]

/-- A key that begins with the bytes of a row group and column is a key of them. -/
theorem column_key_bytes_inj (rg_id rg_id1 : Nat) (path path1 tail : List Nat)
    (hrg : rg_id < 2 ^ 32) (hrg1 : rg_id1 < 2 ^ 32) (hpath : ∀ b ∈ path, b ≠ 0)
    (hpath1 : ∀ b ∈ path1, b ≠ 0)
    (h : column_key_bytes rg_id path <+: le_bytes 4 rg_id1 ++ path1 ++ [0] ++ tail) :
    rg_id1 = rg_id ∧ path1 = path := by
  obtain ⟨t, ht⟩ := h
  unfold column_key_bytes at ht
  simp only [List.append_assoc] at ht
  obtain ⟨h1, h2⟩ := List.append_inj ht (by rw [le_bytes_length, le_bytes_length])
  have hrg_eq : rg_id = rg_id1 :=
    le_bytes_injective 4 _ _ (by norm_num; omega) (by norm_num; omega) h1
  refine ⟨hrg_eq.symm, ?_⟩
  simp only [List.singleton_append] at h2
  exact (nul_terminated_inj path path1 t tail hpath hpath1 h2).symm

theorem c_string_append (path rest : List Nat) (hpath : ∀ b ∈ path, b ≠ 0) :
    c_string (path ++ 0 :: rest) = path := by
  induction path with
  | nil => simp [c_string]
  | cons a path ih =>
    have ha := hpath a (List.mem_cons_self _ _)
    show c_string (a :: (path ++ 0 :: rest)) = _
    rw [c_string, if_neg ha, ih (fun b hb => hpath b (List.mem_cons_of_mem _ hb))]

/-- The method `from_byte_array` on the bytes of a key. -/
theorem from_byte_array_to_byte_array (k : BitmapLMDBID) (hrg : k.rg_id < 2 ^ 32)
    (hpath : ∀ b ∈ k.column_dotted_path, b ≠ 0) (hnumber : k.bitmap_number < 2 ^ 16) :
    BitmapLMDBID.from_byte_array k.to_byte_array = k := by
  have hdrop : k.to_byte_array.drop 4
      = k.column_dotted_path ++ 0 :: le_bytes 2 k.bitmap_number := by
    unfold BitmapLMDBID.to_byte_array
    simp only [List.append_assoc, List.singleton_append]
    exact List.drop_left' (le_bytes_length 4 _)
  have htake : k.to_byte_array.take 4 = le_bytes 4 k.rg_id := by
    unfold BitmapLMDBID.to_byte_array
    simp only [List.append_assoc]
    exact List.take_left' (le_bytes_length 4 _)
  have hc := c_string_append k.column_dotted_path (le_bytes 2 k.bitmap_number) hpath
  have hdrop2 : k.to_byte_array.drop (4 + k.column_dotted_path.length + 1)
      = le_bytes 2 k.bitmap_number := by
    unfold BitmapLMDBID.to_byte_array
    exact List.drop_left'
      (by rw [List.length_append, List.length_append, le_bytes_length]; rfl)
  unfold BitmapLMDBID.from_byte_array
  simp only [hdrop, hc, htake, hdrop2]
  rw [of_le_bytes_le_bytes 4 _ (by norm_num; omega),
    List.take_of_length_le (by rw [le_bytes_length]),
    of_le_bytes_le_bytes 2 _ (by norm_num; omega)]

/-- C39: for a row group id (a `uint32_t`) and a column path without a NUL byte, every
serialized `BitmapLMDBID` and `AttributeValue` key of that row group and column starts with
the bytes `rg_id, path, 0x00`; no serialized key of another row group or column (its path
without a NUL byte as well) starts with them; every key that lies between two keys of the
row group and column in the lexicographic byte order is a key of them, so they form one
contiguous block; and `from_byte_array` recovers `rg_id`, the path and `bitmap_number` from
the bytes `to_byte_array` writes. -/
theorem column_keys_contiguous (T : IntegralType) (rg_id : Nat) (path : List Nat)
    (hrg : rg_id < 2 ^ 32) (hpath : ∀ b ∈ path, b ≠ 0) :
    (∀ number,
      column_key_bytes rg_id path <+: (BitmapLMDBID.new rg_id path number).to_byte_array) ∧
    (∀ value, column_key_bytes rg_id path <+:
      AttributeValue.to_byte_array T
        { rg_id := rg_id, column_dotted_path := path, value := value }) ∧
    (∀ k : BitmapLMDBID, k.rg_id < 2 ^ 32 → (∀ b ∈ k.column_dotted_path, b ≠ 0) →
      column_key_bytes rg_id path <+: k.to_byte_array →
      k.rg_id = rg_id ∧ k.column_dotted_path = path) ∧
    (∀ k : AttributeValue, k.rg_id < 2 ^ 32 → (∀ b ∈ k.column_dotted_path, b ≠ 0) →
      column_key_bytes rg_id path <+: k.to_byte_array T →
      k.rg_id = rg_id ∧ k.column_dotted_path = path) ∧
    (∀ number1 number3 (k : BitmapLMDBID), k.rg_id < 2 ^ 32 →
      (∀ b ∈ k.column_dotted_path, b ≠ 0) →
      bytes_lt k.to_byte_array (BitmapLMDBID.new rg_id path number1).to_byte_array = false →
      bytes_lt (BitmapLMDBID.new rg_id path number3).to_byte_array k.to_byte_array = false →
      k.rg_id = rg_id ∧ k.column_dotted_path = path) ∧
    (∀ value1 value3 (k : AttributeValue), k.rg_id < 2 ^ 32 →
      (∀ b ∈ k.column_dotted_path, b ≠ 0) →
      bytes_lt (k.to_byte_array T)
        (AttributeValue.to_byte_array T
          { rg_id := rg_id, column_dotted_path := path, value := value1 }) = false →
      bytes_lt
        (AttributeValue.to_byte_array T
          { rg_id := rg_id, column_dotted_path := path, value := value3 })
        (k.to_byte_array T) = false →
      k.rg_id = rg_id ∧ k.column_dotted_path = path) ∧
    (∀ number, BitmapLMDBID.from_byte_array (BitmapLMDBID.new rg_id path number).to_byte_array
      = BitmapLMDBID.new rg_id path number) := by
  have hpre1 : ∀ number,
      column_key_bytes rg_id path <+: (BitmapLMDBID.new rg_id path number).to_byte_array :=
    fun number => ⟨_, rfl⟩
  have hpre2 : ∀ value, column_key_bytes rg_id path <+:
      AttributeValue.to_byte_array T
        { rg_id := rg_id, column_dotted_path := path, value := value } :=
    fun value => ⟨_, rfl⟩
  have hother1 : ∀ k : BitmapLMDBID, k.rg_id < 2 ^ 32 →
      (∀ b ∈ k.column_dotted_path, b ≠ 0) →
      column_key_bytes rg_id path <+: k.to_byte_array →
      k.rg_id = rg_id ∧ k.column_dotted_path = path :=
    fun k h1 h2 h3 => column_key_bytes_inj rg_id k.rg_id path k.column_dotted_path _ hrg h1
      hpath h2 h3
  have hother2 : ∀ k : AttributeValue, k.rg_id < 2 ^ 32 →
      (∀ b ∈ k.column_dotted_path, b ≠ 0) →
      column_key_bytes rg_id path <+: k.to_byte_array T →
      k.rg_id = rg_id ∧ k.column_dotted_path = path :=
    fun k h1 h2 h3 => column_key_bytes_inj rg_id k.rg_id path k.column_dotted_path _ hrg h1
      hpath h2 h3
  refine ⟨hpre1, hpre2, hother1, hother2, ?_, ?_, ?_⟩
  · intro number1 number3 k h1 h2 h12 h23
    exact hother1 k h1 h2 (prefix_between _ _ _ _ (hpre1 number1) (hpre1 number3) h12 h23)
  · intro value1 value3 k h1 h2 h12 h23
    exact hother2 k h1 h2 (prefix_between _ _ _ _ (hpre2 value1) (hpre2 value3) h12 h23)
  · intro number
    exact from_byte_array_to_byte_array _ hrg hpath (Nat.mod_lt _ (by norm_num))

theorem column_keys_contiguous_witness :
    test_rg_id < 2 ^ 32 ∧ (∀ b ∈ test_column_path, b ≠ 0) ∧
    (∀ number, column_key_bytes test_rg_id test_column_path <+:
      (BitmapLMDBID.new test_rg_id test_column_path number).to_byte_array) ∧
    (∀ value, column_key_bytes test_rg_id test_column_path <+:
      AttributeValue.to_byte_array uint32_t
        { rg_id := test_rg_id, column_dotted_path := test_column_path, value := value }) ∧
    (∀ k : BitmapLMDBID, k.rg_id < 2 ^ 32 → (∀ b ∈ k.column_dotted_path, b ≠ 0) →
      column_key_bytes test_rg_id test_column_path <+: k.to_byte_array →
      k.rg_id = test_rg_id ∧ k.column_dotted_path = test_column_path) ∧
    (∀ k : AttributeValue, k.rg_id < 2 ^ 32 → (∀ b ∈ k.column_dotted_path, b ≠ 0) →
      column_key_bytes test_rg_id test_column_path <+: k.to_byte_array uint32_t →
      k.rg_id = test_rg_id ∧ k.column_dotted_path = test_column_path) ∧
    (∀ number1 number3 (k : BitmapLMDBID), k.rg_id < 2 ^ 32 →
      (∀ b ∈ k.column_dotted_path, b ≠ 0) →
      bytes_lt k.to_byte_array
        (BitmapLMDBID.new test_rg_id test_column_path number1).to_byte_array = false →
      bytes_lt (BitmapLMDBID.new test_rg_id test_column_path number3).to_byte_array
        k.to_byte_array = false →
      k.rg_id = test_rg_id ∧ k.column_dotted_path = test_column_path) ∧
    (∀ value1 value3 (k : AttributeValue), k.rg_id < 2 ^ 32 →
      (∀ b ∈ k.column_dotted_path, b ≠ 0) →
      bytes_lt (k.to_byte_array uint32_t)
        (AttributeValue.to_byte_array uint32_t
          { rg_id := test_rg_id, column_dotted_path := test_column_path, value := value1 })
        = false →
      bytes_lt
        (AttributeValue.to_byte_array uint32_t
          { rg_id := test_rg_id, column_dotted_path := test_column_path, value := value3 })
        (k.to_byte_array uint32_t) = false →
      k.rg_id = test_rg_id ∧ k.column_dotted_path = test_column_path) ∧
    (∀ number,
      BitmapLMDBID.from_byte_array
          (BitmapLMDBID.new test_rg_id test_column_path number).to_byte_array
        = BitmapLMDBID.new test_rg_id test_column_path number) :=
  ⟨by decide, by decide,
   column_keys_contiguous uint32_t test_rg_id test_column_path (by decide) (by decide)⟩

/-! ## The bitmap of the smaller digits -/

/-- The bitmaps a digit below its base is written to exist, for every base below
`2 ^ 32 - 1`. -/
theorem bitmaps_of_digit_in_bounds_wide (basis : List Nat)
    (enc_type : BitmapIndexEncodingType)
    (hge : ∀ b ∈ basis, 1 ≤ b) (hlt : ∀ b ∈ basis, b + 1 < 2 ^ 32) (t value : Nat)
    (ht : t < basis.length) :
    ∀ j ∈ bitmaps_of_digit enc_type (basis.getD t 0)
            ((calculate_bitmap_counts basis enc_type).getD t 0) (digit_of basis t value),
      in_bounds (calculate_bitmap_counts basis enc_type) t j := by
  intro j hj
  have hd := digit_of_lt basis hge value t ht
  have hmem : basis.getD t 0 ∈ basis := by
    rw [List.getD_eq_getElem _ _ ht]
    exact List.getElem_mem _
  have hb1 := hge _ hmem
  have hb2 := hlt _ hmem
  unfold in_bounds
  rw [counts_length]
  refine ⟨ht, ?_⟩
  rw [counts_getD _ _ t ht] at hj ⊢
  cases enc_type with
  | EQUALITY =>
    simp only [mem_bitmaps_of_digit_equality] at hj ⊢
    omega
  | INTERVAL =>
    simp only [bitmaps_of_digit, List.mem_range'_1] at hj ⊢
    split_ifs at hj <;> omega
  | RANGE =>
    simp only [mem_bitmaps_of_digit_range] at hj ⊢
    omega

/-- The method `insert_mapped_values` on a storage with the bitmap counts of the index: it
succeeds, the documents of the rows are added to the all-values bitmap, and bitmap `j` of
component `i` receives the documents with a row whose digit `i` is written to `j`. -/
theorem insert_mapped_values_on (aux_data : BitmapIndexAuxData) (storage : BitMapStorage)
    (mapped : List (DocumentID × Nat))
    (hvd : aux_data.vd = ValueDecomposer.new aux_data.vd.basis)
    (hge : ∀ b ∈ aux_data.vd.basis, 1 ≤ b) (hlt : ∀ b ∈ aux_data.vd.basis, b + 1 < 2 ^ 32)
    (hcounts : aux_data.bitmap_counts
      = calculate_bitmap_counts aux_data.vd.basis aux_data.enc_type)
    (hst : storage.bitmap_counts = aux_data.bitmap_counts)
    (hlen : mapped.length < 2 ^ 32) :
    ∃ st, insert_mapped_values aux_data storage mapped = .ok st ∧
      st.bitmap_counts = aux_data.bitmap_counts ∧
      st.all_values_bitmap = storage.all_values_bitmap ∪ docs_of mapped ∧
      (∀ i j, in_bounds aux_data.bitmap_counts i j → ∀ d,
        d ∈ st.bitmaps i j ↔ d ∈ storage.bitmaps i j ∨
          ∃ mv, (d, mv) ∈ mapped ∧
            j ∈ bitmaps_of_digit aux_data.enc_type (aux_data.vd.basis.getD i 0)
                  (aux_data.bitmap_counts.getD i 0) (digit_of aux_data.vd.basis i mv)) ∧
      (∀ i j, ¬ in_bounds aux_data.bitmap_counts i j → st.bitmaps i j = storage.bitmaps i j) := by
  have htake : mapped.take (mapped.length % 2 ^ 32) = mapped := by
    rw [Nat.mod_eq_of_lt hlen, List.take_length]
  obtain ⟨s1, hs1, hs2, hs3⟩ := insert_rows_spec aux_data mapped (fun _ _ => [], []) hvd
    (fun p _ t ht j hj => by
      rw [hcounts] at hj ⊢
      exact bitmaps_of_digit_in_bounds_wide _ _ hge hlt t p.2 ht j hj)
  obtain ⟨st, g1, g2, g3, g4⟩ := move_cache_spec s1.1 aux_data.bitmap_counts []
    (storage.add_to_all_values_bitmap s1.2) (by rw [List.nil_append]; exact hst)
  refine ⟨st, ?_, ?_, ?_, fun i j hin d => ?_, fun i j hin => ?_⟩
  · simp only [insert_mapped_values, htake, hs1]
    exact g1
  · rw [g2]; exact hst
  · rw [g3, hs2]
    simp [BitMapStorage.add_to_all_values_bitmap, docs_of]
  · rw [g4 i j]
    have hin1 : in_bounds (storage.add_to_all_values_bitmap s1.2).bitmap_counts i j := by
      show in_bounds storage.bitmap_counts i j
      rw [hst]; exact hin
    rw [if_pos ⟨by simp, hin1⟩]
    simp only [BitMapStorage.add_to_all_values_bitmap, Finset.mem_union, List.mem_toFinset,
      hs3 i j d, List.not_mem_nil, false_or]
    have hi : i < aux_data.vd.basis.length := by
      have := hin.1
      rw [hcounts, counts_length] at this
      exact this
    constructor
    · rintro (h0 | ⟨mv, h1, _, h3⟩)
      · exact Or.inl h0
      · exact Or.inr ⟨mv, h1, h3⟩
    · rintro (h0 | ⟨mv, h1, h3⟩)
      · exact Or.inl h0
      · exact Or.inr ⟨mv, h1, hi, h3⟩
  · rw [g4 i j]
    have hin1 : ¬ in_bounds (storage.add_to_all_values_bitmap s1.2).bitmap_counts i j := by
      show ¬ in_bounds storage.bitmap_counts i j
      rw [hst]; exact hin
    rw [if_neg (fun h => hin1 h.2)]
    rfl

/-! ## The bitmaps after a batch insert -/

/-- A sequence of batch inserts on a storage whose component bitmaps are subsets of the
all-values bitmap succeeds and leaves a storage of that kind. -/
theorem insert_batches_subset (aux_data : BitmapIndexAuxData)
    (hvd : aux_data.vd = ValueDecomposer.new aux_data.vd.basis)
    (hge : ∀ b ∈ aux_data.vd.basis, 1 ≤ b) (hlt : ∀ b ∈ aux_data.vd.basis, b + 1 < 2 ^ 32)
    (hcounts : aux_data.bitmap_counts
      = calculate_bitmap_counts aux_data.vd.basis aux_data.enc_type)
    (batches : List (List (DocumentID × Nat))) :
    ∀ storage : BitMapStorage, storage.bitmap_counts = aux_data.bitmap_counts →
      (∀ batch ∈ batches, batch.length < 2 ^ 32) →
      (∀ i j, storage.bitmaps i j ⊆ storage.all_values_bitmap) →
      ∃ st, insert_batches aux_data storage batches = .ok st ∧
        st.bitmap_counts = aux_data.bitmap_counts ∧
        ∀ i j, st.bitmaps i j ⊆ st.all_values_bitmap := by
  induction batches with
  | nil => intro storage hst _ hsub; exact ⟨storage, rfl, hst, hsub⟩
  | cons batch rest ih =>
    intro storage hst hlen hsub
    obtain ⟨st1, hins, hc1, hall, hbit, hout⟩ := insert_mapped_values_on aux_data storage batch
      hvd hge hlt hcounts hst (hlen batch (List.mem_cons_self _ _))
    have hsub1 : ∀ i j, st1.bitmaps i j ⊆ st1.all_values_bitmap := by
      intro i j d hd
      rw [hall, Finset.mem_union]
      by_cases hin : in_bounds aux_data.bitmap_counts i j
      · rcases (hbit i j hin d).mp hd with h0 | ⟨mv, hmv, _⟩
        · exact Or.inl (hsub i j h0)
        · exact Or.inr ((mem_docs_of batch d).mpr ⟨mv, hmv⟩)
      · rw [hout i j hin] at hd
        exact Or.inl (hsub i j hd)
    obtain ⟨st, hrest, hc, hs⟩ := ih st1 hc1
      (fun b hb => hlen b (List.mem_cons_of_mem _ hb)) hsub1
    refine ⟨st, ?_, hc, hs⟩
    simp only [insert_batches, hins]
    exact hrest

theorem load_bitmap_in_bounds (st : BitMapStorage) (i j : Nat)
    (h : in_bounds st.bitmap_counts i j) : st.load_bitmap i j = .ok (st.bitmaps i j) := by
  unfold BitMapStorage.load_bitmap
  rw [if_pos h]

/-- The reads of `get_equality_bitmap_interval_encoding` stay inside the component. -/
theorem equality_interval_reads (index : BitmapIndex) (i a base : Nat)
    (hbase : index.aux_data.vd.get_base i = some base) (h1 : 1 ≤ base)
    (h2 : base + 1 < 2 ^ 32) (ha : a < base)
    (hload : ∀ j, j < ((base + 1) % 2 ^ 32) / 2 →
      index.storage.load_bitmap i j = .ok (index.storage.bitmaps i j)) :
    ∃ bmp, get_equality_bitmap_interval_encoding index i a = .ok bmp := by
  unfold get_equality_bitmap_interval_encoding
  rw [hbase]
  simp only
  split_ifs <;>
    first
    | exact ⟨_, rfl⟩
    | (simp (disch := omega) only [hload]; exact ⟨_, rfl⟩)
    | (exfalso; omega)

/-- The reads of `get_equality_bitmap_range_encoding` stay inside the component. -/
theorem equality_range_reads (index : BitmapIndex) (i a base : Nat)
    (hbase : index.aux_data.vd.get_base i = some base) (h1 : 1 ≤ base)
    (h2 : base + 1 < 2 ^ 32) (ha : a < base)
    (hload : ∀ j, j < (base + 2 ^ 32 - 1) % 2 ^ 32 →
      index.storage.load_bitmap i j = .ok (index.storage.bitmaps i j)) :
    ∃ bmp, get_equality_bitmap_range_encoding index i a = .ok bmp := by
  unfold get_equality_bitmap_range_encoding
  rw [hbase]
  simp only
  split_ifs <;>
    first
    | exact ⟨_, rfl⟩
    | (simp (disch := omega) only [hload]; exact ⟨_, rfl⟩)

/-- The reads of `get_lesser_bitmap` on an interval-encoded index stay inside the
component. -/
theorem lesser_interval_reads (index : BitmapIndex) (i a base : Nat)
    (henc : index.aux_data.enc_type = .INTERVAL)
    (hbase : index.aux_data.vd.get_base i = some base) (h1 : 1 ≤ base)
    (h2 : base + 1 < 2 ^ 32) (ha : a < base)
    (hload : ∀ j, j < ((base + 1) % 2 ^ 32) / 2 →
      index.storage.load_bitmap i j = .ok (index.storage.bitmaps i j)) :
    ∃ bmp, get_lesser_bitmap index i a = .ok bmp := by
  unfold get_lesser_bitmap
  by_cases h0 : a = 0
  · rw [if_pos h0]; exact ⟨_, rfl⟩
  · rw [if_neg h0]
    simp only [henc, hbase]
    by_cases h10 : a - 1 = 0
    · rw [if_pos h10, h10]
      unfold get_equality_bitmap
      rw [henc]
      exact equality_interval_reads index i 0 base hbase h1 h2 (by omega) hload
    · rw [if_neg h10]
      split_ifs <;>
        first
        | exact ⟨_, rfl⟩
        | (simp (disch := omega) only [hload]; exact ⟨_, rfl⟩)
        | (exfalso; omega)

/-- C37 (amended): for every encoding, every basis with all bases at least 1 and below
`2 ^ 32 - 1` and the bitmap counts `calculate_bitmap_counts` derives from it, every
component `i` and every digit `a < base_i`: `get_equality_bitmap(i, a)` and (for INTERVAL
and RANGE) `get_lesser_bitmap(i, a)` return a bitmap, no read of theirs leaving the
component (a read of a bitmap `j ≥ counts[i]` makes the call fail), and every bitmap index
the batch insert writes for the digit `a` is below `counts[i]`. -/
theorem no_out_of_range_slot (index : BitmapIndex)
    (hge : ∀ b ∈ index.aux_data.vd.basis, 1 ≤ b)
    (hlt : ∀ b ∈ index.aux_data.vd.basis, b + 1 < 2 ^ 32)
    (hcounts : index.aux_data.bitmap_counts
      = calculate_bitmap_counts index.aux_data.vd.basis index.aux_data.enc_type)
    (hst : index.storage.bitmap_counts = index.aux_data.bitmap_counts) :
    ∀ i a, i < index.aux_data.vd.basis.length → a < index.aux_data.vd.basis.getD i 0 →
      (∃ bmp, get_equality_bitmap index i a = .ok bmp) ∧
      (index.aux_data.enc_type ≠ .EQUALITY → ∃ bmp, get_lesser_bitmap index i a = .ok bmp) ∧
      (∀ j ∈ bitmaps_of_digit index.aux_data.enc_type (index.aux_data.vd.basis.getD i 0)
          (index.aux_data.bitmap_counts.getD i 0) a,
        j < index.aux_data.bitmap_counts.getD i 0) ∧
      (∀ j, index.aux_data.bitmap_counts.getD i 0 ≤ j →
        index.storage.load_bitmap i j = .error .out_of_bounds) := by
  intro i a hi ha
  have hmem : index.aux_data.vd.basis.getD i 0 ∈ index.aux_data.vd.basis := by
    rw [List.getD_eq_getElem _ _ hi]
    exact List.getElem_mem _
  have h1 := hge _ hmem
  have h2 := hlt _ hmem
  have hbase : index.aux_data.vd.get_base i = some (index.aux_data.vd.basis.getD i 0) := by
    unfold ValueDecomposer.get_base
    rw [List.getElem?_eq_getElem hi, List.getD_eq_getElem _ _ hi]
  have hcount := counts_getD index.aux_data.vd.basis index.aux_data.enc_type i hi
  rw [← hcounts] at hcount
  have hload : ∀ j, j < index.aux_data.bitmap_counts.getD i 0 →
      index.storage.load_bitmap i j = .ok (index.storage.bitmaps i j) := by
    intro j hj
    refine load_bitmap_in_bounds _ _ _ ⟨?_, by rw [hst]; exact hj⟩
    rw [hst, hcounts, counts_length]
    exact hi
  refine ⟨?_, ?_, ?_, ?_⟩
  · unfold get_equality_bitmap
    cases henc : index.aux_data.enc_type with
    | EQUALITY =>
      rw [henc] at hcount
      simp only at hcount ⊢
      rw [hload a (by omega)]
      exact ⟨_, rfl⟩
    | INTERVAL =>
      rw [henc] at hcount
      simp only at hcount ⊢
      rw [hcount] at hload
      exact equality_interval_reads index i a _ hbase h1 h2 ha hload
    | RANGE =>
      rw [henc] at hcount
      simp only at hcount ⊢
      rw [hcount] at hload
      exact equality_range_reads index i a _ hbase h1 h2 ha hload
  · intro hne
    cases henc : index.aux_data.enc_type with
    | EQUALITY => exact absurd henc hne
    | INTERVAL =>
      rw [henc] at hcount
      simp only at hcount
      rw [hcount] at hload
      exact lesser_interval_reads index i a _ henc hbase h1 h2 ha hload
    | RANGE =>
      rw [henc] at hcount
      simp only at hcount
      unfold get_lesser_bitmap
      by_cases h0 : a = 0
      · rw [if_pos h0]; exact ⟨_, rfl⟩
      · rw [if_neg h0]
        simp only [henc]
        rw [hload (a - 1) (by omega)]
        exact ⟨_, rfl⟩
  · intro j hj
    cases henc : index.aux_data.enc_type with
    | EQUALITY =>
      rw [henc] at hcount hj
      simp only at hcount
      simp only [mem_bitmaps_of_digit_equality] at hj
      omega
    | INTERVAL =>
      rw [henc] at hcount hj
      simp only at hcount
      simp only [bitmaps_of_digit, List.mem_range'_1] at hj
      split_ifs at hj <;> omega
    | RANGE =>
      rw [henc] at hcount hj
      simp only at hcount
      simp only [mem_bitmaps_of_digit_range] at hj
      omega
  · intro j hj
    unfold BitMapStorage.load_bitmap
    rw [if_neg]
    rintro ⟨_, h⟩
    rw [hst] at h
    omega

theorem no_out_of_range_slot_witness :
    (∀ b ∈ (index_of_basis [2, 3] .INTERVAL).aux_data.vd.basis, 1 ≤ b) ∧
    ∀ i a, i < (index_of_basis [2, 3] .INTERVAL).aux_data.vd.basis.length →
      a < (index_of_basis [2, 3] .INTERVAL).aux_data.vd.basis.getD i 0 →
      (∃ bmp, get_equality_bitmap (index_of_basis [2, 3] .INTERVAL) i a = .ok bmp) ∧
      ((index_of_basis [2, 3] .INTERVAL).aux_data.enc_type ≠ .EQUALITY →
        ∃ bmp, get_lesser_bitmap (index_of_basis [2, 3] .INTERVAL) i a = .ok bmp) ∧
      (∀ j ∈ bitmaps_of_digit (index_of_basis [2, 3] .INTERVAL).aux_data.enc_type
          ((index_of_basis [2, 3] .INTERVAL).aux_data.vd.basis.getD i 0)
          ((index_of_basis [2, 3] .INTERVAL).aux_data.bitmap_counts.getD i 0) a,
        j < (index_of_basis [2, 3] .INTERVAL).aux_data.bitmap_counts.getD i 0) ∧
      (∀ j, (index_of_basis [2, 3] .INTERVAL).aux_data.bitmap_counts.getD i 0 ≤ j →
        (index_of_basis [2, 3] .INTERVAL).storage.load_bitmap i j = .error .out_of_bounds) :=
  ⟨by decide,
   no_out_of_range_slot (index_of_basis [2, 3] .INTERVAL) (by decide) (by decide) rfl rfl⟩

/-- C37 (as stated, refuted): for the basis of the single base `2 ^ 32 - 1`, which is at
least 1, `calculate_bitmap_counts` derives the INTERVAL count 0 (`base + 1` wraps), and
`get_equality_bitmap(0, 0)` reads bitmap 0 of a component without bitmaps. -/
theorem equality_bitmap_reads_past_wrapped_count :
    (∀ b ∈ (index_of_basis [4294967295] .INTERVAL).aux_data.vd.basis, 1 ≤ b) ∧
    (index_of_basis [4294967295] .INTERVAL).aux_data.bitmap_counts
      = calculate_bitmap_counts [4294967295] .INTERVAL ∧
    (index_of_basis [4294967295] .INTERVAL).aux_data.bitmap_counts = [0] ∧
    get_equality_bitmap (index_of_basis [4294967295] .INTERVAL) 0 0
      = .error .out_of_bounds := by
  decide

/-! ## The single-row insert on an interval-encoded index -/

/-- C33 (the code diverges): for a component of an INTERVAL-encoded index with
`2 ≤ base < 2 ^ 32 - 1`, `m = base / 2 - 1`, `counts[i] = (base + 1) / 2` and a digit
`d < base`, the single-row insert writes the bitmaps `j` with `d - m ≤ j ≤ min(d,
counts[i])` when `d ≥ m` and no bitmap when `d < m` (`d - m` wraps), while the batch insert
writes the bitmaps `j` with `max(d - m, 0) ≤ j ≤ min(d, counts[i] - 1)`: for `d < m` the
single-row insert sets no bit where the batch insert sets bitmap 0, and for
`d ≥ counts[i]` it writes the bitmap `counts[i]`, which the component does not have. -/
theorem single_insert_interval_bitmaps (aux_data : BitmapIndexAuxData) (i base digit : Nat)
    (henc : aux_data.enc_type = .INTERVAL) (hbase : aux_data.vd.get_base i = some base)
    (h1 : 2 ≤ base) (h2 : base + 1 < 2 ^ 32) (hd : digit < base) :
    ∃ written, single_insert_bitmaps aux_data i digit = .ok written ∧
      (∀ j, j ∈ written ↔
        base / 2 - 1 ≤ digit ∧ digit - (base / 2 - 1) ≤ j ∧ j ≤ min digit ((base + 1) / 2)) ∧
      (∀ j, j ∈ bitmaps_of_digit .INTERVAL base (((base + 1) % 2 ^ 32) / 2) digit ↔
        max (digit - (base / 2 - 1)) 0 ≤ j ∧ j ≤ min digit ((base + 1) / 2 - 1)) ∧
      (digit < base / 2 - 1 →
        written = [] ∧ 0 ∈ bitmaps_of_digit .INTERVAL base (((base + 1) % 2 ^ 32) / 2) digit) ∧
      ((base + 1) / 2 ≤ digit →
        (base + 1) / 2 ∈ written ∧
          (base + 1) / 2 ∉ bitmaps_of_digit .INTERVAL base (((base + 1) % 2 ^ 32) / 2) digit) := by
  have hw : ∀ j, j ∈ List.range'
        (max ((digit + 2 ^ 32 - (base / 2 + 2 ^ 32 - 1) % 2 ^ 32) % 2 ^ 32) 0)
        (min digit (((base + 2 ^ 32 - (base / 2 + 2 ^ 32 - 1) % 2 ^ 32) % 2 ^ 32 + 2 ^ 32 - 1)
            % 2 ^ 32) + 1
          - max ((digit + 2 ^ 32 - (base / 2 + 2 ^ 32 - 1) % 2 ^ 32) % 2 ^ 32) 0) ↔
      base / 2 - 1 ≤ digit ∧ digit - (base / 2 - 1) ≤ j ∧ j ≤ min digit ((base + 1) / 2) := by
    intro j
    rw [List.mem_range'_1]
    omega
  have hb : ∀ j, j ∈ bitmaps_of_digit .INTERVAL base (((base + 1) % 2 ^ 32) / 2) digit ↔
      max (digit - (base / 2 - 1)) 0 ≤ j ∧ j ≤ min digit ((base + 1) / 2 - 1) := by
    intro j
    simp only [bitmaps_of_digit, List.mem_range'_1]
    split_ifs <;> omega
  refine ⟨_, ?_, hw, hb, fun hlow => ⟨?_, ?_⟩, fun hhigh => ⟨?_, ?_⟩⟩
  · simp only [single_insert_bitmaps, henc, hbase]
  · rw [List.eq_nil_iff_forall_not_mem]
    intro j hj
    rw [hw] at hj
    omega
  · rw [hb]; omega
  · rw [hw]; omega
  · rw [hb]; omega

theorem single_insert_interval_bitmaps_witness :
    (∃ written,
      single_insert_bitmaps (configure uint32_t values_S1 .INTERVAL .BITMAP) 0 1 = .ok written ∧
      (∀ j, j ∈ written ↔ 2 / 2 - 1 ≤ 1 ∧ 1 - (2 / 2 - 1) ≤ j ∧ j ≤ min 1 ((2 + 1) / 2)) ∧
      (∀ j, j ∈ bitmaps_of_digit .INTERVAL 2 (((2 + 1) % 2 ^ 32) / 2) 1 ↔
        max (1 - (2 / 2 - 1)) 0 ≤ j ∧ j ≤ min 1 ((2 + 1) / 2 - 1)) ∧
      (1 < 2 / 2 - 1 →
        written = [] ∧ 0 ∈ bitmaps_of_digit .INTERVAL 2 (((2 + 1) % 2 ^ 32) / 2) 1) ∧
      ((2 + 1) / 2 ≤ 1 →
        (2 + 1) / 2 ∈ written ∧
          (2 + 1) / 2 ∉ bitmaps_of_digit .INTERVAL 2 (((2 + 1) % 2 ^ 32) / 2) 1)) ∧
    (built_index (create_index uint32_t values_S1 .INTERVAL .BITMAP)).aux_data.vd.basis
      = [2, 3] ∧
    (built_index (create_index uint32_t values_S1 .INTERVAL .BITMAP)).aux_data.bitmap_counts
      = [1, 2] ∧
    (insert_value (built_index (create_index uint32_t values_S1 .INTERVAL .BITMAP)) 50 8).map
        (row_in_first_bitmaps 50) = .error .out_of_bounds ∧
    (insert_mapped_values
        (built_index (create_index uint32_t values_S1 .INTERVAL .BITMAP)).aux_data
        (built_index (create_index uint32_t values_S1 .INTERVAL .BITMAP)).storage
        [(50, 4)]).map (row_in_first_bitmaps 50) = .ok (false, false, true) ∧
    (built_index (create_index uint32_t values_span_16 .INTERVAL .BITMAP)).aux_data.vd.basis
      = [4, 4] ∧
    (built_index (create_index uint32_t values_span_16 .INTERVAL .BITMAP)).aux_data.bitmap_counts
      = [2, 2] ∧
    (insert_value (built_index (create_index uint32_t values_span_16 .INTERVAL .BITMAP)) 3 0).map
        (row_in_first_bitmaps 3) = .ok (false, false, true) ∧
    (insert_mapped_values
        (built_index (create_index uint32_t values_span_16 .INTERVAL .BITMAP)).aux_data
        (built_index (create_index uint32_t values_span_16 .INTERVAL .BITMAP)).storage
        [(3, 0)]).map (row_in_first_bitmaps 3) = .ok (true, true, true) :=
  ⟨single_insert_interval_bitmaps (configure uint32_t values_S1 .INTERVAL .BITMAP) 0 2 1
      rfl rfl (by decide) (by decide) (by decide),
    by decide, by decide, by decide, by decide, by decide, by decide, by decide, by decide⟩

/-! ## Columns whose values leave the exact range of the `int64_t` arithmetic -/

/-- C15 (as stated, refuted): for the `uint64_t` rows `(1, 0)`, `(2, 2 ^ 64 - 1)` and both
index types, `configure` takes no value mapping, leaves `min_mapped_value = 0` and
`max_mapped_value = -1`, and computes the basis `[0]` from the range
`max - min + 1 = 0`: the product of the bases is 0, below the `2 ^ 64` values between the
minimum and the maximum of the column.  The same basis `[0]` comes out for the `int64_t`
rows `(1, -2 ^ 63)`, `(2, 2 ^ 63 - 1)`. -/
theorem basis_misses_wide_range :
    values_extremes ≠ [] ∧ (∀ p ∈ values_extremes, uint64_t.holds p.2) ∧
    (∀ index_type : BitmapIndexType,
      (configure uint64_t values_extremes .EQUALITY index_type).use_value_mapping = false ∧
      (configure uint64_t values_extremes .EQUALITY index_type).min_mapped_value = 0 ∧
      (configure uint64_t values_extremes .EQUALITY index_type).max_mapped_value = -1 ∧
      (configure uint64_t values_extremes .EQUALITY index_type).vd.basis = [0] ∧
      (configure uint64_t values_extremes .EQUALITY index_type).vd.basis.prod = 0 ∧
      ((configure uint64_t values_extremes .EQUALITY index_type).vd.basis.prod : Int)
        < (2 ^ 64 - 1) - 0 + 1) ∧
    values_full_span ≠ [] ∧ (∀ p ∈ values_full_span, int64_t.holds p.2) ∧
    (∀ index_type : BitmapIndexType,
      (configure int64_t values_full_span .EQUALITY index_type).use_value_mapping = false ∧
      (configure int64_t values_full_span .EQUALITY index_type).min_mapped_value
        = -(2 ^ 63) ∧
      (configure int64_t values_full_span .EQUALITY index_type).max_mapped_value
        = 2 ^ 63 - 1 ∧
      (configure int64_t values_full_span .EQUALITY index_type).vd.basis = [0] ∧
      ((configure int64_t values_full_span .EQUALITY index_type).vd.basis.prod : Int)
        < (2 ^ 63 - 1) - (-(2 ^ 63)) + 1) := by
  refine ⟨by decide, by decide, fun index_type => ?_, by decide, by decide,
    fun index_type => ?_⟩
  · cases index_type <;> decide
  · cases index_type <;> decide

/-- C17 (as stated, refuted): for the `uint64_t` rows `(1, 5)`, `(2, 2 ^ 63 + 5)`,
`configure` takes no value mapping and leaves `max_mapped_value = -2 ^ 63 + 5`, which is no
value of the column and not its maximum `2 ^ 63 + 5`. -/
theorem configure_wraps_wide_maximum :
    (∀ p ∈ values_wide, uint64_t.holds p.2 ∧ p.2 ≤ 2 ^ 63 + 5) ∧
    (configure uint64_t values_wide .EQUALITY .BITMAP).use_value_mapping = false ∧
    (configure uint64_t values_wide .EQUALITY .BITMAP).min_mapped_value = 5 ∧
    (configure uint64_t values_wide .EQUALITY .BITMAP).max_mapped_value = -(2 ^ 63) + 5 ∧
    (∀ p ∈ values_wide,
      p.2 ≠ (configure uint64_t values_wide .EQUALITY .BITMAP).max_mapped_value) := by
  decide

end BitmapIndexModel
